import Mathlib

/-!
# Friends-of-Friends group finding (`src/src/fof.c`)

A shallow embedding of the disjoint-set core, the serial pair search, the
cell-tree search and the group aggregation of `fof.c`, followed by the
properties proved about them.

Conventions of the embedding
* `group_id` is a `List Nat`; a read outside the array is a fault (`none`).
* Every `while`/recursive search takes a `fuel` argument that bounds the
  number of loop tests of `fof_find`; `none` therefore means "no result within
  `fuel` tests, or a read outside the array".
* Positions, widths, box sizes, masses and squared distances are exact
  rationals.  The source holds them in `double` and evaluates the distance
  test of the cell linkers in `float`: the definitions whose name ends in
  `_float` evaluate that test in the arithmetic of the source, the others
  evaluate it exactly.
-/

namespace FOF

/-! ## Disjoint-set core -/

/-- `fof_find(i, group_id)`, lines 56-74: start at `i` and follow `group_id`
until `root == group_id[root]`.  No path compression is performed (it is
commented out in the source), so the array is only read.  `fuel` bounds the
number of evaluations of the loop test. -/
def fof_find (fuel : Nat) (i : Nat) (group_id : List Nat) : Option Nat :=
  match fuel with
  | 0 => none
  | fuel + 1 =>
    match group_id[i]? with
    | none => none
    | some p => if i = p then some i else fof_find fuel p group_id

/-- The index reached from `i` after following `group_id` exactly `k` times
(`none` when a read leaves the array). -/
def follow (group_id : List Nat) : Nat → Nat → Option Nat
  | 0, i => if i < group_id.length then some i else none
  | k + 1, i =>
    match group_id[i]? with
    | none => none
    | some p => follow group_id k p

/-- The initial state written by `for (i = 0; i < nr_gparts; i++) group_id[i] = i`
(lines 663 and 1039). -/
def identity_group_id (nr_gparts : Nat) : List Nat := List.range nr_gparts

/-- Lines 299-305 of `fof_search_serial`: redirect the larger root to the
smaller one with a plain store and return the array together with the updated
cached `root_i`. -/
def link_roots (group_id : List Nat) (root_i root_j : Nat) : List Nat × Nat :=
  if root_j < root_i then (group_id.set root_i root_j, root_j)
  else (group_id.set root_j root_i, root_i)

/-- Modelled from the spec: the `atomic_min` primitive, which is not part of the
sources at hand; section 4.1 describes it as "store the new value only if it is
smaller than the current value".  Executed by a single worker. -/
def atomic_min (group_id : List Nat) (a v : Nat) : List Nat :=
  match group_id[a]? with
  | none => group_id
  | some cur => if v < cur then group_id.set a v else group_id

/-- Lines 387-393 of `fof_search_cell` (and 470-476 of `fof_search_pair_cells`):
the same redirection performed through `atomic_min`. -/
def link_roots_atomic (group_id : List Nat) (root_i root_j : Nat) : List Nat × Nat :=
  if root_j < root_i then (atomic_min group_id root_i root_j, root_j)
  else (atomic_min group_id root_j root_i, root_i)

/-- The body of the inner loop of `fof_search_serial` (lines 271-307) for
partner `j`, with the outcome `hit` of the test `r2 < l_x2` supplied:
compute `root_j`, skip when it equals the cached `root_i`, otherwise link on a
hit. -/
def visit_serial (fuel : Nat) (hit : Bool) (j : Nat) (st : List Nat × Nat) :
    Option (List Nat × Nat) :=
  match fof_find fuel j st.1 with
  | none => none
  | some root_j =>
    if st.2 = root_j then some st
    else if hit then some (link_roots st.1 st.2 root_j) else some st

/-- The body of the inner loops of `fof_search_cell` (lines 363-395) and
`fof_search_pair_cells` (lines 445-478) for partner index `j`. -/
def visit_atomic (fuel : Nat) (hit : Bool) (j : Nat) (st : List Nat × Nat) :
    Option (List Nat × Nat) :=
  match fof_find fuel j st.1 with
  | none => none
  | some root_j =>
    if st.2 = root_j then some st
    else if hit then some (link_roots_atomic st.1 st.2 root_j) else some st

/-- The union step of `fof_search_serial` on particles `i` and `j` that pass
the distance test: find both roots, then `visit_serial`. -/
def union_serial (fuel : Nat) (i j : Nat) (group_id : List Nat) : Option (List Nat) :=
  match fof_find fuel i group_id with
  | none => none
  | some root_i => (visit_serial fuel true j (group_id, root_i)).map Prod.fst

/-- The union step of `fof_search_cell` / `fof_search_pair_cells` on the
particles with global indices `i` and `j` that pass the distance test.  These
linkers call `fof_find(offset[i], group_id)`, where `offset` points into
`group_id` itself, so the search for the root starts at the value
`group_id[i]`, not at `i`. -/
def union_atomic (fuel : Nat) (i j : Nat) (group_id : List Nat) : Option (List Nat) :=
  match group_id[i]? with
  | none => none
  | some oi =>
    match fof_find fuel oi group_id with
    | none => none
    | some root_i =>
      match group_id[j]? with
      | none => none
      | some oj => (visit_atomic fuel true oj (group_id, root_i)).map Prod.fst

/-- States reachable from the identity array of `n` particles by union steps of
the linkers, in any order and on any pairs of particles. -/
inductive Reachable (n : Nat) : List Nat → Prop
  | init : Reachable n (identity_group_id n)
  | serial {g g2 : List Nat} (fuel i j : Nat) : Reachable n g → i < n → j < n →
      union_serial fuel i j g = some g2 → Reachable n g2
  | atomic {g g2 : List Nat} (fuel i j : Nat) : Reachable n g → i < n → j < n →
      union_atomic fuel i j g = some g2 → Reachable n g2

/-- Every parent link points to an index that is not larger: the shape of all
states the linkers produce. -/
def DownLinked (group_id : List Nat) : Prop :=
  ∀ k p : Nat, group_id[k]? = some p → p ≤ k

/-- Every entry is a valid index of the array. -/
def ValidIndices (group_id : List Nat) : Prop :=
  ∀ k p : Nat, group_id[k]? = some p → p < group_id.length

/-- No parent cycle: an index that comes back to itself after a positive
number of `group_id` steps is a root. -/
def NoCycle (group_id : List Nat) : Prop :=
  ∀ i k, 0 < k → follow group_id k i = some i → group_id[i]? = some i

/-- The root of `i` in a down-linked state, as a total function: `fof_find`
with `i + 1` loop tests. -/
def rootOf (group_id : List Nat) (i : Nat) : Nat :=
  (fof_find (i + 1) i group_id).getD i

/-! ## Data model -/

/-- A `double[3]`, with exact rational components. -/
structure vec3 where
  x0 : ℚ
  x1 : ℚ
  x2 : ℚ

/-- The fields of `struct gpart` read by `fof.c`. -/
structure gpart where
  x : vec3
  mass : ℚ
  id_or_neg_offset : Int

/-- The fields of `struct cell` read by `fof.c`.  `addr` stands for the address
of the cell (the source compares cells by pointer), `gparts` for the offset
`c->gparts - s->gparts` of the first particle of the cell in the global
particle array, and `progeny` for the slots `progeny[0..7]` in order, a `NULL`
slot being `none`. -/
inductive cell where
  | mk (addr : Nat) (loc width : vec3) (split : Bool) (progeny : List (Option cell))
      (nodeID : Int) (gcount : Nat) (gparts : Nat) : cell

def cell.addr : cell → Nat
  | .mk a _ _ _ _ _ _ _ => a

def cell.loc : cell → vec3
  | .mk _ l _ _ _ _ _ _ => l

def cell.width : cell → vec3
  | .mk _ _ w _ _ _ _ _ => w

def cell.split : cell → Bool
  | .mk _ _ _ s _ _ _ _ => s

def cell.progeny : cell → List (Option cell)
  | .mk _ _ _ _ p _ _ _ => p

def cell.nodeID : cell → Int
  | .mk _ _ _ _ _ n _ _ => n

def cell.gcount : cell → Nat
  | .mk _ _ _ _ _ _ c _ => c

def cell.gparts : cell → Nat
  | .mk _ _ _ _ _ _ _ g => g

/-- The fields of `struct space` read by `fof.c`.  `group_id` is the array
`s->group_id` as the previous invocation left it (empty when `NULL`). -/
structure space where
  dim : vec3
  periodic : Bool
  l_x2 : ℚ
  nr_gparts : Nat
  gparts : List gpart
  group_id : List Nat
  nr_cells : Nat
  cells_top : List cell

/-- The result of a routine that can call `error(...)`: a normal return, the
fatal error with its message, or no result (fuel exhausted or a read outside
an array). -/
inductive Outcome (α : Type) where
  | ok (a : α) : Outcome α
  | fatal (msg : String) : Outcome α
  | stuck : Outcome α

/-- Lift a fault-or-value into an `Outcome`. -/
def Outcome.ofOption {α : Type} : Option α → Outcome α
  | some a => Outcome.ok a
  | none => Outcome.stuck

/-- A `for` loop over the listed values of the loop variable, threading the
state and stopping at the first fault. -/
def for_list {α σ : Type} (body : α → σ → Option σ) : List α → σ → Option σ
  | [], st => some st
  | x :: xs, st =>
    match body x st with
    | none => none
    | some st2 => for_list body xs st2

/-- The same loop for bodies that may end in a fatal error. -/
def for_cells {α σ : Type} (body : α → σ → Outcome σ) : List α → σ → Outcome σ
  | [], st => Outcome.ok st
  | x :: xs, st =>
    match body x st with
    | Outcome.ok st2 => for_cells body xs st2
    | Outcome.fatal m => Outcome.fatal m
    | Outcome.stuck => Outcome.stuck

/-! ## Distances -/

/-- Modelled from the spec: the helper `nearest(dx, L)`, which is not part of the
sources at hand; section 4.2 gives its semantics as
`displacement - round(displacement/box)*box`. -/
def nearest (dx L : ℚ) : ℚ := dx - (round (dx / L) : ℚ) * L

/-- Modelled from the spec: the helper `min3`, which is not part of the sources at
hand: the minimum of its three arguments ("take the minimum", section 4.2). -/
def min3 (a b c : ℚ) : ℚ := min (min a b) c

/-- Lines 284-292 of `fof_search_serial`: the squared distance of two
particles, every component passed through `nearest` (the serial search does
this whatever `s->periodic` says). -/
def r2_serial (dim : vec3) (pi pj : gpart) : ℚ :=
  let dx0 := nearest (pi.x.x0 - pj.x.x0) dim.x0
  let dx1 := nearest (pi.x.x1 - pj.x.x1) dim.x1
  let dx2 := nearest (pi.x.x2 - pj.x.x2) dim.x2
  0 + dx0 * dx0 + dx1 * dx1 + dx2 * dx2

/-- Lines 375-380 of `fof_search_cell` (and 458-463 of `fof_search_pair_cells`,
whose caller has already subtracted the shift from `pix`): the plain squared
distance of two positions, evaluated exactly; `r2_float` is the same sum in
the arithmetic of the source. -/
def r2_plain (pi pj : vec3) : ℚ :=
  let dx0 := pi.x0 - pj.x0
  let dx1 := pi.x1 - pj.x1
  let dx2 := pi.x2 - pj.x2
  0 + dx0 * dx0 + dx1 * dx1 + dx2 * dx2

/-- One axis of `cell_min_dist` (lines 92-96): the smallest wrapped absolute
difference among the four corner combinations. -/
def cell_min_dist_axis (ci_loc ci_width cj_loc cj_width dim : ℚ) : ℚ :=
  min (min3 |nearest (ci_loc - cj_loc) dim|
            |nearest (ci_loc - (cj_loc + cj_width)) dim|
            |nearest ((ci_loc + ci_width) - cj_loc) dim|)
      |nearest ((ci_loc + ci_width) - (cj_loc + cj_width)) dim|

/-- `cell_min_dist(ci, cj, dim)`, lines 78-113. -/
def cell_min_dist (ci cj : cell) (dim : vec3) : ℚ :=
  let dx0 := cell_min_dist_axis ci.loc.x0 ci.width.x0 cj.loc.x0 cj.width.x0 dim.x0
  let dx1 := cell_min_dist_axis ci.loc.x1 ci.width.x1 cj.loc.x1 cj.width.x1 dim.x1
  let dx2 := cell_min_dist_axis ci.loc.x2 ci.width.x2 cj.loc.x2 cj.width.x2 dim.x2
  0 + dx0 * dx0 + dx1 * dx1 + dx2 * dx2

/-! ## The serial search, `fof_search_serial` -/

/-- The test `r2 < l_x2` of `fof_search_serial` for the particles `i` and `j`
(lines 261-295); a read outside `gparts` is a fault. -/
def serial_hit (s : space) (i j : Nat) : Option Bool :=
  match s.gparts[i]?, s.gparts[j]? with
  | some pi, some pj => some (decide (r2_serial s.dim pi pj < s.l_x2))
  | _, _ => none

/-- The inner loop `for (j = i + 1; j < nr_gparts; j++)` of `fof_search_serial`
(lines 269-308) on the state `(group_id, root_i)`. -/
def serial_inner (fuel : Nat) (s : space) (i : Nat) (st : List Nat × Nat) :
    Option (List Nat × Nat) :=
  for_list (fun j st =>
      match serial_hit s i j with
      | none => none
      | some hit => visit_serial fuel hit j st)
    (List.range' (i + 1) (s.nr_gparts - (i + 1))) st

/-- One iteration of the outer loop of `fof_search_serial` (lines 259-309):
`root_i = fof_find(i, group_id)`, then the inner loop. -/
def serial_outer (fuel : Nat) (s : space) (i : Nat) (group_id : List Nat) :
    Option (List Nat) :=
  match fof_find fuel i group_id with
  | none => none
  | some root_i => (serial_inner fuel s i (group_id, root_i)).map Prod.fst

/-- The pair loop of `fof_search_serial` (lines 259-309) started on the array
`group_id`. -/
def serial_pair_loop (fuel : Nat) (s : space) (group_id : List Nat) : Option (List Nat) :=
  for_list (serial_outer fuel s) (List.range s.nr_gparts) group_id

/-- The array on which the linking phase of `fof_search_serial` starts:
line 245 takes `s->group_id` as it is; the function neither allocates nor
initialises it. -/
def fof_search_serial_start (s : space) : List Nat := s.group_id

/-- The array on which the linking phase of `fof_search_tree_serial` (lines
656-665) and of `fof_search_tree` (lines 1032-1041) starts: a fresh array in
which `group_id[i] = i` is stored for every `i < nr_gparts`. -/
def fof_search_tree_start (s : space) : List Nat :=
  (List.range s.nr_gparts).foldl (fun g i => g.set i i) (List.replicate s.nr_gparts 0)

/-! ## Aggregation -/

/-- The accumulators of the aggregation pass. -/
structure group_stats where
  group_size : List Nat
  group_mass : List ℚ
  num_groups : Nat

/-- One iteration of the aggregation loop of `fof_search_tree_serial` (lines
713-718; `fof_search_tree` has the same loop at 1064-1069):
`root = fof_find(i)`, `group_size[root]++`, `group_mass[root] += mass`,
and `num_groups++` when `group_id[i] == i`. -/
def aggregate_step (fuel : Nat) (gparts : List gpart) (group_id : List Nat) (i : Nat)
    (acc : group_stats) : Option group_stats :=
  match fof_find fuel i group_id, gparts[i]?, group_id[i]? with
  | some root, some p, some gi =>
    match acc.group_size[root]?, acc.group_mass[root]? with
    | some sz, some m =>
      some { group_size := acc.group_size.set root (sz + 1)
             group_mass := acc.group_mass.set root (m + p.mass)
             num_groups := if gi = i then acc.num_groups + 1 else acc.num_groups }
    | _, _ => none
  | _, _, _ => none

/-- The aggregation pass over all `nr_gparts` particles, from zeroed
accumulators (`bzero`, lines 677-678). -/
def aggregate (fuel : Nat) (nr_gparts : Nat) (gparts : List gpart) (group_id : List Nat) :
    Option group_stats :=
  for_list (aggregate_step fuel gparts group_id) (List.range nr_gparts)
    { group_size := List.replicate nr_gparts 0
      group_mass := List.replicate nr_gparts 0
      num_groups := 0 }

/-- One iteration of the aggregation loop of `fof_search_serial` (lines
312-315), which keeps no masses. -/
def aggregate_serial_step (fuel : Nat) (group_id : List Nat) (i : Nat)
    (acc : List Nat × Nat) : Option (List Nat × Nat) :=
  match fof_find fuel i group_id, group_id[i]? with
  | some root, some gi =>
    match acc.1[root]? with
    | some sz => some (acc.1.set root (sz + 1), if gi = i then acc.2 + 1 else acc.2)
    | none => none
  | _, _ => none

/-- The aggregation pass of `fof_search_serial`: `(group_size, num_groups)`. -/
def aggregate_serial (fuel : Nat) (nr_gparts : Nat) (group_id : List Nat) :
    Option (List Nat × Nat) :=
  for_list (aggregate_serial_step fuel group_id) (List.range nr_gparts)
    (List.replicate nr_gparts 0, 0)

/-- The function `fof_search_serial` up to the dump (lines 239-315): the pair loop on
`s->group_id` as found, then the aggregation; returns
`(group_id, group_size, num_groups)`. -/
def fof_search_serial (fuel : Nat) (s : space) : Option (List Nat × List Nat × Nat) :=
  match serial_pair_loop fuel s (fof_search_serial_start s) with
  | none => none
  | some g =>
    match aggregate_serial fuel s.nr_gparts g with
    | none => none
    | some (sz, ng) => some (g, sz, ng)

/-! ## The result dump -/

/-- The names `fof_dump_group_data` writes above the three columns (line
1119). -/
def dump_header : List String := ["ID", "Root ID", "Group Size"]

/-- `fof_dump_group_data(out_file, nr_gparts, group_id, group_size)`, lines
1114-1126: the rows written, in order; the row of particle `i` holds `i`,
`group_id[i]` and `group_size[i]`. -/
def fof_dump_group_data (nr_gparts : Nat) (group_id group_size : List Nat) :
    Option (List (Nat × Nat × Nat)) :=
  for_list (fun i rows =>
      match group_id[i]?, group_size[i]? with
      | some gi, some sz => some (rows ++ [(i, gi, sz)])
      | _, _ => none)
    (List.range nr_gparts) []

/-- The function `fof_search_serial` up to and including the dump (lines 239-317): the
rows of `fof_output_serial.dat`. -/
def fof_search_serial_dump (fuel : Nat) (s : space) : Option (List (Nat × Nat × Nat)) :=
  match fof_search_serial fuel s with
  | none => none
  | some (g, sz, _) => fof_dump_group_data s.nr_gparts g sz

/-! ## The cell linkers -/

/-- Read the position of the particle with global index `k`. -/
def gpart_x (s : space) (k : Nat) : Option vec3 :=
  match s.gparts[k]? with
  | none => none
  | some p => some p.x

/-- The inner loop of `fof_search_cell` (lines 361-396) for the particle at
position `pix` of the cell whose particles start at global index `off`:
`j` runs from `i + 1` to `count - 1`, `offset[j]` is read from the current
`group_id`. -/
def cell_inner (fuel : Nat) (s : space) (off count i : Nat) (pix : vec3)
    (st : List Nat × Nat) : Option (List Nat × Nat) :=
  for_list (fun j st =>
      match st.1[off + j]?, gpart_x s (off + j) with
      | some oj, some pjx => visit_atomic fuel (decide (r2_plain pix pjx < s.l_x2)) oj st
      | _, _ => none)
    (List.range' (i + 1) (count - (i + 1))) st

/-- `fof_search_cell(s, c)`, lines 340-398. -/
def fof_search_cell (fuel : Nat) (s : space) (c : cell) (group_id : List Nat) :
    Option (List Nat) :=
  for_list (fun i g =>
      match gpart_x s (c.gparts + i), g[c.gparts + i]? with
      | some pix, some oi =>
        match fof_find fuel oi g with
        | none => none
        | some root_i =>
          (cell_inner fuel s c.gparts c.gcount i pix (g, root_i)).map Prod.fst
      | _, _ => none)
    (List.range c.gcount) group_id

/-- One component of the shift of `fof_search_pair_cells` (lines 421-430). -/
def pair_shift (periodic : Bool) (ci_loc cj_loc dim : ℚ) : ℚ :=
  let diff := cj_loc - ci_loc
  if periodic && decide (diff < -dim / 2) then dim
  else if periodic && decide (diff > dim / 2) then -dim
  else 0

/-- The inner loop of `fof_search_pair_cells` (lines 443-479) over all
particles of `cj` for the particle of `ci` at shifted position `pix`. -/
def pair_inner (fuel : Nat) (s : space) (cj : cell) (pix : vec3) (st : List Nat × Nat) :
    Option (List Nat × Nat) :=
  for_list (fun j st =>
      match st.1[cj.gparts + j]?, gpart_x s (cj.gparts + j) with
      | some oj, some pjx => visit_atomic fuel (decide (r2_plain pix pjx < s.l_x2)) oj st
      | _, _ => none)
    (List.range cj.gcount) st

/-- `fof_search_pair_cells(s, ci, cj)`, lines 401-481. -/
def fof_search_pair_cells (fuel : Nat) (s : space) (ci cj : cell) (group_id : List Nat) :
    Option (List Nat) :=
  let shift0 := pair_shift s.periodic ci.loc.x0 cj.loc.x0 s.dim.x0
  let shift1 := pair_shift s.periodic ci.loc.x1 cj.loc.x1 s.dim.x1
  let shift2 := pair_shift s.periodic ci.loc.x2 cj.loc.x2 s.dim.x2
  for_list (fun i g =>
      match gpart_x s (ci.gparts + i), g[ci.gparts + i]? with
      | some x, some oi =>
        match fof_find fuel oi g with
        | none => none
        | some root_i =>
          (pair_inner fuel s cj
            { x0 := x.x0 - shift0, x1 := x.x1 - shift1, x2 := x.x2 - shift2 }
            (g, root_i)).map Prod.fst
      | _, _ => none)
    (List.range ci.gcount) group_id

/-! ## The recursion over the cell tree -/

/-- The message of the fatal error of `rec_fof_search_pair`. -/
def same_cell_msg : String := "Pair FOF called on same cell!!!"

/-- `rec_fof_search_pair(ci, cj, s, dim, search_r2)`, lines 117-145.  `depth`
bounds the depth of the recursion. -/
def rec_fof_search_pair (fuel : Nat) :
    Nat → cell → cell → space → vec3 → ℚ → List Nat → Outcome (List Nat)
  | 0, _, _, _, _, _, _ => Outcome.stuck
  | depth + 1, ci, cj, s, dim, search_r2, g =>
    if cell_min_dist ci cj dim > search_r2 then Outcome.ok g
    else if ci.split && cj.split then
      for_cells (fun pk g =>
          match pk with
          | none => Outcome.ok g
          | some ck =>
            for_cells (fun pl g =>
                match pl with
                | none => Outcome.ok g
                | some cl => rec_fof_search_pair fuel depth ck cl s dim search_r2 g)
              cj.progeny g)
        ci.progeny g
    else if ci.addr ≠ cj.addr then Outcome.ofOption (fof_search_pair_cells fuel s ci cj g)
    else Outcome.fatal same_cell_msg

/-- The loop `for (k = 0; k < 8; k++)` of `rec_fof_search_self` (lines
221-230) from slot `k` on, `progeny` being the slots `k, k + 1, ...`: a
non-`NULL` slot gets the self recursion `self_rec` and then the pair
recursion `pair_rec` with every later non-`NULL` slot. -/
def progeny_loop {σ : Type} (self_rec : cell → σ → Outcome σ)
    (pair_rec : cell → cell → σ → Outcome σ) :
    List (Option cell) → σ → Outcome σ
  | [], g => Outcome.ok g
  | none :: rest, g => progeny_loop self_rec pair_rec rest g
  | some ck :: rest, g =>
    match self_rec ck g with
    | Outcome.ok g1 =>
      match for_cells (fun pl g =>
          match pl with
          | none => Outcome.ok g
          | some cl => pair_rec ck cl g) rest g1 with
      | Outcome.ok g2 => progeny_loop self_rec pair_rec rest g2
      | Outcome.fatal m => Outcome.fatal m
      | Outcome.stuck => Outcome.stuck
    | Outcome.fatal m => Outcome.fatal m
    | Outcome.stuck => Outcome.stuck

/-- `rec_fof_search_self(ci, s, dim, search_r2)`, lines 213-235. -/
def rec_fof_search_self (fuel : Nat) :
    Nat → cell → space → vec3 → ℚ → List Nat → Outcome (List Nat)
  | 0, _, _, _, _, _ => Outcome.stuck
  | depth + 1, ci, s, dim, search_r2, g =>
    if ci.split then
      progeny_loop (fun c g => rec_fof_search_self fuel depth c s dim search_r2 g)
        (fun a b g => rec_fof_search_pair fuel depth a b s dim search_r2 g)
        ci.progeny g
    else Outcome.ofOption (fof_search_cell fuel s ci g)

/-- The loop over the top-level cells of `fof_search_tree_serial` (lines
682-710) from cell `cid` on, `cells` being the cells `cid, cid + 1, ...`:
foreign and empty cells are skipped. -/
def top_cells_loop (fuel depth : Nat) (engine_rank : Int) (s : space) :
    List cell → List Nat → Outcome (List Nat)
  | [], g => Outcome.ok g
  | ci :: rest, g =>
    if ci.nodeID = engine_rank then
      if ci.gcount = 0 then top_cells_loop fuel depth engine_rank s rest g
      else
        match rec_fof_search_self fuel depth ci s s.dim s.l_x2 g with
        | Outcome.ok g1 =>
          match for_cells (fun cj g =>
              if cj.nodeID = engine_rank then
                if cj.gcount = 0 then Outcome.ok g
                else rec_fof_search_pair fuel depth ci cj s s.dim s.l_x2 g
              else Outcome.ok g) rest g1 with
          | Outcome.ok g2 => top_cells_loop fuel depth engine_rank s rest g2
          | Outcome.fatal m => Outcome.fatal m
          | Outcome.stuck => Outcome.stuck
        | Outcome.fatal m => Outcome.fatal m
        | Outcome.stuck => Outcome.stuck
    else top_cells_loop fuel depth engine_rank s rest g

/-- The cell loop of `fof_search_tree_serial` (lines 680-710), run on the
freshly initialised `group_id`. -/
def tree_serial_cell_loop (fuel depth : Nat) (engine_rank : Int) (s : space) :
    Outcome (List Nat) :=
  top_cells_loop fuel depth engine_rank s (s.cells_top.take s.nr_cells)
    (fof_search_tree_start s)

/-- Apply a function to the result of a normal return. -/
def Outcome.map {α β : Type} (f : α → β) : Outcome α → Outcome β
  | Outcome.ok a => Outcome.ok (f a)
  | Outcome.fatal m => Outcome.fatal m
  | Outcome.stuck => Outcome.stuck

/-- The function `rec_fof_search_pair` (lines 117-145) instrumented: next to `group_id`
the state holds the list of the calls of `fof_search_pair_cells` made so far,
each recorded as the pair of the addresses of its two cells. -/
def rec_fof_search_pair_traced (fuel : Nat) :
    Nat → cell → cell → space → vec3 → ℚ → List Nat × List (Nat × Nat) →
      Outcome (List Nat × List (Nat × Nat))
  | 0, _, _, _, _, _, _ => Outcome.stuck
  | depth + 1, ci, cj, s, dim, search_r2, st =>
    if cell_min_dist ci cj dim > search_r2 then Outcome.ok st
    else if ci.split && cj.split then
      for_cells (fun pk st =>
          match pk with
          | none => Outcome.ok st
          | some ck =>
            for_cells (fun pl st =>
                match pl with
                | none => Outcome.ok st
                | some cl => rec_fof_search_pair_traced fuel depth ck cl s dim search_r2 st)
              cj.progeny st)
        ci.progeny st
    else if ci.addr ≠ cj.addr then
      Outcome.ofOption
        ((fof_search_pair_cells fuel s ci cj st.1).map
          (fun g => (g, st.2 ++ [(ci.addr, cj.addr)])))
    else Outcome.fatal same_cell_msg

/-- A call made by `rec_fof_search_self` itself: the linker
`fof_search_cell(s, c)` (line 233) or the pair recursion
`rec_fof_search_pair(ci, cj, ...)` (line 227), recorded by the addresses of
the cells. -/
inductive self_call where
  | linker (c : Nat) : self_call
  | pair (ci cj : Nat) : self_call

/-- The function `rec_fof_search_self` (lines 213-235) instrumented: next to
`group_id` the state holds the list of the calls of `fof_search_cell` and of
`rec_fof_search_pair` that the self recursion has made so far, at every level
of the tree. -/
def rec_fof_search_self_traced (fuel : Nat) :
    Nat → cell → space → vec3 → ℚ → List Nat × List self_call →
      Outcome (List Nat × List self_call)
  | 0, _, _, _, _, _ => Outcome.stuck
  | depth + 1, ci, s, dim, search_r2, st =>
    if ci.split then
      progeny_loop
        (fun c st => rec_fof_search_self_traced fuel depth c s dim search_r2 st)
        (fun a b st =>
          (rec_fof_search_pair fuel depth a b s dim search_r2 st.1).map
            (fun g => (g, st.2 ++ [self_call.pair a.addr b.addr])))
        ci.progeny st
    else
      Outcome.ofOption
        ((fof_search_cell fuel s ci st.1).map
          (fun g => (g, st.2 ++ [self_call.linker ci.addr])))

/-- The function `rec_fof_search_pair` (lines 117-145) instrumented: next to
`group_id` the state holds the list of all calls of `rec_fof_search_pair` made
so far, each recorded on entry as the pair of the addresses of its two
cells. -/
def rec_fof_search_pair_logged (fuel : Nat) :
    Nat → cell → cell → space → vec3 → ℚ → List Nat × List (Nat × Nat) →
      Outcome (List Nat × List (Nat × Nat))
  | 0, _, _, _, _, _, _ => Outcome.stuck
  | depth + 1, ci, cj, s, dim, search_r2, st =>
    if cell_min_dist ci cj dim > search_r2 then
      Outcome.ok (st.1, st.2 ++ [(ci.addr, cj.addr)])
    else if ci.split && cj.split then
      for_cells (fun pk st =>
          match pk with
          | none => Outcome.ok st
          | some ck =>
            for_cells (fun pl st =>
                match pl with
                | none => Outcome.ok st
                | some cl => rec_fof_search_pair_logged fuel depth ck cl s dim search_r2 st)
              cj.progeny st)
        ci.progeny (st.1, st.2 ++ [(ci.addr, cj.addr)])
    else if ci.addr ≠ cj.addr then
      Outcome.ofOption
        ((fof_search_pair_cells fuel s ci cj st.1).map
          (fun g => (g, st.2 ++ [(ci.addr, cj.addr)])))
    else Outcome.fatal same_cell_msg

/-- The function `rec_fof_search_self` (lines 213-235) with the same
instrumentation: the state holds the list of all calls of
`rec_fof_search_pair` made during the recursion, at any depth. -/
def rec_fof_search_self_logged (fuel : Nat) :
    Nat → cell → space → vec3 → ℚ → List Nat × List (Nat × Nat) →
      Outcome (List Nat × List (Nat × Nat))
  | 0, _, _, _, _, _ => Outcome.stuck
  | depth + 1, ci, s, dim, search_r2, st =>
    if ci.split then
      progeny_loop
        (fun c st => rec_fof_search_self_logged fuel depth c s dim search_r2 st)
        (fun a b st => rec_fof_search_pair_logged fuel depth a b s dim search_r2 st)
        ci.progeny st
    else Outcome.ofOption ((fof_search_cell fuel s ci st.1).map (fun g => (g, st.2)))

/-! ## Cross-node reconciliation -/

/-- Modelled from the spec: the record `struct fof_mpi`, whose declaration is not
part of the sources at hand; section 6 describes it as two fields, a 64-bit
particle identifier and a 32-bit signed root index.  The root index carries a
value of `fof_find`, so it is kept as a natural number. -/
structure fof_mpi where
  foreign_pid : Int
  root_i : Nat

/-- Read the identifier of the particle with global index `k`. -/
def gpart_id (s : space) (k : Nat) : Option Int :=
  match s.gparts[k]? with
  | none => none
  | some p => some p.id_or_neg_offset

/-- The message of the fatal error of `fof_search_pair_cells_foreign`. -/
def two_local_msg : String :=
  "FOF search of foreign cells called on two local cells or two foreign cells."

/-- The double loop of `fof_search_pair_cells_foreign` for a local cell `cl` and
a foreign cell `cf` (lines 516-567 with `cl = ci`, lines 573-623 with
`cl = cj`): every local particle, its position shifted, against every foreign
particle; on a hit the record `{foreign id, root of the local particle}` is
written at `fof_send[*send_count]` and `send_count` is incremented.  The
buffer is the list of the records written so far, `send_count` its length. -/
def foreign_pair_loop (fuel : Nat) (s : space) (cl cf : cell) (group_id : List Nat)
    (fof_send : List fof_mpi) : Option (List fof_mpi) :=
  let shift0 := pair_shift s.periodic cl.loc.x0 cf.loc.x0 s.dim.x0
  let shift1 := pair_shift s.periodic cl.loc.x1 cf.loc.x1 s.dim.x1
  let shift2 := pair_shift s.periodic cl.loc.x2 cf.loc.x2 s.dim.x2
  for_list (fun i send =>
      match gpart_x s (cl.gparts + i), group_id[cl.gparts + i]? with
      | some x, some oi =>
        match fof_find fuel oi group_id with
        | none => none
        | some root =>
          for_list (fun j send =>
              match gpart_x s (cf.gparts + j), gpart_id s (cf.gparts + j) with
              | some xf, some idf =>
                if r2_plain { x0 := x.x0 - shift0, x1 := x.x1 - shift1, x2 := x.x2 - shift2 }
                    xf < s.l_x2
                then some (send ++ [{ foreign_pid := idf, root_i := root }])
                else some send
              | _, _ => none)
            (List.range cf.gcount) send
      | _, _ => none)
    (List.range cl.gcount) fof_send

/-- `fof_search_pair_cells_foreign(s, ci, cj, send_count, fof_send)`, lines
485-636. -/
def fof_search_pair_cells_foreign (fuel : Nat) (engine_rank : Int) (s : space)
    (ci cj : cell) (group_id : List Nat) (fof_send : List fof_mpi) :
    Outcome (List fof_mpi) :=
  let ci_local := decide (ci.nodeID = engine_rank)
  let cj_local := decide (cj.nodeID = engine_rank)
  if (ci_local && cj_local) || (!ci_local && !cj_local) then Outcome.fatal two_local_msg
  else
    match (if ci_local then foreign_pair_loop fuel s ci cj group_id fof_send
           else some fof_send) with
    | none => Outcome.stuck
    | some send1 =>
      Outcome.ofOption
        (if cj_local then foreign_pair_loop fuel s cj ci group_id send1 else some send1)

/-- `rec_fof_search_pair_foreign(ci, cj, s, dim, search_r2, send_count, fof_send)`,
lines 149-177. -/
def rec_fof_search_pair_foreign (fuel : Nat) (engine_rank : Int) :
    Nat → cell → cell → space → vec3 → ℚ → List Nat → List fof_mpi →
      Outcome (List fof_mpi)
  | 0, _, _, _, _, _, _, _ => Outcome.stuck
  | depth + 1, ci, cj, s, dim, search_r2, g, send =>
    if cell_min_dist ci cj dim > search_r2 then Outcome.ok send
    else if ci.split && cj.split then
      for_cells (fun pk send =>
          match pk with
          | none => Outcome.ok send
          | some ck =>
            for_cells (fun pl send =>
                match pl with
                | none => Outcome.ok send
                | some cl =>
                  rec_fof_search_pair_foreign fuel engine_rank depth ck cl s dim search_r2
                    g send)
              cj.progeny send)
        ci.progeny send
    else if ci.addr ≠ cj.addr then
      fof_search_pair_cells_foreign fuel engine_rank s ci cj g send
    else Outcome.fatal same_cell_msg

/-- `rec_fof_search_pair_foreign_count(ci, cj, s, dim, search_r2, nr_links)`,
lines 179-209; the product of the particle counts is taken as an exact
number. -/
def rec_fof_search_pair_foreign_count :
    Nat → cell → cell → vec3 → ℚ → Nat → Outcome Nat
  | 0, _, _, _, _, _ => Outcome.stuck
  | depth + 1, ci, cj, dim, search_r2, nr_links =>
    if cell_min_dist ci cj dim > search_r2 then Outcome.ok nr_links
    else if ci.split && cj.split then
      for_cells (fun pk nr_links =>
          match pk with
          | none => Outcome.ok nr_links
          | some ck =>
            for_cells (fun pl nr_links =>
                match pl with
                | none => Outcome.ok nr_links
                | some cl =>
                  rec_fof_search_pair_foreign_count depth ck cl dim search_r2 nr_links)
              cj.progeny nr_links)
        ci.progeny nr_links
    else if ci.addr ≠ cj.addr then Outcome.ok (nr_links + ci.gcount * cj.gcount)
    else Outcome.fatal same_cell_msg

/-- The test of lines 845 and 907: exactly one of the two cells is owned by
this rank. -/
def local_foreign (engine_rank : Int) (ci cj : cell) : Bool :=
  (decide (ci.nodeID = engine_rank) && decide (cj.nodeID ≠ engine_rank)) ||
  (decide (ci.nodeID ≠ engine_rank) && decide (cj.nodeID = engine_rank))

/-- A loop over cell indices that reads the cell from the top-level array; a
read outside the array is a fault. -/
def for_cell_index {σ : Type} (cells : List cell) (body : Nat → cell → σ → Outcome σ) :
    List Nat → σ → Outcome σ :=
  for_cells (fun cid st =>
    match cells[cid]? with
    | none => Outcome.stuck
    | some c => body cid c st)

/-- The sizing pass of `fof_search_foreign_cells`, lines 831-857, on the state
`(nr_links, count)`. -/
def foreign_sizing (depth : Nat) (engine_rank : Int) (s : space) : Outcome (Nat × Nat) :=
  for_cell_index s.cells_top (fun cid ci st =>
      if ci.gcount = 0 then Outcome.ok st
      else
        for_cell_index s.cells_top (fun _ cj st =>
            if local_foreign engine_rank ci cj then
              if cj.gcount = 0 then Outcome.ok st
              else if cell_min_dist ci cj s.dim < s.l_x2 then
                match rec_fof_search_pair_foreign_count depth ci cj s.dim s.l_x2 st.1 with
                | Outcome.ok nr => Outcome.ok (nr, st.2 + 1)
                | Outcome.fatal m => Outcome.fatal m
                | Outcome.stuck => Outcome.stuck
              else Outcome.ok st
            else Outcome.ok st)
          (List.range' (cid + 1) (s.nr_cells - (cid + 1))) st)
    (List.range s.nr_cells) (0, 0)

/-- The state of the generation pass: the records written (`fof_send`, with
`send_count` its length), the interface cells recorded so far
(`interface_cells`, with `interface_cell_count` its length) and the flags
`cell_added`. -/
structure foreign_state where
  fof_send : List fof_mpi
  interface_cells : List cell
  cell_added : List Nat

/-- Lines 916-919 (and 920-923): record the cell with index `cid` as an
interface cell when it is local and not yet flagged. -/
def add_interface_cell (engine_rank : Int) (cid : Nat) (c : cell) (st : foreign_state) :
    Option foreign_state :=
  match st.cell_added[cid]? with
  | none => none
  | some added =>
    if c.nodeID = engine_rank ∧ added = 0 then
      some { st with interface_cells := st.interface_cells ++ [c]
                     cell_added := st.cell_added.set cid 1 }
    else some st

/-- The generation pass of `fof_search_foreign_cells`, lines 893-927, from
`send_count = 0`, no interface cell and zeroed flags. -/
def foreign_generate (fuel depth : Nat) (engine_rank : Int) (s : space)
    (group_id : List Nat) : Outcome foreign_state :=
  for_cell_index s.cells_top (fun cid ci st =>
      if ci.gcount = 0 then Outcome.ok st
      else
        for_cell_index s.cells_top (fun cjd cj st =>
            if local_foreign engine_rank ci cj then
              if cj.gcount = 0 then Outcome.ok st
              else
                match rec_fof_search_pair_foreign fuel engine_rank depth ci cj s s.dim s.l_x2
                    group_id st.fof_send with
                | Outcome.ok send =>
                  if cell_min_dist ci cj s.dim < s.l_x2 then
                    match add_interface_cell engine_rank cid ci { st with fof_send := send } with
                    | none => Outcome.stuck
                    | some st1 => Outcome.ofOption (add_interface_cell engine_rank cjd cj st1)
                  else Outcome.ok { st with fof_send := send }
                | Outcome.fatal m => Outcome.fatal m
                | Outcome.stuck => Outcome.stuck
            else Outcome.ok st)
          (List.range' (cid + 1) (s.nr_cells - (cid + 1))) st)
    (List.range s.nr_cells)
    { fof_send := [], interface_cells := [], cell_added := List.replicate s.nr_cells 0 }

/-- The innermost step of the fold-in loop (lines 993-1005): particle `k` of
the interface cell `c` against the received record `r`. -/
def fold_in_particle (fuel : Nat) (s : space) (r : fof_mpi) (c : cell) (k : Nat)
    (group_id : List Nat) : Option (List Nat) :=
  match gpart_id s (c.gparts + k) with
  | none => none
  | some id =>
    if id = r.foreign_pid then
      match group_id[c.gparts + k]? with
      | none => none
      | some ok =>
        match fof_find fuel ok group_id with
        | none => none
        | some local_root =>
          if r.root_i < local_root then some (group_id.set local_root r.root_i)
          else some group_id
    else some group_id

/-- The scan of the interface cells for one received record (lines 982-1007). -/
def fold_in_record (fuel : Nat) (s : space) (interface_cells : List cell) (r : fof_mpi)
    (group_id : List Nat) : Option (List Nat) :=
  for_list (fun c g => for_list (fold_in_particle fuel s r c) (List.range c.gcount) g)
    interface_cells group_id

/-- The fold-in loop of `fof_search_foreign_cells`, lines 980-1008: the first
`send_count` entries of `fof_recv` are folded into `group_id`. -/
def foreign_fold_in (fuel : Nat) (s : space) (interface_cells : List cell)
    (send_count : Nat) (fof_recv : List fof_mpi) (group_id : List Nat) :
    Option (List Nat) :=
  for_list (fun i g =>
      match fof_recv[i]? with
      | none => none
      | some r => fold_in_record fuel s interface_cells r g)
    (List.range send_count) group_id

/-! ## Several workers -/

/-- One write `atomic_min(&group_id[slot], value)` issued by a linker (lines
387-393 and 470-476); `slot` and `value` are the roots the worker has read,
possibly from an earlier state of the array. -/
structure min_write where
  slot : Nat
  value : Nat

/-- The shared array after the writes of the workers have taken effect one
after the other, in the order of the list: an interleaving of the workers is
such an order. -/
def apply_writes (group_id : List Nat) : List min_write → List Nat
  | [] => group_id
  | w :: ws => apply_writes (atomic_min group_id w.slot w.value) ws

/-- The loop of `fof_find` (lines 59-63) run while other workers write: the
read of `group_id[root]` made by loop test number `t` sees the array
`reads t`. -/
def fof_find_shared (reads : Nat → List Nat) : Nat → Nat → Nat → Option Nat
  | 0, _, _ => none
  | fuel + 1, t, root =>
    match (reads t)[root]? with
    | none => none
    | some p => if root = p then some root else fof_find_shared reads fuel (t + 1) p

/-- Lines 358 and 365 of `fof_search_cell` (444 and 452 of
`fof_search_pair_cells`): the two roots a worker reads for the particles `i`
and `j` before it tests their distance. -/
def linker_read (fuel : Nat) (i j : Nat) (group_id : List Nat) : Option (Nat × Nat) :=
  match group_id[i]?, group_id[j]? with
  | some oi, some oj =>
    match fof_find fuel oi group_id, fof_find fuel oj group_id with
    | some root_i, some root_j => some (root_i, root_j)
    | _, _ => none
  | _, _ => none

/-- Lines 368 and 383-393 of `fof_search_cell` (455 and 466-476 of
`fof_search_pair_cells`) for a pair that passes the distance test: nothing
when the two roots read are equal, otherwise the `atomic_min` redirection, on
the array as it is when the write takes effect. -/
def linker_write (group_id : List Nat) (roots : Nat × Nat) : List Nat :=
  if roots.1 = roots.2 then group_id else (link_roots_atomic group_id roots.1 roots.2).1

/-- Two workers, each linking one in-range pair of particles, scheduled so
that both read their roots before either writes: worker 1 reads, worker 2
reads, worker 1 writes, worker 2 writes. -/
def race_two_workers (fuel : Nat) (i1 j1 i2 j2 : Nat) (group_id : List Nat) :
    Option (List Nat) :=
  match linker_read fuel i1 j1 group_id, linker_read fuel i2 j2 group_id with
  | some r1, some r2 => some (linker_write (linker_write group_id r1) r2)
  | _, _ => none

/-- The same two workers one after the other: worker 2 reads only after
worker 1 has written. -/
def sequence_two_workers (fuel : Nat) (i1 j1 i2 j2 : Nat) (group_id : List Nat) :
    Option (List Nat) :=
  match linker_read fuel i1 j1 group_id with
  | none => none
  | some r1 =>
    match linker_read fuel i2 j2 (linker_write group_id r1) with
    | none => none
    | some r2 => some (linker_write (linker_write group_id r1) r2)

/-! ## Specification vocabulary for the linkers -/

/-- Two indices are joined when a chain connects them whose steps either stay
inside a group of the state `g` or follow a link of `L`. -/
def Joined (L : Nat → Nat → Prop) (g : List Nat) : Nat → Nat → Prop :=
  Relation.EqvGen (fun a b => rootOf g a = rootOf g b ∨ L a b)

/-- The state `g2` arises from `g` by merging groups along links of `L` only:
it is down-linked, of the same size, keeps together what was together, and
puts together only what `L` joins. -/
structure Refines (L : Nat → Nat → Prop) (g g2 : List Nat) : Prop where
  down : DownLinked g2
  len : g2.length = g.length
  keeps : ∀ x y, rootOf g x = rootOf g y → rootOf g2 x = rootOf g2 y
  sound : ∀ x y, rootOf g2 x = rootOf g2 y → Joined L g x y

/-- The particles `a` and `b` are within the linking length of each other as
`fof_search_serial` measures it: both exist and `r2 < l_x2`. -/
def serial_linked (s : space) (a b : Nat) : Prop :=
  ∃ pa pb, s.gparts[a]? = some pa ∧ s.gparts[b]? = some pb ∧
    r2_serial s.dim pa pb < s.l_x2

/-! ## Example inputs -/

/-- A particle on the x axis with unit mass. -/
def particle_at (x : ℚ) (id : Int) : gpart :=
  { x := { x0 := x, x1 := 0, x2 := 0 }, mass := 1, id_or_neg_offset := id }

/-- The end-to-end scenario of the specification: six particles at
`x = 0, 0.5, 1.0, 10, 10.5, 11`, linking length `1.0`, box of side `100`,
`group_id` holding the identity. -/
def scenario_space : space :=
  { dim := { x0 := 100, x1 := 100, x2 := 100 }
    periodic := true
    l_x2 := 1
    nr_gparts := 6
    gparts := [particle_at 0 0, particle_at (1 / 2) 1, particle_at 1 2,
               particle_at 10 3, particle_at (21 / 2) 4, particle_at 11 5]
    group_id := identity_group_id 6
    nr_cells := 0
    cells_top := [] }

/-- Two particles ten length units apart with linking length one, in a `space`
whose `group_id` still holds `[0, 0]`, the result of an earlier search in
which the two particles were linked. -/
def stale_space : space :=
  { dim := { x0 := 100, x1 := 100, x2 := 100 }
    periodic := true
    l_x2 := 1
    nr_gparts := 2
    gparts := [particle_at 0 0, particle_at 10 1]
    group_id := [0, 0]
    nr_cells := 0
    cells_top := [] }

/-! ## Specification vocabulary for the cell tree -/

/-- The particles `a` and `b` are within the linking length of each other in
plain Euclidean distance (no periodic wrap). -/
def plain_linked (s : space) (a b : Nat) : Prop :=
  ∃ xa xb, gpart_x s a = some xa ∧ gpart_x s b = some xb ∧ r2_plain xa xb < s.l_x2

/-- The particle with global index `k` belongs to the particle range of `c`. -/
def in_cell (c : cell) (k : Nat) : Prop :=
  c.gparts ≤ k ∧ k < c.gparts + c.gcount

/-- The position `x` lies inside the box of `c`. -/
def in_box (c : cell) (x : vec3) : Prop :=
  (c.loc.x0 ≤ x.x0 ∧ x.x0 ≤ c.loc.x0 + c.width.x0) ∧
  (c.loc.x1 ≤ x.x1 ∧ x.x1 ≤ c.loc.x1 + c.width.x1) ∧
  (c.loc.x2 ≤ x.x2 ∧ x.x2 ≤ c.loc.x2 + c.width.x2)

/-- Two intervals `[a, a + w]` and `[b, b + v]` of a grid: they coincide or do
not overlap. -/
def aligned_axis (a w b v : ℚ) : Prop :=
  (a = b ∧ w = v) ∨ a + w ≤ b ∨ b + v ≤ a

/-- The boxes of two cells are grid-aligned along every axis. -/
def aligned (ci cj : cell) : Prop :=
  aligned_axis ci.loc.x0 ci.width.x0 cj.loc.x0 cj.width.x0 ∧
  aligned_axis ci.loc.x1 ci.width.x1 cj.loc.x1 cj.width.x1 ∧
  aligned_axis ci.loc.x2 ci.width.x2 cj.loc.x2 cj.width.x2

/-- A pair of cells on which the pair recursion of depth at most `d` is well
defined: the two cells are different cells, their boxes are grid-aligned, and
when both are split the same holds for every pair of their children. -/
def pair_wf : Nat → cell → cell → Prop
  | 0, _, _ => False
  | d + 1, ci, cj =>
    ci.addr ≠ cj.addr ∧ aligned ci cj ∧
    (ci.split = true → cj.split = true →
      ∀ ck cl, some ck ∈ ci.progeny → some cl ∈ cj.progeny → pair_wf d ck cl)

/-- A well-formed cell (sub)tree of height below `d` over the particles of
`s`: the particle range of the cell lies in the particle array, every
particle of the range lies inside the box of the cell, and for a split cell
the children are well formed, their ranges lie in the range of the cell and
cover it. -/
def cell_wf (s : space) : Nat → cell → Prop
  | 0, _ => False
  | d + 1, c =>
    c.gparts + c.gcount ≤ s.nr_gparts ∧
    (∀ k x, in_cell c k → gpart_x s k = some x → in_box c x) ∧
    (c.split = true →
      (∀ ck, some ck ∈ c.progeny → cell_wf s d ck ∧ ∀ k, in_cell ck k → in_cell c k) ∧
      (∀ k, in_cell c k → ∃ ck, some ck ∈ c.progeny ∧ in_cell ck k))

/-- The children of a split cell are pairwise fit for the pair recursion, at
every level of the tree. -/
def siblings_wf : Nat → cell → Prop
  | 0, _ => False
  | d + 1, c =>
    c.split = true →
      List.Pairwise (fun a b => pair_wf d a b) (c.progeny.filterMap id) ∧
      ∀ ck, some ck ∈ c.progeny → siblings_wf d ck

/-- The state `g2` arises from `g` by merging along links of `L`, and in it
every particle of `A` shares its root with every particle of `B` it is linked
to. -/
def Links (L : Nat → Nat → Prop) (g g2 : List Nat) (A B : Nat → Prop) : Prop :=
  Refines L g g2 ∧ ∀ a b, A a → B b → L a b → rootOf g2 a = rootOf g2 b

/-- A well-formed cell tree over the particles of `s`, of height below `d`, on a
single rank `engine_rank`: the top-level cell array has `nr_cells` entries,
all owned by the rank; every top-level cell is a well-formed tree whose
siblings are pairwise fit for the pair recursion; so are the top-level cells
among themselves; and every particle belongs to some top-level cell. -/
structure tree_wf (s : space) (engine_rank : Int) (d : Nat) : Prop where
  count : s.nr_cells = s.cells_top.length
  parts : s.gparts.length = s.nr_gparts
  rank : ∀ c ∈ s.cells_top, c.nodeID = engine_rank
  cells : ∀ c ∈ s.cells_top, cell_wf s d c ∧ siblings_wf d c
  pairs : List.Pairwise (fun a b => pair_wf d a b) s.cells_top
  cover : ∀ k, k < s.nr_gparts → ∃ c ∈ s.cells_top, in_cell c k

/-- A cubic unsplit cell with corner `(x, 0, 0)`, side `w`, owned by rank `0`,
holding `count` particles from global index `first` on. -/
def leaf_cell (addr : Nat) (x w : ℚ) (count first : Nat) : cell :=
  cell.mk addr { x0 := x, x1 := 0, x2 := 0 } { x0 := w, x1 := w, x2 := w } false
    [none, none, none, none, none, none, none, none] 0 count first

/-- Two top-level cells of equal width `2` that overlap along the x axis
(`[0, 2]` and `[1, 3]`), one particle in each, at `x = 1.5` and `x = 1.6`;
linking length `0.5`, no periodicity. -/
def overlap_space : space :=
  { dim := { x0 := 100, x1 := 100, x2 := 100 }
    periodic := false
    l_x2 := 1 / 4
    nr_gparts := 2
    gparts := [particle_at (3 / 2) 0, particle_at (8 / 5) 1]
    group_id := []
    nr_cells := 2
    cells_top := [leaf_cell 0 0 2 1 0, leaf_cell 1 1 2 1 1] }

/-- A regular grid: the top-level cell `[0, 4]`, split into the children
`[0, 2]` and `[2, 4]` with one particle each (at `x = 1` and `x = 5/2`), and
the unsplit top-level cell `[4, 8]` with one particle at `x = 4`; linking
length `2`, no periodicity. -/
def grid_space : space :=
  { dim := { x0 := 8, x1 := 8, x2 := 8 }
    periodic := false
    l_x2 := 4
    nr_gparts := 3
    gparts := [particle_at 1 0, particle_at (5 / 2) 1, particle_at 4 2]
    group_id := []
    nr_cells := 2
    cells_top :=
      [cell.mk 0 { x0 := 0, x1 := 0, x2 := 0 } { x0 := 4, x1 := 4, x2 := 4 } true
         [some (leaf_cell 2 0 2 1 0), some (leaf_cell 3 2 2 1 1),
          none, none, none, none, none, none] 0 2 0,
       leaf_cell 1 4 4 1 2] }

/-- Every split cell of the tree, down to depth `d`, has at least one
non-`NULL` progeny. -/
def has_progeny : Nat → cell → Prop
  | 0, _ => False
  | d + 1, c =>
    c.split = true →
      (∃ ck, some ck ∈ c.progeny) ∧ ∀ ck, some ck ∈ c.progeny → has_progeny d ck

/-- A split cell `[0, 4]` with the two children `[0, 2]` and `[2, 4]`, one
particle in each. -/
def split_cell_example : cell :=
  cell.mk 0 { x0 := 0, x1 := 0, x2 := 0 } { x0 := 4, x1 := 4, x2 := 4 } true
    [some (leaf_cell 2 0 2 1 0), some (leaf_cell 3 2 2 1 1),
     none, none, none, none, none, none] 0 2 0

/-- Two particles at `x = 0.01` and `x = L - 0.01` in a box of side `L = 1`
with periodicity disabled; linking length `0.1`. -/
def nonperiodic_space : space :=
  { dim := { x0 := 1, x1 := 1, x2 := 1 }
    periodic := false
    l_x2 := 1 / 100
    nr_gparts := 2
    gparts := [particle_at (1 / 100) 0, particle_at (99 / 100) 1]
    group_id := identity_group_id 2
    nr_cells := 0
    cells_top := [] }

/-- The scenario of the specification with its particles stored in the
opposite order. -/
def scenario_space_reversed : space :=
  { scenario_space with
    gparts := [particle_at 11 5, particle_at (21 / 2) 4, particle_at 10 3,
               particle_at 1 2, particle_at (1 / 2) 1, particle_at 0 0] }

/-- The squared distance that `fof_search_pair_cells_foreign` tests for a
particle at `x` of the local cell `cl` and a particle at `xf` of the foreign
cell `cf`: the shift of the cell pair is subtracted from `x` first. -/
def shifted_r2 (s : space) (cl cf : cell) (x xf : vec3) : ℚ :=
  r2_plain
    { x0 := x.x0 - pair_shift s.periodic cl.loc.x0 cf.loc.x0 s.dim.x0
      x1 := x.x1 - pair_shift s.periodic cl.loc.x1 cf.loc.x1 s.dim.x1
      x2 := x.x2 - pair_shift s.periodic cl.loc.x2 cf.loc.x2 s.dim.x2 } xf

/-- The link records the specification asks for, for a local cell `cl` and a
foreign cell `cf`: one record per pair of a particle `p` of `cl` and a
particle `q` of `cf` whose shifted squared distance is below `l_x2`, holding
the identifier of `q` and `fof_find(p)`; local particles in order, and for
each of them the foreign particles in order. -/
def link_records (fuel : Nat) (s : space) (cl cf : cell) (group_id : List Nat) :
    List fof_mpi :=
  (List.range cl.gcount).flatMap (fun i =>
    (List.range cf.gcount).flatMap (fun j =>
      match gpart_x s (cl.gparts + i), gpart_x s (cf.gparts + j),
          gpart_id s (cf.gparts + j), fof_find fuel (cl.gparts + i) group_id with
      | some x, some xf, some idf, some root =>
        if shifted_r2 s cl cf x xf < s.l_x2 then [{ foreign_pid := idf, root_i := root }]
        else []
      | _, _, _, _ => []))

/-- The grid of `grid_space` seen from rank `0` when the cell `[4, 8]` belongs
to rank `1`. -/
def two_rank_space : space :=
  { grid_space with
    cells_top :=
      [split_cell_example,
       cell.mk 1 { x0 := 4, x1 := 0, x2 := 0 } { x0 := 4, x1 := 4, x2 := 4 } false
         [none, none, none, none, none, none, none, none] 1 1 2] }

/-- The foreign cell `[4, 8]` of `two_rank_space`, owned by rank `1`. -/
def foreign_cell_example : cell :=
  cell.mk 1 { x0 := 4, x1 := 0, x2 := 0 } { x0 := 4, x1 := 4, x2 := 4 } false
    [none, none, none, none, none, none, none, none] 1 1 2

/-- The box of the cell lies inside the domain `[0, dim]`. -/
def inside_domain (c : cell) (dim : vec3) : Prop :=
  (0 ≤ c.loc.x0 ∧ c.loc.x0 + c.width.x0 ≤ dim.x0) ∧
  (0 ≤ c.loc.x1 ∧ c.loc.x1 + c.width.x1 ≤ dim.x1) ∧
  (0 ≤ c.loc.x2 ∧ c.loc.x2 + c.width.x2 ≤ dim.x2)

/-- An unsplit cubic cell like `leaf_cell`, owned by rank `1`. -/
def leaf_cell_rank1 (addr : Nat) (x w : ℚ) (count first : Nat) : cell :=
  cell.mk addr { x0 := x, x1 := 0, x2 := 0 } { x0 := w, x1 := w, x2 := w } false
    [none, none, none, none, none, none, none, none] 1 count first

/-- Node `0` of the cross-node scenario, a box of `4 x 1 x 1` top-level cells
of side `2` of which rank `0` owns the first two: its own particles at indices
`0, 1, 2`, particle A (`id = 5`, `x = 3.9`) alone in the cell `[2, 4]` at index
`2`, and at index `3` the copy of the foreign particle B (`id = 42`,
`x = 4.1`) in the cell `[4, 6]` of rank `1`; linking length `0.5`. -/
def node0_space : space :=
  { dim := { x0 := 8, x1 := 2, x2 := 2 }
    periodic := false
    l_x2 := 1 / 4
    nr_gparts := 4
    gparts := [particle_at 1 0, particle_at (6 / 5) 1, particle_at (39 / 10) 5,
               particle_at (41 / 10) 42]
    group_id := []
    nr_cells := 4
    cells_top := [leaf_cell 0 0 2 2 0, leaf_cell 1 2 2 1 2, leaf_cell_rank1 2 4 2 1 3,
                  leaf_cell_rank1 3 6 2 0 4] }

/-- Node `1` of the cross-node scenario, the same box seen from rank `1`: its
own particles at indices `0, 1`, particle B (`id = 42`) alone in the cell
`[4, 6]` at index `1`, and at index `2` the copy of the foreign particle A
(`id = 5`) in the cell `[2, 4]` of rank `0`. -/
def node1_space : space :=
  { dim := { x0 := 8, x1 := 2, x2 := 2 }
    periodic := false
    l_x2 := 1 / 4
    nr_gparts := 3
    gparts := [particle_at 7 7, particle_at (41 / 10) 42, particle_at (39 / 10) 5]
    group_id := []
    nr_cells := 4
    cells_top := [leaf_cell 0 0 2 0 3, leaf_cell 1 2 2 1 2, leaf_cell_rank1 2 4 2 1 1,
                  leaf_cell_rank1 3 6 2 1 0] }


/-- The link relation that admits every merge: `Refines any_link g g2` says
that `g2` is down-linked, of the size of `g`, and keeps together what `g` had
together. -/
def any_link (_ _ : Nat) : Prop := True

/-- The particles `a` of `ci` and `b` of `cj` pass the distance test of
`fof_search_pair_cells(s, ci, cj)`: the position of `a`, with the shift of the
cell pair subtracted, is within the linking length of the position of `b`. -/
def shifted_linked (s : space) (ci cj : cell) (a b : Nat) : Prop :=
  ∃ xa xb, gpart_x s a = some xa ∧ gpart_x s b = some xb ∧
    shifted_r2 s ci cj xa xb < s.l_x2

/-- A periodic box of `3 x 1 x 1` unsplit top-level cells of side `1`
(`L = 3`), with one particle at `x = 0.01` in the first cell and one at
`x = L - 0.01` in the last; linking length `0.03`. -/
def wrap_grid_space : space :=
  { dim := { x0 := 3, x1 := 1, x2 := 1 }
    periodic := true
    l_x2 := 9 / 10000
    nr_gparts := 2
    gparts := [particle_at (1 / 100) 0, particle_at (299 / 100) 1]
    group_id := []
    nr_cells := 3
    cells_top := [leaf_cell 0 0 1 1 0, leaf_cell 1 1 1 0 1, leaf_cell 2 2 1 1 1] }

/-- The progeny of every split cell of the tree, down to depth `d`, is owned
by the rank that owns the cell. -/
def same_owner : Nat → cell → Prop
  | 0, _ => False
  | d + 1, c =>
    c.split = true → ∀ ck, some ck ∈ c.progeny → ck.nodeID = c.nodeID ∧ same_owner d ck

/-- A well-formed top-level cell array shared between ranks, of height below
`d`: it has `nr_cells` entries; every top-level cell is a well-formed tree
inside the domain whose progeny is owned by the owner of the cell; and the
top-level cells are pairwise different and grid-aligned, as are their
progeny. -/
structure foreign_wf (s : space) (d : Nat) : Prop where
  count : s.nr_cells = s.cells_top.length
  parts : s.gparts.length = s.nr_gparts
  cells : ∀ c ∈ s.cells_top, cell_wf s d c ∧ same_owner d c ∧ inside_domain c s.dim
  pairs : List.Pairwise (fun a b => pair_wf d a b) s.cells_top

/-- No particle of `ci` is within the linking length of a particle of `cj`,
in wrapped distance. -/
def far_apart (s : space) (ci cj : cell) : Prop :=
  ∀ a b pa pb, in_cell ci a → in_cell cj b → s.gparts[a]? = some pa →
    s.gparts[b]? = some pb → s.l_x2 ≤ r2_serial s.dim pa pb

/-- Two overlapping top-level cells of width `2` (`[0, 2]` of rank `0` and
`[1, 3]` of rank `1`), one particle in each, at `x = 1.5` and `x = 1.6`;
linking length `1`, no periodicity. -/
def overlap_foreign_space : space :=
  { dim := { x0 := 100, x1 := 100, x2 := 100 }
    periodic := false
    l_x2 := 1
    nr_gparts := 2
    gparts := [particle_at (3 / 2) 0, particle_at (8 / 5) 1]
    group_id := []
    nr_cells := 2
    cells_top := [leaf_cell 0 0 2 1 0, leaf_cell_rank1 1 1 2 1 1] }

/-- The particle `a` belongs to `ci`, the particle `b` to `cj`, and the two
pass the shifted distance test: the pairs that
`fof_search_pair_cells(s, ci, cj)` links. -/
def pair_linked (s : space) (ci cj : cell) (a b : Nat) : Prop :=
  in_cell ci a ∧ in_cell cj b ∧ shifted_linked s ci cj a b

/-- An unsplit cell of side `1` with corner `(x, y, 0)`, owned by rank `0`,
holding `count` particles from global index `first` on. -/
def flat_cell (addr : Nat) (x y : ℚ) (count first : Nat) : cell :=
  cell.mk addr { x0 := x, x1 := y, x2 := 0 } { x0 := 1, x1 := 1, x2 := 1 } false
    [none, none, none, none, none, none, none, none] 0 count first

/-- A particle in the plane `z = 0` with unit mass. -/
def particle_xy (x y : ℚ) (id : Int) : gpart :=
  { x := { x0 := x, x1 := y, x2 := 0 }, mass := 1, id_or_neg_offset := id }

/-- A box of `2 x 2 x 1` unsplit top-level cells of side `1` without
periodicity, linking length `0.5`.  The cell `(0, 0)` is empty; the cells
`(0, 1)`, `(1, 0)` and `(1, 1)` hold one particle each, with indices `0`, `1`
and `2`, at `(0.7, 1.1)`, `(1.1, 0.7)` and `(1.1, 1.1)`: particle `2` is within
the linking length of particles `0` and `1`, which are not within the linking
length of each other. -/
def race_space : space :=
  { dim := { x0 := 2, x1 := 2, x2 := 1 }
    periodic := false
    l_x2 := 1 / 4
    nr_gparts := 3
    gparts := [particle_xy (7 / 10) (11 / 10) 0, particle_xy (11 / 10) (7 / 10) 1,
               particle_xy (11 / 10) (11 / 10) 2]
    group_id := []
    nr_cells := 4
    cells_top := [flat_cell 0 0 0 0 0, flat_cell 1 0 1 1 0, flat_cell 2 1 0 1 1,
                  flat_cell 3 1 1 1 2] }

/-- The number of particles among the first `n` that share the root of
particle `i`: the size of the group of `i`. -/
def group_members (fuel n : Nat) (group_id : List Nat) (i : Nat) : Nat :=
  ((List.range n).filter
    (fun k => decide (fof_find fuel k group_id = fof_find fuel i group_id))).length

/-- Four particles on a line at `x = 0, 2.7, 1.8, 0.9` (indices `0, 1, 2, 3`),
linking length `1`, box of side `100`, `group_id` holding the identity: a
chain `0 - 3 - 2 - 1` of links of length `0.9`. -/
def chain_space : space :=
  { dim := { x0 := 100, x1 := 100, x2 := 100 }
    periodic := true
    l_x2 := 1
    nr_gparts := 4
    gparts := [particle_at 0 0, particle_at (27 / 10) 1, particle_at (9 / 5) 2,
               particle_at (9 / 10) 3]
    group_id := identity_group_id 4
    nr_cells := 0
    cells_top := [] }

/-- The calls the specification asks for the children `ck :: rest` of a split
cell: the self-interaction of `ck` (`self_of ck`), the pair-interaction of
`ck` with every later child, and then the same for the later children; every
unordered pair of children occurs once. -/
def children_calls (self_of : cell → List self_call) : List cell → List self_call
  | [] => []
  | ck :: rest =>
    self_of ck ++ rest.map (fun cl => self_call.pair ck.addr cl.addr) ++
      children_calls self_of rest

/-- The calls the specification asks of self-interaction on `c`, for a tree of
height below `d`: "if `c` has children, recurse self-interaction on each child
and pair-interaction on every unordered pair of children; otherwise invoke the
local linker on `c`". -/
def self_calls : Nat → cell → List self_call
  | 0, _ => []
  | d + 1, c =>
    if c.split then children_calls (self_calls d) (c.progeny.filterMap id)
    else [self_call.linker c.addr]

/-- The cells of the tree rooted at `c`, `c` included, for a tree of height
below `d`; the progeny of an unsplit cell is not part of the tree. -/
def subcells : Nat → cell → List cell
  | 0, _ => []
  | d + 1, c => c :: (if c.split then (c.progeny.filterMap id).flatMap (subcells d) else [])

/-- The unordered pairs of different positions of a list, each once. -/
def unordered_pairs {α : Type} : List α → List (α × α)
  | [] => []
  | x :: xs => xs.map (fun y => (x, y)) ++ unordered_pairs xs

/-- The pair-interactions the specification asks for the children of `c`: one
for every unordered pair of non-`NULL` children. -/
def child_pair_calls (c : cell) : List self_call :=
  (unordered_pairs (c.progeny.filterMap id)).map (fun p => self_call.pair p.1.addr p.2.addr)

/-- The calls of the claim, as a collection: the linker once on each unsplit
cell of the tree, and the pair recursion once for each unordered pair of
non-`NULL` children of each split cell of the tree. -/
def expected_self_calls (d : Nat) (c : cell) : List self_call :=
  ((subcells d c).filter (fun k => !k.split)).map (fun k => self_call.linker k.addr) ++
    ((subcells d c).filter (fun k => k.split)).flatMap child_pair_calls

/-- The cells of the tree rooted at `c` are pairwise different cells: no
address occurs twice among them, so the structure is a tree and no cell is
reached along two paths. -/
def distinct_cells (d : Nat) (c : cell) : Prop :=
  ((subcells d c).map cell.addr).Nodup

/-- The outcome is not a fatal error, and a normal return ends in a state that
satisfies `I`. -/
def Outcome.safe {σ : Type} (I : σ → Prop) : Outcome σ → Prop
  | Outcome.ok r => I r
  | Outcome.fatal _ => False
  | Outcome.stuck => True

/-- Every recorded call of `rec_fof_search_pair` is on two different cells. -/
def calls_distinct (st : List Nat × List (Nat × Nat)) : Prop :=
  ∀ p ∈ st.2, p.1 ≠ p.2

/-- The bookkeeping of the interface cells is consistent: there is one flag
per top-level cell, every flag is `0` or `1`, and `interface_cells` lists,
without repetition, exactly the top-level cells whose flag is `1`, all of them
owned by this rank. -/
def interface_ok (engine_rank : Int) (s : space) (st : foreign_state) : Prop :=
  st.cell_added.length = s.nr_cells ∧
  (∀ k v : Nat, st.cell_added[k]? = some v → v = 0 ∨ v = 1) ∧
  ∃ idxs : List Nat, idxs.Nodup ∧
    st.interface_cells = idxs.filterMap (fun k => s.cells_top[k]?) ∧
    (∀ k : Nat, k ∈ idxs ↔ st.cell_added[k]? = some 1) ∧
    (∀ k ∈ idxs, ∃ c, s.cells_top[k]? = some c ∧ c.nodeID = engine_rank)

/-- The pair of the top-level cells with indices `i` and `j` has been dealt
with: when both are non-empty, one of them is local and the other foreign, and
they are within range, the local one is flagged as an interface cell. -/
def pair_covered (engine_rank : Int) (s : space) (st : foreign_state) (i j : Nat) : Prop :=
  ∀ ci cj, s.cells_top[i]? = some ci → s.cells_top[j]? = some cj →
    ci.gcount ≠ 0 → cj.gcount ≠ 0 → local_foreign engine_rank ci cj = true →
    cell_min_dist ci cj s.dim < s.l_x2 →
    (ci.nodeID = engine_rank → st.cell_added[i]? = some 1) ∧
    (cj.nodeID = engine_rank → st.cell_added[j]? = some 1)

/-! ## The state at the start of an inner-loop iteration -/

/-- The state `(group_id, root_i)` of `fof_search_serial` at the start of
iteration number `k` of the inner loop of the outer iteration `i` (after the
last inner iteration when `k` is not below their number): the outer loop of
lines 259-309 is run for `0 .. i - 1`, line 267 reads `root_i`, and the inner
loop is run for its first `k` values of `j`. -/
def serial_root_i_at (fuel : Nat) (s : space) (group_id : List Nat) (i k : Nat) :
    Option (List Nat × Nat) :=
  match for_list (serial_outer fuel s) (List.range i) group_id with
  | none => none
  | some g =>
    match fof_find fuel i g with
    | none => none
    | some root_i =>
      for_list (fun j st =>
          match serial_hit s i j with
          | none => none
          | some hit => visit_serial fuel hit j st)
        ((List.range' (i + 1) (s.nr_gparts - (i + 1))).take k) (g, root_i)

/-- The first `n` iterations of the outer loop of `fof_search_cell(s, c)`
(lines 352-397). -/
def fof_search_cell_first (n fuel : Nat) (s : space) (c : cell) (group_id : List Nat) :
    Option (List Nat) :=
  for_list (fun i g =>
      match gpart_x s (c.gparts + i), g[c.gparts + i]? with
      | some pix, some oi =>
        match fof_find fuel oi g with
        | none => none
        | some root_i =>
          (cell_inner fuel s c.gparts c.gcount i pix (g, root_i)).map Prod.fst
      | _, _ => none)
    (List.range n) group_id

/-- The state `(group_id, root_i)` of `fof_search_cell(s, c)` at the start of
iteration number `k` of the inner loop of the outer iteration `i`: the first
`i` outer iterations, line 360 (`root_i = fof_find(offset[i], group_id)`), and
the first `k` values of `j` of the inner loop. -/
def cell_root_i_at (fuel : Nat) (s : space) (c : cell) (group_id : List Nat) (i k : Nat) :
    Option (List Nat × Nat) :=
  match fof_search_cell_first i fuel s c group_id with
  | none => none
  | some g =>
    match gpart_x s (c.gparts + i), g[c.gparts + i]? with
    | some pix, some oi =>
      match fof_find fuel oi g with
      | none => none
      | some root_i =>
        for_list (fun j st =>
            match st.1[c.gparts + j]?, gpart_x s (c.gparts + j) with
            | some oj, some pjx =>
              visit_atomic fuel (decide (r2_plain pix pjx < s.l_x2)) oj st
            | _, _ => none)
          ((List.range' (i + 1) (c.gcount - (i + 1))).take k) (g, root_i)
    | _, _ => none

/-- The first `n` iterations of the outer loop of
`fof_search_pair_cells(s, ci, cj)` (lines 433-480). -/
def fof_search_pair_cells_first (n fuel : Nat) (s : space) (ci cj : cell)
    (group_id : List Nat) : Option (List Nat) :=
  let shift0 := pair_shift s.periodic ci.loc.x0 cj.loc.x0 s.dim.x0
  let shift1 := pair_shift s.periodic ci.loc.x1 cj.loc.x1 s.dim.x1
  let shift2 := pair_shift s.periodic ci.loc.x2 cj.loc.x2 s.dim.x2
  for_list (fun i g =>
      match gpart_x s (ci.gparts + i), g[ci.gparts + i]? with
      | some x, some oi =>
        match fof_find fuel oi g with
        | none => none
        | some root_i =>
          (pair_inner fuel s cj
            { x0 := x.x0 - shift0, x1 := x.x1 - shift1, x2 := x.x2 - shift2 }
            (g, root_i)).map Prod.fst
      | _, _ => none)
    (List.range n) group_id

/-- The state `(group_id, root_i)` of `fof_search_pair_cells(s, ci, cj)` at the
start of iteration number `k` of the inner loop of the outer iteration `i`:
the first `i` outer iterations, line 441
(`root_i = fof_find(offset_i[i], group_id)`), and the first `k` values of `j`
of the inner loop. -/
def pair_root_i_at (fuel : Nat) (s : space) (ci cj : cell) (group_id : List Nat)
    (i k : Nat) : Option (List Nat × Nat) :=
  let shift0 := pair_shift s.periodic ci.loc.x0 cj.loc.x0 s.dim.x0
  let shift1 := pair_shift s.periodic ci.loc.x1 cj.loc.x1 s.dim.x1
  let shift2 := pair_shift s.periodic ci.loc.x2 cj.loc.x2 s.dim.x2
  match fof_search_pair_cells_first i fuel s ci cj group_id with
  | none => none
  | some g =>
    match gpart_x s (ci.gparts + i), g[ci.gparts + i]? with
    | some x, some oi =>
      match fof_find fuel oi g with
      | none => none
      | some root_i =>
        for_list (fun j st =>
            match st.1[cj.gparts + j]?, gpart_x s (cj.gparts + j) with
            | some oj, some pjx =>
              visit_atomic fuel
                (decide (r2_plain
                  { x0 := x.x0 - shift0, x1 := x.x1 - shift1, x2 := x.x2 - shift2 } pjx <
                    s.l_x2)) oj st
            | _, _ => none)
          ((List.range cj.gcount).take k) (g, root_i)
    | _, _ => none

/-- An acyclic array in which a link points up: `0 -> 2`, `1 -> 2`, and `2`,
`3` are roots. -/
def up_linked_example : List Nat := [2, 2, 2, 3]

/-- One of the two cells is owned by rank `0` and the other by rank `1`. -/
def split_owners (ci cj : cell) : Prop :=
  (ci.nodeID = 0 ∧ cj.nodeID = 1) ∨ (ci.nodeID = 1 ∧ cj.nodeID = 0)

/-! ## The arithmetic of `float` and `double`

The source keeps positions, box sides and `l_x2` in `double` and computes the
particle distance in `float` (`float dx[3], r2 = 0.0f;`).  The two types are
taken as the binary formats with 53 and 24 significant bits and rounding to
the nearest value, ties to even; the exponent range is not bounded (no
overflow, no underflow). -/

/-- The number of halvings that take `n` below `2`, at most `fuel` of them. -/
def halvings : Nat → Nat → Nat
  | 0, _ => 0
  | fuel + 1, n => if n < 2 then 0 else halvings fuel (n / 2) + 1

/-- The position of the leading bit of `n`: `2 ^ bit_top n ≤ n < 2 ^ (bit_top n + 1)`
for `n > 0`. -/
def bit_top (n : Nat) : Nat := halvings n n

/-- The exponent `e` of the binade of `q ≠ 0`: `2 ^ e ≤ |q| < 2 ^ (e + 1)`. -/
def binade (q : ℚ) : Int :=
  let e0 : Int := (bit_top q.num.natAbs : Int) - (bit_top q.den : Int)
  if (2 : ℚ) ^ e0 ≤ |q| then e0 else e0 - 1

/-- Rounding to the nearest integer, ties to the even one. -/
def round_even (x : ℚ) : Int :=
  if x - ⌊x⌋ < 1 / 2 then ⌊x⌋
  else if 1 / 2 < x - ⌊x⌋ then ⌊x⌋ + 1
  else if ⌊x⌋ % 2 = 0 then ⌊x⌋
  else ⌊x⌋ + 1

/-- The value a variable with `p` significant bits holds after the exact value
`q` is stored in it. -/
def fl (p : Nat) (q : ℚ) : ℚ :=
  if q = 0 then 0
  else (round_even (q / (2 : ℚ) ^ (binade q - ((p : Int) - 1))) : ℚ) *
    (2 : ℚ) ^ (binade q - ((p : Int) - 1))

/-- Storing into a `float`. -/
def fl32 (q : ℚ) : ℚ := fl 24 q

/-- Storing into a `double`. -/
def fl64 (q : ℚ) : ℚ := fl 53 q

/-- The squared distance of lines 375-380 (and 458-463, 545-552, 603-609) in
the arithmetic of the source: each difference of the `double` operands is
formed in `double` and stored in the `float` `dx[k]`, and `r2` is accumulated
in `float` from `0.0f`. -/
def r2_float (pi pj : vec3) : ℚ :=
  let dx0 := fl32 (fl64 (pi.x0 - pj.x0))
  let dx1 := fl32 (fl64 (pi.x1 - pj.x1))
  let dx2 := fl32 (fl64 (pi.x2 - pj.x2))
  let r2 := fl32 (0 + fl32 (dx0 * dx0))
  let r2 := fl32 (r2 + fl32 (dx1 * dx1))
  fl32 (r2 + fl32 (dx2 * dx2))

/-- One component of the shift of lines 421-430 in `double`. -/
def pair_shift_float (periodic : Bool) (ci_loc cj_loc dim : ℚ) : ℚ :=
  let diff := fl64 (cj_loc - ci_loc)
  if periodic && decide (diff < fl64 (-dim / 2)) then dim
  else if periodic && decide (diff > fl64 (dim / 2)) then -dim
  else 0

/-- The outcome of the distance test of `fof_search_pair_cells(s, ci, cj)` for
a particle at `x` of `ci` and a particle at `y` of `cj`, in the arithmetic of
the source. -/
def shifted_hit_float (s : space) (ci cj : cell) (x y : vec3) : Bool :=
  decide (r2_float
    { x0 := fl64 (x.x0 - pair_shift_float s.periodic ci.loc.x0 cj.loc.x0 s.dim.x0)
      x1 := fl64 (x.x1 - pair_shift_float s.periodic ci.loc.x1 cj.loc.x1 s.dim.x1)
      x2 := fl64 (x.x2 - pair_shift_float s.periodic ci.loc.x2 cj.loc.x2 s.dim.x2) } y <
    s.l_x2)

/-- The double loop of `fof_search_pair_cells_foreign` for a local cell `cl`
and a foreign cell `cf` in the arithmetic of the source: as
`foreign_pair_loop`, with the shift and the shifted position in `double` and
the distance test on `r2_float`. -/
def foreign_pair_loop_float (fuel : Nat) (s : space) (cl cf : cell) (group_id : List Nat)
    (fof_send : List fof_mpi) : Option (List fof_mpi) :=
  let shift0 := pair_shift_float s.periodic cl.loc.x0 cf.loc.x0 s.dim.x0
  let shift1 := pair_shift_float s.periodic cl.loc.x1 cf.loc.x1 s.dim.x1
  let shift2 := pair_shift_float s.periodic cl.loc.x2 cf.loc.x2 s.dim.x2
  for_list (fun i send =>
      match gpart_x s (cl.gparts + i), group_id[cl.gparts + i]? with
      | some x, some oi =>
        match fof_find fuel oi group_id with
        | none => none
        | some root =>
          for_list (fun j send =>
              match gpart_x s (cf.gparts + j), gpart_id s (cf.gparts + j) with
              | some xf, some idf =>
                if r2_float { x0 := fl64 (x.x0 - shift0), x1 := fl64 (x.x1 - shift1),
                              x2 := fl64 (x.x2 - shift2) } xf < s.l_x2
                then some (send ++ [{ foreign_pid := idf, root_i := root }])
                else some send
              | _, _ => none)
            (List.range cf.gcount) send
      | _, _ => none)
    (List.range cl.gcount) fof_send

/-- `fof_search_pair_cells_foreign(s, ci, cj, send_count, fof_send)`, lines
485-636, in the arithmetic of the source. -/
def fof_search_pair_cells_foreign_float (fuel : Nat) (engine_rank : Int) (s : space)
    (ci cj : cell) (group_id : List Nat) (fof_send : List fof_mpi) :
    Outcome (List fof_mpi) :=
  let ci_local := decide (ci.nodeID = engine_rank)
  let cj_local := decide (cj.nodeID = engine_rank)
  if (ci_local && cj_local) || (!ci_local && !cj_local) then Outcome.fatal two_local_msg
  else
    match (if ci_local then foreign_pair_loop_float fuel s ci cj group_id fof_send
           else some fof_send) with
    | none => Outcome.stuck
    | some send1 =>
      Outcome.ofOption
        (if cj_local then foreign_pair_loop_float fuel s cj ci group_id send1
         else some send1)

/-- `rec_fof_search_pair_foreign`, lines 149-177, calling the linker in the
arithmetic of the source. -/
def rec_fof_search_pair_foreign_float (fuel : Nat) (engine_rank : Int) :
    Nat → cell → cell → space → vec3 → ℚ → List Nat → List fof_mpi →
      Outcome (List fof_mpi)
  | 0, _, _, _, _, _, _, _ => Outcome.stuck
  | depth + 1, ci, cj, s, dim, search_r2, g, send =>
    if cell_min_dist ci cj dim > search_r2 then Outcome.ok send
    else if ci.split && cj.split then
      for_cells (fun pk send =>
          match pk with
          | none => Outcome.ok send
          | some ck =>
            for_cells (fun pl send =>
                match pl with
                | none => Outcome.ok send
                | some cl =>
                  rec_fof_search_pair_foreign_float fuel engine_rank depth ck cl s dim
                    search_r2 g send)
              cj.progeny send)
        ci.progeny send
    else if ci.addr ≠ cj.addr then
      fof_search_pair_cells_foreign_float fuel engine_rank s ci cj g send
    else Outcome.fatal same_cell_msg

/-- The generation pass of `fof_search_foreign_cells`, lines 893-927, calling
the linker in the arithmetic of the source. -/
def foreign_generate_float (fuel depth : Nat) (engine_rank : Int) (s : space)
    (group_id : List Nat) : Outcome foreign_state :=
  for_cell_index s.cells_top (fun cid ci st =>
      if ci.gcount = 0 then Outcome.ok st
      else
        for_cell_index s.cells_top (fun cjd cj st =>
            if local_foreign engine_rank ci cj then
              if cj.gcount = 0 then Outcome.ok st
              else
                match rec_fof_search_pair_foreign_float fuel engine_rank depth ci cj s s.dim
                    s.l_x2 group_id st.fof_send with
                | Outcome.ok send =>
                  if cell_min_dist ci cj s.dim < s.l_x2 then
                    match add_interface_cell engine_rank cid ci { st with fof_send := send } with
                    | none => Outcome.stuck
                    | some st1 => Outcome.ofOption (add_interface_cell engine_rank cjd cj st1)
                  else Outcome.ok { st with fof_send := send }
                | Outcome.fatal m => Outcome.fatal m
                | Outcome.stuck => Outcome.stuck
            else Outcome.ok st)
          (List.range' (cid + 1) (s.nr_cells - (cid + 1))) st)
    (List.range s.nr_cells)
    { fof_send := [], interface_cells := [], cell_added := List.replicate s.nr_cells 0 }

/-- The final `send_count` of a generation pass that returned normally. -/
def final_send_count : Outcome foreign_state → Option Nat
  | Outcome.ok st => some st.fof_send.length
  | _ => none

/-- The pair `(nr_links, count)` of a sizing pass that returned normally. -/
def sizing_result : Outcome (Nat × Nat) → Option (Nat × Nat)
  | Outcome.ok p => some p
  | _ => none

/-- A cubic unsplit cell with corner `(x, 0, 0)` and side `w`, owned by the
rank `owner`, holding `count` particles from global index `first` on. -/
def owned_leaf (addr : Nat) (owner : Int) (x w : ℚ) (count first : Nat) : cell :=
  cell.mk addr { x0 := x, x1 := 0, x2 := 0 } { x0 := w, x1 := w, x2 := w } false
    [none, none, none, none, none, none, none, none] owner count first

/-- A periodic box of `3 x 1 x 1` top-level cells of side `1`, the first two
owned by rank `0` and the last by rank `1`.  Particle `0` lies in the cell
`[0, 1)` at `x = 21474839 / 2^30 - 2^-7 - 2^-58` (about `0.0121875`), particle
`1` in the cell `[2, 3)` at `x = 3 - 2^-7`; both have `y = z = 1/2`.  All
coordinates are `double` values, and so is `l_x2 = 3435975 / 2^33` (about
`0.0004`). -/
def float_wrap_space : space :=
  { dim := { x0 := 3, x1 := 1, x2 := 1 }
    periodic := true
    l_x2 := 3435975 / 8589934592
    nr_gparts := 2
    gparts :=
      [{ x := { x0 := 3512808385806335 / 288230376151711744, x1 := 1 / 2, x2 := 1 / 2 }
         mass := 1, id_or_neg_offset := 5 },
       { x := { x0 := 383 / 128, x1 := 1 / 2, x2 := 1 / 2 }
         mass := 1, id_or_neg_offset := 42 }]
    group_id := []
    nr_cells := 3
    cells_top := [owned_leaf 0 0 0 1 1 0, owned_leaf 1 0 1 1 0 1, owned_leaf 2 1 2 1 1 1] }

/-- A box of `4 x 1 x 1` top-level cells of side `w = 1 + 2^-20`, the first two
owned by rank `0` and the last two by rank `1`, no periodicity, linking length
`w` (`l_x2 = w * w`, a `double` value).  Particle `0` lies in the cell
`[0, w)` at `x = w - 2^-40`, particle `1` in the cell `[2w, 3w)` at `x = 2w`;
both have `y = z = 1/2`. -/
def float_grid_space : space :=
  { dim := { x0 := 1048577 / 262144, x1 := 1048577 / 1048576, x2 := 1048577 / 1048576 }
    periodic := false
    l_x2 := 1099513724929 / 1099511627776
    nr_gparts := 2
    gparts :=
      [{ x := { x0 := 1099512676351 / 1099511627776, x1 := 1 / 2, x2 := 1 / 2 }
         mass := 1, id_or_neg_offset := 5 },
       { x := { x0 := 1048577 / 524288, x1 := 1 / 2, x2 := 1 / 2 }
         mass := 1, id_or_neg_offset := 42 }]
    group_id := []
    nr_cells := 4
    cells_top :=
      [owned_leaf 0 0 0 (1048577 / 1048576) 1 0,
       owned_leaf 1 0 (1048577 / 1048576) (1048577 / 1048576) 0 1,
       owned_leaf 2 1 (1048577 / 524288) (1048577 / 1048576) 1 1,
       owned_leaf 3 1 (3145731 / 1048576) (1048577 / 1048576) 0 2] }

/-- The root of `i` in an acyclic state, as a total function: `fof_find` with
as many loop tests as the array has entries; an index outside the array is its
own root. -/
def find_root (group_id : List Nat) (i : Nat) : Nat :=
  (fof_find group_id.length i group_id).getD i

theorem fof_find_succ (fuel i : Nat) (g : List Nat) :
    fof_find (fuel + 1) i g =
      match g[i]? with
      | none => none
      | some p => if i = p then some i else fof_find fuel p g := rfl

theorem fof_find_is_root {fuel i r : Nat} {g : List Nat}
    (h : fof_find fuel i g = some r) : g[r]? = some r := by
  induction fuel generalizing i with
  | zero => simp [fof_find] at h
  | succ f ih =>
    rw [fof_find_succ] at h
    cases hp : g[i]? with
    | none => simp [hp] at h
    | some p =>
      simp only [hp] at h
      by_cases hip : i = p
      · simp only [hip, if_true] at h
        cases h
        rw [← hp, hip]
      · simp only [hip, if_false] at h
        exact ih h

theorem fof_find_lt_length {fuel i r : Nat} {g : List Nat}
    (h : fof_find fuel i g = some r) : r < g.length := by
  have h1 := fof_find_is_root h
  by_contra hc
  rw [List.getElem?_eq_none (Nat.le_of_not_lt hc)] at h1
  cases h1

theorem fof_find_mono {fuel fuel2 i r : Nat} {g : List Nat}
    (h : fof_find fuel i g = some r) (hle : fuel ≤ fuel2) :
    fof_find fuel2 i g = some r := by
  induction fuel generalizing i fuel2 with
  | zero => simp [fof_find] at h
  | succ f ih =>
    obtain ⟨f2, rfl⟩ : ∃ f2, fuel2 = f2 + 1 := ⟨fuel2 - 1, by omega⟩
    rw [fof_find_succ] at h ⊢
    cases hp : g[i]? with
    | none => simp [hp] at h
    | some p =>
      simp only [hp] at h ⊢
      by_cases hip : i = p
      · simpa only [hip, if_true] using h
      · simp only [hip, if_false] at h ⊢
        exact ih h (by omega)

theorem fof_find_det {f1 f2 i r1 r2 : Nat} {g : List Nat}
    (h1 : fof_find f1 i g = some r1) (h2 : fof_find f2 i g = some r2) : r1 = r2 := by
  have a := fof_find_mono h1 (Nat.le_max_left f1 f2)
  have b := fof_find_mono h2 (Nat.le_max_right f1 f2)
  rw [a] at b
  exact Option.some.inj b

theorem fof_find_of_root {i : Nat} {g : List Nat} (h : g[i]? = some i) (fuel : Nat) :
    fof_find (fuel + 1) i g = some i := by
  rw [fof_find_succ]
  simp [h]

theorem fof_find_down {g : List Nat} (hd : DownLinked g) :
    ∀ i, i < g.length → ∃ r, r ≤ i ∧ fof_find (i + 1) i g = some r := by
  intro i
  induction i using Nat.strong_induction_on with
  | _ i ih =>
    intro hi
    have hget : g[i]? = some g[i] := List.getElem?_eq_getElem hi
    have hle : g[i] ≤ i := hd i _ hget
    by_cases hroot : i = g[i]
    · refine ⟨i, le_refl i, ?_⟩
      rw [fof_find_succ, hget]
      simp only
      rw [if_pos hroot]
    · have hlt : g[i] < i := lt_of_le_of_ne hle (fun h => hroot h.symm)
      obtain ⟨r, hr, hf⟩ := ih g[i] hlt (by omega)
      refine ⟨r, by omega, ?_⟩
      rw [fof_find_succ, hget]
      simp only
      rw [if_neg hroot]
      exact fof_find_mono hf (by omega)

theorem fof_find_eq_rootOf {g : List Nat} (hd : DownLinked g) {i fuel : Nat}
    (hi : i < g.length) (hf : i < fuel) : fof_find fuel i g = some (rootOf g i) := by
  obtain ⟨r, _, hr⟩ := fof_find_down hd i hi
  have : rootOf g i = r := by simp [rootOf, hr]
  rw [this]
  exact fof_find_mono hr hf

theorem rootOf_le {g : List Nat} (hd : DownLinked g) {i : Nat} (hi : i < g.length) :
    rootOf g i ≤ i := by
  obtain ⟨r, hle, hr⟩ := fof_find_down hd i hi
  have : rootOf g i = r := by simp [rootOf, hr]
  omega

theorem rootOf_is_root {g : List Nat} (hd : DownLinked g) {i : Nat} (hi : i < g.length) :
    g[rootOf g i]? = some (rootOf g i) :=
  fof_find_is_root (fof_find_eq_rootOf hd hi (Nat.lt_succ_self i))

theorem rootOf_lt_length {g : List Nat} (hd : DownLinked g) {i : Nat} (hi : i < g.length) :
    rootOf g i < g.length :=
  fof_find_lt_length (fof_find_eq_rootOf hd hi (Nat.lt_succ_self i))

theorem rootOf_of_root {g : List Nat} {i : Nat} (h : g[i]? = some i) : rootOf g i = i := by
  simp [rootOf, fof_find_of_root h i]

theorem rootOf_step {g : List Nat} (hd : DownLinked g) {i p : Nat}
    (hp : g[i]? = some p) : rootOf g i = rootOf g p := by
  have hi : i < g.length := by
    by_contra hc
    rw [List.getElem?_eq_none (Nat.le_of_not_lt hc)] at hp
    cases hp
  by_cases hip : i = p
  · rw [← hip]
  · have hle := hd i p hp
    have hpl : p < g.length := by omega
    have h1 := fof_find_eq_rootOf hd hi (Nat.lt_succ_self i)
    rw [fof_find_succ, hp] at h1
    simp only [hip, if_false] at h1
    have h2 := fof_find_eq_rootOf hd hpl (show p < i by omega)
    rw [h1] at h2
    exact Option.some.inj h2

theorem rootOf_idem {g : List Nat} (hd : DownLinked g) {i : Nat} (hi : i < g.length) :
    rootOf g (rootOf g i) = rootOf g i :=
  rootOf_of_root (rootOf_is_root hd hi)

/-! ## The redirection of one root -/

theorem downLinked_identity (n : Nat) : DownLinked (identity_group_id n) := by
  intro k p h
  have hk : k < n := by
    by_contra hc
    rw [identity_group_id, List.getElem?_eq_none (by simpa using Nat.le_of_not_lt hc)] at h
    cases h
  rw [identity_group_id, List.getElem?_range hk] at h
  cases h
  exact le_refl _

theorem length_identity (n : Nat) : (identity_group_id n).length = n := by
  simp [identity_group_id]

theorem rootOf_identity {n k : Nat} (hk : k < n) : rootOf (identity_group_id n) k = k :=
  rootOf_of_root (by rw [identity_group_id, List.getElem?_range hk])

theorem downLinked_set {g : List Nat} (hd : DownLinked g) {a b : Nat} (hba : b ≤ a) :
    DownLinked (g.set a b) := by
  intro k p h
  rw [List.getElem?_set] at h
  by_cases hak : a = k
  · rw [if_pos hak] at h
    by_cases hal : a < g.length
    · rw [if_pos hal] at h
      cases h
      omega
    · rw [if_neg hal] at h
      cases h
  · rw [if_neg hak] at h
    exact hd k p h

/-- Redirecting the root `a` to the smaller root `b` renames the root `a` to
`b` for every particle and leaves all other roots alone. -/
theorem rootOf_set {g : List Nat} (hd : DownLinked g) {a b : Nat}
    (ha : g[a]? = some a) (hb : g[b]? = some b) (hba : b < a) :
    ∀ k, k < g.length →
      rootOf (g.set a b) k = if rootOf g k = a then b else rootOf g k := by
  have hd2 : DownLinked (g.set a b) := downLinked_set hd (le_of_lt hba)
  have hal : a < g.length := by
    by_contra hc
    rw [List.getElem?_eq_none (Nat.le_of_not_lt hc)] at ha
    cases ha
  have hb2 : (g.set a b)[b]? = some b := by
    rw [List.getElem?_set, if_neg (by omega)]
    exact hb
  intro k
  induction k using Nat.strong_induction_on with
  | _ k ih =>
    intro hk
    have hget : g[k]? = some g[k] := List.getElem?_eq_getElem hk
    by_cases hka : k = a
    · subst hka
      have h1 : (g.set k b)[k]? = some b := by
        rw [List.getElem?_set, if_pos rfl, if_pos hk]
      rw [rootOf_step hd2 h1, rootOf_of_root hb2, rootOf_of_root ha, if_pos rfl]
    · have h1 : (g.set a b)[k]? = some g[k] := by
        rw [List.getElem?_set, if_neg (fun h => hka h.symm)]
        exact hget
      by_cases hroot : g[k] = k
      · have hr : g[k]? = some k := by rw [hget, hroot]
        have hr2 : (g.set a b)[k]? = some k := by rw [h1, hroot]
        rw [rootOf_of_root hr2, rootOf_of_root hr, if_neg hka]
      · have hle := hd k _ hget
        have hlt : g[k] < k := lt_of_le_of_ne hle hroot
        rw [rootOf_step hd2 h1, rootOf_step hd hget]
        exact ih g[k] hlt (by omega)

theorem atomic_min_root {g : List Nat} {a v : Nat} (ha : g[a]? = some a) (hv : v < a) :
    atomic_min g a v = g.set a v := by
  simp [atomic_min, ha, hv]

theorem link_roots_atomic_eq {g : List Nat} {ri rj : Nat} (hi : g[ri]? = some ri)
    (hj : g[rj]? = some rj) (hne : ri ≠ rj) :
    link_roots_atomic g ri rj = link_roots g ri rj := by
  unfold link_roots_atomic link_roots
  by_cases h : rj < ri
  · rw [if_pos h, if_pos h, atomic_min_root hi h]
  · rw [if_neg h, if_neg h, atomic_min_root hj (by omega)]

/-- What `link_roots` does to two distinct roots. -/
theorem link_roots_spec {g : List Nat} (hd : DownLinked g) {ri rj : Nat}
    (hi : g[ri]? = some ri) (hj : g[rj]? = some rj) (hne : ri ≠ rj) :
    DownLinked (link_roots g ri rj).1 ∧ (link_roots g ri rj).1.length = g.length ∧
    (link_roots g ri rj).2 = min ri rj ∧
    ∀ k, k < g.length → rootOf (link_roots g ri rj).1 k =
      if rootOf g k = ri ∨ rootOf g k = rj then min ri rj else rootOf g k := by
  unfold link_roots
  by_cases h : rj < ri
  · rw [if_pos h]
    refine ⟨downLinked_set hd (le_of_lt h), by simp, by simp; omega, ?_⟩
    intro k hk
    rw [rootOf_set hd hi hj h k hk]
    have hmin : min ri rj = rj := by omega
    rw [hmin]
    by_cases h1 : rootOf g k = ri
    · simp [h1]
    · by_cases h2 : rootOf g k = rj
      · simp [h1, h2]
      · simp [h1, h2]
  · rw [if_neg h]
    have hlt : ri < rj := by omega
    refine ⟨downLinked_set hd (le_of_lt hlt), by simp, by simp; omega, ?_⟩
    intro k hk
    simp only
    rw [rootOf_set hd hj hi hlt k hk]
    have hmin : min ri rj = ri := by omega
    rw [hmin]
    by_cases h1 : rootOf g k = ri
    · simp [h1]
    · by_cases h2 : rootOf g k = rj
      · simp [h1, h2]
      · simp [h1, h2]

theorem rootOf_outside {g : List Nat} {k : Nat} (hk : g.length ≤ k) : rootOf g k = k := by
  have : g[k]? = none := List.getElem?_eq_none hk
  simp [rootOf, fof_find_succ, this]

/-- The effect of `link_roots` on two distinct roots, for all indices. -/
theorem link_roots_rootOf {g : List Nat} (hd : DownLinked g) {ri rj : Nat}
    (hi : g[ri]? = some ri) (hj : g[rj]? = some rj) (hne : ri ≠ rj) (k : Nat) :
    rootOf (link_roots g ri rj).1 k =
      if rootOf g k = ri ∨ rootOf g k = rj then min ri rj else rootOf g k := by
  obtain ⟨_, hlen, _, hall⟩ := link_roots_spec hd hi hj hne
  by_cases hk : k < g.length
  · exact hall k hk
  · have hk2 : g.length ≤ k := Nat.le_of_not_lt hk
    have hil : ri < g.length := fof_find_lt_length (fof_find_of_root hi 0)
    have hjl : rj < g.length := fof_find_lt_length (fof_find_of_root hj 0)
    rw [rootOf_outside hk2, rootOf_outside (by rw [hlen]; exact hk2)]
    rw [if_neg]
    omega

/-! ## Refinement of states -/

theorem joined_of_same {L : Nat → Nat → Prop} {g : List Nat} {x y : Nat}
    (h : rootOf g x = rootOf g y) : Joined L g x y :=
  Relation.EqvGen.rel _ _ (Or.inl h)

theorem joined_of_link {L : Nat → Nat → Prop} {g : List Nat} {x y : Nat}
    (h : L x y) : Joined L g x y :=
  Relation.EqvGen.rel _ _ (Or.inr h)

theorem refines_refl (L : Nat → Nat → Prop) {g : List Nat} (hd : DownLinked g) :
    Refines L g g :=
  ⟨hd, rfl, fun _ _ h => h, fun _ _ h => joined_of_same h⟩

theorem joined_mono {L : Nat → Nat → Prop} {g g2 : List Nat}
    (h : ∀ x y, rootOf g2 x = rootOf g2 y → Joined L g x y) {x y : Nat}
    (hj : Joined L g2 x y) : Joined L g x y := by
  induction hj with
  | rel a b hab =>
    cases hab with
    | inl hs => exact h a b hs
    | inr hl => exact joined_of_link hl
  | refl a => exact Relation.EqvGen.refl a
  | symm a b _ ih => exact Relation.EqvGen.symm a b ih
  | trans a b c _ _ ih1 ih2 => exact Relation.EqvGen.trans a b c ih1 ih2

theorem refines_trans {L : Nat → Nat → Prop} {g g2 g3 : List Nat}
    (h1 : Refines L g g2) (h2 : Refines L g2 g3) : Refines L g g3 :=
  ⟨h2.down, h2.len.trans h1.len, fun x y h => h2.keeps x y (h1.keeps x y h),
    fun x y h => joined_mono h1.sound (h2.sound x y h)⟩

/-- Linking the roots of two particles joined by `L` refines the state and puts
the two particles in one group whose root is the smaller of the two roots. -/
theorem link_roots_refines {L : Nat → Nat → Prop} {g : List Nat} (hd : DownLinked g)
    {a b : Nat} (ha : a < g.length) (hb : b < g.length) (hL : L a b)
    (hne : rootOf g a ≠ rootOf g b) :
    Refines L g (link_roots g (rootOf g a) (rootOf g b)).1 ∧
    (link_roots g (rootOf g a) (rootOf g b)).2 = min (rootOf g a) (rootOf g b) ∧
    ∀ k, rootOf (link_roots g (rootOf g a) (rootOf g b)).1 k =
      if rootOf g k = rootOf g a ∨ rootOf g k = rootOf g b
      then min (rootOf g a) (rootOf g b) else rootOf g k := by
  have hra := rootOf_is_root hd ha
  have hrb := rootOf_is_root hd hb
  obtain ⟨hd2, hlen, hsnd, _⟩ := link_roots_spec hd hra hrb hne
  have hall := link_roots_rootOf hd hra hrb hne
  refine ⟨⟨hd2, hlen, ?_, ?_⟩, hsnd, hall⟩
  · intro x y hxy
    rw [hall x, hall y, hxy]
  · intro x y hxy
    rw [hall x, hall y] at hxy
    have hab : Joined L g a b := joined_of_link hL
    have key : ∀ z, (rootOf g z = rootOf g a ∨ rootOf g z = rootOf g b) → Joined L g z a := by
      intro z hz
      cases hz with
      | inl h => exact joined_of_same h
      | inr h =>
        exact Relation.EqvGen.trans _ _ _ (joined_of_same h) (Relation.EqvGen.symm _ _ hab)
    have hmin : min (rootOf g a) (rootOf g b) = rootOf g a ∨
        min (rootOf g a) (rootOf g b) = rootOf g b := by omega
    by_cases hx : rootOf g x = rootOf g a ∨ rootOf g x = rootOf g b
    · by_cases hy : rootOf g y = rootOf g a ∨ rootOf g y = rootOf g b
      · exact Relation.EqvGen.trans _ _ _ (key x hx) (Relation.EqvGen.symm _ _ (key y hy))
      · rw [if_pos hx, if_neg hy] at hxy
        exact absurd (hxy ▸ hmin : rootOf g y = rootOf g a ∨ rootOf g y = rootOf g b) hy
    · by_cases hy : rootOf g y = rootOf g a ∨ rootOf g y = rootOf g b
      · rw [if_neg hx, if_pos hy] at hxy
        exact absurd (hxy.symm ▸ hmin : rootOf g x = rootOf g a ∨ rootOf g x = rootOf g b) hx
      · rw [if_neg hx, if_neg hy] at hxy
        exact joined_of_same hxy

/-! ## One visit of a partner particle -/

/-- The inner-loop body of the serial search, started with the cached root of
particle `a`, on a partner `b` whose root is looked up from `j0`. -/
theorem visit_serial_spec (L : Nat → Nat → Prop) {g : List Nat} (hd : DownLinked g)
    (a b j0 fuel : Nat) (ha : a < g.length) (hb : b < g.length) (hj0 : j0 < g.length)
    (hj : rootOf g j0 = rootOf g b) (hf : g.length ≤ fuel) (hit : Bool)
    (hL : hit = true → L a b) :
    ∃ g2 r2, visit_serial fuel hit j0 (g, rootOf g a) = some (g2, r2) ∧
      Refines L g g2 ∧ r2 = rootOf g2 a ∧
      (hit = true → rootOf g2 a = rootOf g2 b ∧
        rootOf g2 a = min (rootOf g a) (rootOf g b)) := by
  have hfind : fof_find fuel j0 g = some (rootOf g b) := by
    rw [← hj]
    exact fof_find_eq_rootOf hd hj0 (by omega)
  unfold visit_serial
  simp only [hfind]
  by_cases hsame : rootOf g a = rootOf g b
  · rw [if_pos hsame]
    exact ⟨g, rootOf g a, rfl, refines_refl L hd, rfl,
      fun _ => ⟨hsame, by rw [← hsame, min_self]⟩⟩
  · rw [if_neg hsame]
    cases hit with
    | false =>
      exact ⟨g, rootOf g a, rfl, refines_refl L hd, rfl, fun h => by cases h⟩
    | true =>
      obtain ⟨href, hsnd, hall⟩ := link_roots_refines hd ha hb (hL rfl) hsame
      refine ⟨(link_roots g (rootOf g a) (rootOf g b)).1,
        (link_roots g (rootOf g a) (rootOf g b)).2, rfl, href, ?_, ?_⟩
      · rw [hsnd, hall a, if_pos (Or.inl rfl)]
      · intro _
        rw [hall a, hall b, if_pos (Or.inl rfl), if_pos (Or.inr rfl)]
        exact ⟨rfl, rfl⟩

theorem visit_atomic_eq {g : List Nat} (hd : DownLinked g) {a j0 fuel : Nat}
    (ha : a < g.length) (hit : Bool) :
    visit_atomic fuel hit j0 (g, rootOf g a) = visit_serial fuel hit j0 (g, rootOf g a) := by
  unfold visit_atomic visit_serial
  cases hfj : fof_find fuel j0 g with
  | none => rfl
  | some rj =>
    simp only
    by_cases hsame : rootOf g a = rj
    · rw [if_pos hsame, if_pos hsame]
    · rw [if_neg hsame, if_neg hsame]
      cases hit with
      | false => rfl
      | true =>
        simp only [if_true]
        rw [link_roots_atomic_eq (rootOf_is_root hd ha) (fof_find_is_root hfj) hsame]

/-- The same statement for the body of the cell linkers. -/
theorem visit_atomic_spec (L : Nat → Nat → Prop) {g : List Nat} (hd : DownLinked g)
    (a b j0 fuel : Nat) (ha : a < g.length) (hb : b < g.length) (hj0 : j0 < g.length)
    (hj : rootOf g j0 = rootOf g b) (hf : g.length ≤ fuel) (hit : Bool)
    (hL : hit = true → L a b) :
    ∃ g2 r2, visit_atomic fuel hit j0 (g, rootOf g a) = some (g2, r2) ∧
      Refines L g g2 ∧ r2 = rootOf g2 a ∧
      (hit = true → rootOf g2 a = rootOf g2 b ∧
        rootOf g2 a = min (rootOf g a) (rootOf g b)) := by
  rw [visit_atomic_eq hd ha]
  exact visit_serial_spec L hd a b j0 fuel ha hb hj0 hj hf hit hL

/-! ## Loops -/

theorem for_list_inv_aux {α σ : Type} (body : α → σ → Option σ) (Inv : List α → σ → Prop)
    (l : List α)
    (hstep : ∀ done x st, x ∈ l → Inv done st → ∃ st2, body x st = some st2 ∧
      Inv (done ++ [x]) st2) :
    ∀ (rest done : List α) (st : σ), Inv done st → (∀ x ∈ rest, x ∈ l) →
        ∃ st2, for_list body rest st = some st2 ∧ Inv (done ++ rest) st2 := by
  intro rest
  induction rest with
  | nil =>
    intro done st h0 _
    exact ⟨st, rfl, by simpa using h0⟩
  | cons x xs ih =>
    intro done st h0 hmem
    obtain ⟨st2, hb, hinv⟩ := hstep done x st (hmem x (List.mem_cons_self x xs)) h0
    obtain ⟨st3, hf, hinv3⟩ := ih (done ++ [x]) st2 hinv
      (fun y hy => hmem y (List.mem_cons_of_mem x hy))
    refine ⟨st3, ?_, ?_⟩
    · simp only [for_list, hb]
      exact hf
    · simpa using hinv3

/-- Invariant rule for `for_list`: an invariant indexed by the values already
processed, established before the loop and carried by every iteration, holds
after the loop, which does not fault. -/
theorem for_list_inv {α σ : Type} (body : α → σ → Option σ) (Inv : List α → σ → Prop)
    (l : List α) (st : σ) (h0 : Inv [] st)
    (hstep : ∀ done x st, x ∈ l → Inv done st → ∃ st2, body x st = some st2 ∧
      Inv (done ++ [x]) st2) :
    ∃ st2, for_list body l st = some st2 ∧ Inv l st2 := by
  simpa using for_list_inv_aux body Inv l hstep l [] st h0 (fun _ h => h)

/-! ## The serial pair loop -/

theorem serial_hit_some (s : space) {i j : Nat} (hi : i < s.gparts.length)
    (hj : j < s.gparts.length) :
    serial_hit s i j = some (decide (r2_serial s.dim s.gparts[i] s.gparts[j] < s.l_x2)) := by
  simp [serial_hit, List.getElem?_eq_getElem hi, List.getElem?_eq_getElem hj]

theorem serial_linked_iff (s : space) {i j : Nat} (hi : i < s.gparts.length)
    (hj : j < s.gparts.length) :
    serial_linked s i j ↔ r2_serial s.dim s.gparts[i] s.gparts[j] < s.l_x2 := by
  simp [serial_linked, List.getElem?_eq_getElem hi, List.getElem?_eq_getElem hj]

/-- The inner loop of the serial search for particle `i`: it refines the state
along links of `i` and joins `i` with every later particle it is linked to. -/
theorem serial_inner_spec (s : space) (hlen : s.gparts.length = s.nr_gparts)
    {g : List Nat} (hd : DownLinked g) (hg : g.length = s.nr_gparts) {i fuel : Nat}
    (hi : i < s.nr_gparts) (hf : s.nr_gparts ≤ fuel) :
    ∃ g2 r2, serial_inner fuel s i (g, rootOf g i) = some (g2, r2) ∧
      Refines (serial_linked s) g g2 ∧
      ∀ j, i < j → j < s.nr_gparts → serial_linked s i j → rootOf g2 i = rootOf g2 j := by
  have key := for_list_inv
    (fun j st =>
      match serial_hit s i j with
      | none => none
      | some hit => visit_serial fuel hit j st)
    (fun done st => Refines (serial_linked s) g st.1 ∧ st.2 = rootOf st.1 i ∧
      ∀ j ∈ done, serial_linked s i j → rootOf st.1 i = rootOf st.1 j)
    (List.range' (i + 1) (s.nr_gparts - (i + 1))) (g, rootOf g i)
    ⟨refines_refl _ hd, rfl, fun j hj => by cases hj⟩
    (by
      rintro done j ⟨g1, r1⟩ hj ⟨href, hr, hcov⟩
      simp only at href hr hcov
      have hjn : j < s.nr_gparts := by
        rw [List.mem_range'] at hj
        obtain ⟨k, hk, rfl⟩ := hj
        omega
      have hl1 : g1.length = s.nr_gparts := href.len.trans hg
      have hig : i < s.gparts.length := by omega
      have hjg : j < s.gparts.length := by omega
      simp only [serial_hit_some s hig hjg]
      subst hr
      obtain ⟨g2, r2, hv, href2, hr2, hhit⟩ :=
        visit_serial_spec (serial_linked s) href.down i j j fuel
          (by omega) (by omega) (by omega) rfl (by omega)
          (decide (r2_serial s.dim s.gparts[i] s.gparts[j] < s.l_x2))
          (fun h => (serial_linked_iff s hig hjg).2 (of_decide_eq_true h))
      refine ⟨(g2, r2), hv, refines_trans href href2, hr2, ?_⟩
      intro j2 hj2 hlink
      simp only [List.mem_append, List.mem_singleton] at hj2
      cases hj2 with
      | inl hmem => exact href2.keeps _ _ (hcov j2 hmem hlink)
      | inr heq =>
        subst heq
        exact (hhit (decide_eq_true ((serial_linked_iff s hig hjg).1 hlink))).1)
  obtain ⟨⟨g2, r2⟩, hrun, href, _, hcov⟩ := key
  refine ⟨g2, r2, hrun, href, ?_⟩
  intro j hij hjn hlink
  apply hcov j _ hlink
  rw [List.mem_range']
  exact ⟨j - (i + 1), by omega, by omega⟩

theorem serial_outer_spec (s : space) (hlen : s.gparts.length = s.nr_gparts)
    {g : List Nat} (hd : DownLinked g) (hg : g.length = s.nr_gparts) {i fuel : Nat}
    (hi : i < s.nr_gparts) (hf : s.nr_gparts ≤ fuel) :
    ∃ g2, serial_outer fuel s i g = some g2 ∧ Refines (serial_linked s) g g2 ∧
      ∀ j, i < j → j < s.nr_gparts → serial_linked s i j → rootOf g2 i = rootOf g2 j := by
  obtain ⟨g2, r2, hrun, href, hcov⟩ := serial_inner_spec s hlen hd hg hi hf
  refine ⟨g2, ?_, href, hcov⟩
  unfold serial_outer
  rw [fof_find_eq_rootOf hd (by omega) (by omega)]
  simp only [hrun, Option.map_some']

/-- The pair loop of the serial search, from any down-linked state: it refines
the state along links and joins every linked pair `i < j`. -/
theorem serial_pair_loop_spec (s : space) (hlen : s.gparts.length = s.nr_gparts)
    {g : List Nat} (hd : DownLinked g) (hg : g.length = s.nr_gparts) {fuel : Nat}
    (hf : s.nr_gparts ≤ fuel) :
    ∃ g2, serial_pair_loop fuel s g = some g2 ∧ Refines (serial_linked s) g g2 ∧
      ∀ i j, i < j → j < s.nr_gparts → serial_linked s i j → rootOf g2 i = rootOf g2 j := by
  have key := for_list_inv (serial_outer fuel s)
    (fun done st => Refines (serial_linked s) g st ∧
      ∀ i ∈ done, ∀ j, i < j → j < s.nr_gparts → serial_linked s i j →
        rootOf st i = rootOf st j)
    (List.range s.nr_gparts) g
    ⟨refines_refl _ hd, fun i hi => by cases hi⟩
    (by
      rintro done i g1 hi ⟨href, hcov⟩
      have hin : i < s.nr_gparts := List.mem_range.1 hi
      obtain ⟨g2, hrun, href2, hcov2⟩ :=
        serial_outer_spec s hlen href.down (href.len.trans hg) hin hf
      refine ⟨g2, hrun, refines_trans href href2, ?_⟩
      intro i2 hi2 j hij hjn hlink
      simp only [List.mem_append, List.mem_singleton] at hi2
      cases hi2 with
      | inl hmem => exact href2.keeps _ _ (hcov i2 hmem j hij hjn hlink)
      | inr heq =>
        subst heq
        exact hcov2 j hij hjn hlink)
  obtain ⟨g2, hrun, href, hcov⟩ := key
  refine ⟨g2, hrun, href, ?_⟩
  intro i j hij hjn hlink
  exact hcov i (List.mem_range.2 (by omega)) j hij hjn hlink

/-! ## Symmetry of the wrapped distance -/

theorem abs_sub_round_neg (t : ℚ) : |(-t) - (round (-t) : ℚ)| = |t - (round t : ℚ)| := by
  apply le_antisymm
  · have h := round_le (-t) (-(round t))
    have e : |(-t) - ((-(round t) : ℤ) : ℚ)| = |t - (round t : ℚ)| := by
      rw [← abs_neg]
      congr 1
      push_cast
      ring
    rw [e] at h
    exact h
  · have h := round_le t (-(round (-t)))
    have e : |t - ((-(round (-t)) : ℤ) : ℚ)| = |(-t) - (round (-t) : ℚ)| := by
      rw [← abs_neg]
      congr 1
      push_cast
      ring
    rw [e] at h
    exact h

theorem abs_nearest (d : ℚ) {L : ℚ} (hL : L ≠ 0) :
    |nearest d L| = |L| * |d / L - (round (d / L) : ℚ)| := by
  unfold nearest
  rw [← abs_mul]
  congr 1
  field_simp
  ring

theorem abs_nearest_neg (d L : ℚ) : |nearest (-d) L| = |nearest d L| := by
  by_cases hL : L = 0
  · subst hL
    simp [nearest]
  · rw [abs_nearest _ hL, abs_nearest _ hL, neg_div, abs_sub_round_neg]

theorem nearest_sq_neg (d L : ℚ) : nearest (-d) L * nearest (-d) L = nearest d L * nearest d L := by
  rw [← abs_mul_abs_self (nearest (-d) L), ← abs_mul_abs_self (nearest d L), abs_nearest_neg]

theorem r2_serial_comm (dim : vec3) (pa pb : gpart) :
    r2_serial dim pa pb = r2_serial dim pb pa := by
  unfold r2_serial
  simp only
  rw [← neg_sub pb.x.x0 pa.x.x0, ← neg_sub pb.x.x1 pa.x.x1, ← neg_sub pb.x.x2 pa.x.x2,
    nearest_sq_neg, nearest_sq_neg, nearest_sq_neg]

theorem serial_linked_symm (s : space) {a b : Nat} (h : serial_linked s a b) :
    serial_linked s b a := by
  obtain ⟨pa, pb, ha, hb, hr⟩ := h
  exact ⟨pb, pa, hb, ha, by rw [r2_serial_comm]; exact hr⟩

/-! ## Union steps and reachable states -/

theorem getElem_lt_of_downLinked {g : List Nat} (hd : DownLinked g) {i p : Nat}
    (h : g[i]? = some p) : p < g.length := by
  have hi : i < g.length := by
    by_contra hc
    rw [List.getElem?_eq_none (Nat.le_of_not_lt hc)] at h
    cases h
  have := hd i p h
  omega

theorem union_serial_spec (L : Nat → Nat → Prop) {g : List Nat} (hd : DownLinked g)
    (a b fuel : Nat) (ha : a < g.length) (hb : b < g.length) (hf : g.length ≤ fuel)
    (hL : L a b) :
    ∃ g2, union_serial fuel a b g = some g2 ∧ Refines L g g2 ∧
      rootOf g2 a = rootOf g2 b ∧ rootOf g2 a = min (rootOf g a) (rootOf g b) := by
  obtain ⟨g2, r2, hv, href, _, hhit⟩ :=
    visit_serial_spec L hd a b b fuel ha hb hb rfl hf true (fun _ => hL)
  refine ⟨g2, ?_, href, (hhit rfl).1, (hhit rfl).2⟩
  unfold union_serial
  rw [fof_find_eq_rootOf hd ha (by omega)]
  simp only [hv, Option.map_some']

theorem union_atomic_spec (L : Nat → Nat → Prop) {g : List Nat} (hd : DownLinked g)
    (a b fuel : Nat) (ha : a < g.length) (hb : b < g.length) (hf : g.length ≤ fuel)
    (hL : L a b) :
    ∃ g2, union_atomic fuel a b g = some g2 ∧ Refines L g g2 ∧
      rootOf g2 a = rootOf g2 b ∧ rootOf g2 a = min (rootOf g a) (rootOf g b) := by
  have hga : g[a]? = some g[a] := List.getElem?_eq_getElem ha
  have hgb : g[b]? = some g[b] := List.getElem?_eq_getElem hb
  have hal := getElem_lt_of_downLinked hd hga
  have hbl := getElem_lt_of_downLinked hd hgb
  obtain ⟨g2, r2, hv, href, _, hhit⟩ :=
    visit_atomic_spec L hd a b g[b] fuel ha hb hbl (rootOf_step hd hgb).symm hf true
      (fun _ => hL)
  refine ⟨g2, ?_, href, (hhit rfl).1, (hhit rfl).2⟩
  unfold union_atomic
  simp only [hga, hgb]
  rw [fof_find_eq_rootOf hd hal (by omega), ← rootOf_step hd hga]
  simp only [hv, Option.map_some']

theorem fof_find_some_of_lt {g : List Nat} {fuel i r : Nat}
    (h : fof_find fuel i g = some r) : i < g.length := by
  cases fuel with
  | zero => simp [fof_find] at h
  | succ f =>
    rw [fof_find_succ] at h
    by_contra hc
    rw [List.getElem?_eq_none (Nat.le_of_not_lt hc)] at h
    cases h

/-- A union step of the serial search, whenever it returns, leaves a
down-linked array of the same length. -/
theorem union_serial_preserves {g g2 : List Nat} (hd : DownLinked g) {fuel i j : Nat}
    (h : union_serial fuel i j g = some g2) : DownLinked g2 ∧ g2.length = g.length := by
  unfold union_serial at h
  cases hfi : fof_find fuel i g with
  | none => simp [hfi] at h
  | some ri =>
    simp only [hfi] at h
    unfold visit_serial at h
    cases hfj : fof_find fuel j g with
    | none => simp [hfj] at h
    | some rj =>
      simp only [hfj] at h
      by_cases hsame : ri = rj
      · simp only [hsame, if_true, Option.map_some', Option.some.injEq] at h
        subst h
        exact ⟨hd, rfl⟩
      · simp only [hsame, if_false, if_true, Option.map_some', Option.some.injEq] at h
        subst h
        obtain ⟨h1, h2, _, _⟩ :=
          link_roots_spec hd (fof_find_is_root hfi) (fof_find_is_root hfj) hsame
        exact ⟨h1, h2⟩

theorem union_atomic_preserves {g g2 : List Nat} (hd : DownLinked g) {fuel i j : Nat}
    (h : union_atomic fuel i j g = some g2) : DownLinked g2 ∧ g2.length = g.length := by
  unfold union_atomic at h
  cases hgi : g[i]? with
  | none => simp [hgi] at h
  | some oi =>
    simp only [hgi] at h
    cases hfi : fof_find fuel oi g with
    | none => simp [hfi] at h
    | some ri =>
      simp only [hfi] at h
      cases hgj : g[j]? with
      | none => simp [hgj] at h
      | some oj =>
        simp only [hgj] at h
        unfold visit_atomic at h
        cases hfj : fof_find fuel oj g with
        | none => simp [hfj] at h
        | some rj =>
          simp only [hfj] at h
          by_cases hsame : ri = rj
          · simp only [hsame, if_true, Option.map_some', Option.some.injEq] at h
            subst h
            exact ⟨hd, rfl⟩
          · simp only [hsame, if_false, if_true, Option.map_some', Option.some.injEq] at h
            subst h
            rw [link_roots_atomic_eq (fof_find_is_root hfi) (fof_find_is_root hfj) hsame]
            obtain ⟨h1, h2, _, _⟩ :=
              link_roots_spec hd (fof_find_is_root hfi) (fof_find_is_root hfj) hsame
            exact ⟨h1, h2⟩

/-- Every reachable state is down-linked and has `n` entries. -/
theorem reachable_downLinked {n : Nat} {g : List Nat} (h : Reachable n g) :
    DownLinked g ∧ g.length = n := by
  induction h with
  | init => exact ⟨downLinked_identity n, length_identity n⟩
  | serial fuel i j _ _ _ hstep ih =>
    obtain ⟨h1, h2⟩ := union_serial_preserves ih.1 hstep
    exact ⟨h1, h2.trans ih.2⟩
  | atomic fuel i j _ _ _ hstep ih =>
    obtain ⟨h1, h2⟩ := union_atomic_preserves ih.1 hstep
    exact ⟨h1, h2.trans ih.2⟩

/-! ## The groups found by the serial search -/

theorem joined_identity_chain (s : space) {x y : Nat}
    (h : Joined (serial_linked s) (identity_group_id s.nr_gparts) x y) :
    Relation.ReflTransGen (serial_linked s) x y := by
  have hid : ∀ k, rootOf (identity_group_id s.nr_gparts) k = k := by
    intro k
    by_cases hk : k < s.nr_gparts
    · exact rootOf_identity hk
    · exact rootOf_outside (by rw [length_identity]; omega)
  have hsymm : Symmetric (serial_linked s) := fun _ _ h => serial_linked_symm s h
  induction h with
  | rel a b hab =>
    cases hab with
    | inl hs =>
      rw [hid a, hid b] at hs
      subst hs
      exact Relation.ReflTransGen.refl
    | inr hl => exact Relation.ReflTransGen.single hl
  | refl a => exact Relation.ReflTransGen.refl
  | symm a b _ ih => exact Relation.ReflTransGen.symmetric hsymm ih
  | trans a b c _ _ ih1 ih2 => exact Relation.ReflTransGen.trans ih1 ih2

theorem serial_linked_lt (s : space) {a b : Nat} (h : serial_linked s a b) :
    a < s.gparts.length ∧ b < s.gparts.length := by
  obtain ⟨pa, pb, ha, hb, _⟩ := h
  constructor
  · by_contra hc
    rw [List.getElem?_eq_none (Nat.le_of_not_lt hc)] at ha
    cases ha
  · by_contra hc
    rw [List.getElem?_eq_none (Nat.le_of_not_lt hc)] at hb
    cases hb

theorem chain_same_root (s : space) (hlen : s.gparts.length = s.nr_gparts) {g : List Nat}
    (hcov : ∀ i j, i < j → j < s.nr_gparts → serial_linked s i j → rootOf g i = rootOf g j)
    {x y : Nat} (h : Relation.ReflTransGen (serial_linked s) x y) :
    rootOf g x = rootOf g y := by
  induction h with
  | refl => rfl
  | @tail b c _ hstep ih =>
    rw [ih]
    obtain ⟨hb, hc⟩ := serial_linked_lt s hstep
    rcases Nat.lt_trichotomy b c with hlt | heq | hgt
    · exact hcov b c hlt (by omega) hstep
    · rw [heq]
    · exact (hcov c b hgt (by omega) (serial_linked_symm s hstep)).symm

/-- C1. Started from the identity array, the pair loop of `fof_search_serial`
returns (with `nr_gparts` loop tests per `fof_find`), and in the array it
leaves two particles `i` and `j` have a common root exactly when a chain of
particles connects them in which consecutive particles have wrapped squared
distance strictly below `l_x2`. -/
theorem serial_search_finds_linking_components (s : space) (fuel : Nat)
    (hlen : s.gparts.length = s.nr_gparts) (hf : s.nr_gparts ≤ fuel) :
    ∃ g, serial_pair_loop fuel s (identity_group_id s.nr_gparts) = some g ∧
      ∀ i j, i < s.nr_gparts → j < s.nr_gparts →
        ((∃ r, fof_find fuel i g = some r ∧ fof_find fuel j g = some r) ↔
          Relation.ReflTransGen (serial_linked s) i j) := by
  obtain ⟨g, hrun, href, hcov⟩ :=
    serial_pair_loop_spec s hlen (downLinked_identity s.nr_gparts)
      (length_identity s.nr_gparts) hf
  have hgl : g.length = s.nr_gparts := href.len.trans (length_identity _)
  refine ⟨g, hrun, ?_⟩
  intro i j hi hj
  have hfi := fof_find_eq_rootOf href.down (show i < g.length by omega)
    (show i < fuel by omega)
  have hfj := fof_find_eq_rootOf href.down (show j < g.length by omega)
    (show j < fuel by omega)
  constructor
  · rintro ⟨r, h1, h2⟩
    rw [hfi] at h1
    rw [hfj] at h2
    apply joined_identity_chain s
    apply href.sound
    rw [Option.some.inj h1, Option.some.inj h2]
  · intro hchain
    refine ⟨rootOf g i, hfi, ?_⟩
    rw [hfj, chain_same_root s hlen hcov hchain]

theorem serial_search_finds_linking_components_witness :
    scenario_space.gparts.length = scenario_space.nr_gparts ∧
    scenario_space.nr_gparts ≤ 6 ∧
    ∃ g, serial_pair_loop 6 scenario_space (identity_group_id scenario_space.nr_gparts) =
        some g ∧
      ∀ i j, i < scenario_space.nr_gparts → j < scenario_space.nr_gparts →
        ((∃ r, fof_find 6 i g = some r ∧ fof_find 6 j g = some r) ↔
          Relation.ReflTransGen (serial_linked scenario_space) i j) :=
  ⟨rfl, by decide, serial_search_finds_linking_components scenario_space 6 rfl (by decide)⟩

/-- C2. In a state reachable from the identity by union steps, the union step
of the linkers on particles `i` and `j` (the plain store of
`fof_search_serial` and the `atomic_min` of the cell linkers alike) returns a
state in which `fof_find` gives both particles the same root, the smaller of
the two roots they had before the step. -/
theorem union_step_joins_at_min_root (n : Nat) (g : List Nat) (i j fuel : Nat)
    (hr : Reachable n g) (hi : i < n) (hj : j < n) (hf : n ≤ fuel) :
    ∃ ri rj, fof_find fuel i g = some ri ∧ fof_find fuel j g = some rj ∧
      (∃ g2, union_serial fuel i j g = some g2 ∧
        fof_find fuel i g2 = some (min ri rj) ∧ fof_find fuel j g2 = some (min ri rj)) ∧
      (∃ g2, union_atomic fuel i j g = some g2 ∧
        fof_find fuel i g2 = some (min ri rj) ∧ fof_find fuel j g2 = some (min ri rj)) := by
  obtain ⟨hd, hlen⟩ := reachable_downLinked hr
  refine ⟨rootOf g i, rootOf g j, fof_find_eq_rootOf hd (by omega) (by omega),
    fof_find_eq_rootOf hd (by omega) (by omega), ?_, ?_⟩
  · obtain ⟨g2, hrun, href, hsame, hmin⟩ :=
      union_serial_spec (fun _ _ => True) hd i j fuel (by omega) (by omega) (by omega) trivial
    have hl2 : g2.length = n := href.len.trans hlen
    refine ⟨g2, hrun, ?_, ?_⟩
    · rw [fof_find_eq_rootOf href.down (by omega) (by omega), hmin]
    · rw [fof_find_eq_rootOf href.down (by omega) (by omega), ← hsame, hmin]
  · obtain ⟨g2, hrun, href, hsame, hmin⟩ :=
      union_atomic_spec (fun _ _ => True) hd i j fuel (by omega) (by omega) (by omega) trivial
    have hl2 : g2.length = n := href.len.trans hlen
    refine ⟨g2, hrun, ?_, ?_⟩
    · rw [fof_find_eq_rootOf href.down (by omega) (by omega), hmin]
    · rw [fof_find_eq_rootOf href.down (by omega) (by omega), ← hsame, hmin]

theorem union_step_joins_at_min_root_witness :
    Reachable 3 (identity_group_id 3) ∧ 1 < 3 ∧ 2 < 3 ∧ 3 ≤ 3 ∧
    ∃ ri rj, fof_find 3 1 (identity_group_id 3) = some ri ∧
      fof_find 3 2 (identity_group_id 3) = some rj ∧
      (∃ g2, union_serial 3 1 2 (identity_group_id 3) = some g2 ∧
        fof_find 3 1 g2 = some (min ri rj) ∧ fof_find 3 2 g2 = some (min ri rj)) ∧
      (∃ g2, union_atomic 3 1 2 (identity_group_id 3) = some g2 ∧
        fof_find 3 1 g2 = some (min ri rj) ∧ fof_find 3 2 g2 = some (min ri rj)) :=
  ⟨Reachable.init, by decide, by decide, by decide,
    union_step_joins_at_min_root 3 (identity_group_id 3) 1 2 3 Reachable.init
      (by decide) (by decide) (by decide)⟩

/-- C3. In every state reachable from the identity by union steps of the
linkers, the root `fof_find(i)` of a particle is itself a member of the group
(it is its own root) and no particle with the same root has a smaller index:
the group identifier is the smallest particle index of the group. -/
theorem root_is_minimum_of_group (n : Nat) (g : List Nat) (i fuel : Nat)
    (hr : Reachable n g) (hi : i < n) (hf : n ≤ fuel) :
    ∃ r, fof_find fuel i g = some r ∧ r < n ∧ fof_find fuel r g = some r ∧
      ∀ j, j < n → fof_find fuel j g = some r → r ≤ j := by
  obtain ⟨hd, hlen⟩ := reachable_downLinked hr
  have hil : i < g.length := by omega
  have hrl := rootOf_lt_length hd hil
  refine ⟨rootOf g i, fof_find_eq_rootOf hd hil (by omega), by omega, ?_, ?_⟩
  · rw [fof_find_eq_rootOf hd hrl (by omega), rootOf_idem hd hil]
  · intro j hj hfj
    have hjl : j < g.length := by omega
    rw [fof_find_eq_rootOf hd hjl (by omega)] at hfj
    rw [← Option.some.inj hfj]
    exact rootOf_le hd hjl

theorem root_is_minimum_of_group_witness :
    Reachable 3 (identity_group_id 3) ∧ 2 < 3 ∧ 3 ≤ 3 ∧
    ∃ r, fof_find 3 2 (identity_group_id 3) = some r ∧ r < 3 ∧
      fof_find 3 r (identity_group_id 3) = some r ∧
      ∀ j, j < 3 → fof_find 3 j (identity_group_id 3) = some r → r ≤ j :=
  ⟨Reachable.init, by decide, by decide,
    root_is_minimum_of_group 3 (identity_group_id 3) 2 3 Reachable.init (by decide)
      (by decide)⟩

/-! ## Following parent links -/

theorem follow_zero (g : List Nat) {i : Nat} (hi : i < g.length) : follow g 0 i = some i := by
  simp [follow, hi]

theorem follow_succ (g : List Nat) (k i : Nat) :
    follow g (k + 1) i =
      match g[i]? with
      | none => none
      | some p => follow g k p := rfl

theorem lt_length_of_getElem {g : List Nat} {i p : Nat} (h : g[i]? = some p) :
    i < g.length := by
  by_contra hc
  rw [List.getElem?_eq_none (Nat.le_of_not_lt hc)] at h
  cases h

theorem follow_root {g : List Nat} {i : Nat} (h : g[i]? = some i) (k : Nat) :
    follow g k i = some i := by
  induction k with
  | zero => exact follow_zero g (lt_length_of_getElem h)
  | succ k ih =>
    rw [follow_succ, h]
    exact ih

theorem follow_find {g : List Nat} {k i r : Nat} (hfol : follow g k i = some r)
    (hr : g[r]? = some r) : fof_find (k + 1) i g = some r := by
  induction k generalizing i with
  | zero =>
    have hi : i < g.length := by
      by_contra hc
      simp [follow, hc] at hfol
    rw [follow_zero g hi] at hfol
    cases hfol
    exact fof_find_of_root hr 0
  | succ k ih =>
    rw [follow_succ] at hfol
    rw [fof_find_succ]
    cases hp : g[i]? with
    | none => simp [hp] at hfol
    | some p =>
      simp only [hp] at hfol ⊢
      by_cases hip : i = p
      · rw [if_pos hip]
        subst hip
        rw [follow_root hp k] at hfol
        exact hfol
      · rw [if_neg hip]
        exact ih hfol

theorem follow_add (g : List Nat) (a c i : Nat) :
    follow g (a + c) i = (follow g a i).bind (follow g c) := by
  induction a generalizing i with
  | zero =>
    by_cases hi : i < g.length
    · simp [follow_zero g hi]
    · have h0 : follow g 0 i = none := by simp [follow, hi]
      rw [h0]
      simp only [Nat.zero_add, Option.none_bind]
      cases c with
      | zero => exact h0
      | succ c =>
        rw [follow_succ, List.getElem?_eq_none (Nat.le_of_not_lt hi)]
  | succ a ih =>
    rw [Nat.add_right_comm, follow_succ, follow_succ]
    cases hp : g[i]? with
    | none => rfl
    | some p => exact ih p

theorem follow_valid {g : List Nat} (hv : ValidIndices g) (k : Nat) {i : Nat}
    (hi : i < g.length) : ∃ r, follow g k i = some r ∧ r < g.length := by
  induction k generalizing i with
  | zero => exact ⟨i, follow_zero g hi, hi⟩
  | succ k ih =>
    rw [follow_succ, List.getElem?_eq_getElem hi]
    exact ih (hv i _ (List.getElem?_eq_getElem hi))

theorem follow_down {g : List Nat} (hd : DownLinked g) :
    ∀ i, i < g.length → ∃ k r, k ≤ i ∧ follow g k i = some r ∧ g[r]? = some r := by
  intro i
  induction i using Nat.strong_induction_on with
  | _ i ih =>
    intro hi
    have hget : g[i]? = some g[i] := List.getElem?_eq_getElem hi
    have hle : g[i] ≤ i := hd i _ hget
    by_cases hroot : g[i] = i
    · exact ⟨0, i, Nat.zero_le i, follow_zero g hi, by rw [hget, hroot]⟩
    · have hlt : g[i] < i := lt_of_le_of_ne hle hroot
      obtain ⟨k, r, hk, hfol, hr⟩ := ih g[i] hlt (by omega)
      refine ⟨k + 1, r, by omega, ?_, hr⟩
      rw [follow_succ, hget]
      exact hfol

/-- C4. In every state of `n` particles reachable from the identity by the
union steps of the linkers, following `group_id` from any index reaches an
index `r` with `group_id[r] = r` after at most `n` steps (indeed fewer than
`n`), and `fof_find` returns that index. -/
theorem reachable_chain_reaches_root (n : Nat) (g : List Nat) (i : Nat)
    (hr : Reachable n g) (hi : i < n) :
    ∃ k r, k ≤ n ∧ k < n ∧ follow g k i = some r ∧ g[r]? = some r ∧
      fof_find (k + 1) i g = some r := by
  obtain ⟨hd, hlen⟩ := reachable_downLinked hr
  obtain ⟨k, r, hk, hfol, hroot⟩ := follow_down hd i (by omega)
  exact ⟨k, r, by omega, by omega, hfol, hroot, follow_find hfol hroot⟩

theorem reachable_chain_reaches_root_witness :
    Reachable 3 (identity_group_id 3) ∧ 2 < 3 ∧
    ∃ k r, k ≤ 3 ∧ k < 3 ∧ follow (identity_group_id 3) k 2 = some r ∧
      (identity_group_id 3)[r]? = some r ∧
      fof_find (k + 1) 2 (identity_group_id 3) = some r :=
  ⟨Reachable.init, by decide,
    reachable_chain_reaches_root 3 (identity_group_id 3) 2 Reachable.init (by decide)⟩

/-! ## Arrays without parent cycles -/

/-- In an array of valid indices without a parent cycle, a root is reached
from every index in fewer steps than the array has entries. -/
theorem noCycle_reaches_root {g : List Nat} (hv : ValidIndices g) (hc : NoCycle g)
    {i : Nat} (hi : i < g.length) :
    ∃ k r, k < g.length ∧ follow g k i = some r ∧ g[r]? = some r := by
  have hpos : 0 < g.length := by omega
  let f : Fin (g.length + 1) → Fin g.length := fun k =>
    ⟨(follow g k.1 i).getD 0, by
      obtain ⟨r, hr, hlt⟩ := follow_valid hv k.1 hi
      rw [hr]
      exact hlt⟩
  obtain ⟨x, y, hxy, hf⟩ := Fintype.exists_ne_map_eq_of_card_lt f (by simp)
  have hval : ∀ k : Fin (g.length + 1), follow g k.1 i = some (f k).1 := by
    intro k
    obtain ⟨r, hr, _⟩ := follow_valid hv k.1 hi
    simp [f, hr]
  have main : ∀ a b : Fin (g.length + 1), a.1 < b.1 → f a = f b →
      ∃ k r, k < g.length ∧ follow g k i = some r ∧ g[r]? = some r := by
    intro a b hab hfab
    refine ⟨a.1, (f a).1, by omega, hval a, ?_⟩
    apply hc (f a).1 (b.1 - a.1) (by omega)
    have h1 := follow_add g a.1 (b.1 - a.1) i
    rw [show a.1 + (b.1 - a.1) = b.1 by omega, hval a, hval b, Option.some_bind] at h1
    rw [← h1, hfab]
  rcases Nat.lt_trichotomy x.1 y.1 with hlt | heq | hgt
  · exact main x y hlt hf
  · exact absurd (Fin.ext heq) hxy
  · exact main y x hgt hf.symm

/-- In an array of valid indices without a parent cycle `fof_find` returns,
with as many loop tests as the array has entries. -/
theorem noCycle_find {g : List Nat} (hv : ValidIndices g) (hc : NoCycle g)
    {i : Nat} (hi : i < g.length) {fuel : Nat} (hf : g.length ≤ fuel) :
    ∃ r, fof_find fuel i g = some r := by
  obtain ⟨k, r, hk, hfol, hr⟩ := noCycle_reaches_root hv hc hi
  exact ⟨r, fof_find_mono (follow_find hfol hr) (by omega)⟩

theorem follow_le {g : List Nat} (hd : DownLinked g) {k i r : Nat}
    (h : follow g k i = some r) : r ≤ i := by
  induction k generalizing i with
  | zero =>
    by_cases hi : i < g.length
    · rw [follow_zero g hi] at h
      cases h
      exact le_refl _
    · simp [follow, hi] at h
  | succ k ih =>
    rw [follow_succ] at h
    cases hp : g[i]? with
    | none => simp [hp] at h
    | some p =>
      simp only [hp] at h
      exact le_trans (ih h) (hd i p hp)

theorem noCycle_of_downLinked {g : List Nat} (hd : DownLinked g) : NoCycle g := by
  intro i k hk h
  obtain ⟨k2, rfl⟩ : ∃ k2, k = k2 + 1 := ⟨k - 1, by omega⟩
  rw [follow_succ] at h
  cases hp : g[i]? with
  | none => simp [hp] at h
  | some p =>
    simp only [hp] at h
    have h1 := follow_le hd h
    have h2 := hd i p hp
    have : p = i := by omega
    rw [this]

theorem validIndices_of_downLinked {g : List Nat} (hd : DownLinked g) : ValidIndices g :=
  fun _ _ h => getElem_lt_of_downLinked hd h

theorem find_on_two_cycle (fuel : Nat) :
    fof_find fuel 0 [1, 0] = none ∧ fof_find fuel 1 [1, 0] = none := by
  induction fuel with
  | zero => exact ⟨rfl, rfl⟩
  | succ f ih =>
    constructor
    · rw [fof_find_succ]
      exact ih.2
    · rw [fof_find_succ]
      exact ih.1

/-- C5, counterexample. The array `[1, 0]` holds only valid indices, yet
`fof_find(0, group_id)` never returns on it: no number of loop tests yields a
root, because the two entries point at each other. -/
theorem fof_find_loops_on_two_cycle :
    ValidIndices [1, 0] ∧ ∀ fuel, fof_find fuel 0 [1, 0] = none := by
  constructor
  · intro k p h
    rcases k with _ | _ | k
    · simp at h
      subst h
      decide
    · simp at h
      subst h
      decide
    · simp at h
  · intro fuel
    exact (find_on_two_cycle fuel).1

/-- C5, amended. On every array of valid indices without a parent cycle
`fof_find(i, group_id)` returns, with as many loop tests as the array has
entries; the array is not written, and every call on the same index returns
the same value, which is a root. -/
theorem fof_find_returns_without_cycle (g : List Nat) (i fuel : Nat)
    (hv : ValidIndices g) (hc : NoCycle g) (hi : i < g.length) (hf : g.length ≤ fuel) :
    ∃ r, fof_find fuel i g = some r ∧ g[r]? = some r ∧
      ∀ fuel2 r2, fof_find fuel2 i g = some r2 → r2 = r := by
  obtain ⟨r, hr⟩ := noCycle_find hv hc hi hf
  exact ⟨r, hr, fof_find_is_root hr, fun fuel2 r2 h2 => fof_find_det h2 hr⟩

theorem downLinked_example : DownLinked [0, 0, 1] := by
  intro k p h
  rcases k with _ | _ | _ | k
  · simp at h
    omega
  · simp at h
    omega
  · simp at h
    omega
  · simp at h

theorem fof_find_returns_without_cycle_witness :
    ValidIndices [0, 0, 1] ∧ NoCycle [0, 0, 1] ∧ 2 < [0, 0, 1].length ∧
    [0, 0, 1].length ≤ 3 ∧
    ∃ r, fof_find 3 2 [0, 0, 1] = some r ∧ [0, 0, 1][r]? = some r ∧
      ∀ fuel2 r2, fof_find fuel2 2 [0, 0, 1] = some r2 → r2 = r :=
  ⟨validIndices_of_downLinked downLinked_example, noCycle_of_downLinked downLinked_example,
    by decide, by decide,
    fof_find_returns_without_cycle [0, 0, 1] 2 3
      (validIndices_of_downLinked downLinked_example)
      (noCycle_of_downLinked downLinked_example) (by decide) (by decide)⟩

/-! ## The initial state of the entry points -/

theorem tree_start_aux (n k : Nat) (hk : k ≤ n) :
    ((List.range k).foldl (fun g i => g.set i i) (List.replicate n 0)).length = n ∧
    ∀ j, j < n →
      ((List.range k).foldl (fun g i => g.set i i) (List.replicate n 0))[j]? =
        some (if j < k then j else 0) := by
  induction k with
  | zero =>
    refine ⟨by simp, ?_⟩
    intro j hj
    simp [List.getElem?_replicate, hj]
  | succ k ih =>
    obtain ⟨hl, hget⟩ := ih (by omega)
    rw [List.range_succ, List.foldl_append]
    simp only [List.foldl_cons, List.foldl_nil]
    refine ⟨by rw [List.length_set, hl], ?_⟩
    intro j hj
    rw [List.getElem?_set]
    by_cases hkj : k = j
    · subst hkj
      rw [if_pos rfl, if_pos (by rw [hl]; exact hj), if_pos (Nat.lt_succ_self _)]
    · rw [if_neg hkj, hget j hj]
      by_cases hjk : j < k
      · rw [if_pos hjk, if_pos (by omega)]
      · rw [if_neg hjk, if_neg (by omega)]

/-- The tree searches start their linking phase on the identity array,
whatever `s->group_id` held before. -/
theorem fof_search_tree_start_identity (s : space) :
    fof_search_tree_start s = identity_group_id s.nr_gparts := by
  obtain ⟨hl, hget⟩ := tree_start_aux s.nr_gparts s.nr_gparts (le_refl _)
  apply List.ext_getElem?
  intro j
  unfold fof_search_tree_start identity_group_id
  by_cases hj : j < s.nr_gparts
  · rw [hget j hj, if_pos hj, List.getElem?_range hj]
  · rw [List.getElem?_eq_none (by rw [hl]; omega),
      List.getElem?_eq_none (by rw [List.length_range]; omega)]

theorem nearest_eq_self {dx L : ℚ} (hL : 0 < L) (h1 : -(L / 2) ≤ dx) (h2 : dx < L / 2) :
    nearest dx L = dx := by
  have : round (dx / L) = 0 := by
    rw [round_eq_zero_iff]
    constructor
    · rw [le_div_iff₀ hL]
      linarith
    · rw [div_lt_iff₀ hL]
      linarith
  simp [nearest, this]

theorem r2_serial_on_axis (x y : ℚ) (ia ib : Int) (h1 : -50 ≤ x - y) (h2 : x - y < 50) :
    r2_serial { x0 := 100, x1 := 100, x2 := 100 } (particle_at x ia) (particle_at y ib) =
      (x - y) * (x - y) := by
  have e0 : nearest (x - y) 100 = x - y :=
    nearest_eq_self (by norm_num) (by norm_num; linarith) (by norm_num; linarith)
  have e1 : nearest 0 100 = 0 := by
    simp [nearest]
  simp [r2_serial, particle_at, e0, e1]

theorem hit_on_axis (x y : ℚ) (ia ib : Int) (h1 : -50 ≤ x - y) (h2 : x - y < 50) :
    decide (r2_serial { x0 := 100, x1 := 100, x2 := 100 } (particle_at x ia)
      (particle_at y ib) < 1) = decide ((x - y) * (x - y) < 1) := by
  rw [r2_serial_on_axis x y ia ib h1 h2]

theorem stale_space_not_linked : ¬ serial_linked stale_space 0 1 := by
  rintro ⟨pa, pb, ha, hb, hr⟩
  simp only [stale_space, List.getElem?_cons_zero, List.getElem?_cons_succ,
    Option.some.injEq] at ha hb
  subst ha
  subst hb
  rw [show stale_space.dim = { x0 := 100, x1 := 100, x2 := 100 } from rfl,
    r2_serial_on_axis _ _ _ _ (by norm_num) (by norm_num)] at hr
  norm_num [stale_space] at hr

/-- C6, the code at the failing input. `fof_search_serial` starts its linking
phase on `s->group_id` as it finds it: on `stale_space` it starts on `[0, 0]`
instead of `[0, 1]` (which the tree searches would start on), and it ends
with the two particles in one group of size two, although they are not within
the linking length of each other. -/
theorem serial_search_starts_on_stale_group_id :
    fof_search_serial_start stale_space = [0, 0] ∧
    fof_search_tree_start stale_space = [0, 1] ∧
    fof_search_serial 2 stale_space = some ([0, 0], [2, 0], 1) ∧
    ¬ serial_linked stale_space 0 1 := by
  refine ⟨rfl, by decide, by decide, stale_space_not_linked⟩

/-! ## The end-to-end scenario -/

theorem scenario_hit_0_1 : serial_hit scenario_space 0 1 = some true := by
  simp only [serial_hit, scenario_space, List.getElem?_cons_zero, List.getElem?_cons_succ]
  rw [hit_on_axis _ _ _ _ (by norm_num) (by norm_num)]
  norm_num

theorem scenario_hit_0_2 : serial_hit scenario_space 0 2 = some false := by
  simp only [serial_hit, scenario_space, List.getElem?_cons_zero, List.getElem?_cons_succ]
  rw [hit_on_axis _ _ _ _ (by norm_num) (by norm_num)]
  norm_num

theorem scenario_hit_0_3 : serial_hit scenario_space 0 3 = some false := by
  simp only [serial_hit, scenario_space, List.getElem?_cons_zero, List.getElem?_cons_succ]
  rw [hit_on_axis _ _ _ _ (by norm_num) (by norm_num)]
  norm_num

theorem scenario_hit_0_4 : serial_hit scenario_space 0 4 = some false := by
  simp only [serial_hit, scenario_space, List.getElem?_cons_zero, List.getElem?_cons_succ]
  rw [hit_on_axis _ _ _ _ (by norm_num) (by norm_num)]
  norm_num

theorem scenario_hit_0_5 : serial_hit scenario_space 0 5 = some false := by
  simp only [serial_hit, scenario_space, List.getElem?_cons_zero, List.getElem?_cons_succ]
  rw [hit_on_axis _ _ _ _ (by norm_num) (by norm_num)]
  norm_num

theorem scenario_hit_1_2 : serial_hit scenario_space 1 2 = some true := by
  simp only [serial_hit, scenario_space, List.getElem?_cons_zero, List.getElem?_cons_succ]
  rw [hit_on_axis _ _ _ _ (by norm_num) (by norm_num)]
  norm_num

theorem scenario_hit_1_3 : serial_hit scenario_space 1 3 = some false := by
  simp only [serial_hit, scenario_space, List.getElem?_cons_zero, List.getElem?_cons_succ]
  rw [hit_on_axis _ _ _ _ (by norm_num) (by norm_num)]
  norm_num

theorem scenario_hit_1_4 : serial_hit scenario_space 1 4 = some false := by
  simp only [serial_hit, scenario_space, List.getElem?_cons_zero, List.getElem?_cons_succ]
  rw [hit_on_axis _ _ _ _ (by norm_num) (by norm_num)]
  norm_num

theorem scenario_hit_1_5 : serial_hit scenario_space 1 5 = some false := by
  simp only [serial_hit, scenario_space, List.getElem?_cons_zero, List.getElem?_cons_succ]
  rw [hit_on_axis _ _ _ _ (by norm_num) (by norm_num)]
  norm_num

theorem scenario_hit_2_3 : serial_hit scenario_space 2 3 = some false := by
  simp only [serial_hit, scenario_space, List.getElem?_cons_zero, List.getElem?_cons_succ]
  rw [hit_on_axis _ _ _ _ (by norm_num) (by norm_num)]
  norm_num

theorem scenario_hit_2_4 : serial_hit scenario_space 2 4 = some false := by
  simp only [serial_hit, scenario_space, List.getElem?_cons_zero, List.getElem?_cons_succ]
  rw [hit_on_axis _ _ _ _ (by norm_num) (by norm_num)]
  norm_num

theorem scenario_hit_2_5 : serial_hit scenario_space 2 5 = some false := by
  simp only [serial_hit, scenario_space, List.getElem?_cons_zero, List.getElem?_cons_succ]
  rw [hit_on_axis _ _ _ _ (by norm_num) (by norm_num)]
  norm_num

theorem scenario_hit_3_4 : serial_hit scenario_space 3 4 = some true := by
  simp only [serial_hit, scenario_space, List.getElem?_cons_zero, List.getElem?_cons_succ]
  rw [hit_on_axis _ _ _ _ (by norm_num) (by norm_num)]
  norm_num

theorem scenario_hit_3_5 : serial_hit scenario_space 3 5 = some false := by
  simp only [serial_hit, scenario_space, List.getElem?_cons_zero, List.getElem?_cons_succ]
  rw [hit_on_axis _ _ _ _ (by norm_num) (by norm_num)]
  norm_num

theorem scenario_hit_4_5 : serial_hit scenario_space 4 5 = some true := by
  simp only [serial_hit, scenario_space, List.getElem?_cons_zero, List.getElem?_cons_succ]
  rw [hit_on_axis _ _ _ _ (by norm_num) (by norm_num)]
  norm_num

theorem scenario_pair_loop :
    serial_pair_loop 6 scenario_space (identity_group_id 6) = some [0, 0, 0, 3, 3, 3] := by
  have hn : scenario_space.nr_gparts = 6 := rfl
  have hr : List.range 6 = [0, 1, 2, 3, 4, 5] := by decide
  simp only [serial_pair_loop, hn]
  rw [hr]
  simp [for_list, serial_outer, serial_inner, hn, identity_group_id, List.range',
    visit_serial, fof_find, link_roots, scenario_hit_0_1, scenario_hit_0_2, scenario_hit_0_3, scenario_hit_0_4, scenario_hit_0_5,
    scenario_hit_1_2, scenario_hit_1_3, scenario_hit_1_4, scenario_hit_1_5,
    scenario_hit_2_3, scenario_hit_2_4, scenario_hit_2_5,
    scenario_hit_3_4, scenario_hit_3_5, scenario_hit_4_5]
  rfl

/-- C10. On the six particles at `x = 0, 0.5, 1.0, 10, 10.5, 11` with
`l_x2 = 1` in a box of side `100`, `fof_search_serial` started on the identity
array ends with `group_id = [0, 0, 0, 3, 3, 3]`: `fof_find` returns `0` for
the indices `0, 1, 2` and `3` for `3, 4, 5`, `num_groups = 2`, and
`group_size` is `3` at the roots `0` and `3` and `0` elsewhere. -/
theorem scenario_yields_two_groups :
    scenario_space.group_id = identity_group_id 6 ∧
    fof_search_serial 6 scenario_space =
      some ([0, 0, 0, 3, 3, 3], [3, 0, 0, 3, 0, 0], 2) ∧
    (∀ i ∈ [0, 1, 2], fof_find 6 i [0, 0, 0, 3, 3, 3] = some 0) ∧
    (∀ i ∈ [3, 4, 5], fof_find 6 i [0, 0, 0, 3, 3, 3] = some 3) := by
  refine ⟨rfl, ?_, by decide, by decide⟩
  have hs : fof_search_serial_start scenario_space = identity_group_id 6 := rfl
  have hn : scenario_space.nr_gparts = 6 := rfl
  have ha : aggregate_serial 6 6 [0, 0, 0, 3, 3, 3] = some ([3, 0, 0, 3, 0, 0], 2) := by
    decide
  simp only [fof_search_serial, hs, scenario_pair_loop, hn, ha]

/-! ## The aggregation pass -/

theorem sum_set_add {M : Type} [AddCommMonoid M] (l : List M) (k : Nat) (x v : M)
    (h : l[k]? = some x) : (l.set k (x + v)).sum = l.sum + v := by
  induction l generalizing k with
  | nil => simp at h
  | cons a t ih =>
    cases k with
    | zero =>
      simp at h
      subst h
      simp [add_assoc, add_comm v, add_left_comm]
    | succ k =>
      simp at h
      simp [ih k h, add_assoc]

/-- The root that `fof_find` reports for `i`, with `0` standing in when it
reports none. -/
theorem find_getD_spec {g : List Nat} (hv : ValidIndices g) (hc : NoCycle g)
    {fuel : Nat} (hf : g.length ≤ fuel) {i : Nat} (hi : i < g.length) :
    fof_find fuel i g = some ((fof_find fuel i g).getD 0) ∧
    (fof_find fuel i g).getD 0 < g.length ∧
    g[(fof_find fuel i g).getD 0]? = some ((fof_find fuel i g).getD 0) := by
  obtain ⟨r, hr⟩ := noCycle_find hv hc hi hf
  rw [hr]
  exact ⟨rfl, fof_find_lt_length hr, fof_find_is_root hr⟩

/-- What the accumulators hold after the particles in `done` are processed. -/
theorem aggregate_inv (g : List Nat) (gparts : List gpart) (n fuel : Nat)
    (hv : ValidIndices g) (hc : NoCycle g) (hg : g.length = n) (hp : gparts.length = n)
    (hf : n ≤ fuel) :
    ∃ st, aggregate fuel n gparts g = some st ∧
      st.group_size.length = n ∧ st.group_mass.length = n ∧
      st.group_size.sum = n ∧
      st.group_mass.sum = ((List.range n).map (fun i => (gparts[i]?.map gpart.mass).getD 0)).sum ∧
      st.num_groups = ((List.range n).filter (fun i => decide (g[i]? = some i))).length ∧
      ∀ k, k < n → st.group_size[k]? = some
        ((List.range n).filter (fun i => decide ((fof_find fuel i g).getD 0 = k))).length := by
  have key := for_list_inv (aggregate_step fuel gparts g)
    (fun done st => st.group_size.length = n ∧ st.group_mass.length = n ∧
      st.group_size.sum = done.length ∧
      st.group_mass.sum = (done.map (fun i => (gparts[i]?.map gpart.mass).getD 0)).sum ∧
      st.num_groups = (done.filter (fun i => decide (g[i]? = some i))).length ∧
      ∀ k, k < n → st.group_size[k]? = some
        (done.filter (fun i => decide ((fof_find fuel i g).getD 0 = k))).length)
    (List.range n)
    { group_size := List.replicate n 0, group_mass := List.replicate n 0, num_groups := 0 }
    ⟨by simp, by simp, by simp, by simp, by simp, by
      intro k hk
      simp [List.getElem?_replicate, hk]⟩
    (by
      rintro done i st hi ⟨hl1, hl2, hs1, hs2, hng, hcnt⟩
      have hin : i < n := List.mem_range.1 hi
      obtain ⟨r, hr⟩ := noCycle_find hv hc (by omega : i < g.length)
        (by omega : g.length ≤ fuel)
      have hrl : r < n := hg ▸ fof_find_lt_length hr
      have hrD : (fof_find fuel i g).getD 0 = r := by rw [hr]; rfl
      have hgp : gparts[i]? = some gparts[i] := List.getElem?_eq_getElem (by omega)
      have hgi : g[i]? = some g[i] := List.getElem?_eq_getElem (by omega)
      have hsz : st.group_size[r]? = some st.group_size[r] :=
        List.getElem?_eq_getElem (by omega)
      have hms : st.group_mass[r]? = some st.group_mass[r] :=
        List.getElem?_eq_getElem (by omega)
      refine ⟨{ group_size := st.group_size.set r (st.group_size[r] + 1)
                group_mass := st.group_mass.set r (st.group_mass[r] + gparts[i].mass)
                num_groups := if g[i] = i then st.num_groups + 1 else st.num_groups }, by
        unfold aggregate_step
        simp only [hr, hgp, hgi, hsz, hms], ?_⟩
      refine ⟨by simp [hl1], by simp [hl2], ?_, ?_, ?_, ?_⟩
      · simp only
        rw [sum_set_add _ _ _ _ hsz, hs1]
        simp
      · simp only
        rw [sum_set_add _ _ _ _ hms, hs2]
        simp [hgp]
      · simp only [List.filter_append, List.length_append]
        by_cases hroot : g[i] = i
        · simp [hgi, hroot, hng]
        · simp [hgi, hroot, hng]
      · intro k hk
        simp only [List.filter_append, List.length_append]
        rw [List.getElem?_set]
        by_cases hk2 : r = k
        · rw [if_pos hk2, if_pos (by omega)]
          have h1 := hcnt r hrl
          rw [hsz] at h1
          rw [Option.some.inj h1, ← hk2]
          simp [hrD]
        · rw [if_neg hk2, hcnt k hk]
          simp [hrD, hk2])
  obtain ⟨st, hrun, hl1, hl2, hs1, hs2, hng, hcnt⟩ := key
  exact ⟨st, hrun, hl1, hl2, by simpa using hs1, hs2, hng, hcnt⟩

theorem aggregate_serial_inv (g : List Nat) (n fuel : Nat)
    (hv : ValidIndices g) (hc : NoCycle g) (hg : g.length = n) (hf : n ≤ fuel) :
    ∃ sz ng, aggregate_serial fuel n g = some (sz, ng) ∧ sz.length = n ∧ sz.sum = n ∧
      ng = ((List.range n).filter (fun i => decide (g[i]? = some i))).length ∧
      ∀ k, k < n → sz[k]? = some
        ((List.range n).filter (fun i => decide ((fof_find fuel i g).getD 0 = k))).length := by
  have key := for_list_inv (aggregate_serial_step fuel g)
    (fun done st => st.1.length = n ∧ st.1.sum = done.length ∧
      st.2 = (done.filter (fun i => decide (g[i]? = some i))).length ∧
      ∀ k, k < n → st.1[k]? = some
        (done.filter (fun i => decide ((fof_find fuel i g).getD 0 = k))).length)
    (List.range n) (List.replicate n 0, 0)
    ⟨by simp, by simp, by simp, by
      intro k hk
      simp [List.getElem?_replicate, hk]⟩
    (by
      rintro done i ⟨sz, ng⟩ hi ⟨hl1, hs1, hng, hcnt⟩
      simp only at hl1 hs1 hng hcnt
      have hin : i < n := List.mem_range.1 hi
      obtain ⟨r, hr⟩ := noCycle_find hv hc (by omega : i < g.length)
        (by omega : g.length ≤ fuel)
      have hrl : r < n := hg ▸ fof_find_lt_length hr
      have hrD : (fof_find fuel i g).getD 0 = r := by rw [hr]; rfl
      have hgi : g[i]? = some g[i] := List.getElem?_eq_getElem (by omega)
      have hsz : sz[r]? = some sz[r] := List.getElem?_eq_getElem (by omega)
      refine ⟨(sz.set r (sz[r] + 1), if g[i] = i then ng + 1 else ng), by
        unfold aggregate_serial_step
        simp only [hr, hgi, hsz], ?_⟩
      refine ⟨by simp [hl1], ?_, ?_, ?_⟩
      · simp only
        rw [sum_set_add _ _ _ _ hsz, hs1]
        simp
      · simp only [List.filter_append, List.length_append]
        by_cases hroot : g[i] = i
        · simp [hgi, hroot, hng]
        · simp [hgi, hroot, hng]
      · intro k hk
        simp only [List.filter_append, List.length_append]
        rw [List.getElem?_set]
        by_cases hk2 : r = k
        · rw [if_pos hk2, if_pos (by omega)]
          have h1 := hcnt r hrl
          rw [hsz] at h1
          rw [Option.some.inj h1, ← hk2]
          simp [hrD]
        · rw [if_neg hk2, hcnt k hk]
          simp [hrD, hk2])
  obtain ⟨⟨sz, ng⟩, hrun, hl1, hs1, hng, hcnt⟩ := key
  exact ⟨sz, ng, hrun, hl1, by simpa using hs1, hng, hcnt⟩

theorem map_range_getElem {α β : Type} (l : List α) (f : α → β) (d : β) :
    (List.range l.length).map (fun i => (l[i]?.map f).getD d) = l.map f := by
  apply List.ext_getElem?
  intro j
  by_cases hj : j < l.length
  · simp [List.getElem?_map, List.getElem?_range hj, List.getElem?_eq_getElem hj]
  · rw [List.getElem?_eq_none (by simp; omega), List.getElem?_eq_none (by simp; omega)]

/-- Counting groups: the fixed points of `group_id` are exactly the values
`fof_find` takes, and exactly the indices whose group size is positive. -/
theorem group_count_facts (g : List Nat) (n fuel : Nat)
    (hv : ValidIndices g) (hc : NoCycle g) (hg : g.length = n) (hf : n ≤ fuel)
    (sz : List Nat)
    (hsz : ∀ k, k < n → sz[k]? = some
      ((List.range n).filter (fun i => decide ((fof_find fuel i g).getD 0 = k))).length) :
    ((List.range n).filter (fun i => decide (g[i]? = some i))).length =
      ((List.range n).filterMap (fun i => fof_find fuel i g)).toFinset.card ∧
    ((List.range n).filter (fun i => decide (g[i]? = some i))).length =
      ((List.range n).filter (fun k => decide (0 < sz.getD k 0))).length := by
  have hroot_find : ∀ k, k < n → g[k]? = some k → fof_find fuel k g = some k := by
    intro k hk hr
    obtain ⟨f, rfl⟩ : ∃ f, fuel = f + 1 := ⟨fuel - 1, by omega⟩
    exact fof_find_of_root hr f
  constructor
  · rw [← List.toFinset_card_of_nodup ((List.nodup_range n).filter _)]
    congr 1
    ext k
    simp only [List.mem_toFinset, List.mem_filter, List.mem_range, decide_eq_true_eq,
      List.mem_filterMap]
    constructor
    · rintro ⟨hk, hr⟩
      exact ⟨k, hk, hroot_find k hk hr⟩
    · rintro ⟨i, _, hfi⟩
      exact ⟨hg ▸ fof_find_lt_length hfi, fof_find_is_root hfi⟩
  · congr 1
    apply List.filter_congr
    intro k hk
    have hkn : k < n := List.mem_range.1 hk
    have h1 := hsz k hkn
    have h2 : sz.getD k 0 =
        ((List.range n).filter (fun i => decide ((fof_find fuel i g).getD 0 = k))).length := by
      rw [List.getD_eq_getElem?_getD, h1]
      rfl
    rw [h2]
    by_cases hr : g[k]? = some k
    · have hmem : k ∈ (List.range n).filter
          (fun i => decide ((fof_find fuel i g).getD 0 = k)) := by
        rw [List.mem_filter]
        refine ⟨hk, ?_⟩
        rw [hroot_find k hkn hr]
        simp
      have hpos := List.length_pos_of_mem hmem
      simp [hr, hpos]
    · have hnil : (List.range n).filter
          (fun i => decide ((fof_find fuel i g).getD 0 = k)) = [] := by
        rw [List.filter_eq_nil_iff]
        intro i hi hdec
        have hin : i < n := List.mem_range.1 hi
        obtain ⟨r, hfr⟩ := noCycle_find hv hc (by omega : i < g.length)
          (by omega : g.length ≤ fuel)
        rw [hfr] at hdec
        simp only [Option.getD_some, decide_eq_true_eq] at hdec
        subst hdec
        exact hr (fof_find_is_root hfr)
      simp [hr, hnil]

/-- C8. For every `group_id` array of valid indices without a parent cycle and
every particle array, the aggregation pass returns, the group sizes add up to
`nr_gparts` and the group masses add up to the total mass of the particles. -/
theorem aggregation_conserves_size_and_mass (g : List Nat) (gparts : List gpart)
    (n fuel : Nat) (hv : ValidIndices g) (hc : NoCycle g) (hg : g.length = n)
    (hp : gparts.length = n) (hf : n ≤ fuel) :
    ∃ st, aggregate fuel n gparts g = some st ∧
      st.group_size.length = n ∧ st.group_mass.length = n ∧
      st.group_size.sum = n ∧ st.group_mass.sum = (gparts.map gpart.mass).sum := by
  obtain ⟨st, hrun, hl1, hl2, hs1, hs2, _, _⟩ := aggregate_inv g gparts n fuel hv hc hg hp hf
  refine ⟨st, hrun, hl1, hl2, hs1, ?_⟩
  rw [hs2, ← hp, map_range_getElem]

theorem aggregation_conserves_size_and_mass_witness :
    ValidIndices [0, 0, 1] ∧ NoCycle [0, 0, 1] ∧ [0, 0, 1].length = 3 ∧
    [particle_at 0 0, particle_at 1 1, particle_at 2 2].length = 3 ∧ 3 ≤ 3 ∧
    ∃ st, aggregate 3 3 [particle_at 0 0, particle_at 1 1, particle_at 2 2] [0, 0, 1] =
        some st ∧
      st.group_size.length = 3 ∧ st.group_mass.length = 3 ∧
      st.group_size.sum = 3 ∧
      st.group_mass.sum =
        ([particle_at 0 0, particle_at 1 1, particle_at 2 2].map gpart.mass).sum :=
  ⟨validIndices_of_downLinked downLinked_example, noCycle_of_downLinked downLinked_example,
    rfl, rfl, by decide,
    aggregation_conserves_size_and_mass [0, 0, 1]
      [particle_at 0 0, particle_at 1 1, particle_at 2 2] 3 3
      (validIndices_of_downLinked downLinked_example)
      (noCycle_of_downLinked downLinked_example) rfl rfl (by decide)⟩

/-- C9. For every `group_id` array of valid indices without a parent cycle,
the group count `num_groups` that the aggregation passes compute (the number
of indices with `group_id[i] = i`) equals the number of distinct values of
`fof_find` over all particles and equals the number of indices whose
`group_size` is not zero; this holds for the pass of `fof_search_tree_serial`
and `fof_search_tree` and for the pass of `fof_search_serial`. -/
theorem group_count_is_number_of_groups (g : List Nat) (gparts : List gpart)
    (n fuel : Nat) (hv : ValidIndices g) (hc : NoCycle g) (hg : g.length = n)
    (hp : gparts.length = n) (hf : n ≤ fuel) :
    (∃ st, aggregate fuel n gparts g = some st ∧
      st.num_groups = ((List.range n).filter (fun i => decide (g[i]? = some i))).length ∧
      st.num_groups =
        ((List.range n).filterMap (fun i => fof_find fuel i g)).toFinset.card ∧
      st.num_groups =
        ((List.range n).filter (fun k => decide (0 < st.group_size.getD k 0))).length) ∧
    (∃ sz ng, aggregate_serial fuel n g = some (sz, ng) ∧
      ng = ((List.range n).filter (fun i => decide (g[i]? = some i))).length ∧
      ng = ((List.range n).filterMap (fun i => fof_find fuel i g)).toFinset.card ∧
      ng = ((List.range n).filter (fun k => decide (0 < sz.getD k 0))).length) := by
  constructor
  · obtain ⟨st, hrun, _, _, _, _, hng, hcnt⟩ := aggregate_inv g gparts n fuel hv hc hg hp hf
    obtain ⟨h1, h2⟩ := group_count_facts g n fuel hv hc hg hf st.group_size hcnt
    exact ⟨st, hrun, hng, hng.trans h1, hng.trans h2⟩
  · obtain ⟨sz, ng, hrun, _, _, hng, hcnt⟩ := aggregate_serial_inv g n fuel hv hc hg hf
    obtain ⟨h1, h2⟩ := group_count_facts g n fuel hv hc hg hf sz hcnt
    exact ⟨sz, ng, hrun, hng, hng.trans h1, hng.trans h2⟩

theorem group_count_is_number_of_groups_witness :
    ValidIndices [0, 0, 1] ∧ NoCycle [0, 0, 1] ∧ [0, 0, 1].length = 3 ∧
    [particle_at 0 0, particle_at 1 1, particle_at 2 2].length = 3 ∧ 3 ≤ 3 ∧
    (∃ st, aggregate 3 3 [particle_at 0 0, particle_at 1 1, particle_at 2 2] [0, 0, 1] =
        some st ∧
      st.num_groups =
        ((List.range 3).filter (fun i => decide ([0, 0, 1][i]? = some i))).length ∧
      st.num_groups =
        ((List.range 3).filterMap (fun i => fof_find 3 i [0, 0, 1])).toFinset.card ∧
      st.num_groups =
        ((List.range 3).filter (fun k => decide (0 < st.group_size.getD k 0))).length) ∧
    (∃ sz ng, aggregate_serial 3 3 [0, 0, 1] = some (sz, ng) ∧
      ng = ((List.range 3).filter (fun i => decide ([0, 0, 1][i]? = some i))).length ∧
      ng = ((List.range 3).filterMap (fun i => fof_find 3 i [0, 0, 1])).toFinset.card ∧
      ng = ((List.range 3).filter (fun k => decide (0 < sz.getD k 0))).length) :=
  ⟨validIndices_of_downLinked downLinked_example, noCycle_of_downLinked downLinked_example,
    rfl, rfl, by decide,
    group_count_is_number_of_groups [0, 0, 1]
      [particle_at 0 0, particle_at 1 1, particle_at 2 2] 3 3
      (validIndices_of_downLinked downLinked_example)
      (noCycle_of_downLinked downLinked_example) rfl rfl (by decide)⟩

/-! ## The cell distance bound -/

theorem abs_nearest_le (d L : ℚ) : |nearest d L| ≤ |d| := by
  by_cases hL : L = 0
  · subst hL
    simp [nearest]
  · rw [abs_nearest d hL]
    have h := round_le (d / L) 0
    simp only [Int.cast_zero, sub_zero] at h
    calc |L| * |d / L - (round (d / L) : ℚ)| ≤ |L| * |d / L| :=
          mul_le_mul_of_nonneg_left h (abs_nonneg L)
      _ = |d| := by rw [← abs_mul, mul_div_cancel₀ d hL]

theorem nearest_zero (L : ℚ) : nearest 0 L = 0 := by
  simp [nearest]

theorem cell_min_dist_axis_nonneg (a w b v L : ℚ) : 0 ≤ cell_min_dist_axis a w b v L := by
  unfold cell_min_dist_axis min3
  exact le_min (le_min (le_min (abs_nonneg _) (abs_nonneg _)) (abs_nonneg _)) (abs_nonneg _)

/-- Along one axis, for grid-aligned intervals, the corner bound does not
exceed the distance of any two points of the intervals. -/
theorem cell_min_dist_axis_le {a w b v L p q : ℚ} (hp : a ≤ p ∧ p ≤ a + w)
    (hq : b ≤ q ∧ q ≤ b + v) (hal : aligned_axis a w b v) :
    cell_min_dist_axis a w b v L ≤ |p - q| := by
  unfold cell_min_dist_axis min3
  rcases hal with ⟨hab, _⟩ | h | h
  · have h0 : |nearest (a - b) L| = 0 := by
      rw [hab, sub_self, nearest_zero, abs_zero]
    calc min (min (min |nearest (a - b) L| |nearest (a - (b + v)) L|)
            |nearest (a + w - b) L|) |nearest (a + w - (b + v)) L|
        ≤ |nearest (a - b) L| :=
          le_trans (min_le_left _ _) (le_trans (min_le_left _ _) (min_le_left _ _))
      _ = 0 := h0
      _ ≤ |p - q| := abs_nonneg _
  · calc min (min (min |nearest (a - b) L| |nearest (a - (b + v)) L|)
            |nearest (a + w - b) L|) |nearest (a + w - (b + v)) L|
        ≤ |nearest (a + w - b) L| := le_trans (min_le_left _ _) (min_le_right _ _)
      _ ≤ |a + w - b| := abs_nearest_le _ _
      _ = b - (a + w) := by rw [abs_of_nonpos (by linarith)]; ring
      _ ≤ q - p := by linarith [hp.2, hq.1]
      _ ≤ |p - q| := by rw [abs_sub_comm]; exact le_abs_self _
  · calc min (min (min |nearest (a - b) L| |nearest (a - (b + v)) L|)
            |nearest (a + w - b) L|) |nearest (a + w - (b + v)) L|
        ≤ |nearest (a - (b + v)) L| :=
          le_trans (min_le_left _ _) (le_trans (min_le_left _ _) (min_le_right _ _))
      _ ≤ |a - (b + v)| := abs_nearest_le _ _
      _ = a - (b + v) := abs_of_nonneg (by linarith)
      _ ≤ p - q := by linarith [hp.1, hq.2]
      _ ≤ |p - q| := le_abs_self _

theorem sq_le_of_le_abs {m d : ℚ} (h0 : 0 ≤ m) (h : m ≤ |d|) : m * m ≤ d * d := by
  rw [← abs_mul_abs_self d]
  exact mul_le_mul h h h0 (abs_nonneg d)

/-- For grid-aligned cells, `cell_min_dist` does not exceed the squared
distance of any point of the first box from any point of the second. -/
theorem cell_min_dist_le {ci cj : cell} {x y : vec3} (dim : vec3) (hx : in_box ci x)
    (hy : in_box cj y) (hal : aligned ci cj) : cell_min_dist ci cj dim ≤ r2_plain x y := by
  unfold cell_min_dist r2_plain
  simp only
  have h0 := sq_le_of_le_abs (cell_min_dist_axis_nonneg _ _ _ _ dim.x0)
    (cell_min_dist_axis_le (L := dim.x0) hx.1 hy.1 hal.1)
  have h1 := sq_le_of_le_abs (cell_min_dist_axis_nonneg _ _ _ _ dim.x1)
    (cell_min_dist_axis_le (L := dim.x1) hx.2.1 hy.2.1 hal.2.1)
  have h2 := sq_le_of_le_abs (cell_min_dist_axis_nonneg _ _ _ _ dim.x2)
    (cell_min_dist_axis_le (L := dim.x2) hx.2.2 hy.2.2 hal.2.2)
  linarith

theorem r2_plain_comm (x y : vec3) : r2_plain x y = r2_plain y x := by
  unfold r2_plain
  ring

theorem plain_linked_symm (s : space) {a b : Nat} (h : plain_linked s a b) :
    plain_linked s b a := by
  obtain ⟨xa, xb, ha, hb, hr⟩ := h
  exact ⟨xb, xa, hb, ha, by rw [r2_plain_comm]; exact hr⟩

theorem gpart_x_some (s : space) {k : Nat} (hk : k < s.gparts.length) :
    gpart_x s k = some s.gparts[k].x := by
  simp [gpart_x, List.getElem?_eq_getElem hk]

theorem plain_linked_lt (s : space) {a b : Nat} (h : plain_linked s a b) :
    a < s.gparts.length ∧ b < s.gparts.length := by
  obtain ⟨xa, xb, ha, hb, _⟩ := h
  constructor
  · by_contra hc
    simp [gpart_x, List.getElem?_eq_none (Nat.le_of_not_lt hc)] at ha
  · by_contra hc
    simp [gpart_x, List.getElem?_eq_none (Nat.le_of_not_lt hc)] at hb

/-! ## The cell linkers -/

theorem links_keeps {L : Nat → Nat → Prop} {g g2 g3 : List Nat} {A B : Nat → Prop}
    (h : Links L g g2 A B) (h2 : Refines L g2 g3) : Links L g g3 A B :=
  ⟨refines_trans h.1 h2, fun a b ha hb hl => h2.keeps _ _ (h.2 a b ha hb hl)⟩

/-- The inner loop shared by `fof_search_cell` and `fof_search_pair_cells`:
particle `a`, whose root is cached, against the partners `off + j`. -/
theorem partner_loop_spec (L : Nat → Nat → Prop) (s : space) {n : Nat}
    (hlen : s.gparts.length = n) {g : List Nat} (hd : DownLinked g) (hg : g.length = n)
    (a : Nat) (ha : a < n) (off : Nat) (js : List Nat) (hjs : ∀ j ∈ js, off + j < n)
    (pix : vec3)
    (hiff : ∀ j ∈ js, ∀ x, gpart_x s (off + j) = some x →
      (r2_plain pix x < s.l_x2 ↔ L a (off + j)))
    (fuel : Nat) (hf : n ≤ fuel) :
    ∃ g2 r2, for_list (fun j st =>
        match st.1[off + j]?, gpart_x s (off + j) with
        | some oj, some pjx => visit_atomic fuel (decide (r2_plain pix pjx < s.l_x2)) oj st
        | _, _ => none) js (g, rootOf g a) = some (g2, r2) ∧
      Refines L g g2 ∧ r2 = rootOf g2 a ∧
      ∀ j ∈ js, L a (off + j) → rootOf g2 a = rootOf g2 (off + j) := by
  have key := for_list_inv
    (fun j (st : List Nat × Nat) =>
      match st.1[off + j]?, gpart_x s (off + j) with
      | some oj, some pjx => visit_atomic fuel (decide (r2_plain pix pjx < s.l_x2)) oj st
      | _, _ => none)
    (fun done st => Refines L g st.1 ∧ st.2 = rootOf st.1 a ∧
      ∀ j ∈ done, L a (off + j) → rootOf st.1 a = rootOf st.1 (off + j))
    js (g, rootOf g a)
    ⟨refines_refl _ hd, rfl, fun j hj => by cases hj⟩
    (by
      rintro done j ⟨g1, r1⟩ hj ⟨href, hr, hcov⟩
      simp only at href hr hcov
      have hjn := hjs j hj
      have hl1 : g1.length = n := href.len.trans hg
      have hgj : g1[off + j]? = some g1[off + j] := List.getElem?_eq_getElem (by omega)
      have hxj := gpart_x_some s (show off + j < s.gparts.length by omega)
      have hojl := getElem_lt_of_downLinked href.down hgj
      simp only [hgj, hxj]
      subst hr
      obtain ⟨g2, r2, hv, href2, hr2, hhit⟩ :=
        visit_atomic_spec L href.down a (off + j) g1[off + j] fuel
          (by omega) (by omega) hojl (rootOf_step href.down hgj).symm (by omega)
          (decide (r2_plain pix s.gparts[off + j].x < s.l_x2))
          (fun h => (hiff j hj _ hxj).1 (of_decide_eq_true h))
      refine ⟨(g2, r2), hv, refines_trans href href2, hr2, ?_⟩
      intro j2 hj2 hlink
      simp only [List.mem_append, List.mem_singleton] at hj2
      cases hj2 with
      | inl hmem => exact href2.keeps _ _ (hcov j2 hmem hlink)
      | inr heq =>
        subst heq
        exact (hhit (decide_eq_true ((hiff j2 hj _ hxj).2 hlink))).1)
  obtain ⟨⟨g2, r2⟩, hrun, href, hr, hcov⟩ := key
  exact ⟨g2, r2, hrun, href, hr, hcov⟩

theorem plain_linked_iff (s : space) {a b : Nat} {xa xb : vec3} (ha : gpart_x s a = some xa)
    (hb : gpart_x s b = some xb) : r2_plain xa xb < s.l_x2 ↔ plain_linked s a b := by
  constructor
  · intro h
    exact ⟨xa, xb, ha, hb, h⟩
  · rintro ⟨ya, yb, hya, hyb, h⟩
    rw [ha] at hya
    rw [hb] at hyb
    cases hya
    cases hyb
    exact h

/-- `fof_search_cell` merges along plain links only and joins every linked
pair of particles of the cell. -/
theorem fof_search_cell_spec (s : space) {n : Nat} (hlen : s.gparts.length = n)
    {g : List Nat} (hd : DownLinked g) (hg : g.length = n) (c : cell)
    (hc : c.gparts + c.gcount ≤ n) (fuel : Nat) (hf : n ≤ fuel) :
    ∃ g2, fof_search_cell fuel s c g = some g2 ∧
      Links (plain_linked s) g g2 (in_cell c) (in_cell c) := by
  have key := for_list_inv
    (fun i g =>
      match gpart_x s (c.gparts + i), g[c.gparts + i]? with
      | some pix, some oi =>
        match fof_find fuel oi g with
        | none => none
        | some root_i =>
          (cell_inner fuel s c.gparts c.gcount i pix (g, root_i)).map Prod.fst
      | _, _ => none)
    (fun done st => Refines (plain_linked s) g st ∧
      ∀ i ∈ done, ∀ j, i < j → j < c.gcount → plain_linked s (c.gparts + i) (c.gparts + j) →
        rootOf st (c.gparts + i) = rootOf st (c.gparts + j))
    (List.range c.gcount) g
    ⟨refines_refl _ hd, fun i hi => by cases hi⟩
    (by
      rintro done i g1 hi ⟨href, hcov⟩
      have hic : i < c.gcount := List.mem_range.1 hi
      have hl1 : g1.length = n := href.len.trans hg
      have hgi : g1[c.gparts + i]? = some g1[c.gparts + i] :=
        List.getElem?_eq_getElem (by omega)
      have hxi := gpart_x_some s (show c.gparts + i < s.gparts.length by omega)
      have hoil := getElem_lt_of_downLinked href.down hgi
      obtain ⟨g2, r2, hrun, href2, _, hcov2⟩ :=
        partner_loop_spec (plain_linked s) s hlen href.down hl1 (c.gparts + i) (by omega)
          c.gparts (List.range' (i + 1) (c.gcount - (i + 1)))
          (by
            intro j hj
            rw [List.mem_range'] at hj
            obtain ⟨k, hk, rfl⟩ := hj
            omega)
          s.gparts[c.gparts + i].x
          (fun j _ x hx => plain_linked_iff s hxi hx) fuel hf
      refine ⟨g2, ?_, refines_trans href href2, ?_⟩
      · simp only [hxi, hgi]
        rw [fof_find_eq_rootOf href.down hoil (by omega), ← rootOf_step href.down hgi]
        unfold cell_inner
        simp only [hrun, Option.map_some']
      · intro i2 hi2 j hij hjc hlink
        simp only [List.mem_append, List.mem_singleton] at hi2
        cases hi2 with
        | inl hmem => exact href2.keeps _ _ (hcov i2 hmem j hij hjc hlink)
        | inr heq =>
          subst heq
          apply hcov2 j _ hlink
          rw [List.mem_range']
          exact ⟨j - (i2 + 1), by omega, by omega⟩)
  obtain ⟨g2, hrun, href, hcov⟩ := key
  refine ⟨g2, hrun, href, ?_⟩
  rintro a b ⟨ha1, ha2⟩ ⟨hb1, hb2⟩ hlink
  obtain ⟨i, rfl⟩ : ∃ i, a = c.gparts + i := ⟨a - c.gparts, by omega⟩
  obtain ⟨j, rfl⟩ : ∃ j, b = c.gparts + j := ⟨b - c.gparts, by omega⟩
  rcases Nat.lt_trichotomy i j with hlt | heq | hgt
  · exact hcov i (List.mem_range.2 (by omega)) j hlt (by omega) hlink
  · rw [heq]
  · exact (hcov j (List.mem_range.2 (by omega)) i hgt (by omega)
      (plain_linked_symm s hlink)).symm

theorem pair_shift_off (a b L : ℚ) : pair_shift false a b L = 0 := by
  simp [pair_shift]

theorem r2_plain_unshifted (x y : vec3) :
    r2_plain { x0 := x.x0 - 0, x1 := x.x1 - 0, x2 := x.x2 - 0 } y = r2_plain x y := by
  simp [r2_plain]

/-- Without periodicity, `fof_search_pair_cells` merges along plain links only
and joins every particle of `ci` with every particle of `cj` it is linked
to. -/
theorem fof_search_pair_cells_spec (s : space) (hper : s.periodic = false) {n : Nat}
    (hlen : s.gparts.length = n) {g : List Nat} (hd : DownLinked g) (hg : g.length = n)
    (ci cj : cell) (hci : ci.gparts + ci.gcount ≤ n) (hcj : cj.gparts + cj.gcount ≤ n)
    (fuel : Nat) (hf : n ≤ fuel) :
    ∃ g2, fof_search_pair_cells fuel s ci cj g = some g2 ∧
      Links (plain_linked s) g g2 (in_cell ci) (in_cell cj) := by
  unfold fof_search_pair_cells
  simp only [hper, pair_shift_off]
  have key := for_list_inv
    (fun i g =>
      match gpart_x s (ci.gparts + i), g[ci.gparts + i]? with
      | some x, some oi =>
        match fof_find fuel oi g with
        | none => none
        | some root_i =>
          (pair_inner fuel s cj { x0 := x.x0 - 0, x1 := x.x1 - 0, x2 := x.x2 - 0 }
            (g, root_i)).map Prod.fst
      | _, _ => none)
    (fun done st => Refines (plain_linked s) g st ∧
      ∀ i ∈ done, ∀ j, j < cj.gcount → plain_linked s (ci.gparts + i) (cj.gparts + j) →
        rootOf st (ci.gparts + i) = rootOf st (cj.gparts + j))
    (List.range ci.gcount) g
    ⟨refines_refl _ hd, fun i hi => by cases hi⟩
    (by
      rintro done i g1 hi ⟨href, hcov⟩
      have hic : i < ci.gcount := List.mem_range.1 hi
      have hl1 : g1.length = n := href.len.trans hg
      have hgi : g1[ci.gparts + i]? = some g1[ci.gparts + i] :=
        List.getElem?_eq_getElem (by omega)
      have hxi := gpart_x_some s (show ci.gparts + i < s.gparts.length by omega)
      have hoil := getElem_lt_of_downLinked href.down hgi
      obtain ⟨g2, r2, hrun, href2, _, hcov2⟩ :=
        partner_loop_spec (plain_linked s) s hlen href.down hl1 (ci.gparts + i) (by omega)
          cj.gparts (List.range cj.gcount)
          (by
            intro j hj
            have := List.mem_range.1 hj
            omega)
          { x0 := s.gparts[ci.gparts + i].x.x0 - 0, x1 := s.gparts[ci.gparts + i].x.x1 - 0,
            x2 := s.gparts[ci.gparts + i].x.x2 - 0 }
          (fun j _ x hx => by
            rw [r2_plain_unshifted]
            exact plain_linked_iff s hxi hx) fuel hf
      refine ⟨g2, ?_, refines_trans href href2, ?_⟩
      · simp only [hxi, hgi]
        rw [fof_find_eq_rootOf href.down hoil (by omega), ← rootOf_step href.down hgi]
        unfold pair_inner
        simp only [hrun, Option.map_some']
      · intro i2 hi2 j hjc hlink
        simp only [List.mem_append, List.mem_singleton] at hi2
        cases hi2 with
        | inl hmem => exact href2.keeps _ _ (hcov i2 hmem j hjc hlink)
        | inr heq =>
          subst heq
          exact hcov2 j (List.mem_range.2 hjc) hlink)
  obtain ⟨g2, hrun, href, hcov⟩ := key
  refine ⟨g2, hrun, href, ?_⟩
  rintro a b ⟨ha1, ha2⟩ ⟨hb1, hb2⟩ hlink
  obtain ⟨i, rfl⟩ : ∃ i, a = ci.gparts + i := ⟨a - ci.gparts, by omega⟩
  obtain ⟨j, rfl⟩ : ∃ j, b = cj.gparts + j := ⟨b - cj.gparts, by omega⟩
  exact hcov i (List.mem_range.2 (by omega)) j (by omega) hlink

/-! ## The recursion over pairs of cells -/

theorem for_cells_inv_aux {α σ : Type} (body : α → σ → Outcome σ)
    (Inv : List α → σ → Prop) (l : List α)
    (hstep : ∀ done x st, x ∈ l → Inv done st → ∃ st2, body x st = Outcome.ok st2 ∧
      Inv (done ++ [x]) st2) :
    ∀ (rest done : List α) (st : σ), Inv done st → (∀ x ∈ rest, x ∈ l) →
        ∃ st2, for_cells body rest st = Outcome.ok st2 ∧ Inv (done ++ rest) st2 := by
  intro rest
  induction rest with
  | nil =>
    intro done st h0 _
    exact ⟨st, rfl, by simpa using h0⟩
  | cons x xs ih =>
    intro done st h0 hmem
    obtain ⟨st2, hb, hinv⟩ := hstep done x st (hmem x (List.mem_cons_self x xs)) h0
    obtain ⟨st3, hf, hinv3⟩ := ih (done ++ [x]) st2 hinv
      (fun y hy => hmem y (List.mem_cons_of_mem x hy))
    refine ⟨st3, ?_, ?_⟩
    · simp only [for_cells, hb]
      exact hf
    · simpa using hinv3

/-- Invariant rule for `for_cells`. -/
theorem for_cells_inv {α σ : Type} (body : α → σ → Outcome σ) (Inv : List α → σ → Prop)
    (l : List α) (st : σ) (h0 : Inv [] st)
    (hstep : ∀ done x st, x ∈ l → Inv done st → ∃ st2, body x st = Outcome.ok st2 ∧
      Inv (done ++ [x]) st2) :
    ∃ st2, for_cells body l st = Outcome.ok st2 ∧ Inv l st2 := by
  simpa using for_cells_inv_aux body Inv l hstep l [] st h0 (fun _ h => h)

theorem cell_wf_range {s : space} {d : Nat} {c : cell} (h : cell_wf s d c) :
    c.gparts + c.gcount ≤ s.nr_gparts := by
  cases d with
  | zero => exact absurd h (by simp [cell_wf])
  | succ d => exact h.1

theorem cell_wf_box {s : space} {d : Nat} {c : cell} (h : cell_wf s d c) {k : Nat}
    {x : vec3} (hk : in_cell c k) (hx : gpart_x s k = some x) : in_box c x := by
  cases d with
  | zero => exact absurd h (by simp [cell_wf])
  | succ d => exact h.2.1 k x hk hx

/-- A pruned pair of cells holds no link. -/
theorem pruned_pair_no_link {s : space} {d : Nat} {ci cj : cell} (hwi : cell_wf s d ci)
    (hwj : cell_wf s d cj) (hal : aligned ci cj) (dim : vec3)
    (hprune : cell_min_dist ci cj dim > s.l_x2) {a b : Nat} (ha : in_cell ci a)
    (hb : in_cell cj b) : ¬ plain_linked s a b := by
  rintro ⟨xa, xb, hxa, hxb, hr⟩
  have h1 := cell_min_dist_le dim (cell_wf_box hwi ha hxa) (cell_wf_box hwj hb hxb) hal
  have h2 : s.l_x2 < cell_min_dist ci cj dim := hprune
  linarith

/-- `rec_fof_search_pair` on a well-formed pair of cells, without periodicity:
it returns normally, merges along plain links only, and joins every particle
of `ci` with every particle of `cj` it is linked to; pruning loses no link. -/
theorem rec_fof_search_pair_spec (s : space) (hper : s.periodic = false) {n : Nat}
    (hlen : s.gparts.length = n) (hn : s.nr_gparts = n) (fuel : Nat) (hf : n ≤ fuel) :
    ∀ d ci cj, pair_wf d ci cj → cell_wf s d ci → cell_wf s d cj →
      ∀ depth, d ≤ depth → ∀ g, DownLinked g → g.length = n →
        ∃ g2, rec_fof_search_pair fuel depth ci cj s s.dim s.l_x2 g = Outcome.ok g2 ∧
          Links (plain_linked s) g g2 (in_cell ci) (in_cell cj) := by
  intro d
  induction d with
  | zero =>
    intro ci cj hp
    exact absurd hp (by simp [pair_wf])
  | succ d ih =>
    intro ci cj hp hwi hwj depth hdepth g hd hg
    obtain ⟨depth, rfl⟩ : ∃ k, depth = k + 1 := ⟨depth - 1, by omega⟩
    obtain ⟨haddr, hal, hkids⟩ := hp
    simp only [rec_fof_search_pair]
    by_cases hprune : cell_min_dist ci cj s.dim > s.l_x2
    · rw [if_pos hprune]
      refine ⟨g, rfl, refines_refl _ hd, ?_⟩
      intro a b ha hb hlink
      exact absurd hlink (pruned_pair_no_link hwi hwj hal s.dim hprune ha hb)
    · rw [if_neg hprune]
      by_cases hsplit : (ci.split && cj.split) = true
      · rw [if_pos hsplit]
        simp only [Bool.and_eq_true] at hsplit
        obtain ⟨hsi, hsj⟩ := hsplit
        obtain ⟨_, _, hci⟩ := hwi
        obtain ⟨_, _, hcj⟩ := hwj
        obtain ⟨hci1, hci2⟩ := hci hsi
        obtain ⟨hcj1, hcj2⟩ := hcj hsj
        have key := for_cells_inv
          (fun pk g =>
            match pk with
            | none => Outcome.ok g
            | some ck =>
              for_cells (fun pl g =>
                  match pl with
                  | none => Outcome.ok g
                  | some cl => rec_fof_search_pair fuel depth ck cl s s.dim s.l_x2 g)
                cj.progeny g)
          (fun done st => Refines (plain_linked s) g st ∧
            ∀ ck cl, some ck ∈ done → some cl ∈ cj.progeny → ∀ a b, in_cell ck a →
              in_cell cl b → plain_linked s a b → rootOf st a = rootOf st b)
          ci.progeny g
          ⟨refines_refl _ hd, fun ck cl h => by cases h⟩
          (by
            rintro done pk g1 hpk ⟨href, hcov⟩
            cases pk with
            | none =>
              refine ⟨g1, rfl, href, ?_⟩
              intro ck cl hck
              simp only [List.mem_append, List.mem_singleton] at hck
              cases hck with
              | inl h => exact hcov ck cl h
              | inr h => cases h
            | some ck =>
              have inner := for_cells_inv
                (fun pl g =>
                  match pl with
                  | none => Outcome.ok g
                  | some cl => rec_fof_search_pair fuel depth ck cl s s.dim s.l_x2 g)
                (fun done2 st => Refines (plain_linked s) g1 st ∧
                  ∀ cl, some cl ∈ done2 → ∀ a b, in_cell ck a →
                    in_cell cl b → plain_linked s a b → rootOf st a = rootOf st b)
                cj.progeny g1
                ⟨refines_refl _ href.down, fun cl h => by cases h⟩
                (by
                  rintro done2 pl g2 hpl ⟨href2, hcov2⟩
                  cases pl with
                  | none =>
                    refine ⟨g2, rfl, href2, ?_⟩
                    intro cl hcl
                    simp only [List.mem_append, List.mem_singleton] at hcl
                    cases hcl with
                    | inl h => exact hcov2 cl h
                    | inr h => cases h
                  | some cl =>
                    obtain ⟨g3, hrun, href3, hcov3⟩ :=
                      ih ck cl (hkids hsi hsj ck cl hpk hpl) (hci1 ck hpk).1 (hcj1 cl hpl).1
                        depth (by omega) g2 href2.down
                        (href2.len.trans (href.len.trans hg))
                    refine ⟨g3, hrun, refines_trans href2 href3, ?_⟩
                    intro cl2 hcl2
                    simp only [List.mem_append, List.mem_singleton] at hcl2
                    cases hcl2 with
                    | inl h =>
                      intro a b ha hb hl
                      exact href3.keeps _ _ (hcov2 cl2 h a b ha hb hl)
                    | inr h =>
                      cases h
                      exact hcov3)
              obtain ⟨g2, hrun, href2, hcov2⟩ := inner
              refine ⟨g2, hrun, refines_trans href href2, ?_⟩
              intro ck2 cl hck2 hcl
              simp only [List.mem_append, List.mem_singleton] at hck2
              cases hck2 with
              | inl h =>
                intro a b ha hb hl
                exact href2.keeps _ _ (hcov ck2 cl h hcl a b ha hb hl)
              | inr h =>
                cases h
                exact hcov2 cl hcl)
        obtain ⟨g2, hrun, href, hcov⟩ := key
        refine ⟨g2, hrun, href, ?_⟩
        intro a b ha hb hlink
        obtain ⟨ck, hck, hack⟩ := hci2 a ha
        obtain ⟨cl, hcl, hbcl⟩ := hcj2 b hb
        exact hcov ck cl hck hcl a b hack hbcl hlink
      · rw [if_neg hsplit, if_pos haddr]
        obtain ⟨g2, hrun, hlinks⟩ :=
          fof_search_pair_cells_spec s hper hlen hd hg ci cj
            (hn ▸ cell_wf_range hwi) (hn ▸ cell_wf_range hwj) fuel hf
        exact ⟨g2, by rw [hrun]; rfl, hlinks⟩

/-! ## The recursion over one cell -/

/-- The loop over the children of a cell: with a self recursion and a pair
recursion that meet their specifications on the listed slots, it joins every
linked pair of particles of the listed children. -/
theorem progeny_loop_spec (L : Nat → Nat → Prop) (hsymm : ∀ a b, L a b → L b a) (n : Nat)
    (self_rec : cell → List Nat → Outcome (List Nat))
    (pair_rec : cell → cell → List Nat → Outcome (List Nat)) :
    ∀ (ps : List (Option cell)),
      (∀ ck, some ck ∈ ps → ∀ g, DownLinked g → g.length = n →
        ∃ g2, self_rec ck g = Outcome.ok g2 ∧ Links L g g2 (in_cell ck) (in_cell ck)) →
      List.Pairwise (fun a b => ∀ g, DownLinked g → g.length = n →
        ∃ g2, pair_rec a b g = Outcome.ok g2 ∧ Links L g g2 (in_cell a) (in_cell b))
        (ps.filterMap id) →
      ∀ g, DownLinked g → g.length = n →
        ∃ g2, progeny_loop self_rec pair_rec ps g = Outcome.ok g2 ∧ Refines L g g2 ∧
          ∀ ck cl, some ck ∈ ps → some cl ∈ ps → ∀ a b, in_cell ck a → in_cell cl b →
            L a b → rootOf g2 a = rootOf g2 b := by
  intro ps
  induction ps with
  | nil =>
    intro _ _ g hd _
    exact ⟨g, rfl, refines_refl _ hd, fun ck cl h => by cases h⟩
  | cons p rest ih =>
    intro hself hpair g hd hg
    cases p with
    | none =>
      have hfm : (none :: rest).filterMap id = rest.filterMap id := by
        simp [List.filterMap_cons]
      rw [hfm] at hpair
      obtain ⟨g2, hrun, href, hcov⟩ :=
        ih (fun ck h => hself ck (List.mem_cons_of_mem _ h)) hpair g hd hg
      refine ⟨g2, by simpa only [progeny_loop] using hrun, href, ?_⟩
      intro ck cl hck hcl
      simp only [List.mem_cons, reduceCtorEq, false_or] at hck hcl
      exact hcov ck cl hck hcl
    | some ck =>
      have hfm : (some ck :: rest).filterMap id = ck :: rest.filterMap id := by
        simp [List.filterMap_cons]
      rw [hfm, List.pairwise_cons] at hpair
      obtain ⟨hpk, hprest⟩ := hpair
      obtain ⟨g1, hrun1, href1, hcov1⟩ := hself ck (List.mem_cons_self _ _) g hd hg
      have hl1 : g1.length = n := href1.len.trans hg
      have inner := for_cells_inv
        (fun pl g =>
          match pl with
          | none => Outcome.ok g
          | some cl => pair_rec ck cl g)
        (fun done st => Refines L g1 st ∧
          ∀ cl, some cl ∈ done → ∀ a b, in_cell ck a → in_cell cl b → L a b →
            rootOf st a = rootOf st b)
        rest g1
        ⟨refines_refl _ href1.down, fun cl h => by cases h⟩
        (by
          rintro done pl g2 hpl ⟨href2, hcov2⟩
          cases pl with
          | none =>
            refine ⟨g2, rfl, href2, ?_⟩
            intro cl hcl
            simp only [List.mem_append, List.mem_singleton] at hcl
            cases hcl with
            | inl h => exact hcov2 cl h
            | inr h => cases h
          | some cl =>
            have hmem : cl ∈ rest.filterMap id := by
              rw [List.mem_filterMap]
              exact ⟨some cl, hpl, rfl⟩
            obtain ⟨g3, hrun3, href3, hcov3⟩ :=
              hpk cl hmem g2 href2.down (href2.len.trans hl1)
            refine ⟨g3, hrun3, refines_trans href2 href3, ?_⟩
            intro cl2 hcl2
            simp only [List.mem_append, List.mem_singleton] at hcl2
            cases hcl2 with
            | inl h =>
              intro a b ha hb hl
              exact href3.keeps _ _ (hcov2 cl2 h a b ha hb hl)
            | inr h =>
              cases h
              exact hcov3)
      obtain ⟨g2, hrun2, href2, hcov2⟩ := inner
      obtain ⟨g3, hrun3, href3, hcov3⟩ :=
        ih (fun c h => hself c (List.mem_cons_of_mem _ h)) hprest g2 href2.down
          (href2.len.trans hl1)
      refine ⟨g3, ?_, refines_trans href1 (refines_trans href2 href3), ?_⟩
      · simp only [progeny_loop, hrun1, hrun2]
        exact hrun3
      · intro x y hx hy a b ha hb hl
        simp only [List.mem_cons, Option.some.injEq] at hx hy
        rcases hx with rfl | hx
        · rcases hy with rfl | hy
          · exact href3.keeps _ _ (href2.keeps _ _ (hcov1 a b ha hb hl))
          · exact href3.keeps _ _ (hcov2 y hy a b ha hb hl)
        · rcases hy with rfl | hy
          · exact (href3.keeps _ _ (hcov2 x hx b a hb ha (hsymm a b hl))).symm
          · exact hcov3 x y hx hy a b ha hb hl

/-- `rec_fof_search_self` on a well-formed cell, without periodicity: it
returns normally, merges along plain links only, and joins every linked pair
of particles of the cell. -/
theorem rec_fof_search_self_spec (s : space) (hper : s.periodic = false) {n : Nat}
    (hlen : s.gparts.length = n) (hn : s.nr_gparts = n) (fuel : Nat) (hf : n ≤ fuel) :
    ∀ d c, cell_wf s d c → siblings_wf d c →
      ∀ depth, d ≤ depth → ∀ g, DownLinked g → g.length = n →
        ∃ g2, rec_fof_search_self fuel depth c s s.dim s.l_x2 g = Outcome.ok g2 ∧
          Links (plain_linked s) g g2 (in_cell c) (in_cell c) := by
  intro d
  induction d with
  | zero =>
    intro c hw
    exact absurd hw (by simp [cell_wf])
  | succ d ih =>
    intro c hw hsib depth hdepth g hd hg
    obtain ⟨depth, rfl⟩ : ∃ k, depth = k + 1 := ⟨depth - 1, by omega⟩
    simp only [rec_fof_search_self]
    by_cases hsplit : c.split = true
    · rw [if_pos hsplit]
      obtain ⟨_, _, hkids⟩ := hw
      obtain ⟨hk1, hk2⟩ := hkids hsplit
      obtain ⟨hs1, hs2⟩ := hsib hsplit
      obtain ⟨g2, hrun, href, hcov⟩ :=
        progeny_loop_spec (plain_linked s) (fun _ _ h => plain_linked_symm s h) n
          (fun c g => rec_fof_search_self fuel depth c s s.dim s.l_x2 g)
          (fun a b g => rec_fof_search_pair fuel depth a b s s.dim s.l_x2 g)
          c.progeny
          (fun ck hck g1 hd1 hg1 =>
            ih ck (hk1 ck hck).1 (hs2 ck hck) depth (by omega) g1 hd1 hg1)
          (List.Pairwise.imp_of_mem
            (fun {a b} ha hb hp g1 hd1 hg1 => by
              rw [List.mem_filterMap] at ha hb
              obtain ⟨pa, hpa, rfl⟩ := ha
              obtain ⟨pb, hpb, rfl⟩ := hb
              simp only [id] at hpa hpb hp ⊢
              exact rec_fof_search_pair_spec s hper hlen hn fuel hf d _ _ hp
                (hk1 _ hpa).1 (hk1 _ hpb).1 depth (by omega) g1 hd1 hg1)
            hs1)
          g hd hg
      refine ⟨g2, hrun, href, ?_⟩
      intro a b ha hb hl
      obtain ⟨ck, hck, hack⟩ := hk2 a ha
      obtain ⟨cl, hcl, hbcl⟩ := hk2 b hb
      exact hcov ck cl hck hcl a b hack hbcl hl
    · rw [if_neg hsplit]
      obtain ⟨g2, hrun, hlinks⟩ :=
        fof_search_cell_spec s hlen hd hg c (hn ▸ cell_wf_range hw) fuel hf
      exact ⟨g2, by rw [hrun]; rfl, hlinks⟩

/-! ## The loop over the top-level cells -/

theorem in_cell_empty {c : cell} (h : c.gcount = 0) (k : Nat) : ¬ in_cell c k := by
  rintro ⟨h1, h2⟩
  omega

theorem top_cells_loop_spec (s : space) (hper : s.periodic = false) {n : Nat}
    (hlen : s.gparts.length = n) (hn : s.nr_gparts = n) (fuel : Nat) (hf : n ≤ fuel)
    (engine_rank : Int) (d depth : Nat) (hdepth : d ≤ depth) :
    ∀ (cs : List cell), (∀ c ∈ cs, c.nodeID = engine_rank) →
      (∀ c ∈ cs, cell_wf s d c ∧ siblings_wf d c) →
      List.Pairwise (fun a b => pair_wf d a b) cs →
      ∀ g, DownLinked g → g.length = n →
        ∃ g2, top_cells_loop fuel depth engine_rank s cs g = Outcome.ok g2 ∧
          Refines (plain_linked s) g g2 ∧
          ∀ ci cj, ci ∈ cs → cj ∈ cs → ∀ a b, in_cell ci a → in_cell cj b →
            plain_linked s a b → rootOf g2 a = rootOf g2 b := by
  intro cs
  induction cs with
  | nil =>
    intro _ _ _ g hd _
    exact ⟨g, rfl, refines_refl _ hd, fun ci cj h => by cases h⟩
  | cons ci rest ih =>
    intro hrank hwf hpair g hd hg
    rw [List.pairwise_cons] at hpair
    obtain ⟨hpi, hprest⟩ := hpair
    have hri : ci.nodeID = engine_rank := hrank ci (List.mem_cons_self _ _)
    simp only [top_cells_loop, hri, if_true]
    by_cases hempty : ci.gcount = 0
    · rw [if_pos hempty]
      obtain ⟨g2, hrun, href, hcov⟩ :=
        ih (fun c h => hrank c (List.mem_cons_of_mem _ h))
          (fun c h => hwf c (List.mem_cons_of_mem _ h)) hprest g hd hg
      refine ⟨g2, hrun, href, ?_⟩
      intro x y hx hy a b ha hb hl
      simp only [List.mem_cons] at hx hy
      rcases hx with rfl | hx
      · exact absurd ha (in_cell_empty hempty a)
      · rcases hy with rfl | hy
        · exact absurd hb (in_cell_empty hempty b)
        · exact hcov x y hx hy a b ha hb hl
    · rw [if_neg hempty]
      obtain ⟨hwi, hsi⟩ := hwf ci (List.mem_cons_self _ _)
      obtain ⟨g1, hrun1, href1, hcov1⟩ :=
        rec_fof_search_self_spec s hper hlen hn fuel hf d ci hwi hsi depth hdepth g hd hg
      have hl1 : g1.length = n := href1.len.trans hg
      have inner := for_cells_inv
        (fun (cj : cell) g =>
          if cj.nodeID = engine_rank then
            if cj.gcount = 0 then Outcome.ok g
            else rec_fof_search_pair fuel depth ci cj s s.dim s.l_x2 g
          else Outcome.ok g)
        (fun done st => Refines (plain_linked s) g1 st ∧
          ∀ cj, cj ∈ done → ∀ a b, in_cell ci a → in_cell cj b → plain_linked s a b →
            rootOf st a = rootOf st b)
        rest g1
        ⟨refines_refl _ href1.down, fun cj h => by cases h⟩
        (by
          rintro done cj g2 hcj ⟨href2, hcov2⟩
          have hrj : cj.nodeID = engine_rank := hrank cj (List.mem_cons_of_mem _ hcj)
          simp only [hrj, if_true]
          by_cases hej : cj.gcount = 0
          · rw [if_pos hej]
            refine ⟨g2, rfl, href2, ?_⟩
            intro c2 hc2
            simp only [List.mem_append, List.mem_singleton] at hc2
            cases hc2 with
            | inl h => exact hcov2 c2 h
            | inr h =>
              subst h
              intro a b _ hb _
              exact absurd hb (in_cell_empty hej b)
          · rw [if_neg hej]
            obtain ⟨g3, hrun3, href3, hcov3⟩ :=
              rec_fof_search_pair_spec s hper hlen hn fuel hf d ci cj (hpi cj hcj) hwi
                (hwf cj (List.mem_cons_of_mem _ hcj)).1 depth hdepth g2 href2.down
                (href2.len.trans hl1)
            refine ⟨g3, hrun3, refines_trans href2 href3, ?_⟩
            intro c2 hc2
            simp only [List.mem_append, List.mem_singleton] at hc2
            cases hc2 with
            | inl h =>
              intro a b ha hb hl
              exact href3.keeps _ _ (hcov2 c2 h a b ha hb hl)
            | inr h =>
              subst h
              exact hcov3)
      obtain ⟨g2, hrun2, href2, hcov2⟩ := inner
      obtain ⟨g3, hrun3, href3, hcov3⟩ :=
        ih (fun c h => hrank c (List.mem_cons_of_mem _ h))
          (fun c h => hwf c (List.mem_cons_of_mem _ h)) hprest g2 href2.down
          (href2.len.trans hl1)
      refine ⟨g3, ?_, refines_trans href1 (refines_trans href2 href3), ?_⟩
      · simp only [hrun1, hrun2]
        exact hrun3
      · intro x y hx hy a b ha hb hl
        simp only [List.mem_cons] at hx hy
        rcases hx with rfl | hx
        · rcases hy with rfl | hy
          · exact href3.keeps _ _ (href2.keeps _ _ (hcov1 a b ha hb hl))
          · exact href3.keeps _ _ (hcov2 y hy a b ha hb hl)
        · rcases hy with rfl | hy
          · exact (href3.keeps _ _
              (hcov2 x hx b a hb ha (plain_linked_symm s hl))).symm
          · exact hcov3 x y hx hy a b ha hb hl

theorem joined_identity_reflTransGen (L : Nat → Nat → Prop) (hsymm : ∀ a b, L a b → L b a)
    (n : Nat) {x y : Nat} (h : Joined L (identity_group_id n) x y) :
    Relation.ReflTransGen L x y := by
  have hid : ∀ k, rootOf (identity_group_id n) k = k := by
    intro k
    by_cases hk : k < n
    · exact rootOf_identity hk
    · exact rootOf_outside (by rw [length_identity]; omega)
  induction h with
  | rel a b hab =>
    cases hab with
    | inl hs =>
      rw [hid a, hid b] at hs
      subst hs
      exact Relation.ReflTransGen.refl
    | inr hl => exact Relation.ReflTransGen.single hl
  | refl a => exact Relation.ReflTransGen.refl
  | symm a b _ ih => exact Relation.ReflTransGen.symmetric (fun _ _ h => hsymm _ _ h) ih
  | trans a b c _ _ ih1 ih2 => exact Relation.ReflTransGen.trans ih1 ih2

theorem reflTransGen_same_root (L : Nat → Nat → Prop) {g : List Nat}
    (hcov : ∀ a b, L a b → rootOf g a = rootOf g b) {x y : Nat}
    (h : Relation.ReflTransGen L x y) : rootOf g x = rootOf g y := by
  induction h with
  | refl => rfl
  | @tail b c _ hstep ih => rw [ih, hcov b c hstep]

/-- The cell loop of `fof_search_tree_serial` on a well-formed grid-aligned
tree without periodicity, from the freshly initialised array. -/
theorem tree_serial_cell_loop_spec (s : space) (engine_rank : Int) (d fuel depth : Nat)
    (hper : s.periodic = false) (hwf : tree_wf s engine_rank d)
    (hf : s.nr_gparts ≤ fuel) (hdepth : d ≤ depth) :
    ∃ g, tree_serial_cell_loop fuel depth engine_rank s = Outcome.ok g ∧
      DownLinked g ∧ g.length = s.nr_gparts ∧
      ∀ i j, rootOf g i = rootOf g j ↔ Relation.ReflTransGen (plain_linked s) i j := by
  obtain ⟨g, hrun, href, hcov⟩ :=
    top_cells_loop_spec s hper hwf.parts rfl fuel hf engine_rank d depth hdepth
      s.cells_top hwf.rank hwf.cells hwf.pairs (identity_group_id s.nr_gparts)
      (downLinked_identity _) (length_identity _)
  refine ⟨g, ?_, href.down, href.len.trans (length_identity _), ?_⟩
  · unfold tree_serial_cell_loop
    rw [hwf.count, List.take_length, fof_search_tree_start_identity]
    exact hrun
  · intro i j
    constructor
    · intro h
      exact joined_identity_reflTransGen _ (fun _ _ h => plain_linked_symm s h) _
        (href.sound i j h)
    · intro h
      apply reflTransGen_same_root (plain_linked s) _ h
      intro a b hl
      obtain ⟨ha, hb⟩ := plain_linked_lt s hl
      rw [hwf.parts] at ha hb
      obtain ⟨ca, hca, hia⟩ := hwf.cover a ha
      obtain ⟨cb, hcb, hib⟩ := hwf.cover b hb
      exact hcov ca cb hca hcb a b hia hib hl

/-! ## Overlapping cells of equal width -/

theorem overlap_cell_min_dist :
    cell_min_dist (leaf_cell 0 0 2 1 0) (leaf_cell 1 1 2 1 1)
      { x0 := 100, x1 := 100, x2 := 100 } = 1 := by
  have e1 : nearest (0 - 1) 100 = 0 - 1 :=
    nearest_eq_self (by norm_num) (by norm_num) (by norm_num)
  have e2 : nearest (0 - (1 + 2)) 100 = 0 - (1 + 2) :=
    nearest_eq_self (by norm_num) (by norm_num) (by norm_num)
  have e3 : nearest (0 + 2 - 1) 100 = 0 + 2 - 1 :=
    nearest_eq_self (by norm_num) (by norm_num) (by norm_num)
  have e4 : nearest (0 + 2 - (1 + 2)) 100 = 0 + 2 - (1 + 2) :=
    nearest_eq_self (by norm_num) (by norm_num) (by norm_num)
  have e5 : nearest (0 - 0) 100 = 0 := by simp [nearest]
  have e6 : nearest (0 - (0 + 2)) 100 = 0 - (0 + 2) :=
    nearest_eq_self (by norm_num) (by norm_num) (by norm_num)
  have e7 : nearest (0 + 2 - 0) 100 = 0 + 2 - 0 :=
    nearest_eq_self (by norm_num) (by norm_num) (by norm_num)
  have e8 : nearest (0 + 2 - (0 + 2)) 100 = 0 := by simp [nearest]
  simp only [cell_min_dist, cell_min_dist_axis, min3, leaf_cell, cell.loc, cell.width,
    e1, e2, e3, e4, e5, e6, e7, e8]
  norm_num

theorem leaf_cell_wf (s : space) (d addr : Nat) (x w : ℚ) (count first : Nat)
    (hr : first + count ≤ s.nr_gparts)
    (hb : ∀ k p, first ≤ k → k < first + count → gpart_x s k = some p →
      in_box (leaf_cell addr x w count first) p) :
    cell_wf s (d + 1) (leaf_cell addr x w count first) ∧
      siblings_wf (d + 1) (leaf_cell addr x w count first) := by
  refine ⟨⟨hr, ?_, ?_⟩, ?_⟩
  · intro k p hk hp
    exact hb k p hk.1 hk.2 hp
  · intro h
    cases h
  · intro h
    cases h

theorem grid_leaf_pair (d a b : Nat) (x y w : ℚ) (ca fa cb fb : Nat) (hab : a ≠ b)
    (hal : x + w ≤ y) :
    pair_wf (d + 1) (leaf_cell a x w ca fa) (leaf_cell b y w cb fb) := by
  refine ⟨hab, ⟨Or.inr (Or.inl hal), Or.inl ⟨rfl, rfl⟩, Or.inl ⟨rfl, rfl⟩⟩, ?_⟩
  intro h
  cases h

theorem grid_space_wf : tree_wf grid_space 0 2 := by
  have hA0 : cell_wf grid_space 1 (leaf_cell 2 0 2 1 0) ∧
      siblings_wf 1 (leaf_cell 2 0 2 1 0) := by
    apply leaf_cell_wf grid_space 0
    · decide
    · intro k p h1 h2 hp
      have hk : k = 0 := by omega
      subst hk
      simp only [gpart_x, grid_space, List.getElem?_cons_zero, Option.some.injEq] at hp
      subst hp
      norm_num [in_box, leaf_cell, cell.loc, cell.width, particle_at]
  have hA1 : cell_wf grid_space 1 (leaf_cell 3 2 2 1 1) ∧
      siblings_wf 1 (leaf_cell 3 2 2 1 1) := by
    apply leaf_cell_wf grid_space 0
    · decide
    · intro k p h1 h2 hp
      have hk : k = 1 := by omega
      subst hk
      simp only [gpart_x, grid_space, List.getElem?_cons_succ, List.getElem?_cons_zero,
        Option.some.injEq] at hp
      subst hp
      norm_num [in_box, leaf_cell, cell.loc, cell.width, particle_at]
  have hB : cell_wf grid_space 2 (leaf_cell 1 4 4 1 2) ∧
      siblings_wf 2 (leaf_cell 1 4 4 1 2) := by
    apply leaf_cell_wf grid_space 1
    · decide
    · intro k p h1 h2 hp
      have hk : k = 2 := by omega
      subst hk
      simp only [gpart_x, grid_space, List.getElem?_cons_succ, List.getElem?_cons_zero,
        Option.some.injEq] at hp
      subst hp
      norm_num [in_box, leaf_cell, cell.loc, cell.width, particle_at]
  refine ⟨rfl, rfl, ?_, ?_, ?_, ?_⟩
  · intro c hc
    simp only [grid_space, List.mem_cons, List.mem_singleton, List.not_mem_nil,
      or_false] at hc
    rcases hc with rfl | rfl <;> rfl
  · intro c hc
    simp only [grid_space, List.mem_cons, List.mem_singleton, List.not_mem_nil,
      or_false] at hc
    rcases hc with rfl | rfl
    · refine ⟨⟨by decide, ?_, ?_⟩, ?_⟩
      · rintro k p ⟨h1, h2⟩ hp
        simp only [cell.gparts, cell.gcount] at h1 h2
        have hk : k = 0 ∨ k = 1 := by omega
        rcases hk with rfl | rfl
        · simp only [gpart_x, grid_space, List.getElem?_cons_zero, Option.some.injEq] at hp
          subst hp
          norm_num [in_box, cell.loc, cell.width, particle_at]
        · simp only [gpart_x, grid_space, List.getElem?_cons_succ, List.getElem?_cons_zero,
            Option.some.injEq] at hp
          subst hp
          norm_num [in_box, cell.loc, cell.width, particle_at]
      · intro _
        constructor
        · intro ck hck
          simp only [cell.progeny, List.mem_cons, Option.some.injEq, reduceCtorEq,
            List.not_mem_nil, or_false] at hck
          rcases hck with rfl | rfl
          · refine ⟨hA0.1, ?_⟩
            rintro k ⟨h1, h2⟩
            simp only [leaf_cell, cell.gparts, cell.gcount] at h1 h2
            exact ⟨by simp only [cell.gparts]; omega, by simp only [cell.gparts, cell.gcount]; omega⟩
          · refine ⟨hA1.1, ?_⟩
            rintro k ⟨h1, h2⟩
            simp only [leaf_cell, cell.gparts, cell.gcount] at h1 h2
            exact ⟨by simp only [cell.gparts]; omega, by simp only [cell.gparts, cell.gcount]; omega⟩
        · rintro k ⟨h1, h2⟩
          simp only [cell.gparts, cell.gcount] at h1 h2
          have hk : k = 0 ∨ k = 1 := by omega
          rcases hk with rfl | rfl
          · exact ⟨leaf_cell 2 0 2 1 0, by simp [cell.progeny],
              by simp [in_cell, leaf_cell, cell.gparts, cell.gcount]⟩
          · exact ⟨leaf_cell 3 2 2 1 1, by simp [cell.progeny],
              by simp [in_cell, leaf_cell, cell.gparts, cell.gcount]⟩
      · intro _
        constructor
        · simp only [cell.progeny, List.filterMap_cons, id, List.filterMap_nil,
            List.pairwise_cons, List.mem_singleton, List.not_mem_nil, forall_eq,
            List.Pairwise.nil, and_true, false_imp_iff, implies_true]
          exact grid_leaf_pair 0 2 3 0 2 2 1 0 1 1 (by decide) (by norm_num)
        · intro ck hck
          simp only [cell.progeny, List.mem_cons, Option.some.injEq, reduceCtorEq,
            List.not_mem_nil, or_false] at hck
          rcases hck with rfl | rfl
          · exact hA0.2
          · exact hA1.2
    · exact hB
  · simp only [grid_space, List.pairwise_cons, List.mem_singleton, List.not_mem_nil,
      forall_eq, List.Pairwise.nil, and_true, false_imp_iff, implies_true]
    refine ⟨by simp [cell.addr, leaf_cell], ⟨Or.inr (Or.inl ?_), Or.inl ⟨rfl, rfl⟩,
      Or.inl ⟨rfl, rfl⟩⟩, ?_⟩
    · norm_num [cell.loc, cell.width, leaf_cell]
    · intro _ h
      cases h
  · intro k hk
    have hk3 : k < 3 := hk
    have hcases : k = 0 ∨ k = 1 ∨ k = 2 := by omega
    rcases hcases with rfl | rfl | rfl
    · exact ⟨_, List.mem_cons_self _ _, by simp [in_cell, cell.gparts, cell.gcount]⟩
    · exact ⟨_, List.mem_cons_self _ _, by simp [in_cell, cell.gparts, cell.gcount]⟩
    · exact ⟨leaf_cell 1 4 4 1 2, by simp [grid_space],
        by simp [in_cell, leaf_cell, cell.gparts, cell.gcount]⟩

theorem outcome_map_ofOption {α β : Type} (f : α → β) (o : Option α) :
    (Outcome.ofOption o).map f = Outcome.ofOption (o.map f) := by
  cases o <;> rfl

theorem for_cells_map {α σ τ : Type} (proj : σ → τ) (b1 : α → σ → Outcome σ)
    (b2 : α → τ → Outcome τ) (l : List α)
    (h : ∀ x ∈ l, ∀ st, (b1 x st).map proj = b2 x (proj st)) :
    ∀ st, (for_cells b1 l st).map proj = for_cells b2 l (proj st) := by
  induction l with
  | nil => intro st; rfl
  | cons x xs ih =>
    intro st
    have hx := h x (List.mem_cons_self _ _) st
    simp only [for_cells]
    cases hb : b1 x st with
    | ok st2 =>
      rw [hb] at hx
      simp only [Outcome.map] at hx
      rw [← hx]
      simp only
      exact ih (fun y hy => h y (List.mem_cons_of_mem _ hy)) st2
    | fatal m =>
      rw [hb] at hx
      simp only [Outcome.map] at hx
      rw [← hx]
      rfl
    | stuck =>
      rw [hb] at hx
      simp only [Outcome.map] at hx
      rw [← hx]
      rfl

/-- The instrumented pair recursion computes the same `group_id` (and ends in
the same error) as `rec_fof_search_pair`. -/
theorem rec_fof_search_pair_traced_fst (fuel : Nat) (s : space) (dim : vec3) (r2 : ℚ) :
    ∀ depth ci cj st,
      (rec_fof_search_pair_traced fuel depth ci cj s dim r2 st).map Prod.fst =
        rec_fof_search_pair fuel depth ci cj s dim r2 st.1 := by
  intro depth
  induction depth with
  | zero => intro ci cj st; rfl
  | succ depth ih =>
    intro ci cj st
    simp only [rec_fof_search_pair_traced, rec_fof_search_pair]
    by_cases hprune : cell_min_dist ci cj dim > r2
    · rw [if_pos hprune, if_pos hprune]
      rfl
    · rw [if_neg hprune, if_neg hprune]
      by_cases hsplit : (ci.split && cj.split) = true
      · rw [if_pos hsplit, if_pos hsplit]
        apply for_cells_map
        intro pk _ st1
        cases pk with
        | none => rfl
        | some ck =>
          apply for_cells_map
          intro pl _ st2
          cases pl with
          | none => rfl
          | some cl => exact ih ck cl st2
      · rw [if_neg hsplit, if_neg hsplit]
        by_cases haddr : ci.addr ≠ cj.addr
        · rw [if_pos haddr, if_pos haddr, outcome_map_ofOption]
          congr 1
          cases fof_search_pair_cells fuel s ci cj st.1 <;> rfl
        · rw [if_neg haddr, if_neg haddr]
          rfl

/-- C11. For two cells whose `cell_min_dist` bound exceeds the squared search
radius, `rec_fof_search_pair` returns at once: the instrumented recursion
records no call of `fof_search_pair_cells`, for these cells or any of their
descendants, and `group_id` is returned unchanged. -/
theorem pruned_pair_makes_no_linker_call (fuel depth : Nat) (ci cj : cell) (s : space)
    (dim : vec3) (search_r2 : ℚ) (g : List Nat) (calls : List (Nat × Nat))
    (hprune : cell_min_dist ci cj dim > search_r2) :
    rec_fof_search_pair_traced fuel (depth + 1) ci cj s dim search_r2 (g, calls) =
      Outcome.ok (g, calls) ∧
    rec_fof_search_pair fuel (depth + 1) ci cj s dim search_r2 g = Outcome.ok g := by
  constructor
  · simp only [rec_fof_search_pair_traced]
    rw [if_pos hprune]
  · simp only [rec_fof_search_pair]
    rw [if_pos hprune]

theorem pruned_pair_makes_no_linker_call_witness :
    cell_min_dist (leaf_cell 0 0 2 1 0) (leaf_cell 1 1 2 1 1)
      { x0 := 100, x1 := 100, x2 := 100 } > 1 / 4 ∧
    rec_fof_search_pair_traced 2 (0 + 1) (leaf_cell 0 0 2 1 0) (leaf_cell 1 1 2 1 1)
        overlap_space { x0 := 100, x1 := 100, x2 := 100 } (1 / 4) ([0, 1], []) =
      Outcome.ok ([0, 1], []) ∧
    rec_fof_search_pair 2 (0 + 1) (leaf_cell 0 0 2 1 0) (leaf_cell 1 1 2 1 1)
        overlap_space { x0 := 100, x1 := 100, x2 := 100 } (1 / 4) [0, 1] =
      Outcome.ok [0, 1] :=
  ⟨by rw [overlap_cell_min_dist]; norm_num,
    pruned_pair_makes_no_linker_call 2 0 (leaf_cell 0 0 2 1 0) (leaf_cell 1 1 2 1 1)
      overlap_space { x0 := 100, x1 := 100, x2 := 100 } (1 / 4) [0, 1] []
      (by rw [overlap_cell_min_dist]; norm_num)⟩

/-! ## The pair recursion on one cell -/

theorem cell_min_dist_axis_self (a w L : ℚ) : cell_min_dist_axis a w a w L = 0 := by
  apply le_antisymm _ (cell_min_dist_axis_nonneg a w a w L)
  unfold cell_min_dist_axis min3
  calc min (min (min |nearest (a - a) L| |nearest (a - (a + w)) L|)
          |nearest (a + w - a) L|) |nearest (a + w - (a + w)) L|
      ≤ |nearest (a - a) L| :=
        le_trans (min_le_left _ _) (le_trans (min_le_left _ _) (min_le_left _ _))
    _ = 0 := by rw [sub_self, nearest_zero, abs_zero]

theorem cell_min_dist_self (c : cell) (dim : vec3) : cell_min_dist c c dim = 0 := by
  simp [cell_min_dist, cell_min_dist_axis_self]

theorem for_cells_skip_none {σ : Type} (body : Option cell → σ → Outcome σ)
    (hnone : ∀ st, body none st = Outcome.ok st) (n : Nat)
    (rest : List (Option cell)) (st : σ) :
    for_cells body (List.replicate n none ++ rest) st = for_cells body rest st := by
  induction n with
  | zero => rfl
  | succ n ih =>
    rw [List.replicate_succ, List.cons_append]
    simp only [for_cells, hnone]
    exact ih

theorem first_progeny (ps : List (Option cell)) (h : ∃ ck, some ck ∈ ps) :
    ∃ n ck rest, ps = List.replicate n none ++ some ck :: rest := by
  induction ps with
  | nil =>
    obtain ⟨ck, hck⟩ := h
    cases hck
  | cons p rest ih =>
    cases p with
    | some ck => exact ⟨0, ck, rest, by simp⟩
    | none =>
      obtain ⟨ck, hck⟩ := h
      simp only [List.mem_cons, reduceCtorEq, false_or] at hck
      obtain ⟨n, c2, r2, hr⟩ := ih ⟨ck, hck⟩
      exact ⟨n + 1, c2, r2, by rw [hr, List.replicate_succ, List.cons_append]⟩

/-- On a tree in which every split cell has a progeny, the pair recursion
called with the same cell on both sides ends in the fatal error. -/
theorem rec_fof_search_pair_same_cell (fuel : Nat) (s : space) (dim : vec3) (r2 : ℚ)
    (hr : 0 ≤ r2) :
    ∀ d c, has_progeny d c → ∀ depth, d ≤ depth → ∀ g,
      rec_fof_search_pair fuel depth c c s dim r2 g = Outcome.fatal same_cell_msg := by
  intro d
  induction d with
  | zero =>
    intro c h
    exact absurd h (by simp [has_progeny])
  | succ d ih =>
    intro c hp depth hdepth g
    obtain ⟨depth, rfl⟩ : ∃ k, depth = k + 1 := ⟨depth - 1, by omega⟩
    simp only [rec_fof_search_pair]
    rw [cell_min_dist_self, if_neg (not_lt.2 hr)]
    by_cases hsplit : c.split = true
    · obtain ⟨hex, hkids⟩ := hp hsplit
      obtain ⟨n, ck, rest, hps⟩ := first_progeny c.progeny hex
      have hck : some ck ∈ c.progeny := by
        rw [hps]
        simp
      have hfat := ih ck (hkids ck hck) depth (by omega)
      simp only [hsplit, Bool.and_self, if_true]
      rw [hps, for_cells_skip_none _ (fun _ => rfl)]
      simp only [for_cells]
      rw [for_cells_skip_none _ (fun _ => rfl)]
      simp only [for_cells, hfat]
    · simp only [hsplit, Bool.and_self, if_false, ne_eq, not_true_eq_false]
      simp

/-- C16. For every cell of the data model (a cell marked `split` has children:
at least one progeny slot is not `NULL`, at every level of its tree) and every
non-negative squared search radius, the call `rec_fof_search_pair(c, c, ...)`
ends in the fatal error "Pair FOF called on same cell!!!", whatever `group_id`
holds, and so never returns normally. -/
theorem same_cell_pair_is_fatal (fuel d depth : Nat) (c : cell) (s : space) (dim : vec3)
    (search_r2 : ℚ) (g : List Nat) (hr : 0 ≤ search_r2) (hp : has_progeny d c)
    (hdepth : d ≤ depth) :
    rec_fof_search_pair fuel depth c c s dim search_r2 g = Outcome.fatal same_cell_msg ∧
    same_cell_msg = "Pair FOF called on same cell!!!" :=
  ⟨rec_fof_search_pair_same_cell fuel s dim search_r2 hr d c hp depth hdepth g, rfl⟩

theorem has_progeny_leaf (d addr : Nat) (x w : ℚ) (count first : Nat) :
    has_progeny (d + 1) (leaf_cell addr x w count first) := by
  intro h
  cases h

theorem has_progeny_example : has_progeny 2 split_cell_example := by
  intro _
  constructor
  · exact ⟨leaf_cell 2 0 2 1 0, by simp [split_cell_example, cell.progeny]⟩
  · intro ck hck
    simp only [split_cell_example, cell.progeny, List.mem_cons, Option.some.injEq,
      reduceCtorEq, List.not_mem_nil, or_false] at hck
    rcases hck with rfl | rfl
    · exact has_progeny_leaf 0 _ _ _ _ _
    · exact has_progeny_leaf 0 _ _ _ _ _

theorem same_cell_pair_is_fatal_witness :
    (0 : ℚ) ≤ 4 ∧ has_progeny 2 split_cell_example ∧ 2 ≤ 2 ∧
    (rec_fof_search_pair 3 2 split_cell_example split_cell_example grid_space
        grid_space.dim 4 [0, 1, 2] = Outcome.fatal same_cell_msg ∧
      same_cell_msg = "Pair FOF called on same cell!!!") :=
  ⟨by norm_num, has_progeny_example, by decide,
    same_cell_pair_is_fatal 3 2 2 split_cell_example grid_space grid_space.dim 4 [0, 1, 2]
      (by norm_num) has_progeny_example (by decide)⟩

/-! ## The serial search and the periodicity flag -/

theorem nearest_wrap_up {dx L : ℚ} (hL : 0 < L) (h1 : -(3 * L / 2) ≤ dx)
    (h2 : dx < -(L / 2)) : nearest dx L = dx + L := by
  have : round (dx / L) = -1 := by
    rw [round_eq, Int.floor_eq_iff]
    constructor
    · have : -(3 / 2 : ℚ) ≤ dx / L := by
        rw [le_div_iff₀ hL]
        linarith
      push_cast
      linarith
    · have : dx / L < -(1 / 2 : ℚ) := by
        rw [div_lt_iff₀ hL]
        linarith
      push_cast
      linarith
  simp [nearest, this]

theorem nonperiodic_hit : serial_hit nonperiodic_space 0 1 = some true := by
  have e0 : nearest (1 / 100 - 99 / 100) 1 = 1 / 100 - 99 / 100 + 1 :=
    nearest_wrap_up (by norm_num) (by norm_num) (by norm_num)
  have e1 : nearest (0 - 0) 1 = 0 := by simp [nearest]
  simp only [serial_hit, nonperiodic_space, List.getElem?_cons_zero, List.getElem?_cons_succ,
    r2_serial, particle_at, e0, e1]
  norm_num

/-- C14, the code at the failing input. With `s->periodic = 0`, box side `1`,
particles at `0.01` and `0.99` and linking length `0.1`, the pair loop of
`fof_search_serial` started from the identity links the two particles (both
end with root `0`): line 290 passes every displacement through `nearest`
without looking at `s->periodic`.  Their plain distance, `0.98`, is above the
linking length. -/
theorem serial_search_wraps_without_periodicity :
    nonperiodic_space.periodic = false ∧
    serial_pair_loop 2 nonperiodic_space (identity_group_id 2) = some [0, 0] ∧
    fof_find 2 0 [0, 0] = some 0 ∧ fof_find 2 1 [0, 0] = some 0 ∧
    ¬ plain_linked nonperiodic_space 0 1 := by
  refine ⟨rfl, ?_, by decide, by decide, ?_⟩
  · have hn : nonperiodic_space.nr_gparts = 2 := rfl
    have hr : List.range 2 = [0, 1] := by decide
    simp only [serial_pair_loop, hn]
    rw [hr]
    simp [for_list, serial_outer, serial_inner, hn, identity_group_id, List.range',
      visit_serial, fof_find, link_roots, nonperiodic_hit]
    rfl
  · rintro ⟨xa, xb, ha, hb, hr⟩
    simp only [gpart_x, nonperiodic_space, List.getElem?_cons_zero, List.getElem?_cons_succ,
      Option.some.injEq] at ha hb
    subst ha
    subst hb
    norm_num [r2_plain, particle_at, nonperiodic_space] at hr

/-! ## Order independence of the serial search -/

/-- The groups left by the pair loop of the serial search, started from the
identity, are the components of the linking relation. -/
theorem serial_components (s : space) (fuel : Nat)
    (hlen : s.gparts.length = s.nr_gparts) (hf : s.nr_gparts ≤ fuel) :
    ∃ g, serial_pair_loop fuel s (identity_group_id s.nr_gparts) = some g ∧
      ∀ i j, i < s.nr_gparts → j < s.nr_gparts →
        ((∃ r, fof_find fuel i g = some r ∧ fof_find fuel j g = some r) ↔
          Relation.ReflTransGen (serial_linked s) i j) := by
  obtain ⟨g, hrun, href, hcov⟩ :=
    serial_pair_loop_spec s hlen (downLinked_identity s.nr_gparts)
      (length_identity s.nr_gparts) hf
  have hgl : g.length = s.nr_gparts := href.len.trans (length_identity _)
  refine ⟨g, hrun, ?_⟩
  intro i j hi hj
  have hfi := fof_find_eq_rootOf href.down (show i < g.length by omega)
    (show i < fuel by omega)
  have hfj := fof_find_eq_rootOf href.down (show j < g.length by omega)
    (show j < fuel by omega)
  constructor
  · rintro ⟨r, h1, h2⟩
    rw [hfi] at h1
    rw [hfj] at h2
    apply joined_identity_chain s
    apply href.sound
    rw [Option.some.inj h1, Option.some.inj h2]
  · intro hchain
    refine ⟨rootOf g i, hfi, ?_⟩
    rw [hfj, chain_same_root s hlen hcov hchain]

theorem serial_linked_of_perm (s s2 : space) (f : Nat → Nat)
    (hdim : s2.dim = s.dim) (hl : s2.l_x2 = s.l_x2)
    (hparts : ∀ a, a < s2.gparts.length → s2.gparts[a]? = s.gparts[f a]?)
    {a b : Nat} (h : serial_linked s2 a b) : serial_linked s (f a) (f b) := by
  obtain ⟨ha, hb⟩ := serial_linked_lt s2 h
  obtain ⟨pa, pb, hpa, hpb, hr⟩ := h
  rw [hparts a ha] at hpa
  rw [hparts b hb] at hpb
  rw [hdim, hl] at hr
  exact ⟨pa, pb, hpa, hpb, hr⟩

/-- C15. Let `s2` hold the particles of `s` in the order given by a permutation
`p` of the indices (particle `i` of `s2` is particle `p i` of `s`, `q` being
the inverse permutation).  Started from the identity array, the serial search
returns on both arrays, and two particles share a root in the run on `s2`
exactly when they share a root in the run on `s`: the partition into groups
is the same, whatever the roots are. -/
theorem serial_partition_is_order_independent (s s2 : space) (p q : Nat → Nat) (fuel : Nat)
    (hlen : s.gparts.length = s.nr_gparts) (hf : s.nr_gparts ≤ fuel)
    (hn : s2.nr_gparts = s.nr_gparts) (hdim : s2.dim = s.dim) (hl : s2.l_x2 = s.l_x2)
    (hp : ∀ i, i < s.nr_gparts → p i < s.nr_gparts ∧ q (p i) = i)
    (hq : ∀ k, k < s.nr_gparts → q k < s.nr_gparts ∧ p (q k) = k)
    (hlen2 : s2.gparts.length = s.nr_gparts)
    (hparts : ∀ i, i < s.nr_gparts → s2.gparts[i]? = s.gparts[p i]?) :
    ∃ g g2, serial_pair_loop fuel s (identity_group_id s.nr_gparts) = some g ∧
      serial_pair_loop fuel s2 (identity_group_id s2.nr_gparts) = some g2 ∧
      ∀ i j, i < s.nr_gparts → j < s.nr_gparts →
        ((∃ r, fof_find fuel i g2 = some r ∧ fof_find fuel j g2 = some r) ↔
          (∃ r, fof_find fuel (p i) g = some r ∧ fof_find fuel (p j) g = some r)) := by
  obtain ⟨g, hrun, hiff⟩ := serial_components s fuel hlen hf
  obtain ⟨g2, hrun2, hiff2⟩ := serial_components s2 fuel (hlen2.trans hn.symm) (hn ▸ hf)
  refine ⟨g, g2, hrun, hrun2, ?_⟩
  intro i j hi hj
  rw [hiff2 i j (hn ▸ hi) (hn ▸ hj), hiff (p i) (p j) (hp i hi).1 (hp j hj).1]
  constructor
  · intro h
    exact Relation.ReflTransGen.lift p
      (fun a b hab => serial_linked_of_perm s s2 p hdim hl
        (fun a ha => hparts a (hlen2 ▸ ha)) hab) h
  · intro h
    have h2 := Relation.ReflTransGen.lift q
      (fun a b hab => serial_linked_of_perm s2 s q hdim.symm hl.symm
        (fun a ha => by
          have hk := hq a (hlen ▸ ha)
          rw [hparts (q a) hk.1, hk.2]) hab) h
    rw [(hp i hi).2, (hp j hj).2] at h2
    exact h2

theorem serial_partition_is_order_independent_witness :
    scenario_space.gparts.length = scenario_space.nr_gparts ∧
    scenario_space.nr_gparts ≤ 6 ∧
    scenario_space_reversed.nr_gparts = scenario_space.nr_gparts ∧
    scenario_space_reversed.dim = scenario_space.dim ∧
    scenario_space_reversed.l_x2 = scenario_space.l_x2 ∧
    (∀ i, i < scenario_space.nr_gparts →
      5 - i < scenario_space.nr_gparts ∧ 5 - (5 - i) = i) ∧
    (∀ k, k < scenario_space.nr_gparts →
      5 - k < scenario_space.nr_gparts ∧ 5 - (5 - k) = k) ∧
    scenario_space_reversed.gparts.length = scenario_space.nr_gparts ∧
    (∀ i, i < scenario_space.nr_gparts →
      scenario_space_reversed.gparts[i]? = scenario_space.gparts[5 - i]?) ∧
    ∃ g g2, serial_pair_loop 6 scenario_space (identity_group_id scenario_space.nr_gparts) =
        some g ∧
      serial_pair_loop 6 scenario_space_reversed
        (identity_group_id scenario_space_reversed.nr_gparts) = some g2 ∧
      ∀ i j, i < scenario_space.nr_gparts → j < scenario_space.nr_gparts →
        ((∃ r, fof_find 6 i g2 = some r ∧ fof_find 6 j g2 = some r) ↔
          (∃ r, fof_find 6 (5 - i) g = some r ∧ fof_find 6 (5 - j) g = some r)) :=
  have hsub : ∀ i, i < scenario_space.nr_gparts →
      5 - i < scenario_space.nr_gparts ∧ 5 - (5 - i) = i := by
    intro i hi
    have h6 : i < 6 := hi
    exact ⟨show 5 - i < 6 by omega, by omega⟩
  have hparts : ∀ i, i < scenario_space.nr_gparts →
      scenario_space_reversed.gparts[i]? = scenario_space.gparts[5 - i]? := by
    intro i hi
    have h6 : i < 6 := hi
    have hc : i = 0 ∨ i = 1 ∨ i = 2 ∨ i = 3 ∨ i = 4 ∨ i = 5 := by omega
    rcases hc with rfl | rfl | rfl | rfl | rfl | rfl <;> rfl
  ⟨rfl, by decide, rfl, rfl, rfl, hsub, hsub, rfl, hparts,
    serial_partition_is_order_independent scenario_space scenario_space_reversed
      (fun i => 5 - i) (fun i => 5 - i) 6 rfl (by decide) rfl rfl rfl hsub hsub rfl hparts⟩

/-! ## The fold-in of received records -/

theorem gpart_id_some (s : space) {k : Nat} (hk : k < s.gparts.length) :
    gpart_id s k = some s.gparts[k].id_or_neg_offset := by
  simp [gpart_id, List.getElem?_eq_getElem hk]

/-- The innermost fold-in step in a down-linked state. -/
theorem fold_in_particle_spec (s : space) {g : List Nat} (hd : DownLinked g)
    (hg : g.length = s.gparts.length) (r : fof_mpi) (c : cell) (k fuel : Nat)
    (hk : c.gparts + k < s.gparts.length) (hf : g.length ≤ fuel) :
    fold_in_particle fuel s r c k g =
      some (if s.gparts[c.gparts + k].id_or_neg_offset = r.foreign_pid ∧
              r.root_i < rootOf g (c.gparts + k)
            then g.set (rootOf g (c.gparts + k)) r.root_i else g) := by
  have hgk : g[c.gparts + k]? = some g[c.gparts + k] := List.getElem?_eq_getElem (by omega)
  have hol := getElem_lt_of_downLinked hd hgk
  unfold fold_in_particle
  rw [gpart_id_some s hk]
  simp only [hgk]
  rw [fof_find_eq_rootOf hd hol (by omega), ← rootOf_step hd hgk]
  by_cases hid : s.gparts[c.gparts + k].id_or_neg_offset = r.foreign_pid
  · simp only [hid, if_true, true_and]
    by_cases hlt : r.root_i < rootOf g (c.gparts + k)
    · rw [if_pos hlt, if_pos hlt]
    · rw [if_neg hlt, if_neg hlt]
  · simp only [hid, if_false, false_and]

theorem for_list_append {α β : Type} (f : α → List β) (body : α → List β → Option (List β))
    (l : List α) (h : ∀ x ∈ l, ∀ acc, body x acc = some (acc ++ f x)) :
    ∀ acc, for_list body l acc = some (acc ++ l.flatMap f) := by
  induction l with
  | nil => intro acc; simp [for_list]
  | cons x xs ih =>
    intro acc
    simp only [for_list, h x (List.mem_cons_self _ _) acc]
    rw [ih (fun y hy => h y (List.mem_cons_of_mem _ hy))]
    simp [List.flatMap_cons, List.append_assoc]

theorem flatMap_congr_mem {α β : Type} (f g : α → List β) (l : List α)
    (h : ∀ x ∈ l, f x = g x) : l.flatMap f = l.flatMap g := by
  induction l with
  | nil => rfl
  | cons x xs ih =>
    rw [List.flatMap_cons, List.flatMap_cons, h x (List.mem_cons_self _ _),
      ih (fun y hy => h y (List.mem_cons_of_mem _ hy))]

/-- The double loop of `fof_search_pair_cells_foreign` appends exactly the
records of `link_records`. -/
theorem foreign_pair_loop_spec (s : space) {g : List Nat} (hd : DownLinked g)
    (hg : g.length = s.gparts.length) (cl cf : cell)
    (hcl : cl.gparts + cl.gcount ≤ s.gparts.length)
    (hcf : cf.gparts + cf.gcount ≤ s.gparts.length) (fuel : Nat) (hf : g.length ≤ fuel)
    (send : List fof_mpi) :
    foreign_pair_loop fuel s cl cf g send = some (send ++ link_records fuel s cl cf g) := by
  unfold foreign_pair_loop link_records
  simp only
  apply for_list_append
  intro i hi acc
  have hic : i < cl.gcount := List.mem_range.1 hi
  have hil : cl.gparts + i < s.gparts.length := by omega
  have hgi : g[cl.gparts + i]? = some g[cl.gparts + i] :=
    List.getElem?_eq_getElem (by omega)
  have hol := getElem_lt_of_downLinked hd hgi
  have hfind : fof_find fuel g[cl.gparts + i] g = some (rootOf g (cl.gparts + i)) := by
    rw [fof_find_eq_rootOf hd hol (by omega), ← rootOf_step hd hgi]
  have hfind2 : fof_find fuel (cl.gparts + i) g = some (rootOf g (cl.gparts + i)) :=
    fof_find_eq_rootOf hd (by omega) (by omega)
  simp only [gpart_x_some s hil, hgi, hfind, hfind2]
  apply for_list_append
  intro j hj acc2
  have hjc : j < cf.gcount := List.mem_range.1 hj
  have hjl : cf.gparts + j < s.gparts.length := by omega
  simp only [gpart_x_some s hjl, gpart_id_some s hjl, shifted_r2]
  split
  · rfl
  · rw [List.append_nil]

/-- C20. For a local cell and a foreign cell (in either argument order), in an
acyclic (down-linked) state, `fof_search_pair_cells_foreign` returns normally
and appends to the send buffer exactly the records of `link_records`: one
record per pair of a local particle `p` and a foreign particle `q` whose
shifted squared distance is below `l_x2`, with `foreign_pid` the identifier of
`q` and `root_i = fof_find(p)` on the `group_id` of the call, and no record
for any other pair. -/
theorem foreign_linker_emits_one_record_per_link (s : space) (engine_rank : Int)
    (g : List Nat) (ci cj : cell) (fuel : Nat) (send : List fof_mpi)
    (hd : DownLinked g) (hg : g.length = s.gparts.length)
    (hci : ci.gparts + ci.gcount ≤ s.gparts.length)
    (hcj : cj.gparts + cj.gcount ≤ s.gparts.length) (hf : g.length ≤ fuel) :
    (ci.nodeID = engine_rank → cj.nodeID ≠ engine_rank →
      fof_search_pair_cells_foreign fuel engine_rank s ci cj g send =
        Outcome.ok (send ++ link_records fuel s ci cj g)) ∧
    (ci.nodeID ≠ engine_rank → cj.nodeID = engine_rank →
      fof_search_pair_cells_foreign fuel engine_rank s ci cj g send =
        Outcome.ok (send ++ link_records fuel s cj ci g)) := by
  constructor
  · intro h1 h2
    simp only [fof_search_pair_cells_foreign, h1, h2, decide_True, decide_False,
      Bool.and_false, Bool.not_true, Bool.false_and, Bool.or_self, if_true, if_false,
      Bool.false_eq_true, foreign_pair_loop_spec s hd hg ci cj hci hcj fuel hf send]
    rfl
  · intro h1 h2
    simp only [fof_search_pair_cells_foreign, h1, h2, decide_True, decide_False,
      Bool.and_true, Bool.not_true, Bool.not_false, Bool.false_and, Bool.and_false,
      Bool.or_self, if_true, if_false,
      Bool.false_eq_true, foreign_pair_loop_spec s hd hg cj ci hcj hci fuel hf send]
    rfl

theorem foreign_linker_emits_one_record_per_link_witness :
    DownLinked (identity_group_id 3) ∧
    (identity_group_id 3).length = two_rank_space.gparts.length ∧
    (leaf_cell 3 2 2 1 1).gparts + (leaf_cell 3 2 2 1 1).gcount ≤
      two_rank_space.gparts.length ∧
    foreign_cell_example.gparts + foreign_cell_example.gcount ≤
      two_rank_space.gparts.length ∧
    (identity_group_id 3).length ≤ 3 ∧
    ((leaf_cell 3 2 2 1 1).nodeID = 0 → foreign_cell_example.nodeID ≠ 0 →
      fof_search_pair_cells_foreign 3 0 two_rank_space (leaf_cell 3 2 2 1 1)
          foreign_cell_example (identity_group_id 3) [] =
        Outcome.ok ([] ++ link_records 3 two_rank_space (leaf_cell 3 2 2 1 1)
          foreign_cell_example (identity_group_id 3))) ∧
    ((leaf_cell 3 2 2 1 1).nodeID ≠ 0 → foreign_cell_example.nodeID = 0 →
      fof_search_pair_cells_foreign 3 0 two_rank_space (leaf_cell 3 2 2 1 1)
          foreign_cell_example (identity_group_id 3) [] =
        Outcome.ok ([] ++ link_records 3 two_rank_space foreign_cell_example
          (leaf_cell 3 2 2 1 1) (identity_group_id 3))) :=
  ⟨downLinked_identity 3, rfl, by decide, by decide, by decide,
    foreign_linker_emits_one_record_per_link two_rank_space 0 (identity_group_id 3)
      (leaf_cell 3 2 2 1 1) foreign_cell_example 3 [] (downLinked_identity 3) rfl
      (by decide) (by decide) (by decide)⟩

/-! ## The cell distance bound under periodic wrapping -/

theorem abs_nearest_le_image (d L : ℚ) (z : ℤ) : |nearest d L| ≤ |d - z * L| := by
  by_cases hL : L = 0
  · subst hL
    simp [nearest]
  · rw [abs_nearest d hL]
    have h := round_le (d / L) z
    calc |L| * |d / L - (round (d / L) : ℚ)| ≤ |L| * |d / L - z| :=
          mul_le_mul_of_nonneg_left h (abs_nonneg L)
      _ = |d - z * L| := by
        rw [← abs_mul]
        congr 1
        field_simp
        ring

theorem abs_nearest_ge_of_nonpos {x L : ℚ} (hx : x ≤ 0) (hL : -L ≤ x) :
    min (-x) (x + L) ≤ |nearest x L| := by
  have hL0 : 0 ≤ L := by linarith
  unfold nearest
  rcases le_or_lt 0 (round (x / L)) with hz | hz
  · have hz2 : (0 : ℚ) ≤ (round (x / L) : ℚ) := by exact_mod_cast hz
    have hnp : x - (round (x / L) : ℚ) * L ≤ 0 := by nlinarith
    rw [abs_of_nonpos hnp]
    apply le_trans (min_le_left _ _)
    nlinarith
  · have hz2 : (round (x / L) : ℚ) ≤ -1 := by
      have : round (x / L) ≤ -1 := by omega
      exact_mod_cast this
    have hnn : 0 ≤ x - (round (x / L) : ℚ) * L := by nlinarith
    rw [abs_of_nonneg hnn]
    apply le_trans (min_le_right _ _)
    nlinarith

theorem abs_nearest_ge_of_nonneg {x L : ℚ} (hx : 0 ≤ x) (hL : x ≤ L) :
    min x (L - x) ≤ |nearest x L| := by
  have h := abs_nearest_ge_of_nonpos (x := -x) (L := L) (by linarith) (by linarith)
  rw [abs_nearest_neg] at h
  simpa [sub_eq_neg_add] using h

/-- Along one axis, for grid-aligned intervals inside `[0, L]`, the corner
bound does not exceed the wrapped distance of any two points of the
intervals. -/
theorem cell_min_dist_axis_le_nearest {a w b v L p q : ℚ} (hp : a ≤ p ∧ p ≤ a + w)
    (hq : b ≤ q ∧ q ≤ b + v) (hal : aligned_axis a w b v)
    (ha : 0 ≤ a ∧ a + w ≤ L) (hb : 0 ≤ b ∧ b + v ≤ L) :
    cell_min_dist_axis a w b v L ≤ |nearest (p - q) L| := by
  rcases hal with ⟨hab, _⟩ | h | h
  · have h0 : cell_min_dist_axis a w b v L ≤ 0 := by
      unfold cell_min_dist_axis min3
      calc min (min (min |nearest (a - b) L| |nearest (a - (b + v)) L|)
              |nearest (a + w - b) L|) |nearest (a + w - (b + v)) L|
          ≤ |nearest (a - b) L| :=
            le_trans (min_le_left _ _) (le_trans (min_le_left _ _) (min_le_left _ _))
        _ = 0 := by rw [hab, sub_self, nearest_zero, abs_zero]
    exact le_trans h0 (abs_nonneg _)
  · have hlow := abs_nearest_ge_of_nonpos (x := p - q) (L := L) (by linarith [hp.2, hq.1])
      (by linarith [hp.1, hq.2, ha.1, hb.2])
    refine le_trans ?_ hlow
    apply le_min
    · calc cell_min_dist_axis a w b v L ≤ |nearest (a + w - b) L| := by
            unfold cell_min_dist_axis min3
            exact le_trans (min_le_left _ _) (min_le_right _ _)
        _ ≤ |a + w - b| := abs_nearest_le _ _
        _ = -(a + w - b) := abs_of_nonpos (by linarith)
        _ ≤ -(p - q) := by linarith [hp.2, hq.1]
    · calc cell_min_dist_axis a w b v L ≤ |nearest (a - (b + v)) L| := by
            unfold cell_min_dist_axis min3
            exact le_trans (min_le_left _ _) (le_trans (min_le_left _ _) (min_le_right _ _))
        _ ≤ |a - (b + v) - ((-1 : ℤ) : ℚ) * L| := abs_nearest_le_image _ _ _
        _ = a - (b + v) + L := by
          rw [abs_of_nonneg (by push_cast; linarith [ha.1, hb.2])]
          push_cast
          ring
        _ ≤ p - q + L := by linarith [hp.1, hq.2]
  · have hlow := abs_nearest_ge_of_nonneg (x := p - q) (L := L) (by linarith [hp.1, hq.2])
      (by linarith [hp.2, hq.1, ha.2, hb.1])
    refine le_trans ?_ hlow
    apply le_min
    · calc cell_min_dist_axis a w b v L ≤ |nearest (a - (b + v)) L| := by
            unfold cell_min_dist_axis min3
            exact le_trans (min_le_left _ _) (le_trans (min_le_left _ _) (min_le_right _ _))
        _ ≤ |a - (b + v)| := abs_nearest_le _ _
        _ = a - (b + v) := abs_of_nonneg (by linarith)
        _ ≤ p - q := by linarith [hp.1, hq.2]
    · calc cell_min_dist_axis a w b v L ≤ |nearest (a + w - b) L| := by
            unfold cell_min_dist_axis min3
            exact le_trans (min_le_left _ _) (min_le_right _ _)
        _ ≤ |a + w - b - ((1 : ℤ) : ℚ) * L| := abs_nearest_le_image _ _ _
        _ = L - (a + w - b) := by
          rw [abs_of_nonpos (by push_cast; linarith [ha.2, hb.1])]
          push_cast
          ring
        _ ≤ L - (p - q) := by linarith [hp.2, hq.1]

/-- For grid-aligned cells inside the domain, `cell_min_dist` does not exceed
the wrapped squared distance of any two particles of the two boxes. -/
theorem cell_min_dist_le_wrapped {ci cj : cell} {dim : vec3} (p q : gpart)
    (hp : in_box ci p.x) (hq : in_box cj q.x) (hal : aligned ci cj)
    (hi : inside_domain ci dim) (hj : inside_domain cj dim) :
    cell_min_dist ci cj dim ≤ r2_serial dim p q := by
  unfold cell_min_dist r2_serial
  simp only
  have h0 := sq_le_of_le_abs (cell_min_dist_axis_nonneg _ _ _ _ dim.x0)
    (cell_min_dist_axis_le_nearest hp.1 hq.1 hal.1 hi.1 hj.1)
  have h1 := sq_le_of_le_abs (cell_min_dist_axis_nonneg _ _ _ _ dim.x1)
    (cell_min_dist_axis_le_nearest hp.2.1 hq.2.1 hal.2.1 hi.2.1 hj.2.1)
  have h2 := sq_le_of_le_abs (cell_min_dist_axis_nonneg _ _ _ _ dim.x2)
    (cell_min_dist_axis_le_nearest hp.2.2 hq.2.2 hal.2.2 hi.2.2 hj.2.2)
  linarith

/-- C12, counterexample. The boxes `[0, 2]` and `[1, 3]` (equal `y` and `z`
extent) overlap; the points `x = 1.5` of the first and `x = 1.6` of the second
have wrapped squared distance `0.01` in a box of side `100`, while
`cell_min_dist` of the two cells is `1`: the corner bound overestimates. -/
theorem cell_min_dist_overestimates_for_overlapping_cells :
    in_box (leaf_cell 0 0 2 1 0) (particle_at (3 / 2) 0).x ∧
    in_box (leaf_cell 1 1 2 1 1) (particle_at (8 / 5) 1).x ∧
    r2_serial { x0 := 100, x1 := 100, x2 := 100 } (particle_at (3 / 2) 0)
        (particle_at (8 / 5) 1) <
      cell_min_dist (leaf_cell 0 0 2 1 0) (leaf_cell 1 1 2 1 1)
        { x0 := 100, x1 := 100, x2 := 100 } := by
  refine ⟨?_, ?_, ?_⟩
  · norm_num [in_box, leaf_cell, cell.loc, cell.width, particle_at]
  · norm_num [in_box, leaf_cell, cell.loc, cell.width, particle_at]
  · rw [overlap_cell_min_dist, r2_serial_on_axis _ _ _ _ (by norm_num) (by norm_num)]
    norm_num

/-- C12, amended. For two cells whose boxes lie inside the domain `[0, dim]`
and are grid-aligned (along every axis they coincide or do not overlap), and
for every point `p` inside the box of `ci` and `q` inside the box of `cj`,
`cell_min_dist(ci, cj, dim)` is at most the minimum-image squared distance of
`p` and `q`. -/
theorem cell_min_dist_is_lower_bound_on_grid (ci cj : cell) (dim : vec3) (p q : gpart)
    (hp : in_box ci p.x) (hq : in_box cj q.x) (hal : aligned ci cj)
    (hi : inside_domain ci dim) (hj : inside_domain cj dim) :
    cell_min_dist ci cj dim ≤ r2_serial dim p q :=
  cell_min_dist_le_wrapped p q hp hq hal hi hj

theorem cell_min_dist_is_lower_bound_on_grid_witness :
    in_box (leaf_cell 2 0 2 1 0) (particle_at 1 0).x ∧
    in_box (leaf_cell 3 2 2 1 1) (particle_at (5 / 2) 1).x ∧
    aligned (leaf_cell 2 0 2 1 0) (leaf_cell 3 2 2 1 1) ∧
    inside_domain (leaf_cell 2 0 2 1 0) { x0 := 8, x1 := 8, x2 := 8 } ∧
    inside_domain (leaf_cell 3 2 2 1 1) { x0 := 8, x1 := 8, x2 := 8 } ∧
    cell_min_dist (leaf_cell 2 0 2 1 0) (leaf_cell 3 2 2 1 1) { x0 := 8, x1 := 8, x2 := 8 } ≤
      r2_serial { x0 := 8, x1 := 8, x2 := 8 } (particle_at 1 0) (particle_at (5 / 2) 1) :=
  have h1 : in_box (leaf_cell 2 0 2 1 0) (particle_at 1 0).x := by
    norm_num [in_box, leaf_cell, cell.loc, cell.width, particle_at]
  have h2 : in_box (leaf_cell 3 2 2 1 1) (particle_at (5 / 2) 1).x := by
    norm_num [in_box, leaf_cell, cell.loc, cell.width, particle_at]
  have h3 : aligned (leaf_cell 2 0 2 1 0) (leaf_cell 3 2 2 1 1) :=
    ⟨Or.inr (Or.inl (by norm_num [leaf_cell, cell.loc, cell.width])), Or.inl ⟨rfl, rfl⟩,
      Or.inl ⟨rfl, rfl⟩⟩
  have h4 : inside_domain (leaf_cell 2 0 2 1 0) { x0 := 8, x1 := 8, x2 := 8 } := by
    norm_num [inside_domain, leaf_cell, cell.loc, cell.width]
  have h5 : inside_domain (leaf_cell 3 2 2 1 1) { x0 := 8, x1 := 8, x2 := 8 } := by
    norm_num [inside_domain, leaf_cell, cell.loc, cell.width]
  ⟨h1, h2, h3, h4, h5,
    cell_min_dist_is_lower_bound_on_grid (leaf_cell 2 0 2 1 0) (leaf_cell 3 2 2 1 1)
      { x0 := 8, x1 := 8, x2 := 8 } (particle_at 1 0) (particle_at (5 / 2) 1) h1 h2 h3 h4 h5⟩

theorem lt_length_of_getElem_gpart {l : List gpart} {i : Nat} {p : gpart}
    (h : l[i]? = some p) : i + 0 < l.length := by
  by_contra hc
  rw [List.getElem?_eq_none (by omega)] at h
  cases h

/-! ## The cross-node scenario -/

theorem range_one : List.range 1 = [0] := by decide

theorem link_records_single (fuel : Nat) (s : space) (cl cf : cell) (g : List Nat)
    (pa pb : gpart) (root : Nat) (hcl : cl.gcount = 1) (hcf : cf.gcount = 1)
    (ha : s.gparts[cl.gparts]? = some pa) (hb : s.gparts[cf.gparts]? = some pb)
    (hroot : fof_find fuel cl.gparts g = some root)
    (hit : shifted_r2 s cl cf pa.x pb.x < s.l_x2) :
    link_records fuel s cl cf g =
      [{ foreign_pid := pb.id_or_neg_offset, root_i := root }] := by
  simp only [link_records, hcl, hcf, range_one, List.flatMap_cons, List.flatMap_nil,
    List.append_nil, Nat.add_zero, gpart_x, gpart_id, ha, hb, hroot, hit, if_true]

theorem fold_in_single (fuel : Nat) (s : space) (cl : cell) {g : List Nat}
    (hd : DownLinked g) (hg : g.length = s.gparts.length) (hf : g.length ≤ fuel)
    (pa : gpart) (r : fof_mpi) (hcl : cl.gcount = 1)
    (ha : s.gparts[cl.gparts]? = some pa) (hid : pa.id_or_neg_offset = r.foreign_pid) :
    foreign_fold_in fuel s [cl] 1 [r] g =
      some (if r.root_i < rootOf g cl.gparts then g.set (rootOf g cl.gparts) r.root_i
            else g) := by
  have hal : cl.gparts + 0 < s.gparts.length := lt_length_of_getElem_gpart ha
  have hspec := fold_in_particle_spec s hd hg r cl 0 fuel hal hf
  have hpa : s.gparts[cl.gparts + 0] = pa := by
    have h2 : s.gparts[cl.gparts + 0]? = some pa := ha
    rw [List.getElem?_eq_getElem hal] at h2
    exact Option.some.inj h2
  rw [hpa] at hspec
  simp only [hid, true_and, Nat.add_zero] at hspec
  simp only [foreign_fold_in, range_one, for_list, List.getElem?_cons_zero, fold_in_record,
    hcl, hspec]

theorem fold_in_reports_min (fuel : Nat) (s : space) (cl : cell) {g : List Nat}
    (hd : DownLinked g) (hg : g.length = s.gparts.length) (hf : g.length ≤ fuel)
    (pa : gpart) (r : fof_mpi) (hcl : cl.gcount = 1)
    (ha : s.gparts[cl.gparts]? = some pa) (hid : pa.id_or_neg_offset = r.foreign_pid)
    (hr : r.root_i < rootOf g cl.gparts → g[r.root_i]? = some r.root_i) :
    ∃ h, foreign_fold_in fuel s [cl] 1 [r] g = some h ∧
      h[rootOf g cl.gparts]? = some (min (rootOf g cl.gparts) r.root_i) ∧
      fof_find fuel cl.gparts h = some (min (rootOf g cl.gparts) r.root_i) := by
  have hal : cl.gparts < g.length := by
    have := lt_length_of_getElem_gpart ha
    omega
  have hroot := rootOf_is_root hd hal
  rw [fold_in_single fuel s cl hd hg hf pa r hcl ha hid]
  by_cases hlt : r.root_i < rootOf g cl.gparts
  · refine ⟨_, by rw [if_pos hlt], ?_, ?_⟩
    · rw [List.getElem?_set, if_pos rfl, if_pos (rootOf_lt_length hd hal),
        min_eq_right (le_of_lt hlt)]
    · have hd2 : DownLinked (g.set (rootOf g cl.gparts) r.root_i) :=
        downLinked_set hd (le_of_lt hlt)
      have hl2 : cl.gparts < (g.set (rootOf g cl.gparts) r.root_i).length := by
        rw [List.length_set]
        exact hal
      rw [fof_find_eq_rootOf hd2 hl2 (by omega), rootOf_set hd hroot (hr hlt) hlt _ hal,
        if_pos rfl, min_eq_right (le_of_lt hlt)]
  · refine ⟨_, by rw [if_neg hlt], ?_, ?_⟩
    · rw [hroot, min_eq_left (not_lt.1 hlt)]
    · rw [fof_find_eq_rootOf hd hal (by omega), min_eq_left (not_lt.1 hlt)]

theorem foreign_linker_single_first (fuel : Nat) (s : space) (rank : Int) (cl cf : cell)
    {g : List Nat} (hd : DownLinked g) (hg : g.length = s.gparts.length)
    (hf : g.length ≤ fuel) (pa pb : gpart) (hcl : cl.gcount = 1) (hcf : cf.gcount = 1)
    (ha : s.gparts[cl.gparts]? = some pa) (hb : s.gparts[cf.gparts]? = some pb)
    (hit : shifted_r2 s cl cf pa.x pb.x < s.l_x2)
    (h1 : cl.nodeID = rank) (h2 : cf.nodeID ≠ rank) :
    fof_search_pair_cells_foreign fuel rank s cl cf g [] =
      Outcome.ok [{ foreign_pid := pb.id_or_neg_offset, root_i := rootOf g cl.gparts }] := by
  have hal := lt_length_of_getElem_gpart ha
  have hbl := lt_length_of_getElem_gpart hb
  have hroot : fof_find fuel cl.gparts g = some (rootOf g cl.gparts) :=
    fof_find_eq_rootOf hd (by omega) (by omega)
  simp only [fof_search_pair_cells_foreign, h1, h2, decide_True, decide_False,
    Bool.and_false, Bool.not_true, Bool.false_and, Bool.or_self, if_true, if_false,
    Bool.false_eq_true,
    foreign_pair_loop_spec s hd hg cl cf (by omega) (by omega) fuel hf [],
    link_records_single fuel s cl cf g pa pb _ hcl hcf ha hb hroot hit]
  rfl

theorem foreign_linker_single_second (fuel : Nat) (s : space) (rank : Int) (cl cf : cell)
    {g : List Nat} (hd : DownLinked g) (hg : g.length = s.gparts.length)
    (hf : g.length ≤ fuel) (pa pb : gpart) (hcl : cl.gcount = 1) (hcf : cf.gcount = 1)
    (ha : s.gparts[cl.gparts]? = some pa) (hb : s.gparts[cf.gparts]? = some pb)
    (hit : shifted_r2 s cl cf pa.x pb.x < s.l_x2)
    (h1 : cl.nodeID = rank) (h2 : cf.nodeID ≠ rank) :
    fof_search_pair_cells_foreign fuel rank s cf cl g [] =
      Outcome.ok [{ foreign_pid := pb.id_or_neg_offset, root_i := rootOf g cl.gparts }] := by
  have hal := lt_length_of_getElem_gpart ha
  have hbl := lt_length_of_getElem_gpart hb
  have hroot : fof_find fuel cl.gparts g = some (rootOf g cl.gparts) :=
    fof_find_eq_rootOf hd (by omega) (by omega)
  simp only [fof_search_pair_cells_foreign, h1, h2, decide_True, decide_False,
    Bool.and_true, Bool.not_true, Bool.not_false, Bool.false_and, Bool.and_false,
    Bool.or_self, if_true, if_false, Bool.false_eq_true,
    foreign_pair_loop_spec s hd hg cl cf (by omega) (by omega) fuel hf [],
    link_records_single fuel s cl cf g pa pb _ hcl hcf ha hb hroot hit]
  rfl

theorem node0_hit :
    shifted_r2 node0_space (leaf_cell 1 2 2 1 2) (leaf_cell_rank1 2 4 2 1 3)
      (particle_at (39 / 10) 5).x (particle_at (41 / 10) 42).x < node0_space.l_x2 := by
  simp only [shifted_r2, node0_space, pair_shift, leaf_cell, leaf_cell_rank1, cell.loc,
    particle_at, r2_plain]
  norm_num

theorem node1_hit :
    shifted_r2 node1_space (leaf_cell_rank1 2 4 2 1 1) (leaf_cell 1 2 2 1 2)
      (particle_at (41 / 10) 42).x (particle_at (39 / 10) 5).x < node1_space.l_x2 := by
  simp only [shifted_r2, node1_space, pair_shift, leaf_cell, leaf_cell_rank1, cell.loc,
    particle_at, r2_plain]
  norm_num

theorem downLinked_node0 : DownLinked [0, 0, 2, 3] := by
  intro k p h
  rcases k with _ | _ | _ | _ | k
  · simp at h
    omega
  · simp at h
    omega
  · simp at h
    omega
  · simp at h
    omega
  · simp at h

/-- C18. The cross-node scenario on the code: roots are indices of a node's
own `group_id`.  On node `0`, whose local search has left `[0, 0, 2, 3]`,
particle A (identifier `5`, index `2`) has root `2` and index `1` hangs below
index `0`; on node `1` particle B (identifier `42`, index `1`) has root `1`.
Each node writes its record (`{42, 2}` and `{5, 1}`).  Folding in the record
of node `1`, node `0` stores the received root `1` at its own index `2`, so
`fof_find` of A on node `0` follows its own index `1` down to `0`, while
`fof_find` of B on node `1` reports `1`: after one exchange the two differ,
and node `0` does not report the minimum `1` of the two roots. -/
theorem cross_node_exchange_reports_different_roots :
    fof_find 4 2 [0, 0, 2, 3] = some 2 ∧ fof_find 3 1 [0, 1, 2] = some 1 ∧
    fof_search_pair_cells_foreign 4 0 node0_space (leaf_cell 1 2 2 1 2)
        (leaf_cell_rank1 2 4 2 1 3) [0, 0, 2, 3] [] =
      Outcome.ok [{ foreign_pid := 42, root_i := 2 }] ∧
    fof_search_pair_cells_foreign 3 1 node1_space (leaf_cell 1 2 2 1 2)
        (leaf_cell_rank1 2 4 2 1 1) [0, 1, 2] [] =
      Outcome.ok [{ foreign_pid := 5, root_i := 1 }] ∧
    foreign_fold_in 4 node0_space [leaf_cell 1 2 2 1 2] 1 [{ foreign_pid := 5, root_i := 1 }]
        [0, 0, 2, 3] = some [0, 0, 1, 3] ∧
    foreign_fold_in 3 node1_space [leaf_cell_rank1 2 4 2 1 1] 1
        [{ foreign_pid := 42, root_i := 2 }] [0, 1, 2] = some [0, 1, 2] ∧
    fof_find 4 2 [0, 0, 1, 3] = some 0 ∧ fof_find 3 1 [0, 1, 2] = some 1 := by
  refine ⟨by decide, by decide, ?_, ?_, by decide, by decide, by decide, by decide⟩
  · exact foreign_linker_single_first 4 node0_space 0 (leaf_cell 1 2 2 1 2)
      (leaf_cell_rank1 2 4 2 1 3) downLinked_node0 rfl (by decide) _ _ rfl rfl rfl rfl
      node0_hit (by decide) (by decide)
  · exact foreign_linker_single_second 3 node1_space 1 (leaf_cell_rank1 2 4 2 1 1)
      (leaf_cell 1 2 2 1 2) (downLinked_identity 3) rfl (by decide) _ _ rfl rfl rfl rfl
      node1_hit (by decide) (by decide)

/-! ## The tree search with periodic wrapping -/

theorem refines_any {L : Nat → Nat → Prop} {g g2 : List Nat} (h : Refines L g g2) :
    Refines any_link g g2 :=
  ⟨h.down, h.len, h.keeps, fun _ _ _ => Relation.EqvGen.rel _ _ (Or.inr trivial)⟩

theorem for_cells_grows {α : Type} (body : α → List Nat → Outcome (List Nat)) (n : Nat) :
    ∀ (l : List α), (∀ x ∈ l, ∀ g, DownLinked g → g.length = n →
        ∃ g2, body x g = Outcome.ok g2 ∧ Refines any_link g g2) →
      ∀ g, DownLinked g → g.length = n →
        ∃ g2, for_cells body l g = Outcome.ok g2 ∧ Refines any_link g g2 := by
  intro l
  induction l with
  | nil =>
    intro _ g hd _
    exact ⟨g, rfl, refines_refl _ hd⟩
  | cons x xs ih =>
    intro h g hd hg
    obtain ⟨g1, h1, r1⟩ := h x (List.mem_cons_self _ _) g hd hg
    obtain ⟨g2, h2, r2⟩ :=
      ih (fun y hy => h y (List.mem_cons_of_mem _ hy)) g1 r1.down (r1.len.trans hg)
    refine ⟨g2, ?_, refines_trans r1 r2⟩
    simp only [for_cells, h1]
    exact h2

/-- `fof_search_pair_cells` on two cells inside the particle array, with or
without periodicity: it returns normally, merges only pairs that pass its
shifted distance test, and joins every such pair. -/
theorem fof_search_pair_cells_shifted (s : space) {n : Nat}
    (hlen : s.gparts.length = n) {g : List Nat} (hd : DownLinked g) (hg : g.length = n)
    (ci cj : cell) (hci : ci.gparts + ci.gcount ≤ n) (hcj : cj.gparts + cj.gcount ≤ n)
    (fuel : Nat) (hf : n ≤ fuel) :
    ∃ g2, fof_search_pair_cells fuel s ci cj g = some g2 ∧
      Links (shifted_linked s ci cj) g g2 (in_cell ci) (in_cell cj) := by
  unfold fof_search_pair_cells
  simp only
  have key := for_list_inv
    (fun i g =>
      match gpart_x s (ci.gparts + i), g[ci.gparts + i]? with
      | some x, some oi =>
        match fof_find fuel oi g with
        | none => none
        | some root_i =>
          (pair_inner fuel s cj
            { x0 := x.x0 - pair_shift s.periodic ci.loc.x0 cj.loc.x0 s.dim.x0,
              x1 := x.x1 - pair_shift s.periodic ci.loc.x1 cj.loc.x1 s.dim.x1,
              x2 := x.x2 - pair_shift s.periodic ci.loc.x2 cj.loc.x2 s.dim.x2 }
            (g, root_i)).map Prod.fst
      | _, _ => none)
    (fun done st => Refines (shifted_linked s ci cj) g st ∧
      ∀ i ∈ done, ∀ j, j < cj.gcount →
        shifted_linked s ci cj (ci.gparts + i) (cj.gparts + j) →
        rootOf st (ci.gparts + i) = rootOf st (cj.gparts + j))
    (List.range ci.gcount) g
    ⟨refines_refl _ hd, fun i hi => by cases hi⟩
    (by
      rintro done i g1 hi ⟨href, hcov⟩
      have hic : i < ci.gcount := List.mem_range.1 hi
      have hl1 : g1.length = n := href.len.trans hg
      have hgi : g1[ci.gparts + i]? = some g1[ci.gparts + i] :=
        List.getElem?_eq_getElem (by omega)
      have hxi := gpart_x_some s (show ci.gparts + i < s.gparts.length by omega)
      have hoil := getElem_lt_of_downLinked href.down hgi
      obtain ⟨g2, r2, hrun, href2, _, hcov2⟩ :=
        partner_loop_spec (shifted_linked s ci cj) s hlen href.down hl1 (ci.gparts + i)
          (by omega) cj.gparts (List.range cj.gcount)
          (by
            intro j hj
            have := List.mem_range.1 hj
            omega)
          { x0 := s.gparts[ci.gparts + i].x.x0 -
              pair_shift s.periodic ci.loc.x0 cj.loc.x0 s.dim.x0,
            x1 := s.gparts[ci.gparts + i].x.x1 -
              pair_shift s.periodic ci.loc.x1 cj.loc.x1 s.dim.x1,
            x2 := s.gparts[ci.gparts + i].x.x2 -
              pair_shift s.periodic ci.loc.x2 cj.loc.x2 s.dim.x2 }
          (fun j _ x hx => by
            constructor
            · intro h
              exact ⟨_, _, hxi, hx, h⟩
            · rintro ⟨xa, xb, h1, h2, h3⟩
              rw [hxi] at h1
              rw [hx] at h2
              cases h1
              cases h2
              exact h3) fuel hf
      refine ⟨g2, ?_, refines_trans href href2, ?_⟩
      · simp only [hxi, hgi]
        rw [fof_find_eq_rootOf href.down hoil (by omega), ← rootOf_step href.down hgi]
        unfold pair_inner
        simp only [hrun, Option.map_some']
      · intro i2 hi2 j hjc hlink
        simp only [List.mem_append, List.mem_singleton] at hi2
        cases hi2 with
        | inl hmem => exact href2.keeps _ _ (hcov i2 hmem j hjc hlink)
        | inr heq =>
          subst heq
          exact hcov2 j (List.mem_range.2 hjc) hlink)
  obtain ⟨g2, hrun, href, hcov⟩ := key
  refine ⟨g2, hrun, href, ?_⟩
  rintro a b ⟨ha1, ha2⟩ ⟨hb1, hb2⟩ hlink
  obtain ⟨i, rfl⟩ : ∃ i, a = ci.gparts + i := ⟨a - ci.gparts, by omega⟩
  obtain ⟨j, rfl⟩ : ∃ j, b = cj.gparts + j := ⟨b - cj.gparts, by omega⟩
  exact hcov i (List.mem_range.2 (by omega)) j (by omega) hlink

/-- `rec_fof_search_pair` on a well-formed pair of cells, with or without
periodicity: it returns normally and keeps together what was together; when
the pair is not pruned and at least one of the cells is unsplit, every pair of
particles that passes the shifted distance test is joined. -/
theorem rec_fof_search_pair_grows (s : space) {n : Nat}
    (hlen : s.gparts.length = n) (hn : s.nr_gparts = n) (fuel : Nat) (hf : n ≤ fuel) :
    ∀ d ci cj, pair_wf d ci cj → cell_wf s d ci → cell_wf s d cj →
      ∀ depth, d ≤ depth → ∀ g, DownLinked g → g.length = n →
        ∃ g2, rec_fof_search_pair fuel depth ci cj s s.dim s.l_x2 g = Outcome.ok g2 ∧
          Refines any_link g g2 ∧
          ((ci.split && cj.split) = false → cell_min_dist ci cj s.dim ≤ s.l_x2 →
            ∀ a b, in_cell ci a → in_cell cj b → shifted_linked s ci cj a b →
              rootOf g2 a = rootOf g2 b) := by
  intro d
  induction d with
  | zero =>
    intro ci cj hp
    exact absurd hp (by simp [pair_wf])
  | succ d ih =>
    intro ci cj hp hwi hwj depth hdepth g hd hg
    obtain ⟨depth, rfl⟩ : ∃ k, depth = k + 1 := ⟨depth - 1, by omega⟩
    obtain ⟨haddr, _, hkids⟩ := hp
    simp only [rec_fof_search_pair]
    by_cases hprune : cell_min_dist ci cj s.dim > s.l_x2
    · rw [if_pos hprune]
      exact ⟨g, rfl, refines_refl _ hd, fun _ hle => absurd hprune (not_lt.2 hle)⟩
    · rw [if_neg hprune]
      by_cases hsplit : (ci.split && cj.split) = true
      · rw [if_pos hsplit]
        have hsplit2 := hsplit
        simp only [Bool.and_eq_true] at hsplit2
        obtain ⟨hsi, hsj⟩ := hsplit2
        obtain ⟨_, _, hci⟩ := hwi
        obtain ⟨_, _, hcj⟩ := hwj
        obtain ⟨hci1, _⟩ := hci hsi
        obtain ⟨hcj1, _⟩ := hcj hsj
        obtain ⟨g2, hrun, href⟩ := for_cells_grows
          (fun pk g =>
            match pk with
            | none => Outcome.ok g
            | some ck =>
              for_cells (fun pl g =>
                  match pl with
                  | none => Outcome.ok g
                  | some cl => rec_fof_search_pair fuel depth ck cl s s.dim s.l_x2 g)
                cj.progeny g) n ci.progeny
          (by
            intro pk hpk g1 hd1 hg1
            cases pk with
            | none => exact ⟨g1, rfl, refines_refl _ hd1⟩
            | some ck =>
              apply for_cells_grows _ n cj.progeny _ g1 hd1 hg1
              intro pl hpl g2 hd2 hg2
              cases pl with
              | none => exact ⟨g2, rfl, refines_refl _ hd2⟩
              | some cl =>
                obtain ⟨g3, hrun, href, _⟩ :=
                  ih ck cl (hkids hsi hsj ck cl hpk hpl) (hci1 ck hpk).1 (hcj1 cl hpl).1
                    depth (by omega) g2 hd2 hg2
                exact ⟨g3, hrun, href⟩) g hd hg
        refine ⟨g2, hrun, href, ?_⟩
        intro hns
        rw [hsplit] at hns
        cases hns
      · rw [if_neg hsplit, if_pos haddr]
        obtain ⟨g2, hrun, hlinks⟩ :=
          fof_search_pair_cells_shifted s hlen hd hg ci cj
            (hn ▸ cell_wf_range hwi) (hn ▸ cell_wf_range hwj) fuel hf
        exact ⟨g2, by rw [hrun]; rfl, refines_any hlinks.1, fun _ _ => hlinks.2⟩

theorem progeny_loop_grows (n : Nat)
    (self_rec : cell → List Nat → Outcome (List Nat))
    (pair_rec : cell → cell → List Nat → Outcome (List Nat)) :
    ∀ (ps : List (Option cell)),
      (∀ ck, some ck ∈ ps → ∀ g, DownLinked g → g.length = n →
        ∃ g2, self_rec ck g = Outcome.ok g2 ∧ Refines any_link g g2) →
      List.Pairwise (fun a b => ∀ g, DownLinked g → g.length = n →
        ∃ g2, pair_rec a b g = Outcome.ok g2 ∧ Refines any_link g g2)
        (ps.filterMap id) →
      ∀ g, DownLinked g → g.length = n →
        ∃ g2, progeny_loop self_rec pair_rec ps g = Outcome.ok g2 ∧
          Refines any_link g g2 := by
  intro ps
  induction ps with
  | nil =>
    intro _ _ g hd _
    exact ⟨g, rfl, refines_refl _ hd⟩
  | cons p rest ih =>
    intro hself hpair g hd hg
    cases p with
    | none =>
      have hfm : (none :: rest).filterMap id = rest.filterMap id := by
        simp [List.filterMap_cons]
      rw [hfm] at hpair
      obtain ⟨g2, hrun, href⟩ :=
        ih (fun ck h => hself ck (List.mem_cons_of_mem _ h)) hpair g hd hg
      exact ⟨g2, by simpa only [progeny_loop] using hrun, href⟩
    | some ck =>
      have hfm : (some ck :: rest).filterMap id = ck :: rest.filterMap id := by
        simp [List.filterMap_cons]
      rw [hfm, List.pairwise_cons] at hpair
      obtain ⟨hpk, hprest⟩ := hpair
      obtain ⟨g1, hrun1, href1⟩ := hself ck (List.mem_cons_self _ _) g hd hg
      have hl1 : g1.length = n := href1.len.trans hg
      obtain ⟨g2, hrun2, href2⟩ := for_cells_grows
        (fun pl g =>
          match pl with
          | none => Outcome.ok g
          | some cl => pair_rec ck cl g) n rest
        (by
          intro pl hpl g2 hd2 hg2
          cases pl with
          | none => exact ⟨g2, rfl, refines_refl _ hd2⟩
          | some cl =>
            have hmem : cl ∈ rest.filterMap id := by
              rw [List.mem_filterMap]
              exact ⟨some cl, hpl, rfl⟩
            exact hpk cl hmem g2 hd2 hg2) g1 href1.down hl1
      obtain ⟨g3, hrun3, href3⟩ :=
        ih (fun c h => hself c (List.mem_cons_of_mem _ h)) hprest g2 href2.down
          (href2.len.trans hl1)
      refine ⟨g3, ?_, refines_trans href1 (refines_trans href2 href3)⟩
      simp only [progeny_loop, hrun1, hrun2]
      exact hrun3

/-- `rec_fof_search_self` on a well-formed cell, with or without periodicity:
it returns normally and keeps together what was together. -/
theorem rec_fof_search_self_grows (s : space) {n : Nat}
    (hlen : s.gparts.length = n) (hn : s.nr_gparts = n) (fuel : Nat) (hf : n ≤ fuel) :
    ∀ d c, cell_wf s d c → siblings_wf d c →
      ∀ depth, d ≤ depth → ∀ g, DownLinked g → g.length = n →
        ∃ g2, rec_fof_search_self fuel depth c s s.dim s.l_x2 g = Outcome.ok g2 ∧
          Refines any_link g g2 := by
  intro d
  induction d with
  | zero =>
    intro c hw
    exact absurd hw (by simp [cell_wf])
  | succ d ih =>
    intro c hw hsib depth hdepth g hd hg
    obtain ⟨depth, rfl⟩ : ∃ k, depth = k + 1 := ⟨depth - 1, by omega⟩
    simp only [rec_fof_search_self]
    by_cases hsplit : c.split = true
    · rw [if_pos hsplit]
      obtain ⟨_, _, hkids⟩ := hw
      obtain ⟨hk1, _⟩ := hkids hsplit
      obtain ⟨hs1, hs2⟩ := hsib hsplit
      exact progeny_loop_grows n
        (fun c g => rec_fof_search_self fuel depth c s s.dim s.l_x2 g)
        (fun a b g => rec_fof_search_pair fuel depth a b s s.dim s.l_x2 g)
        c.progeny
        (fun ck hck g1 hd1 hg1 =>
          ih ck (hk1 ck hck).1 (hs2 ck hck) depth (by omega) g1 hd1 hg1)
        (List.Pairwise.imp_of_mem
          (fun {a b} ha hb hp g1 hd1 hg1 => by
            rw [List.mem_filterMap] at ha hb
            obtain ⟨pa, hpa, rfl⟩ := ha
            obtain ⟨pb, hpb, rfl⟩ := hb
            simp only [id] at hpa hpb hp ⊢
            obtain ⟨g2, hrun, href, _⟩ :=
              rec_fof_search_pair_grows s hlen hn fuel hf d _ _ hp
                (hk1 _ hpa).1 (hk1 _ hpb).1 depth (by omega) g1 hd1 hg1
            exact ⟨g2, hrun, href⟩)
          hs1)
        g hd hg
    · rw [if_neg hsplit]
      obtain ⟨g2, hrun, hlinks⟩ :=
        fof_search_cell_spec s hlen hd hg c (hn ▸ cell_wf_range hw) fuel hf
      exact ⟨g2, by rw [hrun]; rfl, refines_any hlinks.1⟩

/-- The loop over the top-level cells of a well-formed tree, with or without
periodicity: it returns normally and keeps together what was together; for
every pair of top-level cells `ci` before `cj` that is not pruned and of which
at least one is unsplit, every pair of particles that passes the shifted
distance test is joined. -/
theorem top_cells_loop_shifted (s : space) {n : Nat}
    (hlen : s.gparts.length = n) (hn : s.nr_gparts = n) (fuel : Nat) (hf : n ≤ fuel)
    (engine_rank : Int) (d depth : Nat) (hdepth : d ≤ depth) :
    ∀ (cs : List cell), (∀ c ∈ cs, c.nodeID = engine_rank) →
      (∀ c ∈ cs, cell_wf s d c ∧ siblings_wf d c) →
      List.Pairwise (fun a b => pair_wf d a b) cs →
      ∀ g, DownLinked g → g.length = n →
        ∃ g2, top_cells_loop fuel depth engine_rank s cs g = Outcome.ok g2 ∧
          Refines any_link g g2 ∧
          ∀ ci cj, List.Sublist [ci, cj] cs → (ci.split && cj.split) = false →
            cell_min_dist ci cj s.dim ≤ s.l_x2 →
            ∀ a b, in_cell ci a → in_cell cj b → shifted_linked s ci cj a b →
              rootOf g2 a = rootOf g2 b := by
  intro cs
  induction cs with
  | nil =>
    intro _ _ _ g hd _
    exact ⟨g, rfl, refines_refl _ hd, fun ci cj h => by cases h⟩
  | cons c rest ih =>
    intro hrank hwf hpair g hd hg
    rw [List.pairwise_cons] at hpair
    obtain ⟨hpi, hprest⟩ := hpair
    have hri : c.nodeID = engine_rank := hrank c (List.mem_cons_self _ _)
    simp only [top_cells_loop, hri, if_true]
    by_cases hempty : c.gcount = 0
    · rw [if_pos hempty]
      obtain ⟨g2, hrun, href, hcov⟩ :=
        ih (fun c h => hrank c (List.mem_cons_of_mem _ h))
          (fun c h => hwf c (List.mem_cons_of_mem _ h)) hprest g hd hg
      refine ⟨g2, hrun, href, ?_⟩
      intro ci cj hsub hns hmin a b ha hb hl
      cases hsub with
      | cons _ h => exact hcov ci cj h hns hmin a b ha hb hl
      | cons₂ _ h => exact absurd ha (in_cell_empty hempty a)
    · rw [if_neg hempty]
      obtain ⟨hwi, hsi⟩ := hwf c (List.mem_cons_self _ _)
      obtain ⟨g1, hrun1, href1⟩ :=
        rec_fof_search_self_grows s hlen hn fuel hf d c hwi hsi depth hdepth g hd hg
      have hl1 : g1.length = n := href1.len.trans hg
      have inner := for_cells_inv
        (fun (cj : cell) g =>
          if cj.nodeID = engine_rank then
            if cj.gcount = 0 then Outcome.ok g
            else rec_fof_search_pair fuel depth c cj s s.dim s.l_x2 g
          else Outcome.ok g)
        (fun done st => Refines any_link g1 st ∧
          ∀ cj, cj ∈ done → (c.split && cj.split) = false →
            cell_min_dist c cj s.dim ≤ s.l_x2 →
            ∀ a b, in_cell c a → in_cell cj b → shifted_linked s c cj a b →
              rootOf st a = rootOf st b)
        rest g1
        ⟨refines_refl _ href1.down, fun cj h => by cases h⟩
        (by
          rintro done cj g2 hcj ⟨href2, hcov2⟩
          have hrj : cj.nodeID = engine_rank := hrank cj (List.mem_cons_of_mem _ hcj)
          simp only [hrj, if_true]
          by_cases hej : cj.gcount = 0
          · rw [if_pos hej]
            refine ⟨g2, rfl, href2, ?_⟩
            intro cl hcl
            simp only [List.mem_append, List.mem_singleton] at hcl
            rcases hcl with h | rfl
            · exact hcov2 cl h
            · intro _ _ a b _ hb
              exact absurd hb (in_cell_empty hej b)
          · rw [if_neg hej]
            obtain ⟨g3, hrun3, href3, hcov3⟩ :=
              rec_fof_search_pair_grows s hlen hn fuel hf d c cj (hpi cj hcj) hwi
                (hwf cj (List.mem_cons_of_mem _ hcj)).1 depth hdepth g2 href2.down
                (href2.len.trans hl1)
            refine ⟨g3, hrun3, refines_trans href2 href3, ?_⟩
            intro cl hcl
            simp only [List.mem_append, List.mem_singleton] at hcl
            rcases hcl with h | rfl
            · intro hns hmin a b ha hb hl
              exact href3.keeps _ _ (hcov2 cl h hns hmin a b ha hb hl)
            · exact hcov3)
      obtain ⟨g2, hrun2, ⟨href2, hcov2⟩⟩ := inner
      obtain ⟨g3, hrun3, href3, hcov3⟩ :=
        ih (fun c h => hrank c (List.mem_cons_of_mem _ h))
          (fun c h => hwf c (List.mem_cons_of_mem _ h)) hprest g2 href2.down
          (href2.len.trans hl1)
      refine ⟨g3, ?_, refines_trans href1 (refines_trans href2 href3), ?_⟩
      · simp only [hrun1, hrun2]
        exact hrun3
      · intro ci cj hsub hns hmin a b ha hb hl
        cases hsub with
        | cons _ h => exact hcov3 ci cj h hns hmin a b ha hb hl
        | cons₂ _ h =>
          exact href3.keeps _ _
            (hcov2 cj (List.singleton_sublist.1 h) hns hmin a b ha hb hl)

theorem pair_wf_aligned {d : Nat} {ci cj : cell} (h : pair_wf d ci cj) : aligned ci cj := by
  cases d with
  | zero => exact absurd h (by simp [pair_wf])
  | succ d => exact h.2.1

theorem gpart_x_of_getElem {s : space} {k : Nat} {p : gpart} (h : s.gparts[k]? = some p) :
    gpart_x s k = some p.x := by
  simp [gpart_x, h]

theorem wrap_grid_wf : tree_wf wrap_grid_space 0 1 := by
  refine ⟨rfl, rfl, ?_, ?_, ?_, ?_⟩
  · intro c hc
    simp only [wrap_grid_space, List.mem_cons, List.mem_singleton, List.not_mem_nil,
      or_false] at hc
    rcases hc with rfl | rfl | rfl <;> rfl
  · intro c hc
    simp only [wrap_grid_space, List.mem_cons, List.mem_singleton, List.not_mem_nil,
      or_false] at hc
    rcases hc with rfl | rfl | rfl
    · apply leaf_cell_wf wrap_grid_space 0
      · decide
      · intro k p h1 h2 hp
        have hk : k = 0 := by omega
        subst hk
        simp only [gpart_x, wrap_grid_space, List.getElem?_cons_zero,
          Option.some.injEq] at hp
        subst hp
        norm_num [in_box, leaf_cell, cell.loc, cell.width, particle_at]
    · apply leaf_cell_wf wrap_grid_space 0
      · decide
      · intro k p h1 h2 hp
        omega
    · apply leaf_cell_wf wrap_grid_space 0
      · decide
      · intro k p h1 h2 hp
        have hk : k = 1 := by omega
        subst hk
        simp only [gpart_x, wrap_grid_space, List.getElem?_cons_succ,
          List.getElem?_cons_zero, Option.some.injEq] at hp
        subst hp
        norm_num [in_box, leaf_cell, cell.loc, cell.width, particle_at]
  · simp only [wrap_grid_space, List.pairwise_cons, List.mem_cons, List.mem_singleton,
      List.not_mem_nil, or_false, forall_eq_or_imp, forall_eq, List.Pairwise.nil,
      and_true, IsEmpty.forall_iff, implies_true]
    exact ⟨⟨grid_leaf_pair 0 0 1 0 1 1 1 0 0 1 (by decide) (by norm_num),
      grid_leaf_pair 0 0 2 0 2 1 1 0 1 1 (by decide) (by norm_num)⟩,
      grid_leaf_pair 0 1 2 1 2 1 0 1 1 1 (by decide) (by norm_num)⟩
  · intro k hk
    have hk2 : k < 2 := hk
    have hk3 : k = 0 ∨ k = 1 := by omega
    rcases hk3 with rfl | rfl
    · refine ⟨leaf_cell 0 0 1 1 0, by simp [wrap_grid_space], ?_⟩
      simp only [in_cell, leaf_cell, cell.gparts, cell.gcount]
      omega
    · refine ⟨leaf_cell 2 2 1 1 1, by simp [wrap_grid_space], ?_⟩
      simp only [in_cell, leaf_cell, cell.gparts, cell.gcount]
      omega

/-! ## The two passes of the cross-node search -/

theorem flatMap_length_le {α β : Type} (f : α → List β) (k : Nat) :
    ∀ l : List α, (∀ x ∈ l, (f x).length ≤ k) → (l.flatMap f).length ≤ l.length * k := by
  intro l
  induction l with
  | nil =>
    intro _
    simp
  | cons x xs ih =>
    intro h
    have h1 := h x (List.mem_cons_self _ _)
    have h2 := ih (fun y hy => h y (List.mem_cons_of_mem _ hy))
    rw [List.flatMap_cons, List.length_append, List.length_cons, Nat.succ_mul]
    omega

theorem link_records_length_le (fuel : Nat) (s : space) (cl cf : cell) (g : List Nat) :
    (link_records fuel s cl cf g).length ≤ cl.gcount * cf.gcount := by
  unfold link_records
  refine le_trans (flatMap_length_le _ cf.gcount _ ?_) (by rw [List.length_range])
  intro i _
  refine le_trans (flatMap_length_le _ 1 _ ?_) (by rw [List.length_range, Nat.mul_one])
  intro j _
  split
  · split
    · simp
    · simp
  · simp

theorem for_cells_sim {α σ τ : Type} (b1 : α → σ → Outcome σ) (b2 : α → τ → Outcome τ)
    (R : σ → τ → Prop) :
    ∀ l : List α,
      (∀ x ∈ l, ∀ st1 st2, R st1 st2 →
        ∃ t1 t2, b1 x st1 = Outcome.ok t1 ∧ b2 x st2 = Outcome.ok t2 ∧ R t1 t2) →
      ∀ st1 st2, R st1 st2 →
        ∃ t1 t2, for_cells b1 l st1 = Outcome.ok t1 ∧ for_cells b2 l st2 = Outcome.ok t2 ∧
          R t1 t2 := by
  intro l
  induction l with
  | nil =>
    intro _ st1 st2 h
    exact ⟨st1, st2, rfl, rfl, h⟩
  | cons x xs ih =>
    intro h st1 st2 hR
    obtain ⟨u1, u2, e1, e2, hR2⟩ := h x (List.mem_cons_self _ _) st1 st2 hR
    obtain ⟨t1, t2, f1, f2, hR3⟩ :=
      ih (fun y hy => h y (List.mem_cons_of_mem _ hy)) u1 u2 hR2
    refine ⟨t1, t2, ?_, ?_, hR3⟩
    · simp only [for_cells, e1]
      exact f1
    · simp only [for_cells, e2]
      exact f2

theorem pair_shift_image (per : Bool) (a b L : ℚ) :
    ∃ z : ℤ, pair_shift per a b L = z * L := by
  unfold pair_shift
  simp only
  split
  · exact ⟨1, by simp⟩
  · split
    · exact ⟨-1, by simp⟩
    · exact ⟨0, by simp⟩

theorem nearest_sq_le_shifted (per : Bool) (a b L x y : ℚ) :
    nearest (x - y) L * nearest (x - y) L ≤
      (x - pair_shift per a b L - y) * (x - pair_shift per a b L - y) := by
  obtain ⟨z, hz⟩ := pair_shift_image per a b L
  have h := abs_nearest_le_image (x - y) L z
  have e : x - pair_shift per a b L - y = x - y - z * L := by
    rw [hz]
    ring
  rw [e, ← abs_mul_abs_self (nearest (x - y) L)]
  exact sq_le_of_le_abs (abs_nonneg _) h

theorem r2_serial_le_shifted (s : space) (cl cf : cell) (p q : gpart) :
    r2_serial s.dim p q ≤ shifted_r2 s cl cf p.x q.x := by
  have h0 := nearest_sq_le_shifted s.periodic cl.loc.x0 cf.loc.x0 s.dim.x0 p.x.x0 q.x.x0
  have h1 := nearest_sq_le_shifted s.periodic cl.loc.x1 cf.loc.x1 s.dim.x1 p.x.x1 q.x.x1
  have h2 := nearest_sq_le_shifted s.periodic cl.loc.x2 cf.loc.x2 s.dim.x2 p.x.x2 q.x.x2
  simp only [r2_serial, shifted_r2, r2_plain]
  linarith

theorem flatMap_nil_of {α β : Type} (f : α → List β) :
    ∀ l : List α, (∀ x ∈ l, f x = []) → l.flatMap f = [] := by
  intro l
  induction l with
  | nil =>
    intro _
    rfl
  | cons x xs ih =>
    intro h
    rw [List.flatMap_cons, h x (List.mem_cons_self _ _),
      ih (fun y hy => h y (List.mem_cons_of_mem _ hy))]
    rfl

theorem gpart_x_inv {s : space} {k : Nat} {x : vec3} (h : gpart_x s k = some x) :
    ∃ p, s.gparts[k]? = some p ∧ p.x = x := by
  unfold gpart_x at h
  cases hp : s.gparts[k]? with
  | none =>
    rw [hp] at h
    cases h
  | some p =>
    rw [hp] at h
    exact ⟨p, rfl, Option.some.inj h⟩

theorem far_apart_symm {s : space} {ci cj : cell} (h : far_apart s ci cj) :
    far_apart s cj ci := by
  intro a b pa pb ha hb hpa hpb
  rw [r2_serial_comm]
  exact h b a pb pa hb ha hpb hpa

theorem link_records_far (fuel : Nat) (s : space) (cl cf : cell) (g : List Nat)
    (hfar : far_apart s cl cf) : link_records fuel s cl cf g = [] := by
  unfold link_records
  apply flatMap_nil_of
  intro i hi
  apply flatMap_nil_of
  intro j hj
  have hic := List.mem_range.1 hi
  have hjc := List.mem_range.1 hj
  split
  · rename_i x xf idf root hx hxf _ _
    obtain ⟨pa, hpa, rfl⟩ := gpart_x_inv hx
    obtain ⟨pb, hpb, rfl⟩ := gpart_x_inv hxf
    have h1 := hfar (cl.gparts + i) (cf.gparts + j) pa pb ⟨by omega, by omega⟩
      ⟨by omega, by omega⟩ hpa hpb
    have h2 := r2_serial_le_shifted s cl cf pa pb
    rw [if_neg (not_lt.2 (le_trans h1 h2))]
  · rfl

/-- The linker `fof_search_pair_cells_foreign` on a local and a foreign cell
inside the particle array: it returns normally, appends at most
`ci.gcount * cj.gcount` records, and appends none when no particle of the one
is within the linking length of a particle of the other. -/
theorem foreign_linker_bound (s : space) (engine_rank : Int) {g : List Nat}
    (hd : DownLinked g) (hg : g.length = s.gparts.length) (ci cj : cell)
    (hci : ci.gparts + ci.gcount ≤ s.gparts.length)
    (hcj : cj.gparts + cj.gcount ≤ s.gparts.length) (fuel : Nat) (hf : g.length ≤ fuel)
    (send : List fof_mpi) (hlf : local_foreign engine_rank ci cj = true) :
    ∃ recs, fof_search_pair_cells_foreign fuel engine_rank s ci cj g send =
        Outcome.ok (send ++ recs) ∧
      recs.length ≤ ci.gcount * cj.gcount ∧ (far_apart s ci cj → recs = []) := by
  simp only [local_foreign, Bool.or_eq_true, Bool.and_eq_true, decide_eq_true_eq] at hlf
  rcases hlf with ⟨h1, h2⟩ | ⟨h1, h2⟩
  · refine ⟨link_records fuel s ci cj g, ?_, link_records_length_le fuel s ci cj g,
      link_records_far fuel s ci cj g⟩
    simp only [fof_search_pair_cells_foreign, h1, h2, decide_True, decide_False,
      Bool.and_false, Bool.not_true, Bool.false_and, Bool.or_self, if_true, if_false,
      Bool.false_eq_true, foreign_pair_loop_spec s hd hg ci cj hci hcj fuel hf send]
    rfl
  · refine ⟨link_records fuel s cj ci g, ?_, ?_,
      fun h => link_records_far fuel s cj ci g (far_apart_symm h)⟩
    · simp only [fof_search_pair_cells_foreign, h1, h2, decide_True, decide_False,
        Bool.and_true, Bool.not_true, Bool.not_false, Bool.false_and, Bool.and_false,
        Bool.or_self, if_true, if_false,
        Bool.false_eq_true, foreign_pair_loop_spec s hd hg cj ci hcj hci fuel hf send]
      rfl
    · rw [Nat.mul_comm]
      exact link_records_length_le fuel s cj ci g

theorem local_foreign_progeny {engine_rank : Int} {ci cj ck cl : cell}
    (h : local_foreign engine_rank ci cj = true) (hk : ck.nodeID = ci.nodeID)
    (hl : cl.nodeID = cj.nodeID) : local_foreign engine_rank ck cl = true := by
  unfold local_foreign at h ⊢
  rw [hk, hl]
  exact h

theorem far_apart_progeny {s : space} {ci cj ck cl : cell} (h : far_apart s ci cj)
    (hk : ∀ k, in_cell ck k → in_cell ci k) (hl : ∀ k, in_cell cl k → in_cell cj k) :
    far_apart s ck cl :=
  fun a b pa pb ha hb hpa hpb => h a b pa pb (hk a ha) (hl b hb) hpa hpb

/-- The two recursions over a local/foreign pair of cells run in step: on a
well-formed pair both return normally, the generation recursion appends at
most as many records as the sizing recursion adds to `nr_links`, and it
appends none when no two particles of the pair are within the linking
length. -/
theorem rec_foreign_passes (s : space) (engine_rank : Int) {g : List Nat}
    (hd : DownLinked g) (hg : g.length = s.gparts.length)
    (hparts : s.gparts.length = s.nr_gparts) (fuel : Nat) (hf : g.length ≤ fuel) :
    ∀ d ci cj, pair_wf d ci cj → cell_wf s d ci → cell_wf s d cj →
      same_owner d ci → same_owner d cj → local_foreign engine_rank ci cj = true →
      ∀ depth, d ≤ depth → ∀ (send : List fof_mpi) (nr : Nat), send.length ≤ nr →
        ∃ send2 nr2,
          rec_fof_search_pair_foreign fuel engine_rank depth ci cj s s.dim s.l_x2 g send =
            Outcome.ok send2 ∧
          rec_fof_search_pair_foreign_count depth ci cj s.dim s.l_x2 nr = Outcome.ok nr2 ∧
          send2.length ≤ nr2 ∧ (far_apart s ci cj → send2 = send) := by
  intro d
  induction d with
  | zero =>
    intro ci cj hp
    exact absurd hp (by simp [pair_wf])
  | succ d ih =>
    intro ci cj hp hwi hwj hoi hoj hlf depth hdepth send nr hle
    obtain ⟨depth, rfl⟩ : ∃ k, depth = k + 1 := ⟨depth - 1, by omega⟩
    obtain ⟨haddr, _, hkids⟩ := hp
    simp only [rec_fof_search_pair_foreign, rec_fof_search_pair_foreign_count]
    by_cases hprune : cell_min_dist ci cj s.dim > s.l_x2
    · rw [if_pos hprune, if_pos hprune]
      exact ⟨send, nr, rfl, rfl, hle, fun _ => rfl⟩
    · rw [if_neg hprune, if_neg hprune]
      by_cases hsplit : (ci.split && cj.split) = true
      · rw [if_pos hsplit, if_pos hsplit]
        simp only [Bool.and_eq_true] at hsplit
        obtain ⟨hsi, hsj⟩ := hsplit
        have hri := cell_wf_range hwi
        have hrj := cell_wf_range hwj
        obtain ⟨_, _, hci⟩ := hwi
        obtain ⟨_, _, hcj⟩ := hwj
        obtain ⟨hci1, _⟩ := hci hsi
        obtain ⟨hcj1, _⟩ := hcj hsj
        have hoi2 := hoi hsi
        have hoj2 := hoj hsj
        apply for_cells_sim _ _
          (fun (st1 : List fof_mpi) (st2 : Nat) =>
            st1.length ≤ st2 ∧ (far_apart s ci cj → st1 = send)) ci.progeny _ send nr
          ⟨hle, fun _ => rfl⟩
        intro pk hpk st1 st2 hR
        cases pk with
        | none => exact ⟨st1, st2, rfl, rfl, hR⟩
        | some ck =>
          apply for_cells_sim _ _
            (fun (st1 : List fof_mpi) (st2 : Nat) =>
              st1.length ≤ st2 ∧ (far_apart s ci cj → st1 = send)) cj.progeny _ st1 st2 hR
          intro pl hpl u1 u2 hR2
          cases pl with
          | none => exact ⟨u1, u2, rfl, rfl, hR2⟩
          | some cl =>
            obtain ⟨send2, nr2, e1, e2, hle2, hfar2⟩ :=
              ih ck cl (hkids hsi hsj ck cl hpk hpl) (hci1 ck hpk).1 (hcj1 cl hpl).1
                (hoi2 ck hpk).2 (hoj2 cl hpl).2
                (local_foreign_progeny hlf (hoi2 ck hpk).1 (hoj2 cl hpl).1)
                depth (by omega) u1 u2 hR2.1
            refine ⟨send2, nr2, e1, e2, hle2, ?_⟩
            intro hfar
            rw [hfar2 (far_apart_progeny hfar (hci1 ck hpk).2 (hcj1 cl hpl).2)]
            exact hR2.2 hfar
      · rw [if_neg hsplit, if_neg hsplit, if_pos haddr, if_pos haddr]
        obtain ⟨recs, hrun, hlen, hfar⟩ :=
          foreign_linker_bound s engine_rank hd hg ci cj
            (hparts ▸ cell_wf_range hwi) (hparts ▸ cell_wf_range hwj) fuel hf send hlf
        refine ⟨send ++ recs, _, hrun, rfl, ?_, ?_⟩
        · rw [List.length_append]
          omega
        · intro h
          rw [hfar h, List.append_nil]

theorem add_interface_cell_spec (engine_rank : Int) (cid : Nat) (c : cell)
    (st : foreign_state) {n : Nat} (hl : st.cell_added.length = n) (hc : cid < n) :
    ∃ st2, add_interface_cell engine_rank cid c st = some st2 ∧
      st2.fof_send = st.fof_send ∧ st2.cell_added.length = n := by
  unfold add_interface_cell
  rw [List.getElem?_eq_getElem (by omega)]
  simp only
  split
  · exact ⟨_, rfl, rfl, by simp [hl]⟩
  · exact ⟨_, rfl, rfl, hl⟩

theorem far_apart_of_cell_min_dist {s : space} {d : Nat} {ci cj : cell}
    (hwi : cell_wf s d ci) (hwj : cell_wf s d cj) (hal : aligned ci cj)
    (hdi : inside_domain ci s.dim) (hdj : inside_domain cj s.dim)
    (h : ¬ cell_min_dist ci cj s.dim < s.l_x2) : far_apart s ci cj := by
  intro a b pa pb ha hb hpa hpb
  have hbi : in_box ci pa.x := cell_wf_box hwi ha (gpart_x_of_getElem hpa)
  have hbj : in_box cj pb.x := cell_wf_box hwj hb (gpart_x_of_getElem hpb)
  exact le_trans (not_lt.1 h) (cell_min_dist_le_wrapped pa pb hbi hbj hal hdi hdj)

theorem pairwise_getElem? {α : Type} {R : α → α → Prop} {l : List α}
    (h : List.Pairwise R l) {i j : Nat} {a b : α} (hij : i < j) (ha : l[i]? = some a)
    (hb : l[j]? = some b) : R a b := by
  induction l generalizing i j with
  | nil => simp at ha
  | cons x xs ih =>
    rw [List.pairwise_cons] at h
    cases j with
    | zero => omega
    | succ j =>
      rw [List.getElem?_cons_succ] at hb
      cases i with
      | zero =>
        rw [List.getElem?_cons_zero] at ha
        cases ha
        exact h.1 b (List.getElem?_mem hb)
      | succ i =>
        rw [List.getElem?_cons_succ] at ha
        exact ih h.2 (by omega) ha hb

/-- With the distance test of the linker evaluated exactly (`r2_plain`, no
rounding to `float`): on a well-formed cell array shared between ranks
(grid-aligned cells inside the domain, particles inside their cells, progeny
owned by the owner of the cell) and a down-linked `group_id`, both passes of
`fof_search_foreign_cells` return normally, and the number of records the
generation pass has written (the final `send_count`) does not exceed the
`nr_links` of the sizing pass. -/
theorem foreign_send_count_within_nr_links (s : space) (engine_rank : Int)
    (d fuel depth : Nat) (g : List Nat) (hwf : foreign_wf s d) (hd : DownLinked g)
    (hg : g.length = s.gparts.length) (hf : g.length ≤ fuel) (hdepth : d ≤ depth) :
    ∃ nr_links count st,
      foreign_sizing depth engine_rank s = Outcome.ok (nr_links, count) ∧
      foreign_generate fuel depth engine_rank s g = Outcome.ok st ∧
      st.fof_send.length ≤ nr_links := by
  have key := for_cells_sim
    (fun cid (st : foreign_state) =>
      match s.cells_top[cid]? with
      | none => Outcome.stuck
      | some ci =>
        if ci.gcount = 0 then Outcome.ok st
        else
          for_cell_index s.cells_top (fun cjd cj st =>
              if local_foreign engine_rank ci cj then
                if cj.gcount = 0 then Outcome.ok st
                else
                  match rec_fof_search_pair_foreign fuel engine_rank depth ci cj s s.dim
                      s.l_x2 g st.fof_send with
                  | Outcome.ok send =>
                    if cell_min_dist ci cj s.dim < s.l_x2 then
                      match add_interface_cell engine_rank cid ci
                          { st with fof_send := send } with
                      | none => Outcome.stuck
                      | some st1 =>
                        Outcome.ofOption (add_interface_cell engine_rank cjd cj st1)
                    else Outcome.ok { st with fof_send := send }
                  | Outcome.fatal m => Outcome.fatal m
                  | Outcome.stuck => Outcome.stuck
              else Outcome.ok st)
            (List.range' (cid + 1) (s.nr_cells - (cid + 1))) st)
    (fun cid (st : Nat × Nat) =>
      match s.cells_top[cid]? with
      | none => Outcome.stuck
      | some ci =>
        if ci.gcount = 0 then Outcome.ok st
        else
          for_cell_index s.cells_top (fun _ cj st =>
              if local_foreign engine_rank ci cj then
                if cj.gcount = 0 then Outcome.ok st
                else if cell_min_dist ci cj s.dim < s.l_x2 then
                  match rec_fof_search_pair_foreign_count depth ci cj s.dim s.l_x2 st.1 with
                  | Outcome.ok nr => Outcome.ok (nr, st.2 + 1)
                  | Outcome.fatal m => Outcome.fatal m
                  | Outcome.stuck => Outcome.stuck
                else Outcome.ok st
              else Outcome.ok st)
            (List.range' (cid + 1) (s.nr_cells - (cid + 1))) st)
    (fun (st1 : foreign_state) (st2 : Nat × Nat) =>
      st1.fof_send.length ≤ st2.1 ∧ st1.cell_added.length = s.nr_cells)
    (List.range s.nr_cells)
    (by
      intro cid hcid st1 st2 hR
      have hc : cid < s.cells_top.length := by
        rw [← hwf.count]
        exact List.mem_range.1 hcid
      have hci : s.cells_top[cid]? = some s.cells_top[cid] := List.getElem?_eq_getElem hc
      simp only [hci]
      by_cases hempty : s.cells_top[cid].gcount = 0
      · rw [if_pos hempty, if_pos hempty]
        exact ⟨st1, st2, rfl, rfl, hR⟩
      · rw [if_neg hempty, if_neg hempty]
        unfold for_cell_index
        apply for_cells_sim _ _ _ _ _ st1 st2 hR
        intro cjd hcjd u1 u2 hR2
        rw [List.mem_range'_1] at hcjd
        have hcj : cjd < s.cells_top.length := by
          rw [← hwf.count]
          omega
        have hcje : s.cells_top[cjd]? = some s.cells_top[cjd] :=
          List.getElem?_eq_getElem hcj
        simp only [hcje]
        by_cases hlf : local_foreign engine_rank s.cells_top[cid] s.cells_top[cjd] = true
        · rw [if_pos hlf, if_pos hlf]
          by_cases hej : s.cells_top[cjd].gcount = 0
          · rw [if_pos hej, if_pos hej]
            exact ⟨u1, u2, rfl, rfl, hR2⟩
          · rw [if_neg hej, if_neg hej]
            obtain ⟨hwi, hoi, hdi⟩ := hwf.cells _ (List.getElem_mem hc)
            obtain ⟨hwj, hoj, hdj⟩ := hwf.cells _ (List.getElem_mem hcj)
            have hp : pair_wf d s.cells_top[cid] s.cells_top[cjd] :=
              pairwise_getElem? hwf.pairs (by omega) hci hcje
            obtain ⟨send2, nr2, e1, e2, hle, hfar⟩ :=
              rec_foreign_passes s engine_rank hd hg hwf.parts fuel hf d _ _ hp hwi hwj
                hoi hoj hlf depth hdepth u1.fof_send u2.1 hR2.1
            rw [e1]
            simp only
            by_cases hnear : cell_min_dist s.cells_top[cid] s.cells_top[cjd] s.dim < s.l_x2
            · rw [if_pos hnear, if_pos hnear, e2]
              obtain ⟨v1, hv1, hs1, hl1⟩ :=
                add_interface_cell_spec engine_rank cid s.cells_top[cid]
                  { u1 with fof_send := send2 } hR2.2 (by rw [hwf.count]; exact hc)
              obtain ⟨v2, hv2, hs2, hl2⟩ :=
                add_interface_cell_spec engine_rank cjd s.cells_top[cjd] v1 hl1
                  (by rw [hwf.count]; exact hcj)
              refine ⟨v2, (nr2, u2.2 + 1), ?_, rfl, ?_, hl2⟩
              · rw [hv1]
                simp only [hv2, Outcome.ofOption]
              · rw [hs2, hs1]
                exact hle
            · rw [if_neg hnear, if_neg hnear]
              refine ⟨_, u2, rfl, rfl, ?_, hR2.2⟩
              have := hfar (far_apart_of_cell_min_dist hwi hwj (pair_wf_aligned hp) hdi hdj
                hnear)
              simp only [this]
              exact hR2.1
        · rw [if_neg hlf, if_neg hlf]
          exact ⟨u1, u2, rfl, rfl, hR2⟩)
    { fof_send := [], interface_cells := [], cell_added := List.replicate s.nr_cells 0 }
    (0, 0) ⟨Nat.le_refl _, List.length_replicate _ _⟩
  obtain ⟨t1, t2, h1, h2, hR⟩ := key
  exact ⟨t2.1, t2.2, t1, h2, h1, hR.1⟩

theorem overlap_foreign_sizing :
    foreign_sizing 1 0 overlap_foreign_space = Outcome.ok (0, 0) := by
  have hm : cell_min_dist (leaf_cell 0 0 2 1 0) (leaf_cell_rank1 1 1 2 1 1)
      { x0 := 100, x1 := 100, x2 := 100 } = 1 := overlap_cell_min_dist
  have h2 : List.range 2 = [0, 1] := by decide
  have hr0 : List.range' 1 1 = [1] := by decide
  have hr1 : List.range' 2 0 = [] := by decide
  have hlf : local_foreign 0 (leaf_cell 0 0 2 1 0) (leaf_cell_rank1 1 1 2 1 1) = true := by
    decide
  have hg0 : (leaf_cell 0 0 2 1 0).gcount = 1 := rfl
  have hg1 : (leaf_cell_rank1 1 1 2 1 1).gcount = 1 := rfl
  simp [foreign_sizing, for_cell_index, overlap_foreign_space, h2, hr0, hr1, for_cells,
    hlf, hg0, hg1, hm]

theorem overlap_foreign_generate :
    foreign_generate 2 1 0 overlap_foreign_space [0, 1] =
      Outcome.ok { fof_send := [{ foreign_pid := 1, root_i := 0 }], interface_cells := [],
                   cell_added := [0, 0] } := by
  have hm : cell_min_dist (leaf_cell 0 0 2 1 0) (leaf_cell_rank1 1 1 2 1 1)
      { x0 := 100, x1 := 100, x2 := 100 } = 1 := overlap_cell_min_dist
  have h2 : List.range 2 = [0, 1] := by decide
  have hr0 : List.range' 1 1 = [1] := by decide
  have hr1 : List.range' 2 0 = [] := by decide
  have hlf : local_foreign 0 (leaf_cell 0 0 2 1 0) (leaf_cell_rank1 1 1 2 1 1) = true := by
    decide
  have hg0 : (leaf_cell 0 0 2 1 0).gcount = 1 := rfl
  have hg1 : (leaf_cell_rank1 1 1 2 1 1).gcount = 1 := rfl
  have hs0 : (leaf_cell 0 0 2 1 0).split = false := rfl
  have ha : (leaf_cell 0 0 2 1 0).addr ≠ (leaf_cell_rank1 1 1 2 1 1).addr := by decide
  have hrec : rec_fof_search_pair_foreign 2 0 1 (leaf_cell 0 0 2 1 0)
      (leaf_cell_rank1 1 1 2 1 1) overlap_foreign_space { x0 := 100, x1 := 100, x2 := 100 }
      1 [0, 1] [] = Outcome.ok [{ foreign_pid := 1, root_i := 0 }] := by
    simp only [rec_fof_search_pair_foreign, hm, hs0, gt_iff_lt, lt_self_iff_false, if_false,
      Bool.false_and, Bool.false_eq_true, if_pos ha]
    have h1 : List.range 1 = [0] := by decide
    simp only [fof_search_pair_cells_foreign, foreign_pair_loop, leaf_cell, leaf_cell_rank1,
      cell.nodeID, cell.gcount, cell.gparts, cell.loc, h1, for_list, gpart_x, gpart_id,
      overlap_foreign_space, pair_shift, particle_at, r2_plain]
    simp [fof_find, Outcome.ofOption]
    norm_num
  have hc : overlap_foreign_space.cells_top =
      [leaf_cell 0 0 2 1 0, leaf_cell_rank1 1 1 2 1 1] := rfl
  have hn : overlap_foreign_space.nr_cells = 2 := rfl
  have hdim : overlap_foreign_space.dim = { x0 := 100, x1 := 100, x2 := 100 } := rfl
  have hl : overlap_foreign_space.l_x2 = 1 := rfl
  simp [foreign_generate, for_cell_index, hc, hn, hdim, hl, h2, hr0, hr1, for_cells,
    hlf, hg0, hg1, hm, hrec]

/-- On a cell array whose cells overlap the bound fails with exact distances
as well: for the local cell `[0, 2]` and the foreign cell `[1, 3]` with linking
length `1`,
`cell_min_dist` is exactly `l_x2`.  The sizing pass tests `r2 < search_r2` and
counts nothing (`nr_links = 0`), the generation pass enters the recursion,
which returns only on `r2 > search_r2`, and writes one record for the
particles at `x = 1.5` and `x = 1.6`: `send_count = 1` exceeds `nr_links`. -/
theorem foreign_send_count_exceeds_nr_links_on_overlap :
    foreign_sizing 1 0 overlap_foreign_space = Outcome.ok (0, 0) ∧
    ∃ st, foreign_generate 2 1 0 overlap_foreign_space [0, 1] = Outcome.ok st ∧
      st.fof_send = [{ foreign_pid := 1, root_i := 0 }] ∧ 0 < st.fof_send.length :=
  ⟨overlap_foreign_sizing, _, overlap_foreign_generate, rfl, by decide⟩

theorem cell_wf_congr {s t : space} (hg : s.gparts = t.gparts)
    (hn : s.nr_gparts = t.nr_gparts) : ∀ d c, cell_wf s d c → cell_wf t d c := by
  intro d
  induction d with
  | zero =>
    intro c h
    exact absurd h (by simp [cell_wf])
  | succ d ih =>
    rintro c ⟨h1, h2, h3⟩
    refine ⟨hn ▸ h1, ?_, ?_⟩
    · intro k x hk hx
      apply h2 k x hk
      simpa only [gpart_x, hg] using hx
    · intro hs
      obtain ⟨h4, h5⟩ := h3 hs
      exact ⟨fun ck hck => ⟨ih ck (h4 ck hck).1, (h4 ck hck).2⟩, h5⟩

theorem two_rank_wf : foreign_wf two_rank_space 2 := by
  have hsplit : cell_wf two_rank_space 2 split_cell_example :=
    cell_wf_congr rfl rfl 2 _ (grid_space_wf.cells split_cell_example
      (List.mem_cons_self _ _)).1
  have hleaf : cell_wf two_rank_space 2 foreign_cell_example := by
    refine ⟨by decide, ?_, ?_⟩
    · rintro k p ⟨h1, h2⟩ hp
      simp only [foreign_cell_example, cell.gparts, cell.gcount] at h1 h2
      have hk : k = 2 := by omega
      subst hk
      simp only [gpart_x, two_rank_space, grid_space, List.getElem?_cons_succ,
        List.getElem?_cons_zero, Option.some.injEq] at hp
      subst hp
      norm_num [in_box, foreign_cell_example, cell.loc, cell.width, particle_at]
    · intro h
      cases h
  refine ⟨rfl, rfl, ?_, ?_⟩
  · intro c hc
    simp only [two_rank_space, List.mem_cons, List.mem_singleton, List.not_mem_nil,
      or_false] at hc
    rcases hc with rfl | rfl
    · refine ⟨hsplit, ?_, ?_⟩
      · intro _ ck hck
        simp only [split_cell_example, cell.progeny, List.mem_cons, Option.some.injEq,
          reduceCtorEq, List.not_mem_nil, or_false] at hck
        rcases hck with rfl | rfl
        · exact ⟨rfl, fun h => by cases h⟩
        · exact ⟨rfl, fun h => by cases h⟩
      · norm_num [inside_domain, split_cell_example, cell.loc, cell.width, two_rank_space,
          grid_space]
    · refine ⟨hleaf, ?_, ?_⟩
      · intro h
        cases h
      · norm_num [inside_domain, cell.loc, cell.width, two_rank_space, grid_space]
  · simp only [two_rank_space, List.pairwise_cons, List.mem_singleton, forall_eq,
      List.not_mem_nil, IsEmpty.forall_iff, implies_true, List.Pairwise.nil, and_true]
    refine ⟨by decide, ⟨Or.inr (Or.inl ?_), Or.inl ⟨rfl, rfl⟩, Or.inl ⟨rfl, rfl⟩⟩, ?_⟩
    · norm_num [split_cell_example, cell.loc, cell.width]
    · intro _ h
      cases h

theorem foreign_send_count_within_nr_links_witness :
    foreign_wf two_rank_space 2 ∧ DownLinked (identity_group_id 3) ∧
    ∃ nr_links count st,
      foreign_sizing 2 0 two_rank_space = Outcome.ok (nr_links, count) ∧
      foreign_generate 3 2 0 two_rank_space (identity_group_id 3) = Outcome.ok st ∧
      st.fof_send.length ≤ nr_links :=
  ⟨two_rank_wf, downLinked_identity 3,
    foreign_send_count_within_nr_links two_rank_space 0 2 3 2 (identity_group_id 3)
      two_rank_wf (downLinked_identity 3) rfl (by decide) (by decide)⟩

/-! ## The fold-in loop keeps the parent links pointing down -/

theorem for_list_preserves {α σ : Type} (body : α → σ → Option σ) (P : σ → Prop)
    (l : List α) (h : ∀ x ∈ l, ∀ st, P st → ∃ st2, body x st = some st2 ∧ P st2)
    (st : σ) (h0 : P st) : ∃ st2, for_list body l st = some st2 ∧ P st2 :=
  for_list_inv body (fun _ st => P st) l st h0 (fun _ x st hx hP => h x hx st hP)

/-- The states the fold-in loop can reach from `g`: down-linked, of the size
of `g`, and every entry either still the entry of `g` or a value below its
slot. -/
theorem fold_in_particle_inv (s : space) {g st : List Nat} (hd : DownLinked st)
    (hg : st.length = s.gparts.length)
    (hw : ∀ k v : Nat, st[k]? = some v → g[k]? = some v ∨ v < k) (r : fof_mpi) (c : cell)
    (k fuel : Nat) (hk : c.gparts + k < s.gparts.length) (hf : st.length ≤ fuel) :
    ∃ st2, fold_in_particle fuel s r c k st = some st2 ∧ DownLinked st2 ∧
      st2.length = st.length ∧ ∀ k v : Nat, st2[k]? = some v → g[k]? = some v ∨ v < k := by
  rw [fold_in_particle_spec s hd hg r c k fuel hk hf]
  split
  · rename_i hc
    refine ⟨_, rfl, downLinked_set hd (le_of_lt hc.2), List.length_set _ _ _, ?_⟩
    intro m v hv
    rw [List.getElem?_set] at hv
    split at hv
    · rename_i hm
      subst hm
      split at hv
      · cases hv
        exact Or.inr hc.2
      · cases hv
    · exact hw m v hv
  · exact ⟨st, rfl, hd, rfl, hw⟩


/-- C29. From a state with `group_id[k] <= k` for all `k` (entries are natural
numbers, as are the received roots), the fold-in loop of
`fof_search_foreign_cells` over the first `send_count` received records and
the interface cells returns normally, and in the state it leaves
`group_id[k] <= k` still holds for all `k`: the array keeps its size, every
entry is a valid index, there is no parent cycle, and every entry that differs
from the entry before the loop holds a value below its slot. -/
theorem fold_in_keeps_links_down (s : space) (g : List Nat) (cells : List cell)
    (fof_recv : List fof_mpi) (send_count fuel : Nat) (hd : DownLinked g)
    (hg : g.length = s.gparts.length) (hf : g.length ≤ fuel)
    (hcells : ∀ c ∈ cells, c.gparts + c.gcount ≤ s.gparts.length)
    (hcount : send_count ≤ fof_recv.length) :
    ∃ g2, foreign_fold_in fuel s cells send_count fof_recv g = some g2 ∧
      DownLinked g2 ∧ g2.length = g.length ∧ ValidIndices g2 ∧ NoCycle g2 ∧
      ∀ k v : Nat, g2[k]? = some v → g[k]? = some v ∨ v < k := by
  have key := for_list_preserves
    (fun i st =>
      match fof_recv[i]? with
      | none => none
      | some r => fold_in_record fuel s cells r st)
    (fun st => DownLinked st ∧ st.length = g.length ∧
      ∀ k v : Nat, st[k]? = some v → g[k]? = some v ∨ v < k)
    (List.range send_count)
    (by
      intro i hi st hst
      have hil : i < fof_recv.length := by
        have := List.mem_range.1 hi
        omega
      simp only [List.getElem?_eq_getElem hil, fold_in_record]
      apply for_list_preserves _ _ cells _ st hst
      intro c hc st1 hst1
      apply for_list_preserves _ _ (List.range c.gcount) _ st1 hst1
      intro k hk st2 ⟨hd2, hl2, hw2⟩
      have hkc := List.mem_range.1 hk
      have hcr := hcells c hc
      obtain ⟨st3, hrun, hd3, hl3, hw3⟩ :=
        fold_in_particle_inv s hd2 (hl2.trans hg) hw2 fof_recv[i] c k fuel (by omega)
          (by omega)
      exact ⟨st3, hrun, hd3, hl3.trans hl2, hw3⟩)
    g ⟨hd, rfl, fun _ _ h => Or.inl h⟩
  obtain ⟨g2, hrun, hd2, hl2, hw2⟩ := key
  exact ⟨g2, hrun, hd2, hl2, validIndices_of_downLinked hd2, noCycle_of_downLinked hd2, hw2⟩

theorem fold_in_keeps_links_down_witness :
    DownLinked [0, 0, 2, 3] ∧
    ∃ g2, foreign_fold_in 4 node0_space [leaf_cell 1 2 2 1 2] 1
        [{ foreign_pid := 5, root_i := 1 }] [0, 0, 2, 3] = some g2 ∧
      DownLinked g2 ∧ g2.length = [0, 0, 2, 3].length ∧ ValidIndices g2 ∧ NoCycle g2 ∧
      ∀ k v : Nat, g2[k]? = some v → [0, 0, 2, 3][k]? = some v ∨ v < k :=
  ⟨downLinked_node0,
    fold_in_keeps_links_down node0_space [0, 0, 2, 3] [leaf_cell 1 2 2 1 2]
      [{ foreign_pid := 5, root_i := 1 }] 1 4 downLinked_node0 rfl (by decide)
      (by
        intro c hc
        rw [List.mem_singleton] at hc
        subst hc
        decide)
      (by decide)⟩

/-! ## The linkers as finest coarsenings -/

/-- `fof_search_cell` for a link relation `L` that agrees with its distance
test on the particles of the cell. -/
theorem fof_search_cell_links (L : Nat → Nat → Prop) (hsymm : ∀ a b, L a b → L b a)
    (s : space) {n : Nat} (hlen : s.gparts.length = n)
    {g : List Nat} (hd : DownLinked g) (hg : g.length = n) (c : cell)
    (hc : c.gparts + c.gcount ≤ n) (fuel : Nat) (hf : n ≤ fuel)
    (hiff : ∀ a b xa xb, in_cell c a → in_cell c b → gpart_x s a = some xa →
      gpart_x s b = some xb → (r2_plain xa xb < s.l_x2 ↔ L a b)) :
    ∃ g2, fof_search_cell fuel s c g = some g2 ∧ Links L g g2 (in_cell c) (in_cell c) := by
  have key := for_list_inv
    (fun i g =>
      match gpart_x s (c.gparts + i), g[c.gparts + i]? with
      | some pix, some oi =>
        match fof_find fuel oi g with
        | none => none
        | some root_i =>
          (cell_inner fuel s c.gparts c.gcount i pix (g, root_i)).map Prod.fst
      | _, _ => none)
    (fun done st => Refines L g st ∧
      ∀ i ∈ done, ∀ j, i < j → j < c.gcount → L (c.gparts + i) (c.gparts + j) →
        rootOf st (c.gparts + i) = rootOf st (c.gparts + j))
    (List.range c.gcount) g
    ⟨refines_refl _ hd, fun i hi => by cases hi⟩
    (by
      rintro done i g1 hi ⟨href, hcov⟩
      have hic : i < c.gcount := List.mem_range.1 hi
      have hl1 : g1.length = n := href.len.trans hg
      have hgi : g1[c.gparts + i]? = some g1[c.gparts + i] :=
        List.getElem?_eq_getElem (by omega)
      have hxi := gpart_x_some s (show c.gparts + i < s.gparts.length by omega)
      have hoil := getElem_lt_of_downLinked href.down hgi
      obtain ⟨g2, r2, hrun, href2, _, hcov2⟩ :=
        partner_loop_spec L s hlen href.down hl1 (c.gparts + i) (by omega)
          c.gparts (List.range' (i + 1) (c.gcount - (i + 1)))
          (by
            intro j hj
            rw [List.mem_range'] at hj
            obtain ⟨k, hk, rfl⟩ := hj
            omega)
          s.gparts[c.gparts + i].x
          (fun j hj x hx => by
            rw [List.mem_range'] at hj
            obtain ⟨k, hk, rfl⟩ := hj
            exact hiff _ _ _ _ ⟨by omega, by omega⟩ ⟨by omega, by omega⟩ hxi hx) fuel hf
      refine ⟨g2, ?_, refines_trans href href2, ?_⟩
      · simp only [hxi, hgi]
        rw [fof_find_eq_rootOf href.down hoil (by omega), ← rootOf_step href.down hgi]
        unfold cell_inner
        simp only [hrun, Option.map_some']
      · intro i2 hi2 j hij hjc hlink
        simp only [List.mem_append, List.mem_singleton] at hi2
        cases hi2 with
        | inl hmem => exact href2.keeps _ _ (hcov i2 hmem j hij hjc hlink)
        | inr heq =>
          subst heq
          apply hcov2 j _ hlink
          rw [List.mem_range']
          exact ⟨j - (i2 + 1), by omega, by omega⟩)
  obtain ⟨g2, hrun, href, hcov⟩ := key
  refine ⟨g2, hrun, href, ?_⟩
  rintro a b ⟨ha1, ha2⟩ ⟨hb1, hb2⟩ hlink
  obtain ⟨i, rfl⟩ : ∃ i, a = c.gparts + i := ⟨a - c.gparts, by omega⟩
  obtain ⟨j, rfl⟩ : ∃ j, b = c.gparts + j := ⟨b - c.gparts, by omega⟩
  rcases Nat.lt_trichotomy i j with hlt | heq | hgt
  · exact hcov i (List.mem_range.2 (by omega)) j hlt (by omega) hlink
  · rw [heq]
  · exact (hcov j (List.mem_range.2 (by omega)) i hgt (by omega) (hsymm _ _ hlink)).symm

/-- A state that arises by merging along `L` and joins every `L`-linked pair
has exactly the partition generated by the old groups and `L`. -/
theorem links_iff {L : Nat → Nat → Prop} {g g2 : List Nat} {A B : Nat → Prop}
    (h : Links L g g2 A B) (hL : ∀ a b, L a b → A a ∧ B b) (x y : Nat) :
    rootOf g2 x = rootOf g2 y ↔ Joined L g x y := by
  constructor
  · exact h.1.sound x y
  · intro hj
    induction hj with
    | rel a b hab =>
      rcases hab with hab | hab
      · exact h.1.keeps a b hab
      · exact h.2 a b (hL a b hab).1 (hL a b hab).2 hab
    | refl a => rfl
    | symm a b _ ih => exact ih.symm
    | trans a b c _ _ ih1 ih2 => exact ih1.trans ih2

theorem joined_le_equivalence {L : Nat → Nat → Prop} {g : List Nat}
    {E : Nat → Nat → Prop} (hE : Equivalence E)
    (hold : ∀ x y, rootOf g x = rootOf g y → E x y) (hnew : ∀ a b, L a b → E a b)
    {x y : Nat} (h : Joined L g x y) : E x y := by
  induction h with
  | rel a b hab =>
    rcases hab with hab | hab
    · exact hold a b hab
    · exact hnew a b hab
  | refl a => exact hE.refl a
  | symm a b _ ih => exact hE.symm ih
  | trans a b c _ _ ih1 ih2 => exact hE.trans ih1 ih2

/-! ## Symmetry of the pair linker -/

/-- `fof_search_pair_cells` for a link relation `L` that agrees with its
shifted distance test on the particles of the two cells. -/
theorem fof_search_pair_cells_links (L : Nat → Nat → Prop) (s : space) {n : Nat}
    (hlen : s.gparts.length = n) {g : List Nat} (hd : DownLinked g) (hg : g.length = n)
    (ci cj : cell) (hci : ci.gparts + ci.gcount ≤ n) (hcj : cj.gparts + cj.gcount ≤ n)
    (fuel : Nat) (hf : n ≤ fuel)
    (hiff : ∀ a b xa xb, in_cell ci a → in_cell cj b → gpart_x s a = some xa →
      gpart_x s b = some xb → (shifted_r2 s ci cj xa xb < s.l_x2 ↔ L a b)) :
    ∃ g2, fof_search_pair_cells fuel s ci cj g = some g2 ∧
      Links L g g2 (in_cell ci) (in_cell cj) := by
  unfold fof_search_pair_cells
  simp only
  have key := for_list_inv
    (fun i g =>
      match gpart_x s (ci.gparts + i), g[ci.gparts + i]? with
      | some x, some oi =>
        match fof_find fuel oi g with
        | none => none
        | some root_i =>
          (pair_inner fuel s cj
            { x0 := x.x0 - pair_shift s.periodic ci.loc.x0 cj.loc.x0 s.dim.x0,
              x1 := x.x1 - pair_shift s.periodic ci.loc.x1 cj.loc.x1 s.dim.x1,
              x2 := x.x2 - pair_shift s.periodic ci.loc.x2 cj.loc.x2 s.dim.x2 }
            (g, root_i)).map Prod.fst
      | _, _ => none)
    (fun done st => Refines L g st ∧
      ∀ i ∈ done, ∀ j, j < cj.gcount → L (ci.gparts + i) (cj.gparts + j) →
        rootOf st (ci.gparts + i) = rootOf st (cj.gparts + j))
    (List.range ci.gcount) g
    ⟨refines_refl _ hd, fun i hi => by cases hi⟩
    (by
      rintro done i g1 hi ⟨href, hcov⟩
      have hic : i < ci.gcount := List.mem_range.1 hi
      have hl1 : g1.length = n := href.len.trans hg
      have hgi : g1[ci.gparts + i]? = some g1[ci.gparts + i] :=
        List.getElem?_eq_getElem (by omega)
      have hxi := gpart_x_some s (show ci.gparts + i < s.gparts.length by omega)
      have hoil := getElem_lt_of_downLinked href.down hgi
      obtain ⟨g2, r2, hrun, href2, _, hcov2⟩ :=
        partner_loop_spec L s hlen href.down hl1 (ci.gparts + i)
          (by omega) cj.gparts (List.range cj.gcount)
          (by
            intro j hj
            have := List.mem_range.1 hj
            omega)
          { x0 := s.gparts[ci.gparts + i].x.x0 -
              pair_shift s.periodic ci.loc.x0 cj.loc.x0 s.dim.x0,
            x1 := s.gparts[ci.gparts + i].x.x1 -
              pair_shift s.periodic ci.loc.x1 cj.loc.x1 s.dim.x1,
            x2 := s.gparts[ci.gparts + i].x.x2 -
              pair_shift s.periodic ci.loc.x2 cj.loc.x2 s.dim.x2 }
          (fun j hj x hx => by
            have hjc := List.mem_range.1 hj
            exact hiff _ _ _ _ ⟨by omega, by omega⟩ ⟨by omega, by omega⟩ hxi hx) fuel hf
      refine ⟨g2, ?_, refines_trans href href2, ?_⟩
      · simp only [hxi, hgi]
        rw [fof_find_eq_rootOf href.down hoil (by omega), ← rootOf_step href.down hgi]
        unfold pair_inner
        simp only [hrun, Option.map_some']
      · intro i2 hi2 j hjc hlink
        simp only [List.mem_append, List.mem_singleton] at hi2
        cases hi2 with
        | inl hmem => exact href2.keeps _ _ (hcov i2 hmem j hjc hlink)
        | inr heq =>
          subst heq
          exact hcov2 j (List.mem_range.2 hjc) hlink)
  obtain ⟨g2, hrun, href, hcov⟩ := key
  refine ⟨g2, hrun, href, ?_⟩
  rintro a b ⟨ha1, ha2⟩ ⟨hb1, hb2⟩ hlink
  obtain ⟨i, rfl⟩ : ∃ i, a = ci.gparts + i := ⟨a - ci.gparts, by omega⟩
  obtain ⟨j, rfl⟩ : ∃ j, b = cj.gparts + j := ⟨b - cj.gparts, by omega⟩
  exact hcov i (List.mem_range.2 (by omega)) j (by omega) hlink

theorem pair_shift_swap (p : Bool) {a b L : ℚ} (hL : 0 ≤ L) :
    pair_shift p b a L = -pair_shift p a b L := by
  unfold pair_shift
  simp only
  cases p with
  | false => simp
  | true =>
    simp only [Bool.true_and, decide_eq_true_eq]
    by_cases h1 : b - a < -L / 2
    · have h2 : ¬ (a - b < -L / 2) := by
        rw [neg_div] at h1 ⊢
        intro h
        linarith
      have h3 : a - b > L / 2 := by
        rw [neg_div] at h1
        show L / 2 < a - b
        linarith
      rw [if_pos h1, if_neg h2, if_pos h3]
    · rw [if_neg h1]
      by_cases h4 : b - a > L / 2
      · have h5 : a - b < -L / 2 := by
          rw [neg_div]
          have : L / 2 < b - a := h4
          linarith
        rw [if_pos h4, if_pos h5, neg_neg]
      · have h6 : ¬ (a - b < -L / 2) := by
          rw [neg_div]
          intro h
          apply h4
          show L / 2 < b - a
          linarith
        have h7 : ¬ (a - b > L / 2) := by
          intro h
          apply h1
          rw [neg_div]
          have : L / 2 < a - b := h
          linarith
        rw [if_neg h4, if_neg h6, if_neg h7, neg_zero]

theorem shifted_r2_swap (s : space) (ci cj : cell) (hd0 : 0 ≤ s.dim.x0)
    (hd1 : 0 ≤ s.dim.x1) (hd2 : 0 ≤ s.dim.x2) (x y : vec3) :
    shifted_r2 s cj ci y x = shifted_r2 s ci cj x y := by
  simp only [shifted_r2, r2_plain]
  rw [pair_shift_swap s.periodic hd0 (a := ci.loc.x0) (b := cj.loc.x0),
    pair_shift_swap s.periodic hd1 (a := ci.loc.x1) (b := cj.loc.x1),
    pair_shift_swap s.periodic hd2 (a := ci.loc.x2) (b := cj.loc.x2)]
  ring

theorem joined_swap {L1 L2 : Nat → Nat → Prop} {g : List Nat}
    (h : ∀ a b, L1 a b → L2 b a) {x y : Nat} (hj : Joined L1 g x y) : Joined L2 g x y := by
  induction hj with
  | rel a b hab =>
    rcases hab with hab | hab
    · exact Relation.EqvGen.rel _ _ (Or.inl hab)
    · exact Relation.EqvGen.symm _ _ (Relation.EqvGen.rel _ _ (Or.inr (h a b hab)))
  | refl a => exact Relation.EqvGen.refl a
  | symm a b _ ih => exact Relation.EqvGen.symm _ _ ih
  | trans a b c _ _ ih1 ih2 => exact Relation.EqvGen.trans _ _ _ ih1 ih2

theorem root_le_of_same_partition {g1 g2 : List Nat} (hd1 : DownLinked g1)
    (hd2 : DownLinked g2) (hl : g1.length = g2.length)
    (h : ∀ x y, rootOf g1 x = rootOf g1 y → rootOf g2 x = rootOf g2 y) {k : Nat}
    (hk : k < g1.length) : rootOf g2 k ≤ rootOf g1 k := by
  have h1 := h (rootOf g1 k) k (rootOf_idem hd1 hk)
  have h2 : rootOf g1 k < g2.length := hl ▸ rootOf_lt_length hd1 hk
  have h3 := rootOf_le hd2 h2
  omega

/-- Two down-linked states of the same size with the same partition have the
same roots: the root of a group is its smallest member. -/
theorem same_partition_same_root {g1 g2 : List Nat} (hd1 : DownLinked g1)
    (hd2 : DownLinked g2) (hl : g1.length = g2.length)
    (h : ∀ x y, rootOf g1 x = rootOf g1 y ↔ rootOf g2 x = rootOf g2 y) (k : Nat) :
    rootOf g1 k = rootOf g2 k := by
  by_cases hk : k < g1.length
  · have a := root_le_of_same_partition hd1 hd2 hl (fun x y => (h x y).1) hk
    have b := root_le_of_same_partition hd2 hd1 hl.symm (fun x y => (h x y).2) (hl ▸ hk)
    omega
  · rw [rootOf_outside (by omega), rootOf_outside (by omega)]

/-! ## The shift of a cell pair against wrapping per particle -/

theorem atomic_min_down {g : List Nat} (hd : DownLinked g) (a v : Nat) :
    DownLinked (atomic_min g a v) ∧ (atomic_min g a v).length = g.length := by
  unfold atomic_min
  cases hga : g[a]? with
  | none => exact ⟨hd, rfl⟩
  | some cur =>
    simp only
    split
    · rename_i hlt
      have := hd a cur hga
      exact ⟨downLinked_set hd (by omega), List.length_set _ _ _⟩
    · exact ⟨hd, rfl⟩

theorem atomic_min_entry {g : List Nat} (a v : Nat) (hv : v < a) (k x : Nat)
    (h : (atomic_min g a v)[k]? = some x) : g[k]? = some x ∨ x < k := by
  unfold atomic_min at h
  cases hga : g[a]? with
  | none =>
    rw [hga] at h
    exact Or.inl h
  | some cur =>
    rw [hga] at h
    simp only at h
    split at h
    · rw [List.getElem?_set] at h
      split at h
      · rename_i hak
        subst hak
        split at h
        · cases h
          exact Or.inr hv
        · cases h
      · exact Or.inl h
    · exact Or.inl h

theorem apply_writes_down (ws : List min_write) :
    ∀ g : List Nat, DownLinked g → (∀ w ∈ ws, w.value < w.slot) →
      DownLinked (apply_writes g ws) ∧ (apply_writes g ws).length = g.length ∧
      ∀ k x : Nat, (apply_writes g ws)[k]? = some x → g[k]? = some x ∨ x < k := by
  induction ws with
  | nil =>
    intro g hd _
    exact ⟨hd, rfl, fun _ _ h => Or.inl h⟩
  | cons w ws ih =>
    intro g hd hw
    obtain ⟨hd1, hl1⟩ := atomic_min_down hd w.slot w.value
    obtain ⟨hd2, hl2, he2⟩ := ih _ hd1 (fun u hu => hw u (List.mem_cons_of_mem _ hu))
    refine ⟨hd2, hl2.trans hl1, ?_⟩
    intro k x hx
    rcases he2 k x hx with h | h
    · exact atomic_min_entry w.slot w.value (hw w (List.mem_cons_self _ _)) k x h
    · exact Or.inr h

theorem fof_find_shared_down (reads : Nat → List Nat) (n : Nat)
    (hd : ∀ t, DownLinked (reads t)) (hl : ∀ t, (reads t).length = n) :
    ∀ i, i < n → ∀ fuel t, i < fuel →
      ∃ r, r ≤ i ∧ fof_find_shared reads fuel t i = some r := by
  intro i
  induction i using Nat.strong_induction_on with
  | _ i ih =>
    intro hi fuel t hf
    obtain ⟨fuel, rfl⟩ : ∃ k, fuel = k + 1 := ⟨fuel - 1, by omega⟩
    have hil : i < (reads t).length := by
      rw [hl t]
      exact hi
    obtain ⟨p, hget⟩ : ∃ p, (reads t)[i]? = some p :=
      ⟨_, List.getElem?_eq_getElem hil⟩
    have hle : p ≤ i := hd t i _ hget
    unfold fof_find_shared
    rw [hget]
    simp only
    by_cases hroot : i = p
    · rw [if_pos hroot]
      exact ⟨i, le_refl _, rfl⟩
    · rw [if_neg hroot]
      obtain ⟨r, hr, hrun⟩ := ih p (by omega) (by omega) fuel (t + 1) (by omega)
      exact ⟨r, by omega, hrun⟩

theorem linker_write_as_writes (g : List Nat) (roots : Nat × Nat) :
    ∃ ws : List min_write, (∀ w ∈ ws, w.value < w.slot) ∧
      linker_write g roots = apply_writes g ws := by
  unfold linker_write
  by_cases heq : roots.1 = roots.2
  · rw [if_pos heq]
    exact ⟨[], List.forall_mem_nil _, rfl⟩
  · rw [if_neg heq]
    unfold link_roots_atomic
    by_cases hlt : roots.2 < roots.1
    · rw [if_pos hlt]
      refine ⟨[{ slot := roots.1, value := roots.2 }], ?_, rfl⟩
      intro w hw
      rw [List.mem_singleton] at hw
      subst hw
      exact hlt
    · rw [if_neg hlt]
      refine ⟨[{ slot := roots.2, value := roots.1 }], ?_, rfl⟩
      intro w hw
      rw [List.mem_singleton] at hw
      subst hw
      show roots.1 < roots.2
      omega

/-- C23. Let the shared array start in a state with `group_id[k] <= k`, and let
the `atomic_min` writes of the workers take effect in any order, each storing
into a slot `a` a value `b < a` (the linkers issue only such writes, whatever
roots they have read).  Then after every write `group_id[k] <= k` holds for all
`k`, the array has no parent cycle, and every entry is the entry of the start
or a value below its slot; `fof_find` returns on every one of these states; and
a `fof_find` whose successive reads see any of these states, in any order,
returns within `i + 1` loop tests a value that is at most `i`. -/
theorem concurrent_writes_keep_links_down (g : List Nat) (ws : List min_write)
    (hd : DownLinked g) (hw : ∀ w ∈ ws, w.value < w.slot) :
    (∀ roots : Nat × Nat, ∃ us : List min_write, (∀ w ∈ us, w.value < w.slot) ∧
      linker_write g roots = apply_writes g us) ∧
    (∀ n, DownLinked (apply_writes g (ws.take n)) ∧
      (apply_writes g (ws.take n)).length = g.length ∧
      NoCycle (apply_writes g (ws.take n)) ∧
      ∀ k x : Nat, (apply_writes g (ws.take n))[k]? = some x → g[k]? = some x ∨ x < k) ∧
    (∀ n i fuel, i < g.length → i < fuel →
      ∃ r, r ≤ i ∧ fof_find fuel i (apply_writes g (ws.take n)) = some r) ∧
    (∀ (sched : Nat → Nat) (i fuel : Nat), i < g.length → i < fuel →
      ∃ r, r ≤ i ∧
        fof_find_shared (fun t => apply_writes g (ws.take (sched t))) fuel 0 i = some r) := by
  have hstate : ∀ n, DownLinked (apply_writes g (ws.take n)) ∧
      (apply_writes g (ws.take n)).length = g.length ∧
      ∀ k x : Nat, (apply_writes g (ws.take n))[k]? = some x → g[k]? = some x ∨ x < k :=
    fun n => apply_writes_down (ws.take n) g hd (fun w h => hw w (List.mem_of_mem_take h))
  refine ⟨linker_write_as_writes g, ?_, ?_, ?_⟩
  · intro n
    obtain ⟨h1, h2, h3⟩ := hstate n
    exact ⟨h1, h2, noCycle_of_downLinked h1, h3⟩
  · intro n i fuel hi hf
    obtain ⟨h1, h2, _⟩ := hstate n
    obtain ⟨r, hr, hrun⟩ := fof_find_down h1 i (by omega)
    exact ⟨r, hr, fof_find_mono hrun (by omega)⟩
  · intro sched i fuel hi hf
    exact fof_find_shared_down _ g.length (fun t => (hstate (sched t)).1)
      (fun t => (hstate (sched t)).2.1) i hi fuel 0 hf

theorem concurrent_writes_keep_links_down_witness :
    DownLinked (identity_group_id 3) ∧
    (∀ w ∈ [min_write.mk 2 1, min_write.mk 2 0], w.value < w.slot) ∧
    apply_writes (identity_group_id 3) [min_write.mk 2 1, min_write.mk 2 0] = [0, 1, 0] ∧
    (∀ n, DownLinked (apply_writes (identity_group_id 3)
        ([min_write.mk 2 1, min_write.mk 2 0].take n))) ∧
    ∀ (sched : Nat → Nat) (i fuel : Nat), i < (identity_group_id 3).length → i < fuel →
      ∃ r, r ≤ i ∧
        fof_find_shared (fun t => apply_writes (identity_group_id 3)
          ([min_write.mk 2 1, min_write.mk 2 0].take (sched t))) fuel 0 i = some r :=
  have hw : ∀ w ∈ [min_write.mk 2 1, min_write.mk 2 0], w.value < w.slot := by
    intro w h
    simp only [List.mem_cons, List.mem_singleton, List.not_mem_nil, or_false] at h
    rcases h with rfl | rfl <;> decide
  have h := concurrent_writes_keep_links_down (identity_group_id 3)
    [min_write.mk 2 1, min_write.mk 2 0] (downLinked_identity 3) hw
  ⟨downLinked_identity 3, hw, by decide, fun n => (h.2.1 n).1, h.2.2.2⟩

/-! ## Two workers racing on one root -/

theorem flat_cell_wf (s : space) (d addr : Nat) (x y : ℚ) (count first : Nat)
    (hr : first + count ≤ s.nr_gparts)
    (hb : ∀ k p, first ≤ k → k < first + count → gpart_x s k = some p →
      in_box (flat_cell addr x y count first) p) :
    cell_wf s (d + 1) (flat_cell addr x y count first) ∧
      siblings_wf (d + 1) (flat_cell addr x y count first) := by
  refine ⟨⟨hr, ?_, ?_⟩, ?_⟩
  · intro k p hk hp
    exact hb k p hk.1 hk.2 hp
  · intro h
    cases h
  · intro h
    cases h

theorem flat_cell_pair (d a b : Nat) (x y x2 y2 : ℚ) (ca fa cb fb : Nat) (hab : a ≠ b)
    (hx : aligned_axis x 1 x2 1) (hy : aligned_axis y 1 y2 1) :
    pair_wf (d + 1) (flat_cell a x y ca fa) (flat_cell b x2 y2 cb fb) := by
  refine ⟨hab, ⟨hx, hy, Or.inl ⟨rfl, rfl⟩⟩, ?_⟩
  intro h
  cases h

theorem race_space_wf : tree_wf race_space 0 1 := by
  refine ⟨rfl, rfl, ?_, ?_, ?_, ?_⟩
  · intro c hc
    simp only [race_space, List.mem_cons, List.mem_singleton, List.not_mem_nil,
      or_false] at hc
    rcases hc with rfl | rfl | rfl | rfl <;> rfl
  · intro c hc
    simp only [race_space, List.mem_cons, List.mem_singleton, List.not_mem_nil,
      or_false] at hc
    rcases hc with rfl | rfl | rfl | rfl
    · apply flat_cell_wf race_space 0
      · decide
      · intro k p h1 h2 hp
        omega
    · apply flat_cell_wf race_space 0
      · decide
      · intro k p h1 h2 hp
        have hk : k = 0 := by omega
        subst hk
        simp only [gpart_x, race_space, List.getElem?_cons_zero, Option.some.injEq] at hp
        subst hp
        norm_num [in_box, flat_cell, cell.loc, cell.width, particle_xy]
    · apply flat_cell_wf race_space 0
      · decide
      · intro k p h1 h2 hp
        have hk : k = 1 := by omega
        subst hk
        simp only [gpart_x, race_space, List.getElem?_cons_succ, List.getElem?_cons_zero,
          Option.some.injEq] at hp
        subst hp
        norm_num [in_box, flat_cell, cell.loc, cell.width, particle_xy]
    · apply flat_cell_wf race_space 0
      · decide
      · intro k p h1 h2 hp
        have hk : k = 2 := by omega
        subst hk
        simp only [gpart_x, race_space, List.getElem?_cons_succ, List.getElem?_cons_zero,
          Option.some.injEq] at hp
        subst hp
        norm_num [in_box, flat_cell, cell.loc, cell.width, particle_xy]
  · simp only [race_space, List.pairwise_cons, List.mem_cons, List.mem_singleton,
      List.not_mem_nil, or_false, forall_eq_or_imp, forall_eq, List.Pairwise.nil,
      and_true, IsEmpty.forall_iff, implies_true]
    refine ⟨⟨?_, ?_, ?_⟩, ⟨?_, ?_⟩, ?_⟩
    · exact flat_cell_pair 0 0 1 _ _ _ _ _ _ _ _ (by decide) (Or.inl ⟨rfl, rfl⟩)
        (Or.inr (Or.inl (by norm_num)))
    · exact flat_cell_pair 0 0 2 _ _ _ _ _ _ _ _ (by decide)
        (Or.inr (Or.inl (by norm_num))) (Or.inl ⟨rfl, rfl⟩)
    · exact flat_cell_pair 0 0 3 _ _ _ _ _ _ _ _ (by decide)
        (Or.inr (Or.inl (by norm_num))) (Or.inr (Or.inl (by norm_num)))
    · exact flat_cell_pair 0 1 2 _ _ _ _ _ _ _ _ (by decide)
        (Or.inr (Or.inl (by norm_num))) (Or.inr (Or.inr (by norm_num)))
    · exact flat_cell_pair 0 1 3 _ _ _ _ _ _ _ _ (by decide)
        (Or.inr (Or.inl (by norm_num))) (Or.inl ⟨rfl, rfl⟩)
    · exact flat_cell_pair 0 2 3 _ _ _ _ _ _ _ _ (by decide) (Or.inl ⟨rfl, rfl⟩)
        (Or.inr (Or.inl (by norm_num)))
  · intro k hk
    have hk2 : k < 3 := hk
    have hk3 : k = 0 ∨ k = 1 ∨ k = 2 := by omega
    rcases hk3 with rfl | rfl | rfl
    · refine ⟨flat_cell 1 0 1 1 0, by simp [race_space], ?_⟩
      simp only [in_cell, flat_cell, cell.gparts, cell.gcount]
      omega
    · refine ⟨flat_cell 2 1 0 1 1, by simp [race_space], ?_⟩
      simp only [in_cell, flat_cell, cell.gparts, cell.gcount]
      omega
    · refine ⟨flat_cell 3 1 1 1 2, by simp [race_space], ?_⟩
      simp only [in_cell, flat_cell, cell.gparts, cell.gcount]
      omega

theorem race_links :
    plain_linked race_space 0 2 ∧ plain_linked race_space 1 2 ∧
      ¬ plain_linked race_space 0 1 := by
  refine ⟨⟨_, _, rfl, rfl, ?_⟩, ⟨_, _, rfl, rfl, ?_⟩, ?_⟩
  · norm_num [r2_plain, race_space, particle_xy]
  · norm_num [r2_plain, race_space, particle_xy]
  · rintro ⟨xa, xb, ha, hb, h⟩
    simp only [gpart_x, race_space, List.getElem?_cons_zero, List.getElem?_cons_succ,
      Option.some.injEq] at ha hb
    subst ha
    subst hb
    norm_num [r2_plain, particle_xy, race_space] at h

/-- On two cells of one particle each that pass the distance test, the
sequential pair linker is the read of the two roots followed by the write. -/
theorem pair_linker_read_write (fuel : Nat) (s : space) (ci cj : cell) (g : List Nat)
    (pa pb : gpart) (hci : ci.gcount = 1) (hcj : cj.gcount = 1)
    (ha : s.gparts[ci.gparts]? = some pa) (hb : s.gparts[cj.gparts]? = some pb)
    (hit : shifted_r2 s ci cj pa.x pb.x < s.l_x2) :
    fof_search_pair_cells fuel s ci cj g =
      (linker_read fuel ci.gparts cj.gparts g).map (linker_write g) := by
  have hit2 : r2_plain
      { x0 := pa.x.x0 - pair_shift s.periodic ci.loc.x0 cj.loc.x0 s.dim.x0,
        x1 := pa.x.x1 - pair_shift s.periodic ci.loc.x1 cj.loc.x1 s.dim.x1,
        x2 := pa.x.x2 - pair_shift s.periodic ci.loc.x2 cj.loc.x2 s.dim.x2 } pb.x <
      s.l_x2 := hit
  simp only [fof_search_pair_cells, pair_inner, hci, hcj, range_one, for_list, Nat.add_zero,
    gpart_x, ha, hb, linker_read, linker_write, visit_atomic, hit2, decide_True, if_true]
  cases hgi : g[ci.gparts]? with
  | none => rfl
  | some oi =>
    cases hgj : g[cj.gparts]? with
    | none =>
      simp only
      cases fof_find fuel oi g <;> rfl
    | some oj =>
      simp only
      cases hfi : fof_find fuel oi g with
      | none => rfl
      | some ri =>
        simp only [hgj]
        cases hfj : fof_find fuel oj g with
        | none => rfl
        | some rj =>
          simp only [Option.map_some']
          by_cases heq : ri = rj
          · simp [heq, linker_write]
          · simp [heq, linker_write, if_pos hit2]

/-- C24 fails on the code.  In `race_space` particle `2` is within the linking
length of particles `0` and `1`.  The sequential cell loop joins the three
particles.  The pair calls `(cell 1, cell 3)` and `(cell 2, cell 3)` belong to
the tasks of two different top-level cells; each is the read of two roots
followed by an `atomic_min` write.  When both workers read their roots before
either writes, both read the root `2` for particle `2` and both write into
`group_id[2]`; `atomic_min` keeps the smaller value `0`, the link of particle
`1` is lost, and at the end particle `1` has root `1` while particle `2` has
root `0`. -/
theorem race_on_shared_root_loses_link :
    (plain_linked race_space 0 2 ∧ plain_linked race_space 1 2) ∧
    (∃ g, tree_serial_cell_loop 3 1 0 race_space = Outcome.ok g ∧
      rootOf g 0 = rootOf g 2 ∧ rootOf g 1 = rootOf g 2) ∧
    (∀ g, fof_search_pair_cells 3 race_space (flat_cell 1 0 1 1 0) (flat_cell 3 1 1 1 2) g =
      (linker_read 3 0 2 g).map (linker_write g)) ∧
    (∀ g, fof_search_pair_cells 3 race_space (flat_cell 2 1 0 1 1) (flat_cell 3 1 1 1 2) g =
      (linker_read 3 1 2 g).map (linker_write g)) ∧
    sequence_two_workers 3 0 2 1 2 (identity_group_id 3) = some [0, 0, 0] ∧
    race_two_workers 3 0 2 1 2 (identity_group_id 3) = some [0, 1, 0] ∧
    fof_find 3 1 [0, 1, 0] = some 1 ∧ fof_find 3 2 [0, 1, 0] = some 0 := by
  obtain ⟨h02, h12, _⟩ := race_links
  refine ⟨⟨h02, h12⟩, ?_, ?_, ?_, by decide, by decide, by decide, by decide⟩
  · obtain ⟨g, hrun, _, _, hiff⟩ :=
      tree_serial_cell_loop_spec race_space 0 1 3 1 rfl race_space_wf (by decide)
        (by decide)
    exact ⟨g, hrun, (hiff 0 2).2 (Relation.ReflTransGen.single h02),
      (hiff 1 2).2 (Relation.ReflTransGen.single h12)⟩
  · intro g
    apply pair_linker_read_write 3 race_space (flat_cell 1 0 1 1 0) (flat_cell 3 1 1 1 2) g
      (particle_xy (7 / 10) (11 / 10) 0) (particle_xy (11 / 10) (11 / 10) 2) rfl rfl rfl rfl
    simp only [shifted_r2, race_space, pair_shift, flat_cell, cell.loc, particle_xy,
      r2_plain]
    norm_num
  · intro g
    apply pair_linker_read_write 3 race_space (flat_cell 2 1 0 1 1) (flat_cell 3 1 1 1 2) g
      (particle_xy (11 / 10) (7 / 10) 1) (particle_xy (11 / 10) (11 / 10) 2) rfl rfl rfl rfl
    simp only [shifted_r2, race_space, pair_shift, flat_cell, cell.loc, particle_xy,
      r2_plain]
    norm_num

/-! ## The rows of the dump -/

theorem chain_hit_0_1 : serial_hit chain_space 0 1 = some false := by
  simp only [serial_hit, chain_space, List.getElem?_cons_zero, List.getElem?_cons_succ]
  rw [hit_on_axis _ _ _ _ (by norm_num) (by norm_num)]
  norm_num

theorem chain_hit_0_2 : serial_hit chain_space 0 2 = some false := by
  simp only [serial_hit, chain_space, List.getElem?_cons_zero, List.getElem?_cons_succ]
  rw [hit_on_axis _ _ _ _ (by norm_num) (by norm_num)]
  norm_num

theorem chain_hit_0_3 : serial_hit chain_space 0 3 = some true := by
  simp only [serial_hit, chain_space, List.getElem?_cons_zero, List.getElem?_cons_succ]
  rw [hit_on_axis _ _ _ _ (by norm_num) (by norm_num)]
  norm_num

theorem chain_hit_1_2 : serial_hit chain_space 1 2 = some true := by
  simp only [serial_hit, chain_space, List.getElem?_cons_zero, List.getElem?_cons_succ]
  rw [hit_on_axis _ _ _ _ (by norm_num) (by norm_num)]
  norm_num

theorem chain_hit_1_3 : serial_hit chain_space 1 3 = some false := by
  simp only [serial_hit, chain_space, List.getElem?_cons_zero, List.getElem?_cons_succ]
  rw [hit_on_axis _ _ _ _ (by norm_num) (by norm_num)]
  norm_num

theorem chain_hit_2_3 : serial_hit chain_space 2 3 = some true := by
  simp only [serial_hit, chain_space, List.getElem?_cons_zero, List.getElem?_cons_succ]
  rw [hit_on_axis _ _ _ _ (by norm_num) (by norm_num)]
  norm_num

theorem chain_pair_loop :
    serial_pair_loop 4 chain_space (identity_group_id 4) = some [0, 0, 1, 0] := by
  have hn : chain_space.nr_gparts = 4 := rfl
  have hr : List.range 4 = [0, 1, 2, 3] := by decide
  simp only [serial_pair_loop, hn]
  rw [hr]
  simp [for_list, serial_outer, serial_inner, hn, identity_group_id, List.range',
    visit_serial, fof_find, link_roots, chain_hit_0_1, chain_hit_0_2, chain_hit_0_3,
    chain_hit_1_2, chain_hit_1_3, chain_hit_2_3]
  rfl

theorem chain_search :
    fof_search_serial 4 chain_space = some ([0, 0, 1, 0], [4, 0, 0, 0], 1) := by
  have hs : fof_search_serial_start chain_space = identity_group_id 4 := rfl
  have hn : chain_space.nr_gparts = 4 := rfl
  have ha : aggregate_serial 4 4 [0, 0, 1, 0] = some ([4, 0, 0, 0], 1) := by decide
  simp only [fof_search_serial, hs, chain_pair_loop, hn, ha]

/-- C22 fails on the code.  On the four particles of `chain_space`, which form
one group with root `0`, `fof_search_serial` ends with
`group_id = [0, 0, 1, 0]` and `group_size = [4, 0, 0, 0]`, and the dump writes
the rows `(i, group_id[i], group_size[i])` under the column names "ID",
"Root ID", "Group Size".  The row of particle `2` is `(2, 1, 0)`: it lists the
parent `1` where `fof_find(2) = 0`, and the size `0` where the group of
particle `2` has `4` members. -/
theorem dump_row_lists_parent_and_zero_size :
    dump_header = ["ID", "Root ID", "Group Size"] ∧
    fof_search_serial 4 chain_space = some ([0, 0, 1, 0], [4, 0, 0, 0], 1) ∧
    fof_search_serial_dump 4 chain_space =
      some [(0, 0, 4), (1, 0, 0), (2, 1, 0), (3, 0, 0)] ∧
    fof_find 4 2 [0, 0, 1, 0] = some 0 ∧
    group_members 4 4 [0, 0, 1, 0] 2 = 4 := by
  refine ⟨rfl, chain_search, ?_, by decide, by decide⟩
  have hn : chain_space.nr_gparts = 4 := rfl
  simp only [fof_search_serial_dump, chain_search, hn]
  decide

/-! ## The calls of the self recursion -/

theorem outcome_map_map {α β γ : Type} (f : α → β) (h : β → γ) (o : Outcome α) :
    (o.map f).map h = o.map (fun a => h (f a)) := by
  cases o <;> rfl

theorem outcome_map_id {α : Type} (o : Outcome α) : o.map (fun a => a) = o := by
  cases o <;> rfl

theorem progeny_loop_map {σ τ : Type} (proj : σ → τ)
    (s1 : cell → σ → Outcome σ) (p1 : cell → cell → σ → Outcome σ)
    (s2 : cell → τ → Outcome τ) (p2 : cell → cell → τ → Outcome τ) :
    ∀ (ps : List (Option cell)),
      (∀ c, some c ∈ ps → ∀ st, (s1 c st).map proj = s2 c (proj st)) →
      (∀ a b st, (p1 a b st).map proj = p2 a b (proj st)) →
      ∀ st, (progeny_loop s1 p1 ps st).map proj = progeny_loop s2 p2 ps (proj st) := by
  intro ps
  induction ps with
  | nil =>
    intro _ _ st
    rfl
  | cons p rest ih =>
    intro hs hp st
    cases p with
    | none =>
      simp only [progeny_loop]
      exact ih (fun c hc => hs c (List.mem_cons_of_mem _ hc)) hp st
    | some ck =>
      have h1 := hs ck (List.mem_cons_self _ _) st
      simp only [progeny_loop]
      cases hb : s1 ck st with
      | ok st1 =>
        rw [hb] at h1
        simp only [Outcome.map] at h1
        rw [← h1]
        simp only
        have h2 := for_cells_map proj
          (fun pl st => match pl with
            | none => Outcome.ok st
            | some cl => p1 ck cl st)
          (fun pl st => match pl with
            | none => Outcome.ok st
            | some cl => p2 ck cl st) rest
          (by
            intro pl _ st2
            cases pl with
            | none => rfl
            | some cl => exact hp ck cl st2) st1
        cases hc : for_cells (fun pl st => match pl with
            | none => Outcome.ok st
            | some cl => p1 ck cl st) rest st1 with
        | ok st2 =>
          rw [hc] at h2
          simp only [Outcome.map] at h2
          rw [← h2]
          simp only
          exact ih (fun c hc => hs c (List.mem_cons_of_mem _ hc)) hp st2
        | fatal m =>
          rw [hc] at h2
          simp only [Outcome.map] at h2
          rw [← h2]
          rfl
        | stuck =>
          rw [hc] at h2
          simp only [Outcome.map] at h2
          rw [← h2]
          rfl
      | fatal m =>
        rw [hb] at h1
        simp only [Outcome.map] at h1
        rw [← h1]
        rfl
      | stuck =>
        rw [hb] at h1
        simp only [Outcome.map] at h1
        rw [← h1]
        rfl

/-- The instrumentation does not change what happens to `group_id`. -/
theorem rec_fof_search_self_traced_fst (fuel : Nat) (s : space) (dim : vec3) (r2 : ℚ) :
    ∀ depth c st,
      (rec_fof_search_self_traced fuel depth c s dim r2 st).map Prod.fst =
        rec_fof_search_self fuel depth c s dim r2 st.1 := by
  intro depth
  induction depth with
  | zero =>
    intro c st
    rfl
  | succ depth ih =>
    intro c st
    simp only [rec_fof_search_self_traced, rec_fof_search_self]
    by_cases hsplit : c.split = true
    · rw [if_pos hsplit, if_pos hsplit]
      apply progeny_loop_map Prod.fst
      · intro ck _ st2
        exact ih ck st2
      · intro a b st2
        rw [outcome_map_map]
        exact outcome_map_id _
    · rw [if_neg hsplit, if_neg hsplit, outcome_map_ofOption]
      congr 1
      cases fof_search_cell fuel s c st.1 <;> rfl

theorem for_cells_ok_cons {α σ : Type} {body : α → σ → Outcome σ} {x : α} {xs : List α}
    {st r : σ} (h : for_cells body (x :: xs) st = Outcome.ok r) :
    ∃ u, body x st = Outcome.ok u ∧ for_cells body xs u = Outcome.ok r := by
  simp only [for_cells] at h
  cases hb : body x st with
  | ok u =>
    rw [hb] at h
    exact ⟨u, rfl, h⟩
  | fatal m =>
    rw [hb] at h
    cases h
  | stuck =>
    rw [hb] at h
    cases h

theorem outcome_map_ok {α β : Type} {f : α → β} {o : Outcome α} {b : β}
    (h : o.map f = Outcome.ok b) : ∃ a, o = Outcome.ok a ∧ f a = b := by
  cases o with
  | ok a =>
    simp only [Outcome.map, Outcome.ok.injEq] at h
    exact ⟨a, rfl, h⟩
  | fatal m => cases h
  | stuck => cases h

theorem pair_loop_trace {σ : Type} (tr : σ → List self_call) (ck : cell)
    (pair_rec : cell → cell → σ → Outcome σ)
    (hp : ∀ b st r, pair_rec ck b st = Outcome.ok r →
      tr r = tr st ++ [self_call.pair ck.addr b.addr]) :
    ∀ (rest : List (Option cell)) (st r : σ),
      for_cells (fun pl st =>
          match pl with
          | none => Outcome.ok st
          | some cl => pair_rec ck cl st) rest st = Outcome.ok r →
        tr r = tr st ++ (rest.filterMap id).map (fun cl => self_call.pair ck.addr cl.addr) := by
  intro rest
  induction rest with
  | nil =>
    intro st r h
    simp only [for_cells, Outcome.ok.injEq] at h
    subst h
    simp
  | cons p rest ih =>
    intro st r h
    obtain ⟨u, hu, hrest⟩ := for_cells_ok_cons h
    have h2 := ih u r hrest
    cases p with
    | none =>
      simp only [Outcome.ok.injEq] at hu
      subst hu
      have hfm : (none :: rest).filterMap id = rest.filterMap id := by
        simp [List.filterMap_cons]
      rw [hfm]
      exact h2
    | some cl =>
      have h1 := hp cl st u hu
      have hfm : (some cl :: rest).filterMap id = cl :: rest.filterMap id := by
        simp [List.filterMap_cons]
      rw [hfm, h2, h1, List.map_cons, List.append_assoc, List.singleton_append]

theorem progeny_loop_trace {σ : Type} (tr : σ → List self_call)
    (self_of : cell → List self_call)
    (self_rec : cell → σ → Outcome σ) (pair_rec : cell → cell → σ → Outcome σ)
    (hp : ∀ a b st r, pair_rec a b st = Outcome.ok r →
      tr r = tr st ++ [self_call.pair a.addr b.addr]) :
    ∀ (ps : List (Option cell)),
      (∀ ck, some ck ∈ ps → ∀ st r, self_rec ck st = Outcome.ok r →
        tr r = tr st ++ self_of ck) →
      ∀ st r, progeny_loop self_rec pair_rec ps st = Outcome.ok r →
        tr r = tr st ++ children_calls self_of (ps.filterMap id) := by
  intro ps
  induction ps with
  | nil =>
    intro _ st r h
    simp only [progeny_loop, Outcome.ok.injEq] at h
    subst h
    simp [children_calls]
  | cons p rest ih =>
    intro hs st r h
    cases p with
    | none =>
      have hfm : (none :: rest).filterMap id = rest.filterMap id := by
        simp [List.filterMap_cons]
      rw [hfm]
      simp only [progeny_loop] at h
      exact ih (fun ck hck => hs ck (List.mem_cons_of_mem _ hck)) st r h
    | some ck =>
      have hfm : (some ck :: rest).filterMap id = ck :: rest.filterMap id := by
        simp [List.filterMap_cons]
      rw [hfm]
      simp only [progeny_loop] at h
      cases h1 : self_rec ck st with
      | ok st1 =>
        rw [h1] at h
        simp only at h
        cases h2 : for_cells (fun pl st => match pl with
            | none => Outcome.ok st
            | some cl => pair_rec ck cl st) rest st1 with
        | ok st2 =>
          rw [h2] at h
          simp only at h
          have e1 := hs ck (List.mem_cons_self _ _) st st1 h1
          have e2 := pair_loop_trace tr ck pair_rec (hp ck) rest st1 st2 h2
          have e3 := ih (fun c hc => hs c (List.mem_cons_of_mem _ hc)) st2 r h
          rw [e3, e2, e1]
          simp only [children_calls, List.append_assoc]
        | fatal m =>
          rw [h2] at h
          cases h
        | stuck =>
          rw [h2] at h
          cases h
      | fatal m =>
        rw [h1] at h
        cases h
      | stuck =>
        rw [h1] at h
        cases h

/-- Whenever the instrumented self recursion returns, the calls it has
recorded are the calls `self_calls` lists. -/
theorem rec_fof_search_self_trace (fuel : Nat) (s : space) (dim : vec3) (r2 : ℚ) :
    ∀ depth c st res,
      rec_fof_search_self_traced fuel depth c s dim r2 st = Outcome.ok res →
        res.2 = st.2 ++ self_calls depth c := by
  intro depth
  induction depth with
  | zero =>
    intro c st res h
    cases h
  | succ depth ih =>
    intro c st res h
    simp only [rec_fof_search_self_traced] at h
    simp only [self_calls]
    by_cases hsplit : c.split = true
    · rw [if_pos hsplit] at h
      rw [if_pos hsplit]
      exact progeny_loop_trace Prod.snd (self_calls depth) _ _
        (by
          intro a b st2 r hr
          obtain ⟨g, _, hg⟩ := outcome_map_ok hr
          rw [← hg])
        c.progeny (fun ck _ st2 r hr => ih ck st2 r hr) st res h
    · rw [if_neg hsplit] at h
      rw [if_neg hsplit]
      cases hc : fof_search_cell fuel s c st.1 with
      | none =>
        rw [hc] at h
        cases h
      | some g =>
        rw [hc] at h
        simp only [Option.map_some', Outcome.ofOption, Outcome.ok.injEq] at h
        rw [← h]

theorem calls_regroup (own here below deeper : List self_call) :
    (own ++ here ++ (below ++ deeper)).Perm (own ++ below ++ (here ++ deeper)) := by
  rw [List.append_assoc, List.append_assoc]
  refine List.Perm.append_left own ?_
  rw [← List.append_assoc, ← List.append_assoc]
  exact List.Perm.append_right deeper List.perm_append_comm

theorem children_calls_perm (self_of : cell → List self_call) :
    ∀ kids : List cell,
      List.Perm (children_calls self_of kids)
        (kids.flatMap self_of ++
          (unordered_pairs kids).map (fun p => self_call.pair p.1.addr p.2.addr)) := by
  intro kids
  induction kids with
  | nil => exact List.Perm.refl _
  | cons k rest ih =>
    simp only [children_calls, unordered_pairs, List.flatMap_cons, List.map_append,
      List.map_map]
    have h1 := List.Perm.append_left (self_of k ++
      rest.map (fun cl => self_call.pair k.addr cl.addr)) ih
    refine List.Perm.trans h1 ?_
    exact calls_regroup _ _ _ _

theorem expected_self_calls_split {d : Nat} {c : cell} (h : c.split = true) :
    expected_self_calls (d + 1) c =
      ((c.progeny.filterMap id).flatMap (fun k =>
          ((subcells d k).filter (fun k => !k.split)).map
            (fun k => self_call.linker k.addr))) ++
        (child_pair_calls c ++
          (c.progeny.filterMap id).flatMap (fun k =>
            ((subcells d k).filter (fun k => k.split)).flatMap child_pair_calls)) := by
  simp only [expected_self_calls, subcells, h, if_true, List.filter_cons, Bool.not_true,
    Bool.false_eq_true, if_false, List.filter_flatMap, List.map_flatMap, List.flatMap_cons,
    List.flatMap_assoc]

/-- The calls of `self_calls` are, up to their order, the linker once on each
unsplit cell of the tree and the pair recursion once for each unordered pair
of children of each split cell. -/
theorem self_calls_perm : ∀ d c, List.Perm (self_calls d c) (expected_self_calls d c) := by
  intro d
  induction d with
  | zero =>
    intro c
    exact List.Perm.refl _
  | succ d ih =>
    intro c
    by_cases h : c.split = true
    · rw [expected_self_calls_split h]
      simp only [self_calls, h, if_true]
      refine List.Perm.trans (children_calls_perm (self_calls d) _) ?_
      have h1 : List.Perm ((c.progeny.filterMap id).flatMap (self_calls d))
          ((c.progeny.filterMap id).flatMap (fun k =>
            ((subcells d k).filter (fun k => !k.split)).map
              (fun k => self_call.linker k.addr) ++
            ((subcells d k).filter (fun k => k.split)).flatMap child_pair_calls)) :=
        List.Perm.flatMap_left _ (fun k _ => ih k)
      have h2 := List.flatMap_append_perm (c.progeny.filterMap id)
        (fun k => ((subcells d k).filter (fun k => !k.split)).map
          (fun k => self_call.linker k.addr))
        (fun k => ((subcells d k).filter (fun k => k.split)).flatMap child_pair_calls)
      have h3 := List.Perm.trans h1 h2.symm
      refine List.Perm.trans (List.Perm.append_right _ h3) ?_
      simp only [List.append_assoc]
      apply List.Perm.append_left
      exact List.perm_append_comm
    · have hf : c.split = false := by
        cases hs : c.split
        · rfl
        · exact absurd hs h
      simp [self_calls, expected_self_calls, subcells, hf]

/-- C25. Whenever `rec_fof_search_self(c)` returns, the calls of
`fof_search_cell` and of `rec_fof_search_pair` it has made itself are the
calls of `self_calls`, in that order, and `group_id` is what the uninstrumented
function returns; up to their order these calls are the linker once on each
unsplit cell of the tree rooted at `c` (`c` included) and `rec_fof_search_pair`
once for each unordered pair of non-`NULL` children of each split cell of the
tree, and nothing else.  On a well-formed tree of height below `d <= depth`
and an acyclic (down-linked) `group_id` the function does return. -/
theorem self_recursion_calls_each_leaf_and_child_pair_once (fuel depth : Nat) (c : cell)
    (s : space) (g : List Nat) (calls : List self_call) :
    (∀ dim search_r2 res,
      rec_fof_search_self_traced fuel depth c s dim search_r2 (g, calls) = Outcome.ok res →
        res.2 = calls ++ self_calls depth c ∧
        rec_fof_search_self fuel depth c s dim search_r2 g = Outcome.ok res.1) ∧
    List.Perm (self_calls depth c) (expected_self_calls depth c) ∧
    (∀ d, cell_wf s d c → siblings_wf d c → d ≤ depth → DownLinked g →
      g.length = s.nr_gparts → s.gparts.length = s.nr_gparts → s.nr_gparts ≤ fuel →
      ∃ g2, rec_fof_search_self_traced fuel depth c s s.dim s.l_x2 (g, calls) =
        Outcome.ok (g2, calls ++ self_calls depth c)) := by
  refine ⟨?_, self_calls_perm depth c, ?_⟩
  · intro dim r2 res h
    refine ⟨rec_fof_search_self_trace fuel s dim r2 depth c (g, calls) res h, ?_⟩
    have h2 := rec_fof_search_self_traced_fst fuel s dim r2 depth c (g, calls)
    rw [h] at h2
    exact h2.symm
  · intro d hw hsib hdepth hd hg hparts hf
    obtain ⟨g2, hrun, _⟩ :=
      rec_fof_search_self_grows s hparts rfl fuel hf d c hw hsib depth hdepth g hd hg
    have h2 := rec_fof_search_self_traced_fst fuel s s.dim s.l_x2 depth c (g, calls)
    rw [hrun] at h2
    obtain ⟨res, hres, hfst⟩ := outcome_map_ok h2
    have htr := rec_fof_search_self_trace fuel s s.dim s.l_x2 depth c (g, calls) res hres
    refine ⟨g2, ?_⟩
    rw [hres]
    congr 1
    exact Prod.ext hfst htr

theorem self_recursion_calls_each_leaf_and_child_pair_once_witness :
    self_calls 2 split_cell_example =
      [self_call.linker 2, self_call.pair 2 3, self_call.linker 3] ∧
    expected_self_calls 2 split_cell_example =
      [self_call.linker 2, self_call.linker 3, self_call.pair 2 3] ∧
    ∃ g2, rec_fof_search_self_traced 3 2 split_cell_example grid_space grid_space.dim
        grid_space.l_x2 (identity_group_id 3, []) =
      Outcome.ok (g2, [] ++ self_calls 2 split_cell_example) :=
  ⟨rfl, rfl,
    (self_recursion_calls_each_leaf_and_child_pair_once 3 2 split_cell_example grid_space
      (identity_group_id 3) []).2.2 2
      (grid_space_wf.cells split_cell_example (List.mem_cons_self _ _)).1
      (grid_space_wf.cells split_cell_example (List.mem_cons_self _ _)).2
      (le_refl _) (downLinked_identity 3) rfl rfl (by decide)⟩

/-! ## The pair recursion is never called on one cell twice over -/

theorem rec_fof_search_pair_logged_fst (fuel : Nat) (s : space) (dim : vec3) (r2 : ℚ) :
    ∀ depth ci cj st,
      (rec_fof_search_pair_logged fuel depth ci cj s dim r2 st).map Prod.fst =
        rec_fof_search_pair fuel depth ci cj s dim r2 st.1 := by
  intro depth
  induction depth with
  | zero =>
    intro ci cj st
    rfl
  | succ depth ih =>
    intro ci cj st
    simp only [rec_fof_search_pair_logged, rec_fof_search_pair]
    by_cases hprune : cell_min_dist ci cj dim > r2
    · rw [if_pos hprune, if_pos hprune]
      rfl
    · rw [if_neg hprune, if_neg hprune]
      by_cases hsplit : (ci.split && cj.split) = true
      · rw [if_pos hsplit, if_pos hsplit]
        apply for_cells_map Prod.fst
        intro pk _ st2
        cases pk with
        | none => rfl
        | some ck =>
          apply for_cells_map Prod.fst
          intro pl _ st3
          cases pl with
          | none => rfl
          | some cl => exact ih ck cl st3
      · rw [if_neg hsplit, if_neg hsplit]
        by_cases haddr : ci.addr ≠ cj.addr
        · rw [if_pos haddr, if_pos haddr, outcome_map_ofOption]
          congr 1
          cases fof_search_pair_cells fuel s ci cj st.1 <;> rfl
        · rw [if_neg haddr, if_neg haddr]
          rfl

theorem rec_fof_search_self_logged_fst (fuel : Nat) (s : space) (dim : vec3) (r2 : ℚ) :
    ∀ depth c st,
      (rec_fof_search_self_logged fuel depth c s dim r2 st).map Prod.fst =
        rec_fof_search_self fuel depth c s dim r2 st.1 := by
  intro depth
  induction depth with
  | zero =>
    intro c st
    rfl
  | succ depth ih =>
    intro c st
    simp only [rec_fof_search_self_logged, rec_fof_search_self]
    by_cases hsplit : c.split = true
    · rw [if_pos hsplit, if_pos hsplit]
      apply progeny_loop_map Prod.fst
      · intro ck _ st2
        exact ih ck st2
      · intro a b st2
        exact rec_fof_search_pair_logged_fst fuel s dim r2 depth a b st2
    · rw [if_neg hsplit, if_neg hsplit, outcome_map_ofOption]
      congr 1
      cases fof_search_cell fuel s c st.1 <;> rfl

theorem for_cells_safe {α σ : Type} (I : σ → Prop) (body : α → σ → Outcome σ) :
    ∀ l : List α, (∀ x ∈ l, ∀ st, I st → (body x st).safe I) →
      ∀ st, I st → (for_cells body l st).safe I := by
  intro l
  induction l with
  | nil =>
    intro _ st h
    exact h
  | cons x xs ih =>
    intro h st hI
    have h1 := h x (List.mem_cons_self _ _) st hI
    simp only [for_cells]
    cases hb : body x st with
    | ok u =>
      rw [hb] at h1
      exact ih (fun y hy => h y (List.mem_cons_of_mem _ hy)) u h1
    | fatal m =>
      rw [hb] at h1
      exact h1
    | stuck => trivial

theorem progeny_loop_safe {σ : Type} (I : σ → Prop) (self_rec : cell → σ → Outcome σ)
    (pair_rec : cell → cell → σ → Outcome σ) :
    ∀ ps : List (Option cell),
      (∀ ck, some ck ∈ ps → ∀ st, I st → (self_rec ck st).safe I) →
      List.Pairwise (fun a b => ∀ st, I st → (pair_rec a b st).safe I) (ps.filterMap id) →
      ∀ st, I st → (progeny_loop self_rec pair_rec ps st).safe I := by
  intro ps
  induction ps with
  | nil =>
    intro _ _ st h
    exact h
  | cons p rest ih =>
    intro hs hp st hI
    cases p with
    | none =>
      have hfm : (none :: rest).filterMap id = rest.filterMap id := by
        simp [List.filterMap_cons]
      rw [hfm] at hp
      simp only [progeny_loop]
      exact ih (fun c hc => hs c (List.mem_cons_of_mem _ hc)) hp st hI
    | some ck =>
      have hfm : (some ck :: rest).filterMap id = ck :: rest.filterMap id := by
        simp [List.filterMap_cons]
      rw [hfm, List.pairwise_cons] at hp
      obtain ⟨hpk, hprest⟩ := hp
      have h1 := hs ck (List.mem_cons_self _ _) st hI
      simp only [progeny_loop]
      cases hb : self_rec ck st with
      | ok st1 =>
        rw [hb] at h1
        simp only
        have h2 := for_cells_safe I
          (fun pl st => match pl with
            | none => Outcome.ok st
            | some cl => pair_rec ck cl st) rest
          (by
            intro pl hpl st2 hI2
            cases pl with
            | none => exact hI2
            | some cl =>
              apply hpk cl _ st2 hI2
              rw [List.mem_filterMap]
              exact ⟨some cl, hpl, rfl⟩) st1 h1
        cases hc : for_cells (fun pl st => match pl with
            | none => Outcome.ok st
            | some cl => pair_rec ck cl st) rest st1 with
        | ok st2 =>
          rw [hc] at h2
          simp only
          exact ih (fun c hc => hs c (List.mem_cons_of_mem _ hc)) hprest st2 h2
        | fatal m =>
          rw [hc] at h2
          exact h2
        | stuck => trivial
      | fatal m =>
        rw [hb] at h1
        exact h1
      | stuck => trivial

theorem mem_subcells_self (d : Nat) (c : cell) : c ∈ subcells (d + 1) c := by
  simp [subcells]

theorem mem_subcells_progeny {d : Nat} {c ck a : cell} (hs : c.split = true)
    (hk : some ck ∈ c.progeny) (ha : a ∈ subcells d ck) : a ∈ subcells (d + 1) c := by
  simp only [subcells, hs, if_true, List.mem_cons, List.mem_flatMap, List.mem_filterMap, id]
  exact Or.inr ⟨ck, ⟨some ck, hk, rfl⟩, ha⟩

theorem calls_distinct_snoc {st : List Nat × List (Nat × Nat)} (h : calls_distinct st)
    {a b : Nat} (hab : a ≠ b) (g : List Nat) : calls_distinct (g, st.2 ++ [(a, b)]) := by
  intro p hp
  simp only [List.mem_append, List.mem_singleton] at hp
  rcases hp with hp | rfl
  · exact h p hp
  · exact hab

theorem rec_fof_search_pair_logged_safe (fuel : Nat) (s : space) (dim : vec3) (r2 : ℚ) :
    ∀ depth ci cj,
      (∀ a ∈ subcells depth ci, ∀ b ∈ subcells depth cj, a.addr ≠ b.addr) →
      ∀ st, calls_distinct st →
        (rec_fof_search_pair_logged fuel depth ci cj s dim r2 st).safe calls_distinct := by
  intro depth
  induction depth with
  | zero =>
    intro ci cj _ st _
    trivial
  | succ depth ih =>
    intro ci cj hdis st hI
    have hne : ci.addr ≠ cj.addr :=
      hdis ci (mem_subcells_self depth ci) cj (mem_subcells_self depth cj)
    have hI2 : calls_distinct (st.1, st.2 ++ [(ci.addr, cj.addr)]) :=
      calls_distinct_snoc hI hne st.1
    simp only [rec_fof_search_pair_logged]
    by_cases hprune : cell_min_dist ci cj dim > r2
    · rw [if_pos hprune]
      exact hI2
    · rw [if_neg hprune]
      by_cases hsplit : (ci.split && cj.split) = true
      · rw [if_pos hsplit]
        simp only [Bool.and_eq_true] at hsplit
        obtain ⟨hsi, hsj⟩ := hsplit
        apply for_cells_safe calls_distinct _ ci.progeny _ _ hI2
        intro pk hpk st2 hst2
        cases pk with
        | none => exact hst2
        | some ck =>
          apply for_cells_safe calls_distinct _ cj.progeny _ _ hst2
          intro pl hpl st3 hst3
          cases pl with
          | none => exact hst3
          | some cl =>
            apply ih ck cl _ st3 hst3
            intro a ha b hb
            exact hdis a (mem_subcells_progeny hsi hpk ha) b (mem_subcells_progeny hsj hpl hb)
      · rw [if_neg hsplit, if_pos hne]
        cases fof_search_pair_cells fuel s ci cj st.1 with
        | none => trivial
        | some g => exact calls_distinct_snoc hI hne g

theorem distinct_cells_progeny {d : Nat} {c : cell} (hs : c.split = true)
    (h : distinct_cells (d + 1) c) :
    (∀ ck, some ck ∈ c.progeny → distinct_cells d ck) ∧
    List.Pairwise (fun a b => ∀ x ∈ subcells d a, ∀ y ∈ subcells d b, x.addr ≠ y.addr)
      (c.progeny.filterMap id) := by
  unfold distinct_cells at h
  simp only [subcells, hs, if_true, List.map_cons, List.nodup_cons, List.map_flatMap] at h
  obtain ⟨h1, h2⟩ := List.nodup_flatMap.1 h.2
  constructor
  · intro ck hck
    apply h1 ck
    rw [List.mem_filterMap]
    exact ⟨some ck, hck, rfl⟩
  · refine List.Pairwise.imp ?_ h2
    intro a b hab x hx y hy heq
    have hxa : x.addr ∈ (subcells d a).map cell.addr := List.mem_map_of_mem _ hx
    have hyb : y.addr ∈ (subcells d b).map cell.addr := List.mem_map_of_mem _ hy
    rw [heq] at hxa
    exact hab hxa hyb

theorem rec_fof_search_self_logged_safe (fuel : Nat) (s : space) (dim : vec3) (r2 : ℚ) :
    ∀ depth c, distinct_cells depth c → ∀ st, calls_distinct st →
      (rec_fof_search_self_logged fuel depth c s dim r2 st).safe calls_distinct := by
  intro depth
  induction depth with
  | zero =>
    intro c _ st _
    trivial
  | succ depth ih =>
    intro c hdis st hI
    simp only [rec_fof_search_self_logged]
    by_cases hsplit : c.split = true
    · rw [if_pos hsplit]
      obtain ⟨hk, hp⟩ := distinct_cells_progeny hsplit hdis
      apply progeny_loop_safe calls_distinct _ _ c.progeny _ _ st hI
      · intro ck hck st2 hst2
        exact ih ck (hk ck hck) st2 hst2
      · refine List.Pairwise.imp ?_ hp
        intro a b hab st2 hst2
        exact rec_fof_search_pair_logged_safe fuel s dim r2 depth a b hab st2 hst2
    · rw [if_neg hsplit]
      cases fof_search_cell fuel s c st.1 with
      | none => trivial
      | some g => exact hI

theorem outcome_map_fatal {α β : Type} {f : α → β} {o : Outcome α} {m : String}
    (h : o.map f = Outcome.fatal m) : o = Outcome.fatal m := by
  cases o with
  | ok a => cases h
  | fatal m2 =>
    simp only [Outcome.map, Outcome.fatal.injEq] at h
    rw [h]
  | stuck => cases h

/-- C28. For a cell tree rooted at `c` whose cells are pairwise different
cells (in particular the non-`NULL` children of each cell), the call
`rec_fof_search_self(c)` never ends in the fatal error
"Pair FOF called on same cell!!!", whatever the particles and `group_id`;
whenever it returns, every call of `rec_fof_search_pair` made during the
recursion, at any depth, was on two different cells; and on a well-formed tree
with an acyclic (down-linked) `group_id` it does return. -/
theorem self_recursion_never_pairs_a_cell_with_itself (fuel depth : Nat) (c : cell)
    (s : space) (g : List Nat) (hdist : distinct_cells depth c) :
    (∀ dim search_r2 m,
      rec_fof_search_self fuel depth c s dim search_r2 g ≠ Outcome.fatal m) ∧
    (∀ dim search_r2 res,
      rec_fof_search_self_logged fuel depth c s dim search_r2 (g, []) = Outcome.ok res →
        (∀ p ∈ res.2, p.1 ≠ p.2) ∧
        rec_fof_search_self fuel depth c s dim search_r2 g = Outcome.ok res.1) ∧
    (∀ d, cell_wf s d c → siblings_wf d c → d ≤ depth → DownLinked g →
      g.length = s.nr_gparts → s.gparts.length = s.nr_gparts → s.nr_gparts ≤ fuel →
      ∃ res, rec_fof_search_self_logged fuel depth c s s.dim s.l_x2 (g, []) =
        Outcome.ok res) := by
  have h0 : calls_distinct (g, []) := fun p hp => by cases hp
  refine ⟨?_, ?_, ?_⟩
  · intro dim r2 m hfatal
    have hsafe := rec_fof_search_self_logged_safe fuel s dim r2 depth c hdist (g, []) h0
    have hfst := rec_fof_search_self_logged_fst fuel s dim r2 depth c (g, [])
    rw [hfatal] at hfst
    rw [outcome_map_fatal hfst] at hsafe
    exact hsafe
  · intro dim r2 res hres
    have hsafe := rec_fof_search_self_logged_safe fuel s dim r2 depth c hdist (g, []) h0
    have hfst := rec_fof_search_self_logged_fst fuel s dim r2 depth c (g, [])
    rw [hres] at hsafe hfst
    exact ⟨hsafe, hfst.symm⟩
  · intro d hw hsib hdepth hd hg hparts hf
    obtain ⟨g2, hrun, _⟩ :=
      rec_fof_search_self_grows s hparts rfl fuel hf d c hw hsib depth hdepth g hd hg
    have hfst := rec_fof_search_self_logged_fst fuel s s.dim s.l_x2 depth c (g, [])
    rw [hrun] at hfst
    obtain ⟨res, hres, _⟩ := outcome_map_ok hfst
    exact ⟨res, hres⟩

theorem self_recursion_never_pairs_a_cell_with_itself_witness :
    distinct_cells 2 split_cell_example ∧
    (∀ dim search_r2 m, rec_fof_search_self 3 2 split_cell_example grid_space dim search_r2
      (identity_group_id 3) ≠ Outcome.fatal m) ∧
    ∃ res, rec_fof_search_self_logged 3 2 split_cell_example grid_space grid_space.dim
        grid_space.l_x2 (identity_group_id 3, []) = Outcome.ok res ∧
      ∀ p ∈ res.2, p.1 ≠ p.2 :=
  have hd : distinct_cells 2 split_cell_example := by
    have e : (subcells 2 split_cell_example).map cell.addr = [0, 2, 3] := rfl
    unfold distinct_cells
    rw [e]
    decide
  have h := self_recursion_never_pairs_a_cell_with_itself 3 2 split_cell_example grid_space
    (identity_group_id 3) hd
  have hres := h.2.2 2
    (grid_space_wf.cells split_cell_example (List.mem_cons_self _ _)).1
    (grid_space_wf.cells split_cell_example (List.mem_cons_self _ _)).2
    (le_refl _) (downLinked_identity 3) rfl rfl (by decide)
  ⟨hd, h.1, hres.choose, hres.choose_spec,
    (h.2.1 grid_space.dim grid_space.l_x2 hres.choose hres.choose_spec).1⟩

/-! ## The interface cells -/

theorem for_cells_sim_inv_aux {α σ τ : Type} (b1 : α → σ → Outcome σ)
    (b2 : α → τ → Outcome τ) (R : List α → σ → τ → Prop) (l : List α)
    (hstep : ∀ done x st1 st2, x ∈ l → R done st1 st2 →
      ∃ t1 t2, b1 x st1 = Outcome.ok t1 ∧ b2 x st2 = Outcome.ok t2 ∧ R (done ++ [x]) t1 t2) :
    ∀ (rest done : List α) (st1 : σ) (st2 : τ), R done st1 st2 → (∀ x ∈ rest, x ∈ l) →
      ∃ t1 t2, for_cells b1 rest st1 = Outcome.ok t1 ∧ for_cells b2 rest st2 = Outcome.ok t2 ∧
        R (done ++ rest) t1 t2 := by
  intro rest
  induction rest with
  | nil =>
    intro done st1 st2 h _
    exact ⟨st1, st2, rfl, rfl, by rw [List.append_nil]; exact h⟩
  | cons x xs ih =>
    intro done st1 st2 h hmem
    obtain ⟨u1, u2, e1, e2, hR⟩ := hstep done x st1 st2 (hmem x (List.mem_cons_self _ _)) h
    obtain ⟨t1, t2, f1, f2, hR2⟩ :=
      ih (done ++ [x]) u1 u2 hR (fun y hy => hmem y (List.mem_cons_of_mem _ hy))
    refine ⟨t1, t2, ?_, ?_, ?_⟩
    · simp only [for_cells, e1]
      exact f1
    · simp only [for_cells, e2]
      exact f2
    · rw [List.append_assoc, List.singleton_append] at hR2
      exact hR2

theorem for_cells_sim_inv {α σ τ : Type} (b1 : α → σ → Outcome σ)
    (b2 : α → τ → Outcome τ) (R : List α → σ → τ → Prop) (l : List α)
    (hstep : ∀ done x st1 st2, x ∈ l → R done st1 st2 →
      ∃ t1 t2, b1 x st1 = Outcome.ok t1 ∧ b2 x st2 = Outcome.ok t2 ∧ R (done ++ [x]) t1 t2)
    (st1 : σ) (st2 : τ) (h0 : R [] st1 st2) :
    ∃ t1 t2, for_cells b1 l st1 = Outcome.ok t1 ∧ for_cells b2 l st2 = Outcome.ok t2 ∧
      R l t1 t2 := by
  have h := for_cells_sim_inv_aux b1 b2 R l hstep l [] st1 st2 h0 (fun _ hx => hx)
  rw [List.nil_append] at h
  exact h

theorem cell_min_dist_axis_comm (a w b v L : ℚ) :
    cell_min_dist_axis a w b v L = cell_min_dist_axis b v a w L := by
  unfold cell_min_dist_axis min3
  have e1 : |nearest (b - a) L| = |nearest (a - b) L| := by
    rw [← neg_sub a b, abs_nearest_neg]
  have e2 : |nearest (b - (a + w)) L| = |nearest (a + w - b) L| := by
    rw [← neg_sub (a + w) b, abs_nearest_neg]
  have e3 : |nearest (b + v - a) L| = |nearest (a - (b + v)) L| := by
    rw [← neg_sub a (b + v), abs_nearest_neg]
  have e4 : |nearest (b + v - (a + w)) L| = |nearest (a + w - (b + v)) L| := by
    rw [← neg_sub (a + w) (b + v), abs_nearest_neg]
  rw [e1, e2, e3, e4]
  simp only [min_assoc, min_left_comm, min_comm]

theorem cell_min_dist_comm (ci cj : cell) (dim : vec3) :
    cell_min_dist ci cj dim = cell_min_dist cj ci dim := by
  unfold cell_min_dist
  simp only
  rw [cell_min_dist_axis_comm ci.loc.x0, cell_min_dist_axis_comm ci.loc.x1,
    cell_min_dist_axis_comm ci.loc.x2]

theorem interface_ok_send {engine_rank : Int} {s : space} {st : foreign_state}
    (h : interface_ok engine_rank s st) (send : List fof_mpi) :
    interface_ok engine_rank s { st with fof_send := send } := h

theorem pair_covered_mono {engine_rank : Int} {s : space} {st st2 : foreign_state}
    {i j : Nat} (h : pair_covered engine_rank s st i j)
    (hm : ∀ k : Nat, st.cell_added[k]? = some 1 → st2.cell_added[k]? = some 1) :
    pair_covered engine_rank s st2 i j := by
  intro ci cj hi hj hei hej hlf hnear
  obtain ⟨h1, h2⟩ := h ci cj hi hj hei hej hlf hnear
  exact ⟨fun e => hm i (h1 e), fun e => hm j (h2 e)⟩

/-- What `add_interface_cell` does to consistent bookkeeping: it returns, does
not touch the records, keeps the bookkeeping consistent, never clears a flag,
leaves a local cell flagged, and adds at most one cell, none when the cell is
foreign. -/
theorem add_interface_cell_ok (engine_rank : Int) (s : space) (cid : Nat) (c : cell)
    (st : foreign_state) (hok : interface_ok engine_rank s st)
    (hc : s.cells_top[cid]? = some c) (hn : cid < s.nr_cells) :
    ∃ st2, add_interface_cell engine_rank cid c st = some st2 ∧
      st2.fof_send = st.fof_send ∧ interface_ok engine_rank s st2 ∧
      (∀ k : Nat, st.cell_added[k]? = some 1 → st2.cell_added[k]? = some 1) ∧
      (c.nodeID = engine_rank → st2.cell_added[cid]? = some 1) ∧
      st2.interface_cells.length ≤
        st.interface_cells.length + (if c.nodeID = engine_rank then 1 else 0) := by
  obtain ⟨hlen, h01, idxs, hnd, hlist, hflag, hloc⟩ := hok
  have hcl : cid < st.cell_added.length := by omega
  have hget : st.cell_added[cid]? = some st.cell_added[cid] := List.getElem?_eq_getElem hcl
  unfold add_interface_cell
  rw [hget]
  simp only
  by_cases hadd : c.nodeID = engine_rank ∧ st.cell_added[cid] = 0
  · rw [if_pos hadd]
    have hnot : cid ∉ idxs := by
      intro hmem
      have := (hflag cid).1 hmem
      rw [hget, hadd.2] at this
      cases this
    refine ⟨_, rfl, rfl, ⟨?_, ?_, idxs ++ [cid], ?_, ?_, ?_, ?_⟩, ?_, ?_, ?_⟩
    · simp only [List.length_set]
      exact hlen
    · intro k v hk
      simp only [List.getElem?_set] at hk
      split at hk
      · cases hk
        exact Or.inr rfl
      · exact h01 k v hk
    · rw [List.nodup_append]
      refine ⟨hnd, List.nodup_singleton _, ?_⟩
      intro a ha hb
      rw [List.mem_singleton] at hb
      exact hnot (hb ▸ ha)
    · simp only [List.filterMap_append, List.filterMap_cons, List.filterMap_nil, hc, hlist]
    · intro k
      simp only [List.mem_append, List.mem_singleton, List.getElem?_set]
      by_cases hk : cid = k
      · subst hk
        simp [hcl]
      · rw [if_neg hk, ← hflag k]
        constructor
        · rintro (h | h)
          · exact h
          · exact absurd h.symm hk
        · exact Or.inl
    · intro k hk
      rw [List.mem_append, List.mem_singleton] at hk
      rcases hk with hk | hk
      · exact hloc k hk
      · subst hk
        exact ⟨c, hc, hadd.1⟩
    · intro k hk
      simp only [List.getElem?_set]
      by_cases hkc : cid = k
      · subst hkc
        simp [hcl]
      · rw [if_neg hkc]
        exact hk
    · intro _
      simp [List.getElem?_set, hcl]
    · simp only [List.length_append, List.length_singleton, if_pos hadd.1]
      exact Nat.le_refl _
  · rw [if_neg hadd]
    refine ⟨st, rfl, rfl, ⟨hlen, h01, idxs, hnd, hlist, hflag, hloc⟩, fun _ h => h, ?_, ?_⟩
    · intro hl
      rcases h01 cid _ hget with h | h
      · exact absurd ⟨hl, h⟩ hadd
      · rw [hget, h]
    · omega

theorem local_foreign_one_local {engine_rank : Int} {ci cj : cell}
    (h : local_foreign engine_rank ci cj = true) :
    (if ci.nodeID = engine_rank then 1 else 0) + (if cj.nodeID = engine_rank then 1 else 0) =
      1 := by
  unfold local_foreign at h
  by_cases hi : ci.nodeID = engine_rank <;> by_cases hj : cj.nodeID = engine_rank <;>
    simp [hi, hj] at h ⊢

theorem for_cells_sim_inv_post {α σ τ : Type} (b1 : α → σ → Outcome σ)
    (b2 : α → τ → Outcome τ) (R : List α → σ → τ → Prop) (l : List α) {Q : σ → τ → Prop}
    (hstep : ∀ done x st1 st2, x ∈ l → R done st1 st2 →
      ∃ t1 t2, b1 x st1 = Outcome.ok t1 ∧ b2 x st2 = Outcome.ok t2 ∧ R (done ++ [x]) t1 t2)
    (st1 : σ) (st2 : τ) (h0 : R [] st1 st2) (hpost : ∀ t1 t2, R l t1 t2 → Q t1 t2) :
    ∃ t1 t2, for_cells b1 l st1 = Outcome.ok t1 ∧ for_cells b2 l st2 = Outcome.ok t2 ∧
      Q t1 t2 := by
  obtain ⟨t1, t2, e1, e2, h⟩ := for_cells_sim_inv b1 b2 R l hstep st1 st2 h0
  exact ⟨t1, t2, e1, e2, hpost t1 t2 h⟩

theorem interface_ok_init (engine_rank : Int) (s : space) :
    interface_ok engine_rank s
      { fof_send := [], interface_cells := [], cell_added := List.replicate s.nr_cells 0 } := by
  unfold interface_ok
  refine ⟨List.length_replicate _ _, ?_, [], List.nodup_nil, rfl, ?_, ?_⟩
  · intro k v hk
    simp only [List.getElem?_replicate] at hk
    split at hk
    · cases hk
      exact Or.inl rfl
    · cases hk
  · intro k
    simp only [List.getElem?_replicate]
    constructor
    · intro h
      cases h
    · intro h
      split at h <;> cases h
  · intro k hk
    cases hk

/-- The two passes of `fof_search_foreign_cells` run in step: on a well-formed
cell array both return normally, the generation pass records at most `count`
interface cells, its bookkeeping is consistent at the end, and every pair of
top-level cells has been dealt with. -/
theorem foreign_passes_interface (s : space) (engine_rank : Int)
    (d fuel depth : Nat) (g : List Nat) (hwf : foreign_wf s d) (hd : DownLinked g)
    (hg : g.length = s.gparts.length) (hf : g.length ≤ fuel) (hdepth : d ≤ depth) :
    ∃ nr_links count st,
      foreign_sizing depth engine_rank s = Outcome.ok (nr_links, count) ∧
      foreign_generate fuel depth engine_rank s g = Outcome.ok st ∧
      st.interface_cells.length ≤ count ∧ interface_ok engine_rank s st ∧
      ∀ i j, i < j → pair_covered engine_rank s st i j := by
  have key := for_cells_sim_inv
    (fun cid (st : foreign_state) =>
      match s.cells_top[cid]? with
      | none => Outcome.stuck
      | some ci =>
        if ci.gcount = 0 then Outcome.ok st
        else
          for_cell_index s.cells_top (fun cjd cj st =>
              if local_foreign engine_rank ci cj then
                if cj.gcount = 0 then Outcome.ok st
                else
                  match rec_fof_search_pair_foreign fuel engine_rank depth ci cj s s.dim
                      s.l_x2 g st.fof_send with
                  | Outcome.ok send =>
                    if cell_min_dist ci cj s.dim < s.l_x2 then
                      match add_interface_cell engine_rank cid ci
                          { st with fof_send := send } with
                      | none => Outcome.stuck
                      | some st1 =>
                        Outcome.ofOption (add_interface_cell engine_rank cjd cj st1)
                    else Outcome.ok { st with fof_send := send }
                  | Outcome.fatal m => Outcome.fatal m
                  | Outcome.stuck => Outcome.stuck
              else Outcome.ok st)
            (List.range' (cid + 1) (s.nr_cells - (cid + 1))) st)
    (fun cid (st : Nat × Nat) =>
      match s.cells_top[cid]? with
      | none => Outcome.stuck
      | some ci =>
        if ci.gcount = 0 then Outcome.ok st
        else
          for_cell_index s.cells_top (fun _ cj st =>
              if local_foreign engine_rank ci cj then
                if cj.gcount = 0 then Outcome.ok st
                else if cell_min_dist ci cj s.dim < s.l_x2 then
                  match rec_fof_search_pair_foreign_count depth ci cj s.dim s.l_x2 st.1 with
                  | Outcome.ok nr => Outcome.ok (nr, st.2 + 1)
                  | Outcome.fatal m => Outcome.fatal m
                  | Outcome.stuck => Outcome.stuck
                else Outcome.ok st
              else Outcome.ok st)
            (List.range' (cid + 1) (s.nr_cells - (cid + 1))) st)
    (fun (done : List Nat) (st1 : foreign_state) (st2 : Nat × Nat) =>
      st1.fof_send.length ≤ st2.1 ∧ st1.interface_cells.length ≤ st2.2 ∧
      interface_ok engine_rank s st1 ∧
      ∀ i ∈ done, ∀ j, i < j → pair_covered engine_rank s st1 i j)
    (List.range s.nr_cells)
    (by
      intro done cid st1 st2 hcid hR
      have hc : cid < s.cells_top.length := by
        rw [← hwf.count]
        exact List.mem_range.1 hcid
      have hci : s.cells_top[cid]? = some s.cells_top[cid] := List.getElem?_eq_getElem hc
      simp only [hci]
      by_cases hempty : s.cells_top[cid].gcount = 0
      · rw [if_pos hempty, if_pos hempty]
        refine ⟨st1, st2, rfl, rfl, hR.1, hR.2.1, hR.2.2.1, ?_⟩
        intro i hi j hij
        rw [List.mem_append, List.mem_singleton] at hi
        rcases hi with hi | hi
        · exact hR.2.2.2 i hi j hij
        · subst hi
          intro ci cj hi2 _ hei _ _ _
          rw [hci] at hi2
          cases hi2
          exact absurd hempty hei
      · rw [if_neg hempty, if_neg hempty]
        unfold for_cell_index
        refine for_cells_sim_inv_post _ _
          (fun (done2 : List Nat) (u1 : foreign_state) (u2 : Nat × Nat) =>
            u1.fof_send.length ≤ u2.1 ∧ u1.interface_cells.length ≤ u2.2 ∧
            interface_ok engine_rank s u1 ∧
            (∀ k : Nat, st1.cell_added[k]? = some 1 → u1.cell_added[k]? = some 1) ∧
            ∀ j ∈ done2, pair_covered engine_rank s u1 cid j)
          (List.range' (cid + 1) (s.nr_cells - (cid + 1)))
          (by
            intro done2 cjd u1 u2 hcjd hR2
            obtain ⟨hle, hcnt, hok, hmono, hcov⟩ := hR2
            rw [List.mem_range'_1] at hcjd
            have hcj : cjd < s.cells_top.length := by
              rw [← hwf.count]
              omega
            have hcje : s.cells_top[cjd]? = some s.cells_top[cjd] :=
              List.getElem?_eq_getElem hcj
            simp only [hcje]
            by_cases hlf : local_foreign engine_rank s.cells_top[cid] s.cells_top[cjd] = true
            · rw [if_pos hlf, if_pos hlf]
              by_cases hej : s.cells_top[cjd].gcount = 0
              · rw [if_pos hej, if_pos hej]
                refine ⟨u1, u2, rfl, rfl, hle, hcnt, hok, hmono, ?_⟩
                intro j hj
                rw [List.mem_append, List.mem_singleton] at hj
                rcases hj with hj | hj
                · exact hcov j hj
                · subst hj
                  intro ci cj _ hj2 _ hej2 _ _
                  rw [hcje] at hj2
                  cases hj2
                  exact absurd hej hej2
              · rw [if_neg hej, if_neg hej]
                obtain ⟨hwi, hoi, hdi⟩ := hwf.cells _ (List.getElem_mem hc)
                obtain ⟨hwj, hoj, hdj⟩ := hwf.cells _ (List.getElem_mem hcj)
                have hp : pair_wf d s.cells_top[cid] s.cells_top[cjd] :=
                  pairwise_getElem? hwf.pairs (by omega) hci hcje
                obtain ⟨send2, nr2, e1, e2, hle2, hfar⟩ :=
                  rec_foreign_passes s engine_rank hd hg hwf.parts fuel hf d _ _ hp hwi hwj
                    hoi hoj hlf depth hdepth u1.fof_send u2.1 hle
                rw [e1]
                simp only
                by_cases hnear :
                    cell_min_dist s.cells_top[cid] s.cells_top[cjd] s.dim < s.l_x2
                · rw [if_pos hnear, if_pos hnear, e2]
                  obtain ⟨v1, hv1, hs1, hok1, hm1, hf1, hl1⟩ :=
                    add_interface_cell_ok engine_rank s cid s.cells_top[cid]
                      { u1 with fof_send := send2 } (interface_ok_send hok send2) hci
                      (by rw [hwf.count]; exact hc)
                  obtain ⟨v2, hv2, hs2, hok2, hm2, hf2, hl2⟩ :=
                    add_interface_cell_ok engine_rank s cjd s.cells_top[cjd] v1 hok1 hcje
                      (by rw [hwf.count]; exact hcj)
                  refine ⟨v2, (nr2, u2.2 + 1), ?_, rfl, ?_, ?_, hok2, ?_, ?_⟩
                  · rw [hv1]
                    simp only [hv2, Outcome.ofOption]
                  · rw [hs2, hs1]
                    exact hle2
                  · have h1 := local_foreign_one_local hlf
                    have hl1b : v1.interface_cells.length ≤ u1.interface_cells.length +
                        (if s.cells_top[cid].nodeID = engine_rank then 1 else 0) := hl1
                    show v2.interface_cells.length ≤ u2.2 + 1
                    omega
                  · intro k hk
                    exact hm2 k (hm1 k (hmono k hk))
                  · intro j hj
                    rw [List.mem_append, List.mem_singleton] at hj
                    rcases hj with hj | hj
                    · exact pair_covered_mono (hcov j hj) (fun k hk => hm2 k (hm1 k hk))
                    · subst hj
                      intro ci cj hi2 hj2 _ _ _ _
                      rw [hci] at hi2
                      rw [hcje] at hj2
                      cases hi2
                      cases hj2
                      exact ⟨fun e => hm2 cid (hf1 e), hf2⟩
                · rw [if_neg hnear, if_neg hnear]
                  refine ⟨_, u2, rfl, rfl, ?_, hcnt, interface_ok_send hok send2, hmono, ?_⟩
                  · have := hfar (far_apart_of_cell_min_dist hwi hwj (pair_wf_aligned hp)
                      hdi hdj hnear)
                    simp only [this]
                    exact hle
                  · intro j hj
                    rw [List.mem_append, List.mem_singleton] at hj
                    rcases hj with hj | hj
                    · exact hcov j hj
                    · subst hj
                      intro ci cj hi2 hj2 _ _ _ hn2
                      rw [hci] at hi2
                      rw [hcje] at hj2
                      cases hi2
                      cases hj2
                      exact absurd hn2 hnear
            · rw [if_neg hlf, if_neg hlf]
              refine ⟨u1, u2, rfl, rfl, hle, hcnt, hok, hmono, ?_⟩
              intro j hj
              rw [List.mem_append, List.mem_singleton] at hj
              rcases hj with hj | hj
              · exact hcov j hj
              · subst hj
                intro ci cj hi2 hj2 _ _ hlf2 _
                rw [hci] at hi2
                rw [hcje] at hj2
                cases hi2
                cases hj2
                exact absurd hlf2 hlf)
          st1 st2 ⟨hR.1, hR.2.1, hR.2.2.1, fun _ h => h, fun _ h => by cases h⟩ ?_
        rintro t1 t2 ⟨hle, hcnt, hok, hmono, hcov⟩
        refine ⟨hle, hcnt, hok, ?_⟩
        intro i hi j hij
        rw [List.mem_append, List.mem_singleton] at hi
        rcases hi with hi | hi
        · exact pair_covered_mono (hR.2.2.2 i hi j hij) hmono
        · subst hi
          by_cases hj : j < s.nr_cells
          · exact hcov j (List.mem_range'_1.2 ⟨by omega, by omega⟩)
          · intro ci cj _ hj2 _ _ _ _
            rw [List.getElem?_eq_none (by rw [← hwf.count]; omega)] at hj2
            cases hj2)
    { fof_send := [], interface_cells := [], cell_added := List.replicate s.nr_cells 0 }
    (0, 0)
    ⟨Nat.le_refl _, Nat.le_refl _, interface_ok_init engine_rank s, fun _ h => by cases h⟩
  obtain ⟨t1, t2, h1, h2, hR⟩ := key
  refine ⟨t2.1, t2.2, t1, h2, h1, hR.2.1, hR.2.2.1, ?_⟩
  intro i j hij
  by_cases hi : i < s.nr_cells
  · exact hR.2.2.2 i (List.mem_range.2 hi) j hij
  · intro ci cj hi2 _ _ _ _ _
    rw [List.getElem?_eq_none (by rw [← hwf.count]; omega)] at hi2
    cases hi2

theorem pair_wf_addr {d : Nat} {ci cj : cell} (h : pair_wf d ci cj) : ci.addr ≠ cj.addr := by
  cases d with
  | zero => exact absurd h (by simp [pair_wf])
  | succ d => exact h.1

theorem local_foreign_of_owner {engine_rank : Int} {ci cj : cell}
    (hi : ci.nodeID = engine_rank) (hj : cj.nodeID ≠ engine_rank) :
    local_foreign engine_rank ci cj = true ∧ local_foreign engine_rank cj ci = true := by
  unfold local_foreign
  simp [hi, hj]

/-- C21. On a well-formed cell array shared between ranks and an acyclic
`group_id`, both passes of `fof_search_foreign_cells` return normally, and
after the generation loop `interface_cells` holds no cell twice (no two
entries even share an address), holds only top-level cells owned by this
rank, holds every non-empty local top-level cell that has a non-empty foreign
top-level cell with `cell_min_dist` below `search_r2`, and its length
`interface_cell_count` does not exceed the `count` of the sizing pass. -/
theorem interface_cells_are_the_local_cells_in_range (s : space) (engine_rank : Int)
    (d fuel depth : Nat) (g : List Nat) (hwf : foreign_wf s d) (hd : DownLinked g)
    (hg : g.length = s.gparts.length) (hf : g.length ≤ fuel) (hdepth : d ≤ depth) :
    ∃ nr_links count st,
      foreign_sizing depth engine_rank s = Outcome.ok (nr_links, count) ∧
      foreign_generate fuel depth engine_rank s g = Outcome.ok st ∧
      (st.interface_cells.map cell.addr).Nodup ∧
      (∀ c ∈ st.interface_cells, c ∈ s.cells_top ∧ c.nodeID = engine_rank) ∧
      (∀ ci ∈ s.cells_top, ∀ cj ∈ s.cells_top, ci.nodeID = engine_rank →
        cj.nodeID ≠ engine_rank → ci.gcount ≠ 0 → cj.gcount ≠ 0 →
        cell_min_dist ci cj s.dim < s.l_x2 → ci ∈ st.interface_cells) ∧
      st.interface_cells.length ≤ count := by
  obtain ⟨nr, count, st, h1, h2, hlen, hok, hcov⟩ :=
    foreign_passes_interface s engine_rank d fuel depth g hwf hd hg hf hdepth
  obtain ⟨_, _, idxs, hnd, hlist, hflag, hloc⟩ := hok
  refine ⟨nr, count, st, h1, h2, ?_, ?_, ?_, hlen⟩
  · rw [hlist, List.map_filterMap]
    refine List.Nodup.filterMap ?_ hnd
    intro a b x ha hb
    simp only [Option.mem_def, Option.map_eq_some'] at ha hb
    obtain ⟨ca, hca, ea⟩ := ha
    obtain ⟨cb, hcb, eb⟩ := hb
    rcases Nat.lt_trichotomy a b with h | h | h
    · exact absurd (ea.trans eb.symm) (pair_wf_addr (pairwise_getElem? hwf.pairs h hca hcb))
    · exact h
    · exact absurd (eb.trans ea.symm) (pair_wf_addr (pairwise_getElem? hwf.pairs h hcb hca))
  · intro c hc
    rw [hlist, List.mem_filterMap] at hc
    obtain ⟨k, hk, hck⟩ := hc
    obtain ⟨c2, hc2, hown⟩ := hloc k hk
    rw [hck] at hc2
    cases hc2
    exact ⟨List.getElem?_mem hck, hown⟩
  · intro ci hci cj hcj hi hj hei hej hnear
    obtain ⟨i, hgi⟩ := List.getElem?_of_mem hci
    obtain ⟨j, hgj⟩ := List.getElem?_of_mem hcj
    obtain ⟨hlf, hlf2⟩ := local_foreign_of_owner hi hj
    have hflagged : st.cell_added[i]? = some 1 := by
      rcases Nat.lt_trichotomy i j with h | h | h
      · exact (hcov i j h ci cj hgi hgj hei hej hlf hnear).1 hi
      · subst h
        rw [hgi] at hgj
        cases hgj
        exact absurd hi hj
      · exact (hcov j i h cj ci hgj hgi hej hei hlf2
          (by rw [cell_min_dist_comm]; exact hnear)).2 hi
    rw [hlist, List.mem_filterMap]
    exact ⟨i, (hflag i).2 hflagged, hgi⟩

theorem interface_cells_are_the_local_cells_in_range_witness :
    foreign_wf two_rank_space 2 ∧ DownLinked (identity_group_id 3) ∧
    ∃ nr_links count st,
      foreign_sizing 2 0 two_rank_space = Outcome.ok (nr_links, count) ∧
      foreign_generate 3 2 0 two_rank_space (identity_group_id 3) = Outcome.ok st ∧
      (st.interface_cells.map cell.addr).Nodup ∧
      (∀ c ∈ st.interface_cells, c ∈ two_rank_space.cells_top ∧ c.nodeID = 0) ∧
      (∀ ci ∈ two_rank_space.cells_top, ∀ cj ∈ two_rank_space.cells_top, ci.nodeID = 0 →
        cj.nodeID ≠ 0 → ci.gcount ≠ 0 → cj.gcount ≠ 0 →
        cell_min_dist ci cj two_rank_space.dim < two_rank_space.l_x2 →
        ci ∈ st.interface_cells) ∧
      st.interface_cells.length ≤ count :=
  ⟨two_rank_wf, downLinked_identity 3,
    interface_cells_are_the_local_cells_in_range two_rank_space 0 2 3 2 (identity_group_id 3)
      two_rank_wf (downLinked_identity 3) rfl (by decide) (by decide)⟩

/-! ## The cached root of the particle of the outer loop -/

theorem fof_find_after_link {g : List Nat} {a b : Nat} (ha : g[a]? = some a)
    (hb : g[b]? = some b) (hne : a ≠ b) :
    ∀ (fuel i r : Nat), fof_find fuel i g = some r →
      fof_find (fuel + 1) i (g.set a b) = some (if r = a then b else r) := by
  have hal : a < g.length := lt_length_of_getElem ha
  have hga : (g.set a b)[a]? = some b := by simp [List.getElem?_set, hal]
  have hgb : (g.set a b)[b]? = some b := by
    rw [List.getElem?_set, if_neg hne]
    exact hb
  intro fuel
  induction fuel with
  | zero =>
    intro i r h
    simp [fof_find] at h
  | succ fuel ih =>
    intro i r h
    rw [fof_find_succ] at h
    cases hgi : g[i]? with
    | none => simp [hgi] at h
    | some p =>
      rw [hgi] at h
      simp only at h
      by_cases hip : i = p
      · rw [if_pos hip] at h
        cases h
        by_cases hia : i = a
        · subst hia
          rw [if_pos rfl, fof_find_succ, hga]
          simp only
          rw [if_neg hne]
          exact fof_find_of_root hgb fuel
        · rw [if_neg hia]
          have : (g.set a b)[i]? = some i := by
            rw [List.getElem?_set, if_neg (Ne.symm hia), hgi, ← hip]
          exact fof_find_of_root this (fuel + 1)
      · rw [if_neg hip] at h
        have hia : a ≠ i := by
          intro e
          subst e
          rw [ha] at hgi
          cases hgi
          exact hip rfl
        rw [fof_find_succ, List.getElem?_set, if_neg hia, hgi]
        simp only
        rw [if_neg hip]
        exact ih p r h

theorem fof_find_along {g : List Nat} :
    ∀ (k fuel i j r : Nat), fof_find fuel i g = some r → follow g k i = some j →
      fof_find fuel j g = some r ∧
        (0 < k → g[i]? ≠ some i → ∃ f, fuel = f + 1 ∧ fof_find f j g = some r) := by
  intro k
  induction k with
  | zero =>
    intro fuel i j r h hfol
    simp only [follow] at hfol
    split at hfol
    · cases hfol
      exact ⟨h, fun h0 => absurd h0 (Nat.lt_irrefl 0)⟩
    · cases hfol
  | succ k ih =>
    intro fuel i j r h hfol
    cases fuel with
    | zero => simp [fof_find] at h
    | succ fuel =>
      rw [fof_find_succ] at h
      rw [follow_succ] at hfol
      cases hgi : g[i]? with
      | none => simp [hgi] at h
      | some p =>
        rw [hgi] at h hfol
        simp only at h hfol
        by_cases hip : i = p
        · rw [if_pos hip] at h
          cases h
          subst hip
          rw [follow_root hgi k] at hfol
          cases hfol
          exact ⟨fof_find_of_root hgi fuel, fun _ hne => absurd rfl hne⟩
        · rw [if_neg hip] at h
          obtain ⟨h1, _⟩ := ih fuel p j r h hfol
          exact ⟨fof_find_mono h1 (Nat.le_succ _), fun _ _ => ⟨fuel, rfl, h1⟩⟩

/-- An array on which `fof_find` returns from every index has valid entries
and no cycle. -/
theorem acyclic_of_find_returns {g : List Nat}
    (h : ∀ i, i < g.length → ∃ fuel r, fof_find fuel i g = some r) :
    ValidIndices g ∧ NoCycle g := by
  constructor
  · intro k p hk
    obtain ⟨fuel, r, hfind⟩ := h k (lt_length_of_getElem hk)
    cases fuel with
    | zero => simp [fof_find] at hfind
    | succ fuel =>
      rw [fof_find_succ, hk] at hfind
      simp only at hfind
      by_cases hkp : k = p
      · rw [← hkp]
        exact lt_length_of_getElem hk
      · rw [if_neg hkp] at hfind
        cases fuel with
        | zero => simp [fof_find] at hfind
        | succ fuel =>
          rw [fof_find_succ] at hfind
          cases hgp : g[p]? with
          | none => simp [hgp] at hfind
          | some q => exact lt_length_of_getElem hgp
  · intro i k hk hfol
    have hil : i < g.length := by
      obtain ⟨k, rfl⟩ : ∃ m, k = m + 1 := ⟨k - 1, by omega⟩
      rw [follow_succ] at hfol
      cases hgi : g[i]? with
      | none => simp [hgi] at hfol
      | some q => exact lt_length_of_getElem hgi
    obtain ⟨fuel, r, hfind⟩ := h i hil
    clear h
    induction fuel with
    | zero => simp [fof_find] at hfind
    | succ fuel ih =>
      by_contra hne
      obtain ⟨_, h2⟩ := fof_find_along k (fuel + 1) i i r hfind hfol
      obtain ⟨f, hf, hfind2⟩ := h2 hk hne
      have : f = fuel := by omega
      subst this
      exact hne (ih hfind2)

/-- Redirecting a root to another root keeps the array free of cycles, and
moves the root of exactly the indices that had the redirected root. -/
theorem link_step_acyclic {g : List Nat} (hv : ValidIndices g) (hc : NoCycle g)
    {a b : Nat} (ha : g[a]? = some a) (hb : g[b]? = some b) (hne : a ≠ b) {fuel : Nat}
    (hf : g.length ≤ fuel) :
    ValidIndices (g.set a b) ∧ NoCycle (g.set a b) ∧
      ∀ i r, fof_find fuel i g = some r →
        fof_find fuel i (g.set a b) = some (if r = a then b else r) := by
  have hac : ValidIndices (g.set a b) ∧ NoCycle (g.set a b) := by
    apply acyclic_of_find_returns
    intro i hi
    rw [List.length_set] at hi
    obtain ⟨r, hr⟩ := noCycle_find hv hc hi hf
    exact ⟨fuel + 1, _, fof_find_after_link ha hb hne fuel i r hr⟩
  refine ⟨hac.1, hac.2, ?_⟩
  intro i r hr
  have hi : i < (g.set a b).length := by
    rw [List.length_set]
    cases fuel with
    | zero => simp [fof_find] at hr
    | succ fuel =>
      rw [fof_find_succ] at hr
      cases hgi : g[i]? with
      | none => simp [hgi] at hr
      | some q => exact lt_length_of_getElem hgi
  have hf2 : (g.set a b).length ≤ fuel := (List.length_set g a b).symm ▸ hf
  obtain ⟨r2, hr2⟩ := noCycle_find hac.1 hac.2 hi hf2
  rw [hr2, fof_find_det hr2 (fof_find_after_link ha hb hne fuel i r hr)]

theorem link_roots_cached {g : List Nat} (hv : ValidIndices g) (hc : NoCycle g)
    {fuel : Nat} (hf : g.length ≤ fuel) {a r rj : Nat} (hr : fof_find fuel a g = some r)
    (hrj : g[rj]? = some rj) (hne : r ≠ rj) :
    ValidIndices (link_roots g r rj).1 ∧ NoCycle (link_roots g r rj).1 ∧
      (link_roots g r rj).1.length = g.length ∧
      fof_find fuel a (link_roots g r rj).1 = some (link_roots g r rj).2 := by
  have hroot := fof_find_is_root hr
  unfold link_roots
  by_cases hlt : rj < r
  · rw [if_pos hlt]
    obtain ⟨h1, h2, h3⟩ := link_step_acyclic hv hc hroot hrj hne hf
    refine ⟨h1, h2, List.length_set _ _ _, ?_⟩
    rw [h3 a r hr, if_pos rfl]
  · rw [if_neg hlt]
    obtain ⟨h1, h2, h3⟩ := link_step_acyclic hv hc hrj hroot (Ne.symm hne) hf
    refine ⟨h1, h2, List.length_set _ _ _, ?_⟩
    rw [h3 a r hr, if_neg hne]

/-- One visit of the inner loop of `fof_search_serial` keeps the array acyclic
and the cached `root_i` equal to the root of the particle of the outer loop. -/
theorem visit_serial_cached {g : List Nat} (hv : ValidIndices g) (hc : NoCycle g)
    {fuel : Nat} (hf : g.length ≤ fuel) {a r j : Nat} (hr : fof_find fuel a g = some r)
    (hj : j < g.length) (hit : Bool) :
    ∃ g2 r2, visit_serial fuel hit j (g, r) = some (g2, r2) ∧ ValidIndices g2 ∧
      NoCycle g2 ∧ g2.length = g.length ∧ fof_find fuel a g2 = some r2 := by
  obtain ⟨rj, hrj⟩ := noCycle_find hv hc hj hf
  unfold visit_serial
  simp only [hrj]
  by_cases heq : r = rj
  · rw [if_pos heq]
    exact ⟨g, r, rfl, hv, hc, rfl, hr⟩
  · rw [if_neg heq]
    cases hit with
    | false => exact ⟨g, r, rfl, hv, hc, rfl, hr⟩
    | true =>
      obtain ⟨h1, h2, h3, h4⟩ := link_roots_cached hv hc hf hr (fof_find_is_root hrj) heq
      exact ⟨_, _, rfl, h1, h2, h3, h4⟩

/-- The same for the visit of `fof_search_cell` and `fof_search_pair_cells`,
whose stores go through `atomic_min`. -/
theorem visit_atomic_cached {g : List Nat} (hv : ValidIndices g) (hc : NoCycle g)
    {fuel : Nat} (hf : g.length ≤ fuel) {a r j : Nat} (hr : fof_find fuel a g = some r)
    (hj : j < g.length) (hit : Bool) :
    ∃ g2 r2, visit_atomic fuel hit j (g, r) = some (g2, r2) ∧ ValidIndices g2 ∧
      NoCycle g2 ∧ g2.length = g.length ∧ fof_find fuel a g2 = some r2 := by
  obtain ⟨rj, hrj⟩ := noCycle_find hv hc hj hf
  unfold visit_atomic
  simp only [hrj]
  by_cases heq : r = rj
  · rw [if_pos heq]
    exact ⟨g, r, rfl, hv, hc, rfl, hr⟩
  · rw [if_neg heq]
    cases hit with
    | false => exact ⟨g, r, rfl, hv, hc, rfl, hr⟩
    | true =>
      obtain ⟨h1, h2, h3, h4⟩ := link_roots_cached hv hc hf hr (fof_find_is_root hrj) heq
      rw [if_pos rfl, link_roots_atomic_eq (fof_find_is_root hr) (fof_find_is_root hrj) heq]
      exact ⟨_, _, rfl, h1, h2, h3, h4⟩

/-- In an acyclic array the search started at the entry of an index, as the
cell linkers do, finds the root of that index. -/
theorem fof_find_via_entry {g : List Nat} (hv : ValidIndices g) (hc : NoCycle g)
    {fuel : Nat} (hf : g.length ≤ fuel) {a oa : Nat} (ha : g[a]? = some oa) :
    ∃ r, fof_find fuel oa g = some r ∧ fof_find fuel a g = some r := by
  obtain ⟨r, hr⟩ := noCycle_find hv hc (hv a oa ha) hf
  obtain ⟨r2, hr2⟩ := noCycle_find hv hc (lt_length_of_getElem ha) hf
  refine ⟨r, hr, ?_⟩
  by_cases hao : a = oa
  · rw [hao]
    exact hr
  · have h : fof_find (fuel + 1) a g = some r := by
      rw [fof_find_succ, ha]
      simp only
      rw [if_neg hao]
      exact hr
    rw [hr2, fof_find_det hr2 h]

/-- The inner loops of the cell linkers, over any list of partner indices, keep
the array acyclic and the cached `root_i` equal to the root of the particle of
the outer loop. -/
theorem partner_loop_cached (s : space) {n : Nat} (hlen : s.gparts.length = n) (a off : Nat)
    (pix : vec3) {fuel : Nat} (hf : n ≤ fuel) (js : List Nat) (hjs : ∀ j ∈ js, off + j < n)
    {g : List Nat} {r : Nat} (hv : ValidIndices g) (hc : NoCycle g) (hg : g.length = n)
    (hr : fof_find fuel a g = some r) :
    ∃ g2 r2, for_list (fun j st =>
        match st.1[off + j]?, gpart_x s (off + j) with
        | some oj, some pjx => visit_atomic fuel (decide (r2_plain pix pjx < s.l_x2)) oj st
        | _, _ => none) js (g, r) = some (g2, r2) ∧
      ValidIndices g2 ∧ NoCycle g2 ∧ g2.length = n ∧ fof_find fuel a g2 = some r2 := by
  obtain ⟨st2, h1, h2⟩ := for_list_preserves
    (fun j (st : List Nat × Nat) =>
      match st.1[off + j]?, gpart_x s (off + j) with
      | some oj, some pjx => visit_atomic fuel (decide (r2_plain pix pjx < s.l_x2)) oj st
      | _, _ => none)
    (fun st => ValidIndices st.1 ∧ NoCycle st.1 ∧ st.1.length = n ∧
      fof_find fuel a st.1 = some st.2) js
    (by
      rintro j hj ⟨g1, r1⟩ ⟨hv1, hc1, hg1, hr1⟩
      dsimp only at hv1 hc1 hg1 hr1
      have hjn := hjs j hj
      have hget : g1[off + j]? = some g1[off + j] := List.getElem?_eq_getElem (by omega)
      simp only [hget, gpart_x_some s (hlen ▸ hjn)]
      obtain ⟨g2, r2, e, hv2, hc2, hg2, hr2⟩ :=
        visit_atomic_cached hv1 hc1 (hg1 ▸ hf) hr1 (hv1 _ _ hget)
          (decide (r2_plain pix s.gparts[off + j].x < s.l_x2))
      exact ⟨(g2, r2), e, hv2, hc2, hg2.trans hg1, hr2⟩)
    (g, r) ⟨hv, hc, hg, hr⟩
  exact ⟨st2.1, st2.2, h1, h2⟩

/-- The inner loop of `fof_search_serial`, over any list of partners, keeps the
array acyclic and the cached `root_i` equal to the root of particle `i`. -/
theorem serial_loop_cached (s : space) (hlen : s.gparts.length = s.nr_gparts) {i : Nat}
    (hi : i < s.nr_gparts) {fuel : Nat} (hf : s.nr_gparts ≤ fuel) (js : List Nat)
    (hjs : ∀ j ∈ js, j < s.nr_gparts) {g : List Nat} {r : Nat} (hv : ValidIndices g)
    (hc : NoCycle g) (hg : g.length = s.nr_gparts) (hr : fof_find fuel i g = some r) :
    ∃ g2 r2, for_list (fun j st =>
        match serial_hit s i j with
        | none => none
        | some hit => visit_serial fuel hit j st) js (g, r) = some (g2, r2) ∧
      ValidIndices g2 ∧ NoCycle g2 ∧ g2.length = s.nr_gparts ∧
      fof_find fuel i g2 = some r2 := by
  obtain ⟨st2, h1, h2⟩ := for_list_preserves
    (fun j (st : List Nat × Nat) =>
      match serial_hit s i j with
      | none => none
      | some hit => visit_serial fuel hit j st)
    (fun st => ValidIndices st.1 ∧ NoCycle st.1 ∧ st.1.length = s.nr_gparts ∧
      fof_find fuel i st.1 = some st.2) js
    (by
      rintro j hj ⟨g1, r1⟩ ⟨hv1, hc1, hg1, hr1⟩
      dsimp only at hv1 hc1 hg1 hr1
      have hjn := hjs j hj
      simp only [serial_hit_some s (hlen ▸ hi) (hlen ▸ hjn)]
      obtain ⟨g2, r2, e, hv2, hc2, hg2, hr2⟩ :=
        visit_serial_cached hv1 hc1 (hg1 ▸ hf) hr1 (hg1 ▸ hjn)
          (decide (r2_serial s.dim s.gparts[i] s.gparts[j] < s.l_x2))
      exact ⟨(g2, r2), e, hv2, hc2, hg2.trans hg1, hr2⟩)
    (g, r) ⟨hv, hc, hg, hr⟩
  exact ⟨st2.1, st2.2, h1, h2⟩

theorem serial_outer_acyclic (s : space) (hlen : s.gparts.length = s.nr_gparts)
    {fuel : Nat} (hf : s.nr_gparts ≤ fuel) (is : List Nat) (his : ∀ i ∈ is, i < s.nr_gparts)
    {g : List Nat} (hv : ValidIndices g) (hc : NoCycle g) (hg : g.length = s.nr_gparts) :
    ∃ g2, for_list (serial_outer fuel s) is g = some g2 ∧ ValidIndices g2 ∧ NoCycle g2 ∧
      g2.length = s.nr_gparts := by
  apply for_list_preserves (serial_outer fuel s)
    (fun g => ValidIndices g ∧ NoCycle g ∧ g.length = s.nr_gparts) is _ g ⟨hv, hc, hg⟩
  rintro i hi g1 ⟨hv1, hc1, hg1⟩
  have hin := his i hi
  obtain ⟨r, hr⟩ := noCycle_find hv1 hc1 (hg1.symm ▸ hin) (hg1.symm ▸ hf)
  obtain ⟨g2, r2, e, hv2, hc2, hg2, _⟩ :=
    serial_loop_cached s hlen hin hf (List.range' (i + 1) (s.nr_gparts - (i + 1)))
      (fun j hj => by rw [List.mem_range'_1] at hj; omega) hv1 hc1 hg1 hr
  refine ⟨g2, ?_, hv2, hc2, hg2⟩
  simp only [serial_outer, hr, serial_inner]
  exact congrArg (Option.map Prod.fst) e

theorem fof_search_cell_first_acyclic (s : space) (hlen : s.gparts.length = s.nr_gparts)
    {fuel : Nat} (hf : s.nr_gparts ≤ fuel) (c : cell)
    (hcr : c.gparts + c.gcount ≤ s.nr_gparts) (n : Nat) (hn : n ≤ c.gcount) {g : List Nat}
    (hv : ValidIndices g) (hc : NoCycle g) (hg : g.length = s.nr_gparts) :
    ∃ g2, fof_search_cell_first n fuel s c g = some g2 ∧ ValidIndices g2 ∧ NoCycle g2 ∧
      g2.length = s.nr_gparts := by
  unfold fof_search_cell_first
  apply for_list_preserves _
    (fun g => ValidIndices g ∧ NoCycle g ∧ g.length = s.nr_gparts) _ _ g ⟨hv, hc, hg⟩
  rintro i hi g1 ⟨hv1, hc1, hg1⟩
  have hin : i < n := List.mem_range.1 hi
  have hget : g1[c.gparts + i]? = some g1[c.gparts + i] :=
    List.getElem?_eq_getElem (by omega)
  obtain ⟨r, hr, hra⟩ := fof_find_via_entry hv1 hc1 (hg1.symm ▸ hf) hget
  obtain ⟨g2, r2, e, hv2, hc2, hg2, _⟩ :=
    partner_loop_cached s hlen (c.gparts + i) c.gparts s.gparts[c.gparts + i].x hf
      (List.range' (i + 1) (c.gcount - (i + 1)))
      (fun j hj => by rw [List.mem_range'_1] at hj; omega) hv1 hc1 hg1 hra
  refine ⟨g2, ?_, hv2, hc2, hg2⟩
  simp only [gpart_x_some s (show c.gparts + i < s.gparts.length by omega), hget, hr,
    cell_inner]
  exact congrArg (Option.map Prod.fst) e

theorem fof_search_pair_cells_first_acyclic (s : space)
    (hlen : s.gparts.length = s.nr_gparts) {fuel : Nat} (hf : s.nr_gparts ≤ fuel)
    (ci cj : cell) (hci : ci.gparts + ci.gcount ≤ s.nr_gparts)
    (hcj : cj.gparts + cj.gcount ≤ s.nr_gparts) (n : Nat) (hn : n ≤ ci.gcount)
    {g : List Nat} (hv : ValidIndices g) (hc : NoCycle g) (hg : g.length = s.nr_gparts) :
    ∃ g2, fof_search_pair_cells_first n fuel s ci cj g = some g2 ∧ ValidIndices g2 ∧
      NoCycle g2 ∧ g2.length = s.nr_gparts := by
  unfold fof_search_pair_cells_first
  simp only
  apply for_list_preserves _
    (fun g => ValidIndices g ∧ NoCycle g ∧ g.length = s.nr_gparts) _ _ g ⟨hv, hc, hg⟩
  rintro i hi g1 ⟨hv1, hc1, hg1⟩
  have hin : i < n := List.mem_range.1 hi
  have hget : g1[ci.gparts + i]? = some g1[ci.gparts + i] :=
    List.getElem?_eq_getElem (by omega)
  obtain ⟨r, hr, hra⟩ := fof_find_via_entry hv1 hc1 (hg1.symm ▸ hf) hget
  obtain ⟨g2, r2, e, hv2, hc2, hg2, _⟩ :=
    partner_loop_cached s hlen (ci.gparts + i) cj.gparts
      { x0 := s.gparts[ci.gparts + i].x.x0 -
          pair_shift s.periodic ci.loc.x0 cj.loc.x0 s.dim.x0
        x1 := s.gparts[ci.gparts + i].x.x1 -
          pair_shift s.periodic ci.loc.x1 cj.loc.x1 s.dim.x1
        x2 := s.gparts[ci.gparts + i].x.x2 -
          pair_shift s.periodic ci.loc.x2 cj.loc.x2 s.dim.x2 } hf
      (List.range cj.gcount)
      (fun j hj => by rw [List.mem_range] at hj; omega) hv1 hc1 hg1 hra
  refine ⟨g2, ?_, hv2, hc2, hg2⟩
  simp only [gpart_x_some s (show ci.gparts + i < s.gparts.length by omega), hget, hr,
    pair_inner]
  exact congrArg (Option.map Prod.fst) e

theorem for_list_then {α σ : Type} (body : α → σ → Option σ) (l1 l2 : List α) (st : σ) :
    for_list body (l1 ++ l2) st = (for_list body l1 st).bind (for_list body l2) := by
  induction l1 generalizing st with
  | nil => rfl
  | cons x xs ih =>
    simp only [List.cons_append, for_list]
    cases body x st with
    | none => rfl
    | some st2 => exact ih st2

/-- The state with which an inner iteration of `fof_search_serial` starts, in
a run from an acyclic array: the cached `root_i` is the root of particle `i`,
and the array is acyclic again. -/
theorem serial_root_i_at_cached (s : space) (hlen : s.gparts.length = s.nr_gparts)
    {fuel : Nat} (hf : s.nr_gparts ≤ fuel) {g : List Nat} (hv : ValidIndices g)
    (hc : NoCycle g) (hg : g.length = s.nr_gparts) {i : Nat} (hi : i < s.nr_gparts)
    (k : Nat) :
    ∃ gk rk, serial_root_i_at fuel s g i k = some (gk, rk) ∧
      fof_find fuel i gk = some rk ∧ ValidIndices gk ∧ NoCycle gk := by
  obtain ⟨g1, e1, hv1, hc1, hg1⟩ :=
    serial_outer_acyclic s hlen hf (List.range i)
      (fun j hj => by rw [List.mem_range] at hj; omega) hv hc hg
  obtain ⟨r, hr⟩ := noCycle_find hv1 hc1 (hg1.symm ▸ hi) (hg1.symm ▸ hf)
  obtain ⟨g2, r2, e, hv2, hc2, _, hr2⟩ :=
    serial_loop_cached s hlen hi hf ((List.range' (i + 1) (s.nr_gparts - (i + 1))).take k)
      (fun j hj => by
        have := List.mem_range'_1.1 (List.mem_of_mem_take hj)
        omega) hv1 hc1 hg1 hr
  refine ⟨g2, r2, ?_, hr2, hv2, hc2⟩
  simp only [serial_root_i_at, e1, hr]
  exact e

/-- The same for `fof_search_cell`; the cached `root_i` is the root of the
particle with global index `c.gparts + i`, and it is what
`fof_find(offset[i], group_id)` returns on the current array. -/
theorem cell_root_i_at_cached (s : space) (hlen : s.gparts.length = s.nr_gparts)
    {fuel : Nat} (hf : s.nr_gparts ≤ fuel) {g : List Nat} (hv : ValidIndices g)
    (hc : NoCycle g) (hg : g.length = s.nr_gparts) (c : cell)
    (hcr : c.gparts + c.gcount ≤ s.nr_gparts) {i : Nat} (hi : i < c.gcount) (k : Nat) :
    ∃ gk rk, cell_root_i_at fuel s c g i k = some (gk, rk) ∧
      fof_find fuel (c.gparts + i) gk = some rk ∧
      ∃ oi, gk[c.gparts + i]? = some oi ∧ fof_find fuel oi gk = some rk := by
  obtain ⟨g1, e1, hv1, hc1, hg1⟩ :=
    fof_search_cell_first_acyclic s hlen hf c hcr i (Nat.le_of_lt hi) hv hc hg
  have hget : g1[c.gparts + i]? = some g1[c.gparts + i] :=
    List.getElem?_eq_getElem (by omega)
  obtain ⟨r, hr, hra⟩ := fof_find_via_entry hv1 hc1 (hg1.symm ▸ hf) hget
  obtain ⟨g2, r2, e, hv2, hc2, hg2, hr2⟩ :=
    partner_loop_cached s hlen (c.gparts + i) c.gparts s.gparts[c.gparts + i].x hf
      ((List.range' (i + 1) (c.gcount - (i + 1))).take k)
      (fun j hj => by
        have := List.mem_range'_1.1 (List.mem_of_mem_take hj)
        omega) hv1 hc1 hg1 hra
  have hget2 : g2[c.gparts + i]? = some g2[c.gparts + i] :=
    List.getElem?_eq_getElem (by omega)
  obtain ⟨r3, hr3, hra3⟩ := fof_find_via_entry hv2 hc2 (hg2.symm ▸ hf) hget2
  refine ⟨g2, r2, ?_, hr2, _, hget2, ?_⟩
  · simp only [cell_root_i_at, e1,
      gpart_x_some s (show c.gparts + i < s.gparts.length by omega), hget, hr]
    exact e
  · rw [hr3, fof_find_det hra3 hr2]

/-- The same for `fof_search_pair_cells`. -/
theorem pair_root_i_at_cached (s : space) (hlen : s.gparts.length = s.nr_gparts)
    {fuel : Nat} (hf : s.nr_gparts ≤ fuel) {g : List Nat} (hv : ValidIndices g)
    (hc : NoCycle g) (hg : g.length = s.nr_gparts) (ci cj : cell)
    (hci : ci.gparts + ci.gcount ≤ s.nr_gparts)
    (hcj : cj.gparts + cj.gcount ≤ s.nr_gparts) {i : Nat} (hi : i < ci.gcount) (k : Nat) :
    ∃ gk rk, pair_root_i_at fuel s ci cj g i k = some (gk, rk) ∧
      fof_find fuel (ci.gparts + i) gk = some rk ∧
      ∃ oi, gk[ci.gparts + i]? = some oi ∧ fof_find fuel oi gk = some rk := by
  obtain ⟨g1, e1, hv1, hc1, hg1⟩ :=
    fof_search_pair_cells_first_acyclic s hlen hf ci cj hci hcj i (Nat.le_of_lt hi) hv hc hg
  have hget : g1[ci.gparts + i]? = some g1[ci.gparts + i] :=
    List.getElem?_eq_getElem (by omega)
  obtain ⟨r, hr, hra⟩ := fof_find_via_entry hv1 hc1 (hg1.symm ▸ hf) hget
  obtain ⟨g2, r2, e, hv2, hc2, hg2, hr2⟩ :=
    partner_loop_cached s hlen (ci.gparts + i) cj.gparts
      { x0 := s.gparts[ci.gparts + i].x.x0 -
          pair_shift s.periodic ci.loc.x0 cj.loc.x0 s.dim.x0
        x1 := s.gparts[ci.gparts + i].x.x1 -
          pair_shift s.periodic ci.loc.x1 cj.loc.x1 s.dim.x1
        x2 := s.gparts[ci.gparts + i].x.x2 -
          pair_shift s.periodic ci.loc.x2 cj.loc.x2 s.dim.x2 } hf
      ((List.range cj.gcount).take k)
      (fun j hj => by
        have := List.mem_range.1 (List.mem_of_mem_take hj)
        omega) hv1 hc1 hg1 hra
  have hget2 : g2[ci.gparts + i]? = some g2[ci.gparts + i] :=
    List.getElem?_eq_getElem (by omega)
  obtain ⟨r3, hr3, hra3⟩ := fof_find_via_entry hv2 hc2 (hg2.symm ▸ hf) hget2
  refine ⟨g2, r2, ?_, hr2, _, hget2, ?_⟩
  · simp only [pair_root_i_at, e1,
      gpart_x_some s (show ci.gparts + i < s.gparts.length by omega), hget, hr]
    exact e
  · rw [hr3, fof_find_det hra3 hr2]

/-! The states above are those of the linkers: stopped after the last inner
iteration they are the state of the next outer iteration, and the outer loops
run to their end are the linkers themselves. -/

theorem option_match_id {α : Type} (o : Option α) :
    o = (match o with
      | none => none
      | some a => some a) := by
  cases o <;> rfl

theorem serial_root_i_at_end (fuel : Nat) (s : space) (g : List Nat) (i : Nat) :
    (serial_root_i_at fuel s g i s.nr_gparts).map Prod.fst =
      for_list (serial_outer fuel s) (List.range (i + 1)) g := by
  rw [List.range_succ, for_list_then, serial_root_i_at,
    List.take_of_length_le (by rw [List.length_range']; omega)]
  cases for_list (serial_outer fuel s) (List.range i) g with
  | none => rfl
  | some g1 =>
    simp only [Option.some_bind, for_list, serial_outer, serial_inner]
    cases fof_find fuel i g1 with
    | none => rfl
    | some r =>
      simp only
      exact option_match_id _

theorem serial_pair_loop_as_outer (fuel : Nat) (s : space) (g : List Nat) :
    serial_pair_loop fuel s g = for_list (serial_outer fuel s) (List.range s.nr_gparts) g :=
  rfl

theorem fof_search_cell_first_all (fuel : Nat) (s : space) (c : cell) (g : List Nat) :
    fof_search_cell_first c.gcount fuel s c g = fof_search_cell fuel s c g := rfl

theorem fof_search_pair_cells_first_all (fuel : Nat) (s : space) (ci cj : cell)
    (g : List Nat) :
    fof_search_pair_cells_first ci.gcount fuel s ci cj g =
      fof_search_pair_cells fuel s ci cj g := rfl

theorem cell_root_i_at_end (fuel : Nat) (s : space) (c : cell) (g : List Nat) (i : Nat) :
    (cell_root_i_at fuel s c g i c.gcount).map Prod.fst =
      fof_search_cell_first (i + 1) fuel s c g := by
  rw [fof_search_cell_first, List.range_succ, for_list_then, cell_root_i_at,
    List.take_of_length_le (by rw [List.length_range']; omega), fof_search_cell_first]
  cases for_list (fun i g =>
      match gpart_x s (c.gparts + i), g[c.gparts + i]? with
      | some pix, some oi =>
        match fof_find fuel oi g with
        | none => none
        | some root_i =>
          (cell_inner fuel s c.gparts c.gcount i pix (g, root_i)).map Prod.fst
      | _, _ => none) (List.range i) g with
  | none => rfl
  | some g1 =>
    simp only [Option.some_bind, for_list, cell_inner]
    cases gpart_x s (c.gparts + i) with
    | none => rfl
    | some pix =>
      cases g1[c.gparts + i]? with
      | none => rfl
      | some oi =>
        simp only
        cases fof_find fuel oi g1 with
        | none => rfl
        | some r =>
          simp only
          exact option_match_id _

theorem pair_root_i_at_end (fuel : Nat) (s : space) (ci cj : cell) (g : List Nat)
    (i : Nat) :
    (pair_root_i_at fuel s ci cj g i cj.gcount).map Prod.fst =
      fof_search_pair_cells_first (i + 1) fuel s ci cj g := by
  rw [fof_search_pair_cells_first, List.range_succ, for_list_then, pair_root_i_at,
    List.take_of_length_le (by rw [List.length_range]), fof_search_pair_cells_first]
  cases for_list (fun i g =>
      match gpart_x s (ci.gparts + i), g[ci.gparts + i]? with
      | some x, some oi =>
        match fof_find fuel oi g with
        | none => none
        | some root_i =>
          (pair_inner fuel s cj
            { x0 := x.x0 - pair_shift s.periodic ci.loc.x0 cj.loc.x0 s.dim.x0
              x1 := x.x1 - pair_shift s.periodic ci.loc.x1 cj.loc.x1 s.dim.x1
              x2 := x.x2 - pair_shift s.periodic ci.loc.x2 cj.loc.x2 s.dim.x2 }
            (g, root_i)).map Prod.fst
      | _, _ => none) (List.range i) g with
  | none => rfl
  | some g1 =>
    simp only [Option.some_bind, for_list, pair_inner]
    cases gpart_x s (ci.gparts + i) with
    | none => rfl
    | some x =>
      cases g1[ci.gparts + i]? with
      | none => rfl
      | some oi =>
        simp only
        cases fof_find fuel oi g1 with
        | none => rfl
        | some r =>
          simp only
          exact option_match_id _

theorem up_linked_example_acyclic :
    ValidIndices up_linked_example ∧ NoCycle up_linked_example := by
  apply acyclic_of_find_returns
  intro i hi
  have hi4 : i < 4 := hi
  interval_cases i
  · exact ⟨2, 2, rfl⟩
  · exact ⟨2, 2, rfl⟩
  · exact ⟨1, 2, rfl⟩
  · exact ⟨1, 3, rfl⟩

/-- C32. In a sequential run of `fof_search_serial`, of `fof_search_cell` and
of `fof_search_pair_cells` from an acyclic `group_id` (every entry a valid
index, no parent cycle; links may point up or down), every inner-loop
iteration of every outer iteration `i` is reached, and at its start (and
after the last one) the cached `root_i` equals what `fof_find` returns for
particle `i` on the current `group_id`; for the cell linkers this is both the
root of the particle's global index and the value of
`fof_find(offset[i], group_id)`. -/
theorem cached_root_i_is_current_root (s : space) (fuel : Nat) (g : List Nat)
    (hlen : s.gparts.length = s.nr_gparts) (hv : ValidIndices g) (hc : NoCycle g)
    (hg : g.length = s.nr_gparts) (hf : s.nr_gparts ≤ fuel) :
    (∀ i k, i < s.nr_gparts →
      ∃ gk rk, serial_root_i_at fuel s g i k = some (gk, rk) ∧
        fof_find fuel i gk = some rk) ∧
    (∀ c i k, c.gparts + c.gcount ≤ s.nr_gparts → i < c.gcount →
      ∃ gk rk, cell_root_i_at fuel s c g i k = some (gk, rk) ∧
        fof_find fuel (c.gparts + i) gk = some rk ∧
        ∃ oi, gk[c.gparts + i]? = some oi ∧ fof_find fuel oi gk = some rk) ∧
    (∀ ci cj i k, ci.gparts + ci.gcount ≤ s.nr_gparts →
      cj.gparts + cj.gcount ≤ s.nr_gparts → i < ci.gcount →
      ∃ gk rk, pair_root_i_at fuel s ci cj g i k = some (gk, rk) ∧
        fof_find fuel (ci.gparts + i) gk = some rk ∧
        ∃ oi, gk[ci.gparts + i]? = some oi ∧ fof_find fuel oi gk = some rk) := by
  refine ⟨?_, ?_, ?_⟩
  · intro i k hi
    obtain ⟨gk, rk, e, hr, _, _⟩ := serial_root_i_at_cached s hlen hf hv hc hg hi k
    exact ⟨gk, rk, e, hr⟩
  · intro c i k hcr hi
    exact cell_root_i_at_cached s hlen hf hv hc hg c hcr hi k
  · intro ci cj i k hci hcj hi
    exact pair_root_i_at_cached s hlen hf hv hc hg ci cj hci hcj hi k

theorem cached_root_i_is_current_root_witness :
    ValidIndices up_linked_example ∧ NoCycle up_linked_example ∧
    (∀ i k, i < chain_space.nr_gparts →
      ∃ gk rk, serial_root_i_at 4 chain_space up_linked_example i k = some (gk, rk) ∧
        fof_find 4 i gk = some rk) ∧
    (∀ c i k, c.gparts + c.gcount ≤ chain_space.nr_gparts → i < c.gcount →
      ∃ gk rk, cell_root_i_at 4 chain_space c up_linked_example i k = some (gk, rk) ∧
        fof_find 4 (c.gparts + i) gk = some rk ∧
        ∃ oi, gk[c.gparts + i]? = some oi ∧ fof_find 4 oi gk = some rk) ∧
    (∀ ci cj i k, ci.gparts + ci.gcount ≤ chain_space.nr_gparts →
      cj.gparts + cj.gcount ≤ chain_space.nr_gparts → i < ci.gcount →
      ∃ gk rk, pair_root_i_at 4 chain_space ci cj up_linked_example i k = some (gk, rk) ∧
        fof_find 4 (ci.gparts + i) gk = some rk ∧
        ∃ oi, gk[ci.gparts + i]? = some oi ∧ fof_find 4 oi gk = some rk) :=
  ⟨up_linked_example_acyclic.1, up_linked_example_acyclic.2,
    cached_root_i_is_current_root chain_space 4 up_linked_example rfl
      up_linked_example_acyclic.1 up_linked_example_acyclic.2 rfl (by decide)⟩

/-! ## The two ranks generate the same number of records -/

theorem range_sum_swap (n m : Nat) (F : Nat → Nat → Nat) :
    ((List.range n).map (fun i => ((List.range m).map (fun j => F i j)).sum)).sum =
      ((List.range m).map (fun j => ((List.range n).map (fun i => F i j)).sum)).sum := by
  have h : ∀ (k : Nat) (f : Nat → Nat),
      ((List.range k).map f).sum = Finset.sum (Finset.range k) f := fun k f => rfl
  simp only [h]
  exact Finset.sum_comm

/-- The number of records of `link_records`: one per pair of a local and a
foreign particle that passes the shifted distance test. -/
theorem link_records_length (s : space) {g : List Nat} (hd : DownLinked g)
    (hg : g.length = s.gparts.length) (cl cf : cell)
    (hcl : cl.gparts + cl.gcount ≤ s.gparts.length)
    (hcf : cf.gparts + cf.gcount ≤ s.gparts.length) (fuel : Nat) (hf : g.length ≤ fuel) :
    (link_records fuel s cl cf g).length =
      ((List.range cl.gcount).map (fun i => ((List.range cf.gcount).map (fun j =>
        match gpart_x s (cl.gparts + i), gpart_x s (cf.gparts + j) with
        | some x, some y => if shifted_r2 s cl cf x y < s.l_x2 then 1 else 0
        | _, _ => 0)).sum)).sum := by
  unfold link_records
  rw [List.length_flatMap]
  congr 1
  apply List.map_congr_left
  intro i hi
  have hic : i < cl.gcount := List.mem_range.1 hi
  have hil : cl.gparts + i < s.gparts.length := by omega
  have hfind : fof_find fuel (cl.gparts + i) g = some (rootOf g (cl.gparts + i)) :=
    fof_find_eq_rootOf hd (by omega) (by omega)
  simp only [Function.comp, List.length_flatMap]
  congr 1
  apply List.map_congr_left
  intro j hj
  have hjc : j < cf.gcount := List.mem_range.1 hj
  have hjl : cf.gparts + j < s.gparts.length := by omega
  simp only [Function.comp_apply, gpart_x_some s hil, gpart_x_some s hjl,
    gpart_id_some s hjl, hfind]
  by_cases hit : shifted_r2 s cl cf s.gparts[cl.gparts + i].x s.gparts[cf.gparts + j].x <
      s.l_x2
  · rw [if_pos hit, if_pos hit]
    rfl
  · rw [if_neg hit, if_neg hit]
    rfl

/-- Seen from the other side the same pairs pass the test: the number of
records for `ci` local and `cj` foreign is the number for `cj` local and `ci`
foreign, whatever the two `group_id` arrays are. -/
theorem link_records_length_swap (s : space) (hd0 : 0 ≤ s.dim.x0) (hd1 : 0 ≤ s.dim.x1)
    (hd2 : 0 ≤ s.dim.x2) {g g2 : List Nat} (hd : DownLinked g)
    (hg : g.length = s.gparts.length) (hdb : DownLinked g2)
    (hgb : g2.length = s.gparts.length) (ci cj : cell)
    (hci : ci.gparts + ci.gcount ≤ s.gparts.length)
    (hcj : cj.gparts + cj.gcount ≤ s.gparts.length) (fuel : Nat) (hf : g.length ≤ fuel) :
    (link_records fuel s ci cj g).length = (link_records fuel s cj ci g2).length := by
  rw [link_records_length s hd hg ci cj hci hcj fuel hf,
    link_records_length s hdb hgb cj ci hcj hci fuel (by omega), range_sum_swap]
  congr 1
  apply List.map_congr_left
  intro j _
  congr 1
  apply List.map_congr_left
  intro i _
  cases gpart_x s (ci.gparts + i) with
  | none => cases gpart_x s (cj.gparts + j) <;> rfl
  | some x =>
    cases gpart_x s (cj.gparts + j) with
    | none => rfl
    | some y =>
      simp only
      rw [shifted_r2_swap s ci cj hd0 hd1 hd2 x y]

theorem foreign_linker_records (s : space) (engine_rank : Int) {g : List Nat}
    (hd : DownLinked g) (hg : g.length = s.gparts.length) (ci cj : cell)
    (hci : ci.gparts + ci.gcount ≤ s.gparts.length)
    (hcj : cj.gparts + cj.gcount ≤ s.gparts.length) (fuel : Nat) (hf : g.length ≤ fuel)
    (send : List fof_mpi) (hlf : local_foreign engine_rank ci cj = true) :
    fof_search_pair_cells_foreign fuel engine_rank s ci cj g send =
      Outcome.ok (send ++
        (if ci.nodeID = engine_rank then link_records fuel s ci cj g
         else link_records fuel s cj ci g)) := by
  simp only [local_foreign, Bool.or_eq_true, Bool.and_eq_true, decide_eq_true_eq] at hlf
  rcases hlf with ⟨h1, h2⟩ | ⟨h1, h2⟩
  · rw [if_pos h1]
    simp only [fof_search_pair_cells_foreign, h1, h2, decide_True, decide_False,
      Bool.and_false, Bool.not_true, Bool.false_and, Bool.or_self, if_true, if_false,
      Bool.false_eq_true, foreign_pair_loop_spec s hd hg ci cj hci hcj fuel hf send]
    rfl
  · rw [if_neg h1]
    simp only [fof_search_pair_cells_foreign, h1, h2, decide_True, decide_False,
      Bool.and_true, Bool.not_true, Bool.not_false, Bool.false_and, Bool.and_false,
      Bool.or_self, if_true, if_false,
      Bool.false_eq_true, foreign_pair_loop_spec s hd hg cj ci hcj hci fuel hf send]
    rfl

theorem split_owners_local_foreign {ci cj : cell} (h : split_owners ci cj) :
    local_foreign 0 ci cj = true ∧ local_foreign 1 ci cj = true := by
  unfold local_foreign
  rcases h with ⟨hi, hj⟩ | ⟨hi, hj⟩ <;> simp [hi, hj]

theorem split_owners_progeny {ci cj ck cl : cell} (h : split_owners ci cj)
    (hk : ck.nodeID = ci.nodeID) (hl : cl.nodeID = cj.nodeID) : split_owners ck cl := by
  unfold split_owners at h ⊢
  rw [hk, hl]
  exact h

/-- On a cell pair with one cell of rank `0` and one of rank `1` the linker of
rank `0` and the linker of rank `1` append the same number of records. -/
theorem foreign_linker_two_ranks (s : space) (hd0 : 0 ≤ s.dim.x0) (hd1 : 0 ≤ s.dim.x1)
    (hd2 : 0 ≤ s.dim.x2) {g g2 : List Nat} (hd : DownLinked g)
    (hg : g.length = s.gparts.length) (hdb : DownLinked g2)
    (hgb : g2.length = s.gparts.length) (ci cj : cell)
    (hci : ci.gparts + ci.gcount ≤ s.gparts.length)
    (hcj : cj.gparts + cj.gcount ≤ s.gparts.length) (fuel : Nat) (hf : g.length ≤ fuel)
    (hown : split_owners ci cj) (send send2 : List fof_mpi) :
    ∃ r r2, fof_search_pair_cells_foreign fuel 0 s ci cj g send = Outcome.ok (send ++ r) ∧
      fof_search_pair_cells_foreign fuel 1 s ci cj g2 send2 = Outcome.ok (send2 ++ r2) ∧
      r.length = r2.length := by
  obtain ⟨hl0, hl1⟩ := split_owners_local_foreign hown
  refine ⟨_, _, foreign_linker_records s 0 hd hg ci cj hci hcj fuel hf send hl0,
    foreign_linker_records s 1 hdb hgb ci cj hci hcj fuel (by omega) send2 hl1, ?_⟩
  rcases hown with ⟨hi, hj⟩ | ⟨hi, hj⟩
  · rw [if_pos hi, if_neg (by rw [hi]; decide)]
    exact link_records_length_swap s hd0 hd1 hd2 hd hg hdb hgb ci cj hci hcj fuel hf
  · rw [if_neg (by rw [hi]; decide), if_pos hi]
    exact (link_records_length_swap s hd0 hd1 hd2 hdb hgb hd hg ci cj hci hcj fuel
      (by omega)).symm

/-- The generation recursions of rank `0` and of rank `1` over a cell pair
with one cell of each rank run in step and append the same number of
records. -/
theorem rec_foreign_two_ranks (s : space) (hd0 : 0 ≤ s.dim.x0) (hd1 : 0 ≤ s.dim.x1)
    (hd2 : 0 ≤ s.dim.x2) {g g2 : List Nat} (hd : DownLinked g)
    (hg : g.length = s.gparts.length) (hdb : DownLinked g2)
    (hgb : g2.length = s.gparts.length) (hparts : s.gparts.length = s.nr_gparts)
    (fuel : Nat) (hf : g.length ≤ fuel) :
    ∀ d ci cj, pair_wf d ci cj → cell_wf s d ci → cell_wf s d cj →
      same_owner d ci → same_owner d cj → split_owners ci cj →
      ∀ depth, d ≤ depth → ∀ (send send2 : List fof_mpi), send.length = send2.length →
        ∃ t t2,
          rec_fof_search_pair_foreign fuel 0 depth ci cj s s.dim s.l_x2 g send =
            Outcome.ok t ∧
          rec_fof_search_pair_foreign fuel 1 depth ci cj s s.dim s.l_x2 g2 send2 =
            Outcome.ok t2 ∧
          t.length = t2.length := by
  intro d
  induction d with
  | zero =>
    intro ci cj hp
    exact absurd hp (by simp [pair_wf])
  | succ d ih =>
    intro ci cj hp hwi hwj hoi hoj hown depth hdepth send send2 hle
    obtain ⟨depth, rfl⟩ : ∃ k, depth = k + 1 := ⟨depth - 1, by omega⟩
    obtain ⟨haddr, _, hkids⟩ := hp
    simp only [rec_fof_search_pair_foreign]
    by_cases hprune : cell_min_dist ci cj s.dim > s.l_x2
    · rw [if_pos hprune, if_pos hprune]
      exact ⟨send, send2, rfl, rfl, hle⟩
    · rw [if_neg hprune, if_neg hprune]
      by_cases hsplit : (ci.split && cj.split) = true
      · rw [if_pos hsplit, if_pos hsplit]
        simp only [Bool.and_eq_true] at hsplit
        obtain ⟨hsi, hsj⟩ := hsplit
        obtain ⟨_, _, hci⟩ := hwi
        obtain ⟨_, _, hcj⟩ := hwj
        obtain ⟨hci1, _⟩ := hci hsi
        obtain ⟨hcj1, _⟩ := hcj hsj
        have hoi2 := hoi hsi
        have hoj2 := hoj hsj
        apply for_cells_sim _ _
          (fun (st1 st2 : List fof_mpi) => st1.length = st2.length) ci.progeny _ send send2
          hle
        intro pk hpk st1 st2 hR
        cases pk with
        | none => exact ⟨st1, st2, rfl, rfl, hR⟩
        | some ck =>
          apply for_cells_sim _ _
            (fun (st1 st2 : List fof_mpi) => st1.length = st2.length) cj.progeny _ st1 st2
            hR
          intro pl hpl u1 u2 hR2
          cases pl with
          | none => exact ⟨u1, u2, rfl, rfl, hR2⟩
          | some cl =>
            exact ih ck cl (hkids hsi hsj ck cl hpk hpl) (hci1 ck hpk).1 (hcj1 cl hpl).1
              (hoi2 ck hpk).2 (hoj2 cl hpl).2
              (split_owners_progeny hown (hoi2 ck hpk).1 (hoj2 cl hpl).1)
              depth (by omega) u1 u2 hR2
      · rw [if_neg hsplit, if_neg hsplit, if_pos haddr, if_pos haddr]
        obtain ⟨r, r2, e1, e2, hlen⟩ :=
          foreign_linker_two_ranks s hd0 hd1 hd2 hd hg hdb hgb ci cj
            (hparts ▸ cell_wf_range hwi) (hparts ▸ cell_wf_range hwj) fuel hf hown send send2
        refine ⟨_, _, e1, e2, ?_⟩
        rw [List.length_append, List.length_append, hle, hlen]

theorem local_foreign_two_ranks {ci cj : cell} (hi : ci.nodeID = 0 ∨ ci.nodeID = 1)
    (hj : cj.nodeID = 0 ∨ cj.nodeID = 1) :
    local_foreign 1 ci cj = local_foreign 0 ci cj ∧
      (local_foreign 0 ci cj = true → split_owners ci cj) := by
  unfold local_foreign split_owners
  rcases hi with hi | hi <;> rcases hj with hj | hj <;> simp [hi, hj]

/-- With the distance test of the linker evaluated exactly (`r2_plain`, no
rounding to `float`): two ranks `0` and `1` hold the same top-level cell array
(a well-formed one, every top-level cell owned by rank `0` or rank `1`, in a
box with non-negative sides) and each its own down-linked `group_id`.  Then the
generation pass of `fof_search_foreign_cells` returns on both ranks, and the
number of link records written on rank `0` (its final `send_count`) equals the
number written on rank `1`. -/
theorem two_ranks_generate_equally_many_records (s : space) (d fuel depth : Nat)
    (g g2 : List Nat) (hwf : foreign_wf s d)
    (hown : ∀ c ∈ s.cells_top, c.nodeID = 0 ∨ c.nodeID = 1)
    (hd0 : 0 ≤ s.dim.x0) (hd1 : 0 ≤ s.dim.x1) (hd2 : 0 ≤ s.dim.x2)
    (hd : DownLinked g) (hg : g.length = s.gparts.length)
    (hdb : DownLinked g2) (hgb : g2.length = s.gparts.length)
    (hf : s.gparts.length ≤ fuel) (hdepth : d ≤ depth) :
    ∃ st st2,
      foreign_generate fuel depth 0 s g = Outcome.ok st ∧
      foreign_generate fuel depth 1 s g2 = Outcome.ok st2 ∧
      st.fof_send.length = st2.fof_send.length := by
  unfold foreign_generate for_cell_index
  refine for_cells_sim_inv_post _ _
    (fun _ (st st2 : foreign_state) =>
      st.fof_send.length = st2.fof_send.length ∧ st.cell_added.length = s.nr_cells ∧
      st2.cell_added.length = s.nr_cells)
    _ ?_ _ _ ⟨rfl, List.length_replicate _ _, List.length_replicate _ _⟩
    (fun _ _ h => h.1)
  intro _ cid st1 st2 hcid hR
  have hc : cid < s.cells_top.length := by
    rw [← hwf.count]
    exact List.mem_range.1 hcid
  have hci : s.cells_top[cid]? = some s.cells_top[cid] := List.getElem?_eq_getElem hc
  simp only [hci]
  by_cases hempty : s.cells_top[cid].gcount = 0
  · rw [if_pos hempty, if_pos hempty]
    exact ⟨st1, st2, rfl, rfl, hR⟩
  · rw [if_neg hempty, if_neg hempty]
    refine for_cells_sim_inv_post _ _
      (fun _ (st st2 : foreign_state) =>
        st.fof_send.length = st2.fof_send.length ∧ st.cell_added.length = s.nr_cells ∧
        st2.cell_added.length = s.nr_cells)
      _ ?_ st1 st2 hR (fun _ _ h => h)
    intro _ cjd u1 u2 hcjd hR2
    rw [List.mem_range'_1] at hcjd
    have hcj : cjd < s.cells_top.length := by
      rw [← hwf.count]
      omega
    have hcje : s.cells_top[cjd]? = some s.cells_top[cjd] := List.getElem?_eq_getElem hcj
    simp only [hcje]
    obtain ⟨hsame, hsplit⟩ :=
      local_foreign_two_ranks (hown _ (List.getElem_mem hc)) (hown _ (List.getElem_mem hcj))
    rw [hsame]
    by_cases hlf : local_foreign 0 s.cells_top[cid] s.cells_top[cjd] = true
    · rw [if_pos hlf, if_pos hlf]
      by_cases hej : s.cells_top[cjd].gcount = 0
      · rw [if_pos hej, if_pos hej]
        exact ⟨u1, u2, rfl, rfl, hR2⟩
      · rw [if_neg hej, if_neg hej]
        obtain ⟨hwi, hoi, _⟩ := hwf.cells _ (List.getElem_mem hc)
        obtain ⟨hwj, hoj, _⟩ := hwf.cells _ (List.getElem_mem hcj)
        have hp : pair_wf d s.cells_top[cid] s.cells_top[cjd] :=
          pairwise_getElem? hwf.pairs (by omega) hci hcje
        obtain ⟨t, t2, e1, e2, hlen⟩ :=
          rec_foreign_two_ranks s hd0 hd1 hd2 hd hg hdb hgb hwf.parts fuel (by omega) d _ _
            hp hwi hwj hoi hoj (hsplit hlf) depth hdepth u1.fof_send u2.fof_send hR2.1
        rw [e1, e2]
        simp only
        by_cases hnear : cell_min_dist s.cells_top[cid] s.cells_top[cjd] s.dim < s.l_x2
        · rw [if_pos hnear, if_pos hnear]
          obtain ⟨v1, hv1, hs1, hl1⟩ :=
            add_interface_cell_spec 0 cid s.cells_top[cid]
              { u1 with fof_send := t } hR2.2.1 (by rw [hwf.count]; exact hc)
          obtain ⟨v2, hv2, hs2, hl2⟩ :=
            add_interface_cell_spec 0 cjd s.cells_top[cjd] v1 hl1
              (by rw [hwf.count]; exact hcj)
          obtain ⟨w1, hw1, hq1, hm1⟩ :=
            add_interface_cell_spec 1 cid s.cells_top[cid]
              { u2 with fof_send := t2 } hR2.2.2 (by rw [hwf.count]; exact hc)
          obtain ⟨w2, hw2, hq2, hm2⟩ :=
            add_interface_cell_spec 1 cjd s.cells_top[cjd] w1 hm1
              (by rw [hwf.count]; exact hcj)
          refine ⟨v2, w2, ?_, ?_, ?_, hl2, hm2⟩
          · rw [hv1]
            simp only [hv2, Outcome.ofOption]
          · rw [hw1]
            simp only [hw2, Outcome.ofOption]
          · rw [hs2, hs1, hq2, hq1]
            exact hlen
        · rw [if_neg hnear, if_neg hnear]
          exact ⟨_, _, rfl, rfl, hlen, hR2.2.1, hR2.2.2⟩
    · rw [if_neg hlf, if_neg hlf]
      exact ⟨u1, u2, rfl, rfl, hR2⟩

theorem downLinked_merged_pair : DownLinked [0, 0, 2] := by
  intro k p h
  rcases k with _ | _ | _ | k
  · simp at h
    omega
  · simp at h
    omega
  · simp at h
    omega
  · simp at h

theorem two_rank_owners : ∀ c ∈ two_rank_space.cells_top, c.nodeID = 0 ∨ c.nodeID = 1 := by
  intro c hc
  have h2 : c = split_cell_example ∨ c = foreign_cell_example := by
    simpa [two_rank_space, foreign_cell_example] using hc
  rcases h2 with rfl | rfl
  · exact Or.inl rfl
  · exact Or.inr rfl

theorem two_ranks_generate_equally_many_records_witness :
    foreign_wf two_rank_space 2 ∧
    (∀ c ∈ two_rank_space.cells_top, c.nodeID = 0 ∨ c.nodeID = 1) ∧
    DownLinked (identity_group_id 3) ∧ DownLinked [0, 0, 2] ∧
    ∃ st st2,
      foreign_generate 3 2 0 two_rank_space (identity_group_id 3) = Outcome.ok st ∧
      foreign_generate 3 2 1 two_rank_space [0, 0, 2] = Outcome.ok st2 ∧
      st.fof_send.length = st2.fof_send.length :=
  ⟨two_rank_wf, two_rank_owners, downLinked_identity 3, downLinked_merged_pair,
    two_ranks_generate_equally_many_records two_rank_space 2 3 2 (identity_group_id 3)
      [0, 0, 2] two_rank_wf two_rank_owners (by norm_num [two_rank_space, grid_space])
      (by norm_num [two_rank_space, grid_space]) (by norm_num [two_rank_space, grid_space])
      (downLinked_identity 3) rfl downLinked_merged_pair rfl (by decide) (by decide)⟩


/-! ## The distance test in the arithmetic of the source -/

/-- An unsplit cell is a well-formed tree as soon as its particle range lies
in the particle array and its particles lie inside its box. -/
theorem owned_leaf_wf (s : space) (addr : Nat) (owner : Int) (x w : ℚ) (count first : Nat)
    (h1 : first + count ≤ s.nr_gparts)
    (h2 : ∀ k p, in_cell (owned_leaf addr owner x w count first) k → gpart_x s k = some p →
      in_box (owned_leaf addr owner x w count first) p) :
    cell_wf s 2 (owned_leaf addr owner x w count first) ∧
      same_owner 2 (owned_leaf addr owner x w count first) :=
  ⟨⟨h1, h2, fun h => by cases h⟩, fun h => by cases h⟩

theorem owned_leaf_pair_wf (a b : Nat) (oa ob : Int) (x y w : ℚ) (ca fa cb fb : Nat)
    (hab : a ≠ b) (hxy : x + w ≤ y) :
    pair_wf 2 (owned_leaf a oa x w ca fa) (owned_leaf b ob y w cb fb) :=
  ⟨hab, ⟨Or.inr (Or.inl hxy), Or.inl ⟨rfl, rfl⟩, Or.inl ⟨rfl, rfl⟩⟩,
    fun h => by cases h⟩

theorem float_grid_wf : foreign_wf float_grid_space 2 := by
  refine ⟨rfl, rfl, ?_, ?_⟩
  · intro c hc
    simp only [float_grid_space, List.mem_cons, List.mem_singleton, List.not_mem_nil,
      or_false] at hc
    rcases hc with rfl | rfl | rfl | rfl
    · refine ⟨(owned_leaf_wf _ _ _ _ _ _ _ (by decide) ?_).1,
        (owned_leaf_wf float_grid_space 0 0 0 (1048577 / 1048576) 1 0 (by decide) ?_).2, ?_⟩
      · rintro k p ⟨h1, h2⟩ hp
        simp only [owned_leaf, cell.gparts, cell.gcount] at h1 h2
        have hk : k = 0 := by omega
        subst hk
        simp only [gpart_x, float_grid_space, List.getElem?_cons_zero,
          Option.some.injEq] at hp
        subst hp
        norm_num [in_box, owned_leaf, cell.loc, cell.width]
      · rintro k p ⟨h1, h2⟩ hp
        simp only [owned_leaf, cell.gparts, cell.gcount] at h1 h2
        have hk : k = 0 := by omega
        subst hk
        simp only [gpart_x, float_grid_space, List.getElem?_cons_zero,
          Option.some.injEq] at hp
        subst hp
        norm_num [in_box, owned_leaf, cell.loc, cell.width]
      · norm_num [inside_domain, owned_leaf, cell.loc, cell.width, float_grid_space]
    · refine ⟨(owned_leaf_wf _ _ _ _ _ _ _ (by decide) ?_).1,
        (owned_leaf_wf float_grid_space 1 0 _ (1048577 / 1048576) 0 1 (by decide) ?_).2, ?_⟩
      · rintro k p ⟨h1, h2⟩ hp
        simp only [owned_leaf, cell.gparts, cell.gcount] at h1 h2
        omega
      · rintro k p ⟨h1, h2⟩ hp
        simp only [owned_leaf, cell.gparts, cell.gcount] at h1 h2
        omega
      · norm_num [inside_domain, owned_leaf, cell.loc, cell.width, float_grid_space]
    · refine ⟨(owned_leaf_wf _ _ _ _ _ _ _ (by decide) ?_).1,
        (owned_leaf_wf float_grid_space 2 1 _ (1048577 / 1048576) 1 1 (by decide) ?_).2, ?_⟩
      · rintro k p ⟨h1, h2⟩ hp
        simp only [owned_leaf, cell.gparts, cell.gcount] at h1 h2
        have hk : k = 1 := by omega
        subst hk
        simp only [gpart_x, float_grid_space, List.getElem?_cons_succ,
          List.getElem?_cons_zero, Option.some.injEq] at hp
        subst hp
        norm_num [in_box, owned_leaf, cell.loc, cell.width]
      · rintro k p ⟨h1, h2⟩ hp
        simp only [owned_leaf, cell.gparts, cell.gcount] at h1 h2
        have hk : k = 1 := by omega
        subst hk
        simp only [gpart_x, float_grid_space, List.getElem?_cons_succ,
          List.getElem?_cons_zero, Option.some.injEq] at hp
        subst hp
        norm_num [in_box, owned_leaf, cell.loc, cell.width]
      · norm_num [inside_domain, owned_leaf, cell.loc, cell.width, float_grid_space]
    · refine ⟨(owned_leaf_wf _ _ _ _ _ _ _ (by decide) ?_).1,
        (owned_leaf_wf float_grid_space 3 1 _ (1048577 / 1048576) 0 2 (by decide) ?_).2, ?_⟩
      · rintro k p ⟨h1, h2⟩ hp
        simp only [owned_leaf, cell.gparts, cell.gcount] at h1 h2
        omega
      · rintro k p ⟨h1, h2⟩ hp
        simp only [owned_leaf, cell.gparts, cell.gcount] at h1 h2
        omega
      · norm_num [inside_domain, owned_leaf, cell.loc, cell.width, float_grid_space]
  · simp only [float_grid_space, List.pairwise_cons, List.mem_cons, List.mem_singleton,
      forall_eq_or_imp, forall_eq, List.not_mem_nil, IsEmpty.forall_iff, implies_true,
      List.Pairwise.nil, and_true]
    refine ⟨⟨?_, ?_, ?_⟩, ⟨?_, ?_⟩, ?_⟩ <;>
      exact owned_leaf_pair_wf _ _ _ _ _ _ _ _ _ _ _ (by decide) (by norm_num)

theorem float_wrap_wf : foreign_wf float_wrap_space 2 := by
  refine ⟨rfl, rfl, ?_, ?_⟩
  · intro c hc
    simp only [float_wrap_space, List.mem_cons, List.mem_singleton, List.not_mem_nil,
      or_false] at hc
    rcases hc with rfl | rfl | rfl
    · refine ⟨(owned_leaf_wf _ _ _ _ _ _ _ (by decide) ?_).1,
        (owned_leaf_wf float_wrap_space 0 0 0 1 1 0 (by decide) ?_).2, ?_⟩
      · rintro k p ⟨h1, h2⟩ hp
        simp only [owned_leaf, cell.gparts, cell.gcount] at h1 h2
        have hk : k = 0 := by omega
        subst hk
        simp only [gpart_x, float_wrap_space, List.getElem?_cons_zero,
          Option.some.injEq] at hp
        subst hp
        norm_num [in_box, owned_leaf, cell.loc, cell.width]
      · rintro k p ⟨h1, h2⟩ hp
        simp only [owned_leaf, cell.gparts, cell.gcount] at h1 h2
        have hk : k = 0 := by omega
        subst hk
        simp only [gpart_x, float_wrap_space, List.getElem?_cons_zero,
          Option.some.injEq] at hp
        subst hp
        norm_num [in_box, owned_leaf, cell.loc, cell.width]
      · norm_num [inside_domain, owned_leaf, cell.loc, cell.width, float_wrap_space]
    · refine ⟨(owned_leaf_wf _ _ _ _ _ _ _ (by decide) ?_).1,
        (owned_leaf_wf float_wrap_space 1 0 1 1 0 1 (by decide) ?_).2, ?_⟩
      · rintro k p ⟨h1, h2⟩ hp
        simp only [owned_leaf, cell.gparts, cell.gcount] at h1 h2
        omega
      · rintro k p ⟨h1, h2⟩ hp
        simp only [owned_leaf, cell.gparts, cell.gcount] at h1 h2
        omega
      · norm_num [inside_domain, owned_leaf, cell.loc, cell.width, float_wrap_space]
    · refine ⟨(owned_leaf_wf _ _ _ _ _ _ _ (by decide) ?_).1,
        (owned_leaf_wf float_wrap_space 2 1 2 1 1 1 (by decide) ?_).2, ?_⟩
      · rintro k p ⟨h1, h2⟩ hp
        simp only [owned_leaf, cell.gparts, cell.gcount] at h1 h2
        have hk : k = 1 := by omega
        subst hk
        simp only [gpart_x, float_wrap_space, List.getElem?_cons_succ,
          List.getElem?_cons_zero, Option.some.injEq] at hp
        subst hp
        norm_num [in_box, owned_leaf, cell.loc, cell.width]
      · rintro k p ⟨h1, h2⟩ hp
        simp only [owned_leaf, cell.gparts, cell.gcount] at h1 h2
        have hk : k = 1 := by omega
        subst hk
        simp only [gpart_x, float_wrap_space, List.getElem?_cons_succ,
          List.getElem?_cons_zero, Option.some.injEq] at hp
        subst hp
        norm_num [in_box, owned_leaf, cell.loc, cell.width]
      · norm_num [inside_domain, owned_leaf, cell.loc, cell.width, float_wrap_space]
  · simp only [float_wrap_space, List.pairwise_cons, List.mem_cons, List.mem_singleton,
      forall_eq_or_imp, forall_eq, List.not_mem_nil, IsEmpty.forall_iff, implies_true,
      List.Pairwise.nil, and_true]
    refine ⟨⟨?_, ?_⟩, ?_⟩ <;>
      exact owned_leaf_pair_wf _ _ _ _ _ _ _ _ _ _ _ (by decide) (by norm_num)


/-! ## Merging in acyclic states -/

theorem find_root_spec {g : List Nat} (hv : ValidIndices g) (hc : NoCycle g) {i fuel : Nat}
    (hi : i < g.length) (hf : g.length ≤ fuel) :
    fof_find fuel i g = some (find_root g i) := by
  obtain ⟨r, hr⟩ := noCycle_find hv hc hi (Nat.le_refl _)
  have : find_root g i = r := by simp [find_root, hr]
  rw [this]
  exact fof_find_mono hr hf

theorem find_root_lt {g : List Nat} (hv : ValidIndices g) (hc : NoCycle g) {i : Nat}
    (hi : i < g.length) : find_root g i < g.length :=
  fof_find_lt_length (find_root_spec hv hc hi (Nat.le_refl _))

theorem find_root_of_root {g : List Nat} {i : Nat} (h : g[i]? = some i) :
    find_root g i = i := by
  have hi := lt_length_of_getElem h
  obtain ⟨n, hn⟩ : ∃ n, g.length = n + 1 := ⟨g.length - 1, by omega⟩
  simp [find_root, hn, fof_find_of_root h n]

theorem round_even_neg (x : ℚ) : round_even (-x) = -round_even x := by
  have h1 : (⌊x⌋ : ℚ) ≤ x := Int.floor_le x
  have h2 : x < ⌊x⌋ + 1 := Int.lt_floor_add_one x
  by_cases hz : x - ⌊x⌋ = 0
  · have hf : ⌊-x⌋ = -⌊x⌋ := by
      rw [Int.floor_eq_iff]
      push_cast
      constructor <;> linarith
    unfold round_even
    rw [hf]
    push_cast
    have e1 : -x - -(⌊x⌋ : ℚ) = 0 := by linarith
    rw [e1, hz]
    norm_num
  · have hpos : 0 < x - ⌊x⌋ := lt_of_le_of_ne (by linarith) (Ne.symm hz)
    have hf : ⌊-x⌋ = -⌊x⌋ - 1 := by
      rw [Int.floor_eq_iff]
      push_cast
      constructor <;> linarith
    unfold round_even
    rw [hf]
    push_cast
    have e1 : -x - (-(⌊x⌋ : ℚ) - 1) = 1 - (x - ⌊x⌋) := by ring
    rw [e1]
    rcases lt_trichotomy (x - ⌊x⌋) (1 / 2) with hlt | heq | hgt
    · have a1 : ¬ (1 - (x - (⌊x⌋ : ℚ)) < 1 / 2) := by linarith
      have a2 : 1 / 2 < 1 - (x - (⌊x⌋ : ℚ)) := by linarith
      rw [if_neg a1, if_pos a2, if_pos hlt]
      ring
    · have a1 : ¬ (1 - (x - (⌊x⌋ : ℚ)) < 1 / 2) := by linarith
      have a2 : ¬ (1 / 2 < 1 - (x - (⌊x⌋ : ℚ))) := by linarith
      have a3 : ¬ (x - (⌊x⌋ : ℚ) < 1 / 2) := by linarith
      have a4 : ¬ (1 / 2 < x - (⌊x⌋ : ℚ)) := by linarith
      rw [if_neg a1, if_neg a2, if_neg a3, if_neg a4]
      by_cases hev : ⌊x⌋ % 2 = 0
      · have hod : ¬ ((-⌊x⌋ - 1) % 2 = 0) := by omega
        rw [if_neg hod, if_pos hev]
        ring
      · have hod : (-⌊x⌋ - 1) % 2 = 0 := by omega
        rw [if_pos hod, if_neg hev]
        ring
    · have a1 : 1 - (x - (⌊x⌋ : ℚ)) < 1 / 2 := by linarith
      have a3 : ¬ (x - (⌊x⌋ : ℚ) < 1 / 2) := by linarith
      rw [if_pos a1, if_neg a3, if_pos hgt]
      ring

theorem binade_neg (q : ℚ) : binade (-q) = binade q := by
  unfold binade
  simp only [Rat.neg_num, Int.natAbs_neg, Rat.neg_den, abs_neg]

/-- Rounding to a binary format commutes with negation. -/
theorem fl_neg (p : Nat) (q : ℚ) : fl p (-q) = -fl p q := by
  unfold fl
  by_cases h : q = 0
  · simp [h]
  · have h2 : ¬ (-q = 0) := by
      intro e
      exact h (neg_eq_zero.1 e)
    rw [if_neg h, if_neg h2, binade_neg, neg_div, round_even_neg]
    push_cast
    ring

/-- The squared distance in the arithmetic of the source does not depend on
the order of its two points. -/
theorem r2_float_comm (a b : vec3) : r2_float a b = r2_float b a := by
  have e : ∀ u v : ℚ, fl32 (fl64 (v - u)) = -fl32 (fl64 (u - v)) := by
    intro u v
    have : v - u = -(u - v) := by ring
    rw [this]
    unfold fl32 fl64
    rw [fl_neg, fl_neg]
  unfold r2_float
  simp only
  rw [e a.x0 b.x0, e a.x1 b.x1, e a.x2 b.x2]
  simp only [neg_mul_neg]

theorem pair_shift_float_off (a b L : ℚ) : pair_shift_float false a b L = 0 := by
  simp [pair_shift_float]

/-- Where no periodic shift applies and the positions are `double` values, the
distance test of `fof_search_pair_cells` has the same outcome in both orders
of the cells. -/
theorem float_tests_agree_without_shift (s : space) (hp : s.periodic = false)
    (ci cj : cell) (x y : vec3)
    (hx : fl64 x.x0 = x.x0 ∧ fl64 x.x1 = x.x1 ∧ fl64 x.x2 = x.x2)
    (hy : fl64 y.x0 = y.x0 ∧ fl64 y.x1 = y.x1 ∧ fl64 y.x2 = y.x2) :
    shifted_hit_float s ci cj x y = shifted_hit_float s cj ci y x := by
  unfold shifted_hit_float
  simp only [hp, pair_shift_float_off, sub_zero, hx.1, hx.2.1, hx.2.2, hy.1, hy.2.1, hy.2.2]
  rw [r2_float_comm]

/-- C19. On the well-formed grid `float_grid_space` (cells of side
`w = 1 + 2^-20`, linking length `w`, rank `0`), the local cell `[0, w)` and the
foreign cell `[2w, 3w)` lie exactly `w` apart, so `cell_min_dist` equals
`l_x2`: the sizing pass, which counts a pair when `cell_min_dist < l_x2`,
returns `nr_links = 0`, while the generation pass, whose recursion skips a
pair only when `cell_min_dist > l_x2`, runs the distance test in `float`,
finds `r2 = 1 + 2^-19` below `l_x2 = 1 + 2^-19 + 2^-40` for the particles at
`w - 2^-40` and `2w`, and writes one record: the final `send_count` is `1`.
With the distance computed exactly no record is written. -/
theorem foreign_send_count_exceeds_nr_links_on_grid :
    foreign_wf float_grid_space 2 ∧
    cell_min_dist (owned_leaf 0 0 0 (1048577 / 1048576) 1 0)
        (owned_leaf 2 1 (1048577 / 524288) (1048577 / 1048576) 1 1) float_grid_space.dim =
      float_grid_space.l_x2 ∧
    sizing_result (foreign_sizing 1 0 float_grid_space) = some (0, 0) ∧
    final_send_count (foreign_generate_float 2 1 0 float_grid_space [0, 1]) = some 1 ∧
    r2_float { x0 := 1099512676351 / 1099511627776, x1 := 1 / 2, x2 := 1 / 2 }
        { x0 := 1048577 / 524288, x1 := 1 / 2, x2 := 1 / 2 } = 524289 / 524288 ∧
    final_send_count (foreign_generate 2 1 0 float_grid_space [0, 1]) = some 0 := by
  refine ⟨float_grid_wf, ?_, ?_, ?_, ?_, ?_⟩
  · decide!
  · decide!
  · decide!
  · decide!
  · decide!

/-- C31. On the well-formed periodic box `float_wrap_space`, whose cell
`[0, 1)` is owned by rank `0` and whose cell `[2, 3)` by rank `1`, the
generation pass of rank `0` writes no link record and that of rank `1` writes
one: each rank shifts its own particle (`pix = pi->x[0] - shift[0]`, rounded
to `double`) and rounds the difference to `float`, so rank `0` tests
`r2 = 13743900 / 2^35`, which is not below `l_x2 = 13743900 / 2^35`, and rank
`1` tests `r2 = 13743897 / 2^35`, which is.  With the distance computed
exactly both ranks write one record. -/
theorem two_ranks_generate_different_record_counts :
    foreign_wf float_wrap_space 2 ∧
    final_send_count (foreign_generate_float 2 1 0 float_wrap_space [0, 1]) = some 0 ∧
    final_send_count (foreign_generate_float 2 1 1 float_wrap_space [0, 1]) = some 1 ∧
    final_send_count (foreign_generate 2 1 0 float_wrap_space [0, 1]) = some 1 ∧
    final_send_count (foreign_generate 2 1 1 float_wrap_space [0, 1]) = some 1 := by
  refine ⟨float_wrap_wf, ?_, ?_, ?_, ?_⟩
  · decide!
  · decide!
  · decide!
  · decide!


/-! ## The pair recursion on split cells -/

end FOF
